import Mathlib

/-!
# exaplusplus: a shallow embedding of `src/epp.hpp` / `src/epp.cpp`

The development follows the C++ source function by function.

* `Number` is `int64_t`: an `Int`, wrapped with `wrap64` where the source computes on it.
* `size_t` and `uint16_t` quantities are `Nat`, reduced modulo `2^64` / `2^16` where the
  source can leave the range.
* `std::unique_ptr<Machine>` slots of `Node::machines` are `Option Machine`; the slot of the
  machine being stepped is addressed by its node index `ni` and its position `mi` in the list.
* References to nodes (`std::reference_wrapper<Node>`, `Node*`) are indices into
  `Network.nodes`, together with a mark that tells whether `nodes.emplace_back` has since
  moved the nodes to new storage: `Network.homeDangling` for `pHomeNode`,
  `Node.danglingLinks` for the references in `links`, `HwRegister.hostDangling` for `pHost`.
  The use of a dangling reference is undefined in the source and ends the computation here.
* A call that never returns (the comparison operators on operands of the same alternative)
  and an undefined division also end the computation (`Abort`).
* A thrown `MachineFailure` keeps the state reached at the throw (`Res.failure`); any other
  exception leaves `Network::run` and is `Res.abort`.
* External input (streams, pseudo-random engines) is data carried by the state.
-/

namespace epp

/-! ## Values -/

/-- `using Number = int64_t`. -/
abbrev Number := Int

/-- Two's-complement reduction of an integer to the `int64_t` range. -/
def wrap64 (z : Int) : Int := (z + 2 ^ 63) % 2 ^ 64 - 2 ^ 63

/-- Conversion of a signed integer to `size_t` (64 bit). -/
def toSizeT (z : Int) : Nat := (z % 2 ^ 64).toNat

/-- `static_cast<uint16_t>` of a `Number`. -/
def toUInt16 (z : Int) : Nat := (z % 2 ^ 16).toNat

/-- Conversion of an integer to `int16_t`, the key type of `Node::links`. -/
def toInt16 (z : Int) : Int := (z + 2 ^ 15) % 2 ^ 16 - 2 ^ 15

/-- `using Value = std::variant<Number, std::string>`. -/
inductive Value where
  | num (n : Number)
  | str (s : String)
  deriving DecidableEq, Repr, Inhabited

/-- `std::holds_alternative<Number>`. -/
def Value.isNum : Value → Bool
  | .num _ => true
  | .str _ => false

/-- The outcome of an operation on values: a returned value, the `what()` text of a thrown
`MachineFailure`, or `undefined` where the C++ operation has no defined result (the `int64_t`
division of `INT64_MIN` by `-1`, which traps). -/
inductive Failing (α : Type) where
  | ok (a : α)
  | error (msg : String)
  | undefined
  deriving DecidableEq, Repr

/-- `operator+` on values. -/
def Value.add : Value → Value → Failing Value
  | .num l, .num r => .ok (.num (wrap64 (l + r)))
  | _, _ => .error "Tried to do arithmetic with a string"

/-- `operator-` on values. -/
def Value.sub : Value → Value → Failing Value
  | .num l, .num r => .ok (.num (wrap64 (l - r)))
  | _, _ => .error "Tried to do arithmetic with a string"

/-- `operator*` on values. -/
def Value.mul : Value → Value → Failing Value
  | .num l, .num r => .ok (.num (wrap64 (l * r)))
  | _, _ => .error "Tried to do arithmetic with a string"

/-- `operator/` on values: C++ integer division truncates toward zero. The quotient of
`INT64_MIN` by `-1` is not an `int64_t`: the division is undefined. -/
def Value.div : Value → Value → Failing Value
  | .num l, .num r =>
    if r = 0 then .error "Tried to divide by zero"
    else if l = -(2 ^ 63) ∧ r = -1 then .undefined
    else .ok (.num (wrap64 (Int.tdiv l r)))
  | _, _ => .error "Tried to do arithmetic with a string"

/-- `operator%` on values: the remainder of truncating division, undefined where the division
is. -/
def Value.mod : Value → Value → Failing Value
  | .num l, .num r =>
    if r = 0 then .error "Tried to divide by zero"
    else if l = -(2 ^ 63) ∧ r = -1 then .undefined
    else .ok (.num (wrap64 (Int.tmod l r)))
  | _, _ => .error "Tried to do arithmetic with a string"

/-- `operator<` on values. For operands of different alternatives it returns `false`. For
operands of the same alternative `std::visit` evaluates `arg < right` with the held
alternative `arg` (a `Number` or a `std::string`) and the variant `right`; the only
`operator<` that accepts these operands is this one, through the converting constructor of
`Value`, so the call repeats itself with equal operands and never returns: `none`. -/
def Value.lt : Value → Value → Option Bool
  | .num _, .num _ => none
  | .str _, .str _ => none
  | _, _ => some false

/-- `operator==` on values; as `operator<`, with `arg == right`. -/
def Value.eq : Value → Value → Option Bool
  | .num _, .num _ => none
  | .str _, .str _ => none
  | _, _ => some false

/-- `operator>` on values; as `operator<`, with `arg > right`. -/
def Value.gt : Value → Value → Option Bool
  | .num _, .num _ => none
  | .str _, .str _ => none
  | _, _ => some false

/-! ## Decimal text (`std::to_string`, `std::stol`) -/

/-- The character of a decimal digit. -/
def digitChar (d : Nat) : Char := Char.ofNat (48 + d)

/-- Decimal digits of a natural number, most significant first (`fuel` bounds the length). -/
def natDigits : Nat → Nat → List Char → List Char
  | 0, _, acc => acc
  | fuel + 1, n, acc =>
    if n < 10 then digitChar n :: acc else natDigits fuel (n / 10) (digitChar (n % 10) :: acc)

/-- `std::to_string` of an integer, as its characters. -/
def toChars (z : Int) : List Char :=
  if z < 0 then '-' :: natDigits (z.natAbs + 1) z.natAbs [] else natDigits (z.natAbs + 1) z.natAbs []

/-- `std::to_string` of an integer. -/
def to_string (z : Int) : String := String.mk (toChars z)

/-- Exceptions of the standard library that are not an `epp::Error`. -/
inductive StdExcept where
  | invalidArgument
  | outOfRange
  | badVariantAccess
  deriving DecidableEq, Repr

/-- The leading decimal digits of a text, as a number, with the count of digits read. -/
def readDigits : List Char → Nat → Nat → Nat × Nat
  | [], acc, k => (acc, k)
  | c :: cs, acc, k =>
    if c.isDigit then readDigits cs (acc * 10 + (c.toNat - 48)) (k + 1) else (acc, k)

/-- Whether a character is skipped by `std::stol` as leading white space (`isspace`). -/
def isSpace (c : Char) : Bool :=
  c = ' ' || c = '\t' || c = '\n' || c = '\r' || c.toNat = 11 || c.toNat = 12

/-- `std::stol` (base 10) on a text without leading space. -/
def stolCore (cs : List Char) : Except StdExcept Int :=
  let (neg, body) :=
    match cs with
    | '-' :: rest => (true, rest)
    | '+' :: rest => (false, rest)
    | _ => (false, cs)
  let (n, k) := readDigits body 0 0
  if k = 0 then .error .invalidArgument
  else
    let z : Int := if neg then -(n : Int) else (n : Int)
    if z < -(2 ^ 63) ∨ z ≥ 2 ^ 63 then .error .outOfRange else .ok z

/-- `std::stol(s)`: leading white space is skipped, then an optional sign and digits are read. -/
def stol (s : String) : Except StdExcept Int :=
  stolCore (s.data.dropWhile isSpace)

/-- `std::stoul(s)` on a text of digits (the group `\d+` of the `.node` pattern). -/
def stoul (s : String) : Except StdExcept Nat :=
  let (n, k) := readDigits s.data 0 0
  if k = 0 then .error .invalidArgument
  else if n ≥ 2 ^ 64 then .error .outOfRange else .ok n

/-! ## Files -/

/-- `struct File`; `offset` is the cursor. -/
structure File where
  filename : String := ""
  values : List Value := []
  id : Nat := 0
  locked : Bool := false
  readonly : Bool := false
  offset : Nat := 0
  deriving DecidableEq, Repr

/-- `File::eof`. -/
def File.eof (f : File) : Bool := decide (f.offset ≥ f.values.length)

/-- `File::read`: the value under the cursor, and the file with the cursor advanced. -/
def File.read (f : File) : Failing (Value × File) :=
  match f.values[f.offset]? with
  | none => .error "Tried to read past end of file"
  | some v => .ok (v, { f with offset := f.offset + 1 })

/-- `File::write`. -/
def File.write (f : File) (value : Value) : File :=
  if f.offset < f.values.length then
    { f with values := f.values.set f.offset value }
  else
    { f with values := f.values ++ [value], offset := f.values.length + 1 }

/-- `File::voidCurrent`. -/
def File.voidCurrent (f : File) : Failing File :=
  if f.offset < f.values.length then
    .ok { f with values := f.values.eraseIdx f.offset }
  else
    .error "Tried to void past end of file"

/-- `File::wipe`. -/
def File.wipe (f : File) : File := { f with values := [], offset := 0 }

/-! ## Instructions -/

/-- `enum class Instruction::Opcode`. -/
inductive Opcode where
  | Copy | Addi | Subi | Muli | Divi | Modi | Swiz
  | Jump | Tjmp | Fjmp
  | Test1 | TestEq | TestGt | TestLt
  | Halt | Kill | Link | Host | Mode | Void | Make | Grab | File | Seek | Drop | Wipe
  | Noop | Rand | Repl | Dump0 | Dump1
  deriving DecidableEq, Repr

/-- `enum class Instruction::Register`. -/
inductive Register where
  | X | T | M | F
  deriving DecidableEq, Repr

/-- A `HwRegister*`: the register object is owned by the `registers` map of the node with
index `host`, where it is stored under `name`. The `pHost` of the register is a field of the
register itself (`HwRegister.host`, `HwRegister.hostDangling`). -/
structure HwRef where
  host : Nat
  name : String
  deriving DecidableEq, Repr

/-- `Instruction::Operand`, a variant over
`std::monostate, Register, Number, Address, HwRegister*, std::string`. -/
inductive Operand where
  | unassigned
  | reg (r : Register)
  | num (n : Number)
  | addr (a : Nat)
  | hw (h : HwRef)
  | str (s : String)
  deriving DecidableEq, Repr

/-- `struct Instruction`. -/
structure Instruction where
  opcode : Opcode
  op1 : Operand := .unassigned
  op2 : Operand := .unassigned
  op3 : Operand := .unassigned
  deriving DecidableEq, Repr

/-! ## Machines, channels, hardware registers, nodes -/

/-- `struct Machine` (an exa). -/
structure Machine where
  name : String := ""
  x : Value := .num 0
  t : Value := .num 0
  outM : Option Value := none
  file : Option File := none
  code : List Instruction := []
  instPtr : Nat := 0
  replCount : Nat := 0
  globalMode : Bool := true
  terminated : Bool := false
  deriving DecidableEq, Repr

/-- `Machine::repl`: the fork, and the parent with its `replCount` incremented. -/
def Machine.repl (m : Machine) (address : Nat) : Machine × Machine :=
  ({ name := m.name ++ ":" ++ to_string m.replCount
     x := m.x
     t := m.t
     code := m.code
     instPtr := address
     replCount := 0
     globalMode := m.globalMode
     terminated := false },
   { m with replCount := m.replCount + 1 })

/-- `Machine::done`. -/
def Machine.done (m : Machine) : Bool := decide (m.instPtr ≥ m.code.length)

/-- `struct Channel`. -/
structure Channel where
  val : Option Value := none
  deriving DecidableEq, Repr

/-- `Channel::send`: whether the value was stored, and the channel afterwards. -/
def Channel.send (c : Channel) (value : Value) : Bool × Channel :=
  if c.val.isSome then (false, c) else (true, { val := some value })

/-- `Channel::available`. -/
def Channel.available (c : Channel) : Bool := c.val.isSome

/-- `Channel::receive`: `return val;`. The member does not modify the channel. -/
def Channel.receive (c : Channel) : Option Value := c.val

/-- A `std::mt19937_64`: the sequence of its outputs is fixed by the seed; `pos` counts the
outputs already drawn. -/
structure RandomEngine where
  outputs : Nat → Nat
  pos : Nat := 0

/-- One call of the engine: a 64-bit output. -/
def RandomEngine.next (g : RandomEngine) : Nat × RandomEngine :=
  (g.outputs g.pos % 2 ^ 64, { g with pos := g.pos + 1 })

/-- Reinterpretation of 64 bits as `int64_t` (the `memcpy` in `RandRegister::read` and in
`Opcode::Rand`). -/
def bitsToNumber (bits : Nat) : Number := if bits < 2 ^ 63 then (bits : Int) else (bits : Int) - 2 ^ 64

/-- A `std::uniform_int_distribution<size_t>(0, hi)` applied to the engine: a number in
`[0, hi]` computed from the next output. -/
def RandomEngine.dist (g : RandomEngine) (hi : Nat) : Nat × RandomEngine :=
  (g.next.1 % (hi + 1), g.next.2)

/-- The subclasses of `HwRegister` with their own state: the values written so far, the tokens
still to be read, the generator. -/
inductive HwKind where
  | sink
  | stdout (written : List Value)
  | stderr (written : List Value)
  | stdin (pending : List String)
  | rand (gen : RandomEngine)
  | fileIn (pending : List String) (good : Bool)
  | fileOut (written : List Value)

/-- `struct HwRegister`; `host` is the index of the node that `pHost` pointed to when the
register was created, and `hostDangling` tells that the nodes have since been moved to new
storage, so that `pHost` no longer points to a node. -/
structure HwRegister where
  name : String
  host : Nat
  kind : HwKind
  hostDangling : Bool := false

/-- A token read from a stream: a `Number` when `std::stol` accepts it, else the text. -/
def tokenValue (s : String) : Value :=
  match stol s with
  | .ok n => .num n
  | .error _ => .str s

/-- The virtual `read()`. -/
def HwRegister.read (r : HwRegister) : Value × HwRegister :=
  match r.kind with
  | .stdin [] => (tokenValue "", r)
  | .stdin (tok :: rest) => (tokenValue tok, { r with kind := .stdin rest })
  | .rand gen => (.num (bitsToNumber gen.next.1), { r with kind := .rand gen.next.2 })
  | .fileIn _ false => (.num 0, r)
  | .fileIn [] true => (tokenValue "", { r with kind := .fileIn [] false })
  | .fileIn (tok :: rest) true => (tokenValue tok, { r with kind := .fileIn rest true })
  | _ => (.num 0, r)

/-- The virtual `write(val)`. -/
def HwRegister.write (r : HwRegister) (val : Value) : HwRegister :=
  match r.kind with
  | .stdout written => { r with kind := .stdout (written ++ [val]) }
  | .stderr written => { r with kind := .stderr (written ++ [val]) }
  | .fileOut written => { r with kind := .fileOut (written ++ [val]) }
  | _ => r

/-- `struct Node`. The maps are association lists; `links` sends a link id to the index of the
node that the stored `std::reference_wrapper<Node>` referred to when the link was made, and
`danglingLinks` lists the ids of the links made before the nodes were last moved to new
storage: their references no longer refer to a node. -/
structure Node where
  name : String := ""
  links : List (Int × Nat) := []
  machines : List (Option Machine) := []
  incomingMachines : List Machine := []
  files : List (Nat × File) := []
  registers : List (String × HwRegister) := []
  capacity : Nat := 2 ^ 64 - 1
  localChannel : Channel := {}
  danglingLinks : List Int := []

/-- `Node::full`. -/
def Node.full (nd : Node) : Bool :=
  decide (nd.machines.length + nd.files.length + nd.incomingMachines.length ≥ nd.capacity)

/-- `std::map::find`. -/
def mapFind {κ α : Type} [DecidableEq κ] (k : κ) : List (κ × α) → Option α
  | [] => none
  | (k', a) :: rest => if k' = k then some a else mapFind k rest

/-- `std::map::emplace` for an ordered key: nothing is inserted when the key is present;
otherwise the entry is put at its place in key order. -/
def mapEmplace {κ α : Type} [LT κ] [DecidableEq κ] [DecidableRel (fun a b : κ => a < b)]
    (k : κ) (a : α) : List (κ × α) → List (κ × α)
  | [] => [(k, a)]
  | (k', a') :: rest =>
    if k' = k then (k', a') :: rest
    else if k < k' then (k, a) :: (k', a') :: rest
    else (k', a') :: mapEmplace k a rest

/-- `std::map::erase` of the entry found under a key. -/
def mapErase {κ α : Type} [DecidableEq κ] (k : κ) : List (κ × α) → List (κ × α)
  | [] => []
  | (k', a) :: rest => if k' = k then rest else (k', a) :: mapErase k rest

/-- `operator[]` assignment of a `std::map`: replace the entry under an existing key. -/
def mapReplace {κ α : Type} [DecidableEq κ] (k : κ) (a : α) : List (κ × α) → List (κ × α)
  | [] => []
  | (k', a') :: rest => if k' = k then (k', a) :: rest else (k', a') :: mapReplace k a rest

/-- `struct RunStats`. -/
structure RunStats where
  size : Nat := 0
  cycles : Nat := 0
  activity : Nat := 0
  deriving DecidableEq, Repr

/-- `class Network`. `pHomeNode` is the index of the node that the `Node*` pointed to when
`.home` set it; `homeDangling` tells that the nodes have since been moved to new storage, so
that the pointer no longer points to a node. -/
structure Network where
  rangeMin : Number := -9999
  rangeMax : Number := 9999
  nextFileId : Nat := 400
  nodes : List Node := []
  globalChannel : Channel := {}
  pHomeNode : Option Nat := none
  hwRegMap : List (String × HwRef) := []
  pMachineBeingAssembled : Option Machine := none
  addressLookup : List (String × Nat) := []
  repLines : List String := []
  addRepLines : Bool := false
  repCount : Nat := 0
  random : RandomEngine
  stats : RunStats := {}
  homeDangling : Bool := false

/-! ## Execution results -/

/-- What leaves `Network::run` other than its return value. -/
inductive Abort where
  | error (msg : String)
  | stdExcept (e : StdExcept)
  | nullDeref
  | badReference
  | emptyBack
  | danglingReference
  | unboundedRecursion
  | arithmeticTrap
  deriving DecidableEq, Repr

/-- Outcome of a piece of the engine started in some state: it completes with a value, it
throws a `MachineFailure` (caught per instruction; the state is the one reached at the throw),
or it leaves `run` (an `Error`, a standard exception, a dereferenced null `unique_ptr`, the
use of a pointer or reference into the storage that the nodes have left, a call that never
returns, an undefined division). -/
inductive Res (α : Type) where
  | ok (a : α) (net : Network)
  | failure (msg : String) (net : Network)
  | abort (e : Abort)

/-- A computation over the network state. -/
def Exec (α : Type) := Network → Res α

/-- Sequencing of computations. -/
def Exec.bind {α β : Type} (x : Exec α) (f : α → Exec β) : Exec β := fun net =>
  match x net with
  | .ok a net1 => f a net1
  | .failure msg net1 => .failure msg net1
  | .abort e => .abort e

instance : Monad Exec where
  pure a := fun net => .ok a net
  bind := Exec.bind

/-- Read the whole state. -/
def getNet : Exec Network := fun net => .ok net net

/-- Update the whole state. -/
def modifyNet (f : Network → Network) : Exec Unit := fun net => .ok () (f net)

/-- The statement `throw MachineFailure(msg)`. -/
def raiseFailure {α : Type} (msg : String) : Exec α := fun net => .failure msg net

/-- The statement `throw Error(msg)`. -/
def raiseError {α : Type} (msg : String) : Exec α := fun _ => .abort (.error msg)

/-- Leave `run` for another reason. -/
def raiseAbort {α : Type} (e : Abort) : Exec α := fun _ => .abort e

/-- A value-level operation that may throw a `MachineFailure`. -/
def liftFailing {α : Type} : Failing α → Exec α
  | .ok a => pure a
  | .error msg => raiseFailure msg
  | .undefined => raiseAbort .arithmeticTrap

/-- The node `rNode` (by index). -/
def getNode (ni : Nat) : Exec Node := fun net =>
  match net.nodes[ni]? with
  | some nd => .ok nd net
  | none => .abort .badReference

/-- The state with the node of index `ni` changed by `f`. -/
def Network.updNode (net : Network) (ni : Nat) (f : Node → Node) : Network :=
  { net with nodes := net.nodes.modify f ni }

/-- The state with the machine in slot `mi` of node `ni` changed by `f` (an empty slot stays
empty). -/
def Network.updMachine (net : Network) (ni mi : Nat) (f : Machine → Machine) : Network :=
  net.updNode ni fun nd => { nd with machines := nd.machines.modify (Option.map f) mi }

/-- Update the node with index `ni`. -/
def modifyNode (ni : Nat) (f : Node → Node) : Exec Unit :=
  modifyNet fun net => net.updNode ni f

/-- The machine `*rpMachine` in slot `mi` of node `ni`; dereferencing an empty slot is
undefined. -/
def getMachine (ni mi : Nat) : Exec Machine := fun net =>
  match net.nodes[ni]? with
  | none => .abort .badReference
  | some nd =>
    match nd.machines[mi]? with
    | some (some m) => .ok m net
    | some none => .abort .nullDeref
    | none => .abort .badReference

/-- Update the machine in slot `mi` of node `ni`. -/
def modifyMachine (ni mi : Nat) (f : Machine → Machine) : Exec Unit :=
  modifyNet fun net => net.updMachine ni mi f

/-! ## Operand resolution -/

/-- The body of `Network::clamp`, with
`std::clamp(v, lo, hi) = (v < lo) ? lo : (hi < v) ? hi : v`. -/
def clampValue (rangeMin rangeMax : Number) : Value → Value
  | .num n => .num (if n < rangeMin then rangeMin else if rangeMax < n then rangeMax else n)
  | .str s => .str s

/-- `Network::clamp` as a member function. -/
def Network.clamp (net : Network) (val : Value) : Value :=
  clampValue net.rangeMin net.rangeMax val

/-- The body of the `std::visit` in `Network::get`, before the final clamp. -/
def getRaw (ni mi : Nat) : Operand → Exec (Option Value)
  | .unassigned => raiseError "Tried to use uninitialized operand"
  | .reg .X => do
    let m ← getMachine ni mi
    pure (some m.x)
  | .reg .T => do
    let m ← getMachine ni mi
    pure (some m.t)
  | .reg .M => do
    let m ← getMachine ni mi
    let net ← getNet
    let nd ← getNode ni
    if m.globalMode && net.globalChannel.available then
      pure net.globalChannel.receive
    else if !m.globalMode && nd.localChannel.available then
      pure nd.localChannel.receive
    else
      pure none
  | .reg .F => do
    let m ← getMachine ni mi
    match m.file with
    | some f =>
      let (v, f1) ← liftFailing f.read
      modifyMachine ni mi fun m1 => { m1 with file := some f1 }
      pure (some v)
    | none => raiseFailure "Tried to read from file, but no file held"
  | .num n => pure (some (.num n))
  | .addr _ => raiseError "Tried to read address as value"
  | .hw h => do
    let host ← getNode h.host
    match mapFind h.name host.registers with
    | some r =>
      if r.hostDangling = false ∧ r.host = ni then
        modifyNode h.host fun d => { d with registers := mapReplace h.name r.read.2 d.registers }
        pure (some r.read.1)
      else
        raiseFailure "Tried to read inaccessible hardware register"
    | none => raiseAbort .badReference
  | .str _ => pure none

/-- `Network::get`. -/
def get (ni mi : Nat) (src : Operand) : Exec (Option Value) := do
  let ret ← getRaw ni mi src
  let net ← getNet
  pure (ret.map net.clamp)

/-- `Network::set`. -/
def set (ni mi : Nat) (dest : Operand) (val : Value) : Exec Bool := do
  let net ← getNet
  let clamped := net.clamp val
  match dest with
  | .unassigned => raiseError "Tried to use uninitialized operand"
  | .reg .X => do
    let _ ← getMachine ni mi
    modifyMachine ni mi fun m => { m with x := clamped }
    pure true
  | .reg .T => do
    let _ ← getMachine ni mi
    modifyMachine ni mi fun m => { m with t := clamped }
    pure true
  | .reg .M => do
    let m ← getMachine ni mi
    let nd ← getNode ni
    if m.globalMode then
      if net.globalChannel.available then
        pure false
      else
        modifyNet fun n => { n with globalChannel := (n.globalChannel.send clamped).2 }
        pure true
    else
      if nd.localChannel.available then
        pure false
      else
        modifyNode ni fun d => { d with localChannel := (d.localChannel.send clamped).2 }
        pure true
  | .reg .F => do
    let m ← getMachine ni mi
    match m.file with
    | some f =>
      modifyMachine ni mi fun m1 => { m1 with file := some (f.write clamped) }
      pure true
    | none => raiseFailure "Tried to write to file, but no file held"
  | .num _ => raiseError "Tried to write to literal"
  | .addr _ => raiseError "Tried to write to code address"
  | .hw h => do
    let host ← getNode h.host
    match mapFind h.name host.registers with
    | some r =>
      if r.hostDangling = false ∧ r.host = ni then
        modifyNode h.host fun d => { d with registers := mapReplace h.name (r.write clamped) d.registers }
        pure true
      else
        raiseFailure "Tried to write to inaccessible hardware register"
    | none => raiseAbort .badReference
  | .str _ => pure true

/-! ## Swizzle -/

/-- The loop of `Network::swiz` over the characters of the mask; `output` and `negative` are
the local variables of the source. -/
def swizLoop (inStr : List Char) : List Char → Int → Bool → Int × Bool
  | [], output, negative => (output, negative)
  | c :: rest, output, negative =>
    if c = '-' then swizLoop inStr rest output true
    else
      let output10 := wrap64 (output * 10)
      if c = '0' then swizLoop inStr rest output10 negative
      else
        let dgt := toSizeT ((c.toNat : Int) - 49)
        if dgt < inStr.length then
          let d := inStr.getD (inStr.length - dgt - 1) '0'
          swizLoop inStr rest (wrap64 (output10 + ((d.toNat : Int) - 48))) negative
        else swizLoop inStr rest output10 negative

/-- `Network::swiz`. -/
def swiz : Value → Value → Failing Value
  | .str _, _ => .error "Tried to swiz a string"
  | .num _, .str _ => .error "Tried to use a string to swiz a number"
  | .num input, .num mask =>
    let r := swizLoop (toChars input) (toChars mask) 0 false
    .ok (.num (if r.2 then wrap64 (r.1 * -1) else r.1))

/-! ## The instruction switch of `Network::run` -/

/-- The condition of `Opcode::Tjmp`:
`holds_alternative<string>(t) || (holds_alternative<Number>(t) && get<Number>(t) != 0)`. -/
def tjmpTaken : Value → Bool
  | .str _ => true
  | .num n => decide (n ≠ 0)

/-- The condition of `Opcode::Fjmp`: `holds_alternative<Number>(t) && get<Number>(t) == 0`. -/
def fjmpTaken : Value → Bool
  | .str _ => false
  | .num n => decide (n = 0)

/-- The channel selected by an exa's mode. -/
def selectedChannel (net : Network) (nd : Node) (m : Machine) : Channel :=
  if m.globalMode then net.globalChannel else nd.localChannel

/-- Cases `Addi`, `Subi`, `Muli`, `Divi`, `Modi` and `Swiz`: both operands are read, and the
operator is applied and the result stored only when both are present. -/
def execArith (ni mi : Nat) (inst : Instruction) (op : Value → Value → Failing Value) :
    Exec Bool := do
  let left ← get ni mi inst.op1
  let right ← get ni mi inst.op2
  match left, right with
  | some l, some r => do
    let v ← liftFailing (op l r)
    set ni mi inst.op3 v
  | _, _ => pure false

/-- Cases `TestEq`, `TestGt`, `TestLt`; a comparison that does not return leaves `run`. -/
def execTest (ni mi : Nat) (inst : Instruction) (cmp : Value → Value → Option Bool) :
    Exec Bool := do
  let left ← get ni mi inst.op1
  let right ← get ni mi inst.op2
  match left, right with
  | some l, some r =>
    match cmp l r with
    | some c => do
      let _ ← getMachine ni mi
      modifyMachine ni mi fun m => { m with t := .num (if c then 1 else 0) }
      pure true
    | none => raiseAbort .unboundedRecursion
  | _, _ => pure false

/-- The search loop of `Opcode::Kill` over `rNode.machines`: `j` is the position of `rpTarget`,
`self` the position of the executing exa, `curIdx` the `int` counter, compared with the
`size_t` target. `none` is the dereference of an empty slot. -/
def killLoop (self target : Nat) : Nat → Int → List (Option Machine) → Option (List (Option Machine))
  | _, _, [] => some []
  | j, curIdx, slot :: rest =>
    let curIdx1 := if j = self then curIdx - 1 else curIdx
    if toSizeT curIdx1 = target then
      match slot with
      | some m => some (some { m with terminated := true } :: rest)
      | none => none
    else
      (killLoop self target (j + 1) curIdx1 rest).map fun l => slot :: l

/-- Case `Opcode::Kill`. -/
def execKill (ni mi : Nat) : Exec Bool := do
  modifyNet fun n => { n with stats := { n.stats with activity := n.stats.activity + 1 } }
  let nd ← getNode ni
  if nd.machines.length > 1 then
    let net ← getNet
    let draw := net.random.dist (nd.machines.length - 2)
    modifyNet fun n => { n with random := draw.2 }
    match killLoop mi draw.1 0 0 nd.machines with
    | some ms =>
      modifyNode ni fun d => { d with machines := ms }
      pure true
    | none => raiseAbort .nullDeref
  else
    pure true

/-- Case `Opcode::Link`. The link id is taken from the operand itself with
`std::get<Number>(inst.op1)`. A link made before the nodes were moved holds a reference to
the storage they have left; `full()` and the `emplace_back` through it are undefined. -/
def execLink (ni mi : Nat) (inst : Instruction) : Exec Bool := do
  let dest ← get ni mi inst.op1
  match dest with
  | none => pure false
  | some d =>
    match d with
    | .str _ => raiseFailure "Cannot link to a string"
    | .num _ =>
      match inst.op1 with
      | .num n => do
        let nd ← getNode ni
        match mapFind (toInt16 (toUInt16 n)) nd.links with
        | none => raiseFailure "Link does not exist"
        | some ti =>
          if toInt16 (toUInt16 n) ∈ nd.danglingLinks then raiseAbort .danglingReference
          else do
            let target ← getNode ti
            if target.full then
              pure false
            else
              modifyNet fun net =>
                { net with stats := { net.stats with activity := net.stats.activity + 1 } }
              let m ← getMachine ni mi
              modifyNode ni fun d => { d with machines := d.machines.set mi none }
              modifyNode ti fun d =>
                { d with incomingMachines := d.incomingMachines ++ [{ m with instPtr := m.instPtr + 1 }] }
              pure true
      | _ => raiseAbort (.stdExcept .badVariantAccess)

/-- The body of the `switch (inst.opcode)`; the result is the value of `advance` when the
`break` is reached. -/
def execInstruction (ni mi : Nat) (inst : Instruction) : Exec Bool :=
  match inst.opcode with
  | .Copy => do
    let val ← get ni mi inst.op1
    match val with
    | some v => set ni mi inst.op2 v
    | none => pure false
  | .Addi => execArith ni mi inst Value.add
  | .Subi => execArith ni mi inst Value.sub
  | .Muli => execArith ni mi inst Value.mul
  | .Divi => execArith ni mi inst Value.div
  | .Modi => execArith ni mi inst Value.mod
  | .Swiz => execArith ni mi inst swiz
  | .Jump =>
    match inst.op1 with
    | .addr a => do
      let _ ← getMachine ni mi
      modifyMachine ni mi fun m => { m with instPtr := a }
      pure false
    | _ => raiseError "Jump address is incorrect type"
  | .Tjmp =>
    match inst.op1 with
    | .addr a => do
      let m ← getMachine ni mi
      if tjmpTaken m.t then
        modifyMachine ni mi fun m1 => { m1 with instPtr := a }
        pure false
      else
        pure true
    | _ => raiseError "Jump address is incorrect type"
  | .Fjmp =>
    match inst.op1 with
    | .addr a => do
      let m ← getMachine ni mi
      if fjmpTaken m.t then
        modifyMachine ni mi fun m1 => { m1 with instPtr := a }
        pure false
      else
        pure true
    | _ => raiseError "Jump address is incorrect type"
  | .Test1 =>
    match inst.op1 with
    | .reg .M => do
      let m ← getMachine ni mi
      let net ← getNet
      let nd ← getNode ni
      modifyMachine ni mi fun m1 =>
        { m1 with t := .num (if (selectedChannel net nd m).available then 1 else 0) }
      pure true
    | .reg .F => do
      let m ← getMachine ni mi
      match m.file with
      | some f =>
        modifyMachine ni mi fun m1 => { m1 with t := .num (if f.eof then 1 else 0) }
        pure true
      | none => raiseFailure "Tried to check for EOF, but no file held"
    | .reg _ => raiseError "Test EOF/MRD references invalid register"
    | _ => raiseError "Test EOF/MRD does not reference register"
  | .TestEq => execTest ni mi inst Value.eq
  | .TestGt => execTest ni mi inst Value.gt
  | .TestLt => execTest ni mi inst Value.lt
  | .Halt => raiseFailure "Halted"
  | .Kill => execKill ni mi
  | .Link => execLink ni mi inst
  | .Host => do
    let nd ← getNode ni
    set ni mi inst.op1 (.str nd.name)
  | .Mode => do
    let _ ← getMachine ni mi
    modifyMachine ni mi fun m => { m with globalMode := !m.globalMode }
    pure true
  | .Void =>
    match inst.op1 with
    | .reg .M => do
      let discard ← get ni mi inst.op1
      pure discard.isSome
    | .reg .F => do
      let m ← getMachine ni mi
      match m.file with
      | some f =>
        let f1 ← liftFailing f.voidCurrent
        modifyMachine ni mi fun m1 => { m1 with file := some f1 }
        pure true
      | none => raiseFailure "Tried to void file, but no file held"
    | .reg _ => raiseError "Void references invalid register"
    | _ => raiseError "Void does not reference register"
  | .Make => do
    let m ← getMachine ni mi
    if m.file.isSome then
      raiseFailure "Tried to make, but already holding file"
    else
      let net ← getNet
      modifyNet fun n => { n with nextFileId := (n.nextFileId + 1) % 2 ^ 16 }
      modifyMachine ni mi fun m1 =>
        { m1 with file := some { id := net.nextFileId, filename := to_string net.nextFileId ++ ".txt" } }
      pure true
  | .Grab => do
    let fileId ← get ni mi inst.op1
    match fileId with
    | none => pure false
    | some v =>
      match v with
      | .str _ => raiseFailure "Tried to grab file with string name"
      | .num n => do
        let nd ← getNode ni
        match mapFind (toUInt16 n) nd.files with
        | none => raiseFailure "Tried to grab nonexistent file"
        | some f =>
          let _ ← getMachine ni mi
          modifyMachine ni mi fun m => { m with file := some f }
          modifyNode ni fun d => { d with files := mapErase (toUInt16 n) d.files }
          pure true
  | .File => do
    let m ← getMachine ni mi
    match m.file with
    | some f => set ni mi inst.op1 (.num f.id)
    | none => raiseFailure "Cannot get file ID: no file held"
  | .Seek => do
    let m ← getMachine ni mi
    if m.file.isSome then
      let offset ← get ni mi inst.op1
      match offset with
      | none => pure false
      | some v =>
        match v with
        | .str _ => raiseFailure "Cannot seek: offset is a string"
        | .num d =>
          modifyMachine ni mi fun m1 =>
            { m1 with file := m1.file.map fun f => { f with offset := (f.offset + toSizeT d) % 2 ^ 64 } }
          pure true
    else
      raiseFailure "Cannot seek: no file held"
  | .Drop => do
    let m ← getMachine ni mi
    match m.file with
    | some f =>
      let nd ← getNode ni
      if !nd.full then
        modifyNode ni fun d => { d with files := mapEmplace f.id f d.files }
        modifyMachine ni mi fun m1 => { m1 with file := none }
        pure true
      else
        pure false
    | none => raiseFailure "Cannot drop: no file held"
  | .Wipe => do
    let m ← getMachine ni mi
    match m.file with
    | some f =>
      modifyMachine ni mi fun m1 => { m1 with file := some f.wipe }
      pure true
    | none => raiseFailure "Cannot wipe: no file held"
  | .Noop => pure true
  | .Rand => do
    let net ← getNet
    modifyNet fun n => { n with random := net.random.next.2 }
    set ni mi inst.op1 (.num (bitsToNumber net.random.next.1))
  | .Repl =>
    match inst.op1 with
    | .addr a => do
      let nd ← getNode ni
      if !nd.full then
        let m ← getMachine ni mi
        modifyMachine ni mi fun m1 => (m1.repl a).2
        modifyNode ni fun d => { d with incomingMachines := d.incomingMachines ++ [(m.repl a).1] }
        pure true
      else
        pure false
    | _ => raiseError "Repl did not refer to code address"
  | .Dump0 => pure true
  | .Dump1 =>
    match inst.op1 with
    | .str s =>
      if s = "me" then pure true
      else if s = "code" then pure true
      else raiseError ("Unrecognized dump argument: " ++ s)
    | _ => raiseError "Dump did not have string param"

/-- The `try` block of the machine loop: fetch and execute. -/
def fetchExec (ni mi : Nat) : Exec Bool := do
  let m ← getMachine ni mi
  match m.code[m.instPtr]? with
  | none => raiseFailure "No more instructions"
  | some inst => execInstruction ni mi inst

/-- The statement `if (advance && rpMachine) rpMachine->instPtr++`. -/
def advanceIp (ni mi : Nat) (advance : Bool) : Exec Unit :=
  if advance then modifyMachine ni mi fun m => { m with instPtr := m.instPtr + 1 } else pure ()

/-- One iteration of the machine loop of `Network::run` for slot `mi` of node `ni`. A
`MachineFailure` is caught: the exa is flagged terminated (the diagnostic written to `cerr`
is not part of the state). No case of the switch assigns `advance` before it throws, so
`advance` is still `true` in the handler. -/
def stepMachine (ni mi : Nat) : Exec Unit := fun net =>
  match fetchExec ni mi net with
  | .ok advance net1 => advanceIp ni mi advance net1
  | .failure _ net1 =>
    (do modifyMachine ni mi fun m => { m with terminated := true }
        advanceIp ni mi true) net1
  | .abort e => .abort e

/-- The machine loop over the slots `mi, mi + 1, ...` (`count` of them). -/
def stepMachinesFrom (ni : Nat) : Nat → Nat → Exec Unit
  | _, 0 => pure ()
  | mi, count + 1 => do
    stepMachine ni mi
    stepMachinesFrom ni (mi + 1) count

/-- The loop returning the files of terminated exas to the node. -/
def drainFiles : List (Option Machine) → List (Nat × File) → List (Nat × File)
  | [], files => files
  | none :: rest, files => drainFiles rest files
  | some m :: rest, files =>
    if m.terminated then
      match m.file with
      | some f => drainFiles rest (mapEmplace f.id f files)
      | none => drainFiles rest files
    else drainFiles rest files

/-- The predicate of the `std::remove_if`: the slot is empty or its exa is terminated. -/
def removable : Option Machine → Bool
  | none => true
  | some m => m.terminated

/-- The drain of a node after its machine loop. -/
def drainNode (nd : Node) : Node :=
  { nd with
    files := drainFiles nd.machines nd.files
    machines := nd.machines.filter fun slot => !removable slot }

/-- The machine loop `for (auto& rpMachine : rNode.machines)` of node `ni`. -/
def machineLoop (ni : Nat) : Exec Unit := do
  let nd ← getNode ni
  stepMachinesFrom ni 0 nd.machines.length

/-- The body of `for (auto& rNode : nodes)` in a cycle: machine loop, then drain. -/
def stepNode (ni : Nat) : Exec Unit := do
  machineLoop ni
  modifyNode ni drainNode

/-- The node loop over the nodes `ni, ni + 1, ...` (`count` of them). -/
def stepNodesFrom : Nat → Nat → Exec Unit
  | _, 0 => pure ()
  | ni, count + 1 => do
    stepNode ni
    stepNodesFrom (ni + 1) count

/-- The second node loop of a cycle, for one node: arrivals join the machine list. -/
def mergeIncoming (nd : Node) : Node :=
  { nd with machines := nd.machines ++ nd.incomingMachines.map some, incomingMachines := [] }

/-- The second node loop of a cycle: every node merges its arrivals. -/
def mergeAll (net : Network) : Network := { net with nodes := net.nodes.map mergeIncoming }

/-- The count `machinesRemaining` after the merge. -/
def machinesRemaining (net : Network) : Nat :=
  (net.nodes.map fun nd => nd.machines.length).sum

/-- One iteration of the `do ... while` of `Network::run`; the result is `machinesRemaining`. -/
def cycle : Exec Nat := do
  modifyNet fun n => { n with stats := { n.stats with cycles := n.stats.cycles + 1 } }
  let net ← getNet
  stepNodesFrom 0 net.nodes.length
  modifyNet mergeAll
  let net1 ← getNet
  pure (machinesRemaining net1)

/-- `Network::run`, with a bound on the number of cycles: `none` when the bound is reached
before the loop ends. The final `writeToDisk` of the files is outside the state. -/
def run : Nat → Network → Option (Res RunStats)
  | 0, _ => none
  | fuel + 1, net =>
    match cycle net with
    | .ok remaining net1 => if remaining > 0 then run fuel net1 else some (.ok net1.stats net1)
    | .failure msg net1 => some (.failure msg net1)
    | .abort e => some (.abort e)

/-! ## The assembler -/

/-- Result of an assembly function: the new state, or the exception that ends assembly. -/
abbrev Asm (α : Type) := Except Abort α

/-- `Network::regOrVal`. -/
def regOrVal (net : Network) (op : String) : Asm Operand :=
  if op = "x" then pure (.reg .X)
  else if op = "t" then pure (.reg .T)
  else if op = "m" then pure (.reg .M)
  else if op = "f" then pure (.reg .F)
  else
    match mapFind op net.hwRegMap with
    | some h => pure (.hw h)
    | none =>
      match stol op with
      | .ok val => pure (.num val)
      | .error e => throw (.stdExcept e)

/-- `Network::reg`. -/
def reg (net : Network) (op : String) : Asm Operand :=
  if op = "x" then pure (.reg .X)
  else if op = "t" then pure (.reg .T)
  else if op = "m" then pure (.reg .M)
  else if op = "f" then pure (.reg .F)
  else
    match mapFind op net.hwRegMap with
    | some h => pure (.hw h)
    | none => throw (.error ("Unrecognized register: " ++ op))

/-- The statement `pMachineBeingAssembled->code.emplace_back(...)`. -/
def emit (net : Network) (inst : Instruction) : Asm Network :=
  match net.pMachineBeingAssembled with
  | some m => pure { net with pMachineBeingAssembled := some { m with code := m.code ++ [inst] } }
  | none => throw .nullDeref

/-- One summand of `numM`: the operand holds `Register::M`. -/
def isM (o : Operand) : Nat := if o = .reg .M then 1 else 0

/-- The count `numM` of `processTripleArg` over an instruction. -/
def numM (inst : Instruction) : Nat := isM inst.op1 + isM inst.op2 + isM inst.op3

/-- The check on `pMachineBeingAssembled->code.back()` that ends `processDoubleArg` (with
`arity = 2`: two operands are counted) and `processTripleArg` (three operands). -/
def checkM (arity : Nat) (net : Network) : Asm Network :=
  match net.pMachineBeingAssembled with
  | none => throw .nullDeref
  | some m =>
    match m.code.getLast? with
    | none => throw .emptyBack
    | some inst =>
      if (if arity = 2 then isM inst.op1 + isM inst.op2 else numM inst) > 1 then
        throw (.error "Referenced M register too many times in one instruction")
      else pure net

/-- `Network::processNoArgs`. -/
def processNoArgs (mne : String) (net : Network) : Asm Network :=
  if mne = "halt" then emit net { opcode := .Halt }
  else if mne = "kill" then emit net { opcode := .Kill }
  else if mne = "mode" then emit net { opcode := .Mode }
  else if mne = "make" then emit net { opcode := .Make }
  else if mne = "drop" then emit net { opcode := .Drop }
  else if mne = "wipe" then emit net { opcode := .Wipe }
  else if mne = "noop" then emit net { opcode := .Noop }
  else if mne = "dump" then emit net { opcode := .Dump0 }
  else throw (.error ("Unrecognized mnemonic: " ++ mne))

/-- `Network::processSingleArg`. -/
def processSingleArg (mne op1 : String) (net : Network) : Asm Network :=
  if mne = "mark" then
    match net.pMachineBeingAssembled with
    | some m => pure { net with addressLookup := mapEmplace op1 m.code.length net.addressLookup }
    | none => throw .nullDeref
  else if mne = "repl" then emit net { opcode := .Repl, op1 := .str op1 }
  else if mne = "jump" then emit net { opcode := .Jump, op1 := .str op1 }
  else if mne = "tjmp" then emit net { opcode := .Tjmp, op1 := .str op1 }
  else if mne = "fjmp" then emit net { opcode := .Fjmp, op1 := .str op1 }
  else if mne = "test" then
    if op1 = "mrd" then emit net { opcode := .Test1, op1 := .reg .M }
    else if op1 = "eof" then emit net { opcode := .Test1, op1 := .reg .F }
    else pure net
  else if mne = "link" then do
    let o ← regOrVal net op1
    emit net { opcode := .Link, op1 := o }
  else if mne = "host" then do
    let o ← reg net op1
    emit net { opcode := .Host, op1 := o }
  else if mne = "void" then
    if op1 = "m" then emit net { opcode := .Void, op1 := .reg .M }
    else if op1 = "f" then emit net { opcode := .Void, op1 := .reg .F }
    else throw (.error "Void only accepts M or F")
  else if mne = "grab" then do
    let o ← regOrVal net op1
    emit net { opcode := .Grab, op1 := o }
  else if mne = "file" then do
    let o ← reg net op1
    emit net { opcode := .File, op1 := o }
  else if mne = "seek" then do
    let o ← regOrVal net op1
    emit net { opcode := .Seek, op1 := o }
  else if mne = "rand" then do
    let o ← reg net op1
    emit net { opcode := .Rand, op1 := o }
  else if mne = "dump" then emit net { opcode := .Dump1, op1 := .str op1 }
  else throw (.error ("Unrecognized mnemonic: " ++ mne))

/-- `Network::processDoubleArg`. The operands of the `emplace_back` are evaluated from left to
right. -/
def processDoubleArg (mne op1 op2 : String) (net : Network) : Asm Network := do
  let net1 ←
    if mne = "copy" then do
      let a ← regOrVal net op1
      let b ← reg net op2
      emit net { opcode := .Copy, op1 := a, op2 := b }
    else throw (.error ("Unrecognized mnemonic: " ++ mne))
  checkM 2 net1

/-- The three-operand arithmetic case of `processTripleArg`. -/
def emitArith (opcode : Opcode) (op1 op2 op3 : String) (net : Network) : Asm Network := do
  let a ← regOrVal net op1
  let b ← regOrVal net op2
  let c ← reg net op3
  emit net { opcode := opcode, op1 := a, op2 := b, op3 := c }

/-- The comparison case of `processTripleArg`: the operands are `op1` and `op3`. -/
def emitTest (opcode : Opcode) (op1 op3 : String) (net : Network) : Asm Network := do
  let a ← regOrVal net op1
  let b ← regOrVal net op3
  emit net { opcode := opcode, op1 := a, op2 := b }

/-- `Network::processTripleArg`. -/
def processTripleArg (mne op1 op2 op3 : String) (net : Network) : Asm Network := do
  let net1 ←
    if mne = "addi" then emitArith .Addi op1 op2 op3 net
    else if mne = "subi" then emitArith .Subi op1 op2 op3 net
    else if mne = "muli" then emitArith .Muli op1 op2 op3 net
    else if mne = "divi" then emitArith .Divi op1 op2 op3 net
    else if mne = "modi" then emitArith .Modi op1 op2 op3 net
    else if mne = "swiz" then emitArith .Swiz op1 op2 op3 net
    else if mne = "test" then
      if op2 = "<" then emitTest .TestLt op1 op3 net
      else if op2 = "=" then emitTest .TestEq op1 op3 net
      else if op2 = ">" then emitTest .TestGt op1 op3 net
      else pure net
    else throw (.error ("Unrecognized mnemonic: " ++ mne))
  checkM 3 net1

/-- The class `\s` of the instruction patterns. -/
def isWhite (c : Char) : Bool :=
  c = ' ' || c = '\t' || c = '\n' || c = '\r' || c.toNat = 11 || c.toNat = 12

/-- Split a text at every white character (the pieces between two adjacent white characters,
before a leading one and after a trailing one are empty). -/
def splitWhite : List Char → List Char → List (List Char)
  | [], cur => [cur.reverse]
  | c :: cs, cur => if isWhite c then cur.reverse :: splitWhite cs [] else splitWhite cs (c :: cur)

/-- The tokens of a line of the shape `\S+(\s+\S+)*`, which all four instruction patterns
have; `none` when the line begins or ends with a white character or is empty. -/
def tokens (line : String) : Option (List String) :=
  let pieces := splitWhite line.data []
  if pieces.head? = some [] ∨ pieces.getLast? = some [] then none
  else some ((pieces.filter fun p => !p.isEmpty).map String.mk)

/-- The mnemonics of the pattern `singleArg`. -/
def singleArgMnemonics : List String :=
  ["mark", "repl", "jump", "tjmp", "fjmp", "test", "link", "host", "void", "grab", "file",
   "seek", "rand", "dump"]

/-- The mnemonics of the pattern `noArgs`. -/
def noArgsMnemonics : List String :=
  ["halt", "kill", "mode", "make", "drop", "wipe", "noop", "dump"]

/-- The mnemonics of the pattern `tripleArg`. -/
def tripleArgMnemonics : List String :=
  ["addi", "subi", "muli", "divi", "modi", "swiz", "test"]

/-- `Network::processInstruction`: the four `std::regex_match` tests in their order. -/
def processInstruction (line : String) (net : Network) : Asm Network :=
  match tokens line with
  | some [mne] =>
    if mne ∈ noArgsMnemonics then processNoArgs mne net
    else throw (.error ("Unrecognized or invalid instruction: " ++ line))
  | some [mne, a] =>
    if mne ∈ singleArgMnemonics then processSingleArg mne a net
    else throw (.error ("Unrecognized or invalid instruction: " ++ line))
  | some [mne, a, b] =>
    if mne = "copy" then processDoubleArg mne a b net
    else throw (.error ("Unrecognized or invalid instruction: " ++ line))
  | some [mne, a, b, c] =>
    if mne ∈ tripleArgMnemonics then processTripleArg mne a b c net
    else throw (.error ("Unrecognized or invalid instruction: " ++ line))
  | _ => throw (.error ("Unrecognized or invalid instruction: " ++ line))

/-- Whether an opcode takes a label (`Jump`, `Tjmp`, `Fjmp`, `Repl`). -/
def Opcode.isBranch : Opcode → Bool
  | .Jump | .Tjmp | .Fjmp | .Repl => true
  | _ => false

/-- The label loop of `finalizeActiveMachine`. -/
def resolveLabels (addressLookup : List (String × Nat)) : List Instruction → Asm (List Instruction)
  | [] => pure []
  | inst :: rest =>
    if inst.opcode.isBranch then
      match inst.op1 with
      | .str label =>
        match mapFind label addressLookup with
        | none => throw (.error ("Tried to jump/repl to unrecognized label: " ++ label))
        | some a => do
          let rest1 ← resolveLabels addressLookup rest
          pure ({ inst with op1 := .addr a } :: rest1)
      | _ => throw (.stdExcept .badVariantAccess)
    else do
      let rest1 ← resolveLabels addressLookup rest
      pure (inst :: rest1)

/-- `Network::finalizeActiveMachine`. `pHomeNode` is a `Node*` into the vector of nodes, used
here for the capacity test and the `emplace_back`; once it dangles both are undefined. -/
def finalizeActiveMachine (net : Network) : Asm Network :=
  match net.pMachineBeingAssembled with
  | none => pure net
  | some m =>
    if net.addRepLines then throw (.error "Missing @end after @rep")
    else
      match net.pHomeNode with
      | none => throw (.error "Tried to finalize machine before home node was set")
      | some hi =>
        if net.homeDangling then throw .danglingReference
        else
          match net.nodes[hi]? with
          | none => throw .badReference
          | some home =>
            if home.machines.length + home.files.length < home.capacity then do
              let code ← resolveLabels net.addressLookup m.code
              pure { net with
                stats := { net.stats with size := net.stats.size + code.length }
                nodes := net.nodes.modify
                  (fun nd => { nd with machines := nd.machines ++ [some { m with code := code }] }) hi
                pMachineBeingAssembled := none
                addressLookup := [] }
            else throw (.error "Tried to add machine to node, but node is already full")

/-- `std::find(nodes.begin(), nodes.end(), name)`: the index of the first node of that name. -/
def findNode (name : String) (nodes : List Node) : Option Nat :=
  let i := nodes.findIdx fun nd => nd.name = name
  if i < nodes.length then some i else none

/-- The first group of a `.reg` line, written in the lower case that the comparisons
`match[1] == "sink"`, ... of the source expect. -/
inductive RegKind where
  | sink | fileOut | fileIn | rand | stdin | stdout | stderr
  deriving DecidableEq, Repr

/-- A configuration line as matched by one of the patterns of `processConfigDirective`, with
the texts of its groups. For `.file`, `mode` is the group `(rw|ro)`, `locked` tells whether the
last group matched, and `loaded` is the content that `File::initFromDisk` read from the disk.
For `.reg`, `name` is the group `(#[A-Z]+)` as it is written in the line, `arg` the optional
last group, `input` the tokens that the stream of a `stdin` or `file_in` register delivers and
`gen` the generator that a `rand` register seeds. -/
inductive Directive where
  | range (lo hi : String)
  | node (name : String) (cap : Option String)
  | link (src srcId dst : String) (dstId : Option String)
  | file (path node id mode : String) (locked : Bool) (loaded : List Value)
  | reg (kind : RegKind) (name node : String) (arg : Option String) (input : List String)
      (gen : RandomEngine)
  | start (name : String)
  | home (name : String)
  | unmatched (line : String)

/-- The object that a `.reg` line constructs, by its kind. -/
def openRegister (kind : RegKind) (arg : Option String) (input : List String)
    (gen : RandomEngine) : Except Abort HwKind :=
  match kind with
  | .sink => pure .sink
  | .stdin => pure (.stdin input)
  | .stdout => pure (.stdout [])
  | .stderr => pure (.stderr [])
  | .rand =>
    match arg with
    | none => throw (.error "Tried to create rand register without seed")
    | some a =>
      match stol a with
      | .ok _ => pure (.rand gen)
      | .error e => throw (.stdExcept e)
  | .fileIn =>
    match arg with
    | none => throw (.error "Tried to create file_in register without filename")
    | some _ => pure (.fileIn input true)
  | .fileOut =>
    match arg with
    | none => throw (.error "Tried to create file_out register without filename")
    | some _ => pure (.fileOut [])

/-- `std::stoi` followed by `static_cast<int16_t>`. -/
def stoi16 (s : String) : Asm Int :=
  match stol s with
  | .ok n => if n < -(2 ^ 31) ∨ n ≥ 2 ^ 31 then throw (.stdExcept .outOfRange) else pure (toInt16 n)
  | .error e => throw (.stdExcept e)

/-- Insertion of a link as `links.emplace(id, node).second` reports it. -/
def addLink (ni : Nat) (id : Int) (target : Nat) (net : Network) : Asm Network :=
  match net.nodes[ni]? with
  | none => throw .badReference
  | some nd =>
    if (mapFind id nd.links).isSome then throw (.error "Tried to replace existing link")
    else pure { net with nodes := net.nodes.modify (fun d => { d with links := mapEmplace id target d.links }) ni }

/-- The capacity of the vector `nodes` once `n` nodes have been appended one by one: a full
vector of size `k` grows to the capacity `k + max(k, 1)` (libstdc++ and libc++), so the
capacity is 0, 1, 2, 4, 4, 8, ... -/
def vectorCapacity : Nat → Nat
  | 0 => 0
  | n + 1 => if vectorCapacity n = n then n + max n 1 else vectorCapacity n

/-- Whether `nodes.emplace_back` finds the vector full when it holds `n` nodes, and moves the
nodes to new storage. -/
def reallocates (n : Nat) : Bool := decide (vectorCapacity n = n)

/-- What the move of the nodes to new storage leaves of a node: the references held in its
`links` and the `pHost` of its registers point to the storage that the nodes have left. -/
def Node.invalidate (nd : Node) : Node :=
  { nd with
    danglingLinks := nd.links.map Prod.fst
    registers := nd.registers.map fun p => (p.1, { p.2 with hostDangling := true }) }

/-- The statement `nodes.emplace_back(std::move(node))`. When the vector is full the nodes are
moved to new storage and the old storage is freed: `pHomeNode`, the references in `links` and
every `pHost` are left dangling. -/
def Network.emplaceNode (net : Network) (node : Node) : Network :=
  if reallocates net.nodes.length then
    { net with
      nodes := net.nodes.map Node.invalidate ++ [node]
      homeDangling := net.homeDangling || net.pHomeNode.isSome }
  else { net with nodes := net.nodes ++ [node] }

/-- `Network::processConfigDirective` on a matched line. -/
def processConfigDirective (d : Directive) (net : Network) : Asm Network :=
  match d with
  | .range lo hi =>
    match stol lo, stol hi with
    | .ok a, .ok b => pure { net with rangeMin := a, rangeMax := b }
    | .error e, _ => throw (.stdExcept e)
    | _, .error e => throw (.stdExcept e)
  | .node name cap =>
    match cap with
    | some c =>
      match stoul c with
      | .ok n => pure (net.emplaceNode { name := name, capacity := n })
      | .error e => throw (.stdExcept e)
    | none => pure (net.emplaceNode { name := name })
  | .link src srcId dst dstId =>
    match findNode src net.nodes with
    | none => throw (.error "Tried to link from unknown node")
    | some fromNode =>
      match findNode dst net.nodes with
      | none => throw (.error "Tried to link to unknown node")
      | some toNode => do
        let fromNum ← stoi16 srcId
        let net1 ← addLink fromNode fromNum toNode net
        match dstId with
        | some t => do
          let toNum ← stoi16 t
          addLink toNode toNum fromNode net1
        | none => pure net1
  | .file path node id mode locked loaded =>
    match findNode node net.nodes with
    | none => throw (.error "Tried to add file to unknown node")
    | some i =>
      match stoul id, net.nodes[i]? with
      | .error e, _ => throw (.stdExcept e)
      | _, none => throw .badReference
      | .ok n, some nd =>
        if nd.machines.length + nd.files.length < nd.capacity then
          let file : File :=
            { filename := path, values := loaded, id := n % 2 ^ 16,
              readonly := decide (mode = "ro"), locked := locked }
          pure { net with
            nodes := net.nodes.modify (fun d => { d with files := mapEmplace file.id file d.files }) i }
        else throw (.error "Tried to add file to node, but node is already full")
  | .reg kind name node arg input gen =>
    match findNode node net.nodes with
    | none => throw (.error "Tried to add hardware register to unknown node")
    | some i =>
      match net.nodes[i]? with
      | none => throw .badReference
      | some nd =>
        if (mapFind name nd.registers).isSome then
          throw (.error "Tried to add duplicate hardware register")
        else do
          let opened ← openRegister kind arg input gen
          pure { net with
            nodes := net.nodes.modify
              (fun d => { d with
                registers := mapEmplace name { name := name, host := i, kind := opened } d.registers })
              i
            hwRegMap :=
              mapEmplace (String.mk (name.data.map Char.toLower)) { host := i, name := name }
                net.hwRegMap }
  | .start name => do
    let net1 ← finalizeActiveMachine net
    pure { net1 with pMachineBeingAssembled := some { name := name } }
  | .home name =>
    match findNode name net.nodes with
    | none => throw (.error "Tried to set home to unrecognized node")
    | some i => pure { net with pHomeNode := some i, homeDangling := false }
  | .unmatched line => throw (.error ("Unrecognized config directive: " ++ line))

/-- The state built by the member initialisers of the constructor `Network::Network`; the
engine `random` is the `std::mt19937_64` seeded with `4604955068226825093`. -/
def Network.initial (random : RandomEngine) : Network := { random := random }

/-- Assemble a sequence of instruction lines into the machine being assembled. -/
def processInstructions : List String → Network → Asm Network
  | [], net => pure net
  | line :: rest, net => do
    let net1 ← processInstruction line net
    processInstructions rest net1

/-! ## The preprocessor -/

/-- Whether a text begins with `pat` (`line.find(pat) == 0`). -/
def beginsWith : List Char → List Char → Bool
  | [], _ => true
  | _ :: _, [] => false
  | p :: ps, c :: cs => p = c && beginsWith ps cs

/-- `std::stoul` (base 10) on any text: leading white space is skipped, a sign is accepted,
and a minus sign negates the value modulo 2^64. -/
def stoulText (cs : List Char) : Except StdExcept Nat :=
  let body0 := cs.dropWhile isSpace
  let (neg, body) :=
    match body0 with
    | '-' :: rest => (true, rest)
    | '+' :: rest => (false, rest)
    | _ => (false, body0)
  let (n, k) := readDigits body 0 0
  if k = 0 then .error .invalidArgument
  else if n ≥ 2 ^ 64 then .error .outOfRange
  else .ok (if neg then (2 ^ 64 - n) % 2 ^ 64 else n)

/-- The group `(-?\d+)` at the start of a text: its characters, and the rest of the text. -/
def intGroup (s : List Char) : Option (List Char × List Char) :=
  match s with
  | '-' :: rest =>
    if (rest.takeWhile Char.isDigit).isEmpty then none
    else some ('-' :: rest.takeWhile Char.isDigit, rest.dropWhile Char.isDigit)
  | _ =>
    if (s.takeWhile Char.isDigit).isEmpty then none
    else some (s.takeWhile Char.isDigit, s.dropWhile Char.isDigit)

/-- The pattern `@\{(-?\d+),(-?\d+)\}` at the start of a text: the two groups, and the rest
of the text. -/
def placeholderAt (s : List Char) : Option (List Char × List Char × List Char) :=
  match s with
  | '@' :: '{' :: r0 =>
    match intGroup r0 with
    | some (a, ',' :: r1) =>
      match intGroup r1 with
      | some (b, '}' :: r2) => some (a, b, r2)
      | _ => none
    | _ => none
  | _ => none

/-- `std::regex_search` with the pattern `(.*)@\{(-?\d+),(-?\d+)\}(.*)` on a line (a text
without line terminators): the four groups. The first group is greedy, so the pattern of the
placeholder is matched at the last position at which it occurs. -/
def incrementor : List Char → Option (List Char × List Char × List Char × List Char)
  | [] => none
  | c :: cs =>
    match incrementor cs with
    | some (pre, a, b, post) => some (c :: pre, a, b, post)
    | none =>
      match placeholderAt (c :: cs) with
      | some (a, b, post) => some ([], a, b, post)
      | none => none

/-- The text that the loop of `@end` passes to `processInstruction` for a buffered line in
repetition `i`. The sum `start + inc * i` has a `size_t` operand: it is computed and printed
as an unsigned 64-bit number. -/
def expandLine (i : Nat) (line : String) : Except Abort String :=
  match incrementor line.data with
  | some (pre, a, b, post) =>
    match stol (String.mk a), stol (String.mk b) with
    | .ok start, .ok inc =>
      pure (String.mk (pre ++ toChars (Int.ofNat (toSizeT (start + inc * i))) ++ post))
    | .error e, _ => throw (.stdExcept e)
    | _, .error e => throw (.stdExcept e)
  | none => pure line

/-- The inner loop of `@end`: the buffered lines of one repetition. -/
def expandBlock (i : Nat) : List String → Network → Asm Network
  | [], net => pure net
  | line :: rest, net => do
    let text ← expandLine i line
    let net1 ← processInstruction text net
    expandBlock i rest net1

/-- The outer loop of `@end`, with `count` repetitions to go from repetition `i`. -/
def expandFrom (lines : List String) : Nat → Nat → Network → Asm Network
  | 0, _, net => pure net
  | count + 1, i, net => do
    let net1 ← expandBlock i lines net
    expandFrom lines count (i + 1) net1

/-- `Network::processPreprocessorDirective`. A line `@rep` of four characters makes
`line.data() + 5` point behind the buffer. -/
def processPreprocessorDirective (line : String) (net : Network) : Asm Network :=
  if beginsWith "@rep".data line.data then
    if line.data.length < 5 then throw .badReference
    else
      match stoulText (line.data.drop 5) with
      | .ok n => pure { net with repCount := n, addRepLines := true }
      | .error e => throw (.stdExcept e)
  else if beginsWith "@end".data line.data then
    if !net.addRepLines then throw (.error "Found @end without corresponding @rep")
    else do
      let net1 ← expandFrom net.repLines net.repCount 0 { net with addRepLines := false }
      pure { net1 with repLines := [] }
  else pure net

/-! ## The lines of the source file -/

/-- `std::isblank` in the "C" locale: space and tab. -/
def isBlank (c : Char) : Bool := c = ' ' || c = '\t'

/-- `std::string::find(pat)` from position `i`: the first position at which `pat` occurs. -/
def findText (pat : List Char) : List Char → Nat → Option Nat
  | [], i => if pat.isEmpty then some i else none
  | c :: cs, i => if beginsWith pat (c :: cs) then some i else findText pat cs (i + 1)

/-- The block "Remove comments" of the constructor: the line is cut at the first `;`, then at
the first `NOTE` of its upper-cased text. -/
def removeComments (line : List Char) : List Char :=
  let line1 :=
    match findText [';'] line 0 with
    | some i => line.take i
    | none => line
  match findText "NOTE".data (line1.map Char.toUpper) 0 with
  | some i => line1.take i
  | none => line1

/-- The first loop of the trimming: the position of the first character that is not blank,
and 0 when there is none. -/
def firstValid : List Char → Nat → Nat
  | [], _ => 0
  | c :: cs, i => if !isBlank c then i else firstValid cs (i + 1)

/-- The second loop of the trimming: the position of the last character that is not blank
(`last` when there is none from position `i` on). -/
def lastValid : List Char → Nat → Nat → Nat
  | [], _, last => last
  | c :: cs, i, last => lastValid cs (i + 1) (if !isBlank c then i else last)

/-- The trimming of the constructor: `erase(0, firstValid)` when `firstValid > 0`, then
`erase(lastValid + 1, ...)` when `lastValid < line.size()`. -/
def trimLine (line : List Char) : List Char :=
  let line1 := if firstValid line 0 > 0 then line.drop (firstValid line 0) else line
  if lastValid line1 0 0 < line1.length then line1.take (lastValid line1 0 0 + 1) else line1

/-- The body of the `while (stream)` loop of the constructor for one raw line. `parse` stands
for the seven `std::regex_match` tests of `processConfigDirective`. -/
def processLine (parse : String → Directive) (raw : String) (net : Network) : Asm Network :=
  match trimLine (removeComments raw.data) with
  | [] => pure net
  | c :: rest =>
    if c = '.' then processConfigDirective (parse (String.mk (c :: rest))) net
    else if net.pMachineBeingAssembled.isNone then
      throw (.error "Encountered instruction before .start command")
    else if c.toLower = '@' then
      processPreprocessorDirective (String.mk ((c :: rest).map Char.toLower)) net
    else if net.addRepLines then
      pure { net with repLines := net.repLines ++ [String.mk ((c :: rest).map Char.toLower)] }
    else processInstruction (String.mk ((c :: rest).map Char.toLower)) net

/-- The `while (stream)` loop of the constructor over the lines of the file. -/
def processLines (parse : String → Directive) : List String → Network → Asm Network
  | [], net => pure net
  | raw :: rest, net => do
    let net1 ← processLine parse raw net
    processLines parse rest net1

/-! ## Observations of a state -/

/-- The exa in slot `mi` of the machine list of node `ni`, if the slot holds one. -/
def Network.machineAt (net : Network) (ni mi : Nat) : Option Machine :=
  match net.nodes[ni]? with
  | some nd =>
    match nd.machines[mi]? with
    | some (some m) => some m
    | _ => none
  | none => none

/-- The channel that register M of exa `m` on node `ni` is routed to. -/
def Network.channelFor (net : Network) (ni : Nat) (m : Machine) : Option Channel :=
  match net.nodes[ni]? with
  | some nd => some (selectedChannel net nd m)
  | none => none

/-- The ids of the files owned in a node: those of its `files` map, those held by the exas of
its machine list and those held by the exas of its `incomingMachines`. -/
def Node.fileIds (nd : Node) : List Nat :=
  nd.files.map (fun e => e.2.id)
    ++ nd.machines.filterMap (fun slot => slot.bind fun m => m.file.map fun f => f.id)
    ++ nd.incomingMachines.filterMap (fun m => m.file.map fun f => f.id)

/-- The ids of all files of the network, one entry per owner. -/
def Network.fileIds (net : Network) : List Nat := (net.nodes.map Node.fileIds).flatten

/-- The state after `k` complete cycles of `run`. -/
def afterCycles : Nat → Network → Option Network
  | 0, net => some net
  | k + 1, net =>
    match cycle net with
    | .ok _ net1 => afterCycles k net1
    | _ => none

/-! ## Scenarios -/

/-- An engine whose outputs are all zero, for closed examples. -/
def zeroEngine : RandomEngine := { outputs := fun _ => 0 }

/-- Scenario S1: `.range -100 100`, `.node N`, `.home N`, `.start main` and four
instructions. -/
def S1.assemble (g : RandomEngine) : Asm Network := do
  let n ← processConfigDirective (.range "-100" "100") (Network.initial g)
  let n ← processConfigDirective (.node "N" none) n
  let n ← processConfigDirective (.home "N") n
  let n ← processConfigDirective (.start "main") n
  let n ← processInstructions ["copy 50 x", "copy 75 t", "addi x t x", "halt"] n
  finalizeActiveMachine n

/-- Scenario S4: `.node N 10`, a file 300 on `N` loaded with the values 1, 2, 3, `.home N`,
`.start r` and five instructions. -/
def S4.assemble (g : RandomEngine) : Asm Network := do
  let n ← processConfigDirective (.node "N" (some "10")) (Network.initial g)
  let n ← processConfigDirective (.file "in.txt" "N" "300" "rw" false [.num 1, .num 2, .num 3]) n
  let n ← processConfigDirective (.home "N") n
  let n ← processConfigDirective (.start "r") n
  let n ← processInstructions ["grab 300", "copy f x", "void f", "drop", "halt"] n
  finalizeActiveMachine n

/-- A receiver in global mode on node `N` while the global channel holds 42. -/
def receiverNet : Network :=
  { random := zeroEngine
    globalChannel := { val := some (.num 42) }
    nodes := [{ name := "N"
                machines := [some { name := "r", code := [{ opcode := .Copy, op1 := .reg .M, op2 := .reg .X }] }] }] }

/-- A node `N` of capacity 10 with file 300 and one exa that makes a file and then grabs
file 300. -/
def grabWhileHolding.assemble (g : RandomEngine) : Asm Network := do
  let n ← processConfigDirective (.node "N" (some "10")) (Network.initial g)
  let n ← processConfigDirective (.file "in.txt" "N" "300" "rw" false [.num 1]) n
  let n ← processConfigDirective (.home "N") n
  let n ← processConfigDirective (.start "r") n
  let n ← processInstructions ["make", "grab 300", "halt"] n
  finalizeActiveMachine n

/-- Two exas on one node; the first one executes `kill`. -/
def killNet (g : RandomEngine) : Network :=
  { random := g
    nodes := [{ name := "N"
                machines := [some { name := "a", code := [{ opcode := .Kill }] },
                             some { name := "b", code := [{ opcode := .Noop }] }] }] }

/-- The terminated flags of the machine list of node 0. -/
def terminatedFlags (net : Network) : List (Option Bool) :=
  match net.nodes[0]? with
  | some nd => nd.machines.map fun slot => slot.map fun m => m.terminated
  | none => []

/-- The exa in slot `mi` of node `ni` after `k` complete cycles and the machine loop of that
node in the next cycle (before the drain removes a terminated exa). -/
def haltState (k ni mi : Nat) (net0 : Network) : Option Machine :=
  match afterCycles k net0 with
  | some netk =>
    match machineLoop ni netk with
    | .ok _ net1 => net1.machineAt ni mi
    | _ => none
  | none => none

/-- The statistics returned by `run`, when it returns. -/
def runStats (fuel : Nat) (net0 : Network) : Option RunStats :=
  match run fuel net0 with
  | some (.ok st _) => some st
  | _ => none

/-- The files lying on the nodes when `run` returns: for each node the id, the values and
the cursor of each file. -/
def runFiles (fuel : Nat) (net0 : Network) : Option (List (List (Nat × List Value × Nat))) :=
  match run fuel net0 with
  | some (.ok _ netF) =>
    some (netF.nodes.map fun nd => nd.files.map fun e => (e.1, e.2.values, e.2.offset))
  | _ => none

/-- The network that scenario S1 assembles to. -/
def S1.net (g : RandomEngine) : Network :=
  { rangeMin := -100
    rangeMax := 100
    random := g
    stats := { size := 4 }
    pHomeNode := some 0
    nodes := [{ name := "N"
                machines := [some { name := "main"
                                    code := [{ opcode := .Copy, op1 := .num 50, op2 := .reg .X },
                                             { opcode := .Copy, op1 := .num 75, op2 := .reg .T },
                                             { opcode := .Addi, op1 := .reg .X, op2 := .reg .T,
                                               op3 := .reg .X },
                                             { opcode := .Halt }] }] }] }

/-- The network that scenario S4 assembles to: node `N` of capacity 10 holding file 300 with
values 1, 2, 3 and cursor 0, and the exa `r`. -/
def S4.net (g : RandomEngine) : Network :=
  { random := g
    stats := { size := 5 }
    pHomeNode := some 0
    nodes := [{ name := "N"
                capacity := 10
                files := [(300, { filename := "in.txt", id := 300,
                                  values := [.num 1, .num 2, .num 3] })]
                machines := [some { name := "r"
                                    code := [{ opcode := .Grab, op1 := .num 300 },
                                             { opcode := .Copy, op1 := .reg .F, op2 := .reg .X },
                                             { opcode := .Void, op1 := .reg .F },
                                             { opcode := .Drop },
                                             { opcode := .Halt }] }] }] }

/-- The value of a completed computation. -/
def Res.value? {α : Type} : Res α → Option α
  | .ok a _ => some a
  | _ => none

/-- The state reached by a completed computation. -/
def Res.state? {α : Type} : Res α → Option Network
  | .ok _ net => some net
  | _ => none

/-- The network that `grabWhileHolding.assemble` yields. -/
def grabWhileHolding.net (g : RandomEngine) : Network :=
  { random := g
    stats := { size := 3 }
    pHomeNode := some 0
    nodes := [{ name := "N"
                capacity := 10
                files := [(300, { filename := "in.txt", id := 300, values := [.num 1] })]
                machines := [some { name := "r"
                                    code := [{ opcode := .Make },
                                             { opcode := .Grab, op1 := .num 300 },
                                             { opcode := .Halt }] }] }] }

/-- The slot of the channel that register M of the exa in slot `mi` of node `ni` is routed
to. -/
def Network.slotFor (net : Network) (ni mi : Nat) : Option (Option Value) :=
  match net.machineAt ni mi, net.nodes[ni]? with
  | some m, some nd => some (selectedChannel net nd m).val
  | _, _ => none

/-- The instruction pointer of the exa in slot `mi` of node `ni`. -/
def Network.ipAt (net : Network) (ni mi : Nat) : Option Nat :=
  (net.machineAt ni mi).map fun m => m.instPtr

/-- A computation keeps a relation between the state it starts in and the state it completes
or fails in. -/
structure Keeps (R : Network → Network → Prop) {α : Type} (x : Exec α) : Prop where
  ok : ∀ net a n1, x net = .ok a n1 → R net n1
  failure : ∀ net msg n1, x net = .failure msg n1 → R net n1

/-- What an operand read leaves as it is, seen from the exa in slot `mi` of node `ni`: the
clamp range, the slot of its channel and its instruction pointer. -/
def SameView (ni mi : Nat) (net n1 : Network) : Prop :=
  n1.rangeMin = net.rangeMin ∧ n1.rangeMax = net.rangeMax
    ∧ n1.slotFor ni mi = net.slotFor ni mi ∧ n1.ipAt ni mi = net.ipAt ni mi

/-- The exa in slot `mi` of node `ni` keeps its instruction pointer, or the slot no longer
holds an exa. -/
def IpKept (ni mi : Nat) (net n1 : Network) : Prop :=
  n1.ipAt ni mi = net.ipAt ni mi ∨ n1.ipAt ni mi = none

/-- The operands that an instruction passes to `get`. -/
def Instruction.sources (inst : Instruction) : List Operand :=
  match inst.opcode with
  | .Copy | .Link | .Grab | .Seek => [inst.op1]
  | .Addi | .Subi | .Muli | .Divi | .Modi | .Swiz | .TestEq | .TestGt | .TestLt =>
    [inst.op1, inst.op2]
  | .Void => if inst.op1 = .reg .M then [inst.op1] else []
  | _ => []

/-- The operand that an instruction passes to `set`. -/
def Instruction.dest (inst : Instruction) : Option Operand :=
  match inst.opcode with
  | .Copy => some inst.op2
  | .Addi | .Subi | .Muli | .Divi | .Modi | .Swiz => some inst.op3
  | .Host | .File | .Rand => some inst.op1
  | _ => none

/-- The suspension conditions as the specification lists them, for the exa in slot `mi` of
node `ni`: (a) a source operand is M and the exa's channel is empty; (b) the destination is M
and the channel is occupied; (c) `LINK` (with a literal id) whose target node is full, or
`REPL` on a full node. -/
def suspendConditionListed (net : Network) (ni mi : Nat) (inst : Instruction) : Prop :=
  (.reg .M ∈ inst.sources ∧ net.slotFor ni mi = some none)
    ∨ (inst.dest = some (.reg .M) ∧ ∃ w, net.slotFor ni mi = some (some w))
    ∨ (inst.opcode = .Link ∧ ∃ n nd ti target, inst.op1 = .num n ∧ net.nodes[ni]? = some nd
        ∧ mapFind (toInt16 (toUInt16 n)) nd.links = some ti ∧ net.nodes[ti]? = some target
        ∧ target.full = true)
    ∨ (inst.opcode = .Repl ∧ ∃ nd, net.nodes[ni]? = some nd ∧ nd.full = true)

/-- The conditions under which the source leaves `advance` false without taking a jump: the
listed ones, or (d) `DROP` on a full node. -/
def suspendCondition (net : Network) (ni mi : Nat) (inst : Instruction) : Prop :=
  suspendConditionListed net ni mi inst
    ∨ (inst.opcode = .Drop ∧ ∃ nd, net.nodes[ni]? = some nd ∧ nd.full = true)

/-- A node `N` of capacity 1 with one exa: `make`, `drop`, `halt`. -/
def dropFull.assemble (g : RandomEngine) : Asm Network := do
  let n ← processConfigDirective (.node "N" (some "1")) (Network.initial g)
  let n ← processConfigDirective (.home "N") n
  let n ← processConfigDirective (.start "r") n
  let n ← processInstructions ["make", "drop", "halt"] n
  finalizeActiveMachine n

/-- The exa of `dropFull.assemble` after its first cycle: it holds the file 400 that it made
and stands before `drop`. -/
def dropFull.exa : Machine :=
  { name := "r"
    instPtr := 1
    file := some { id := 400, filename := "400.txt" }
    code := [{ opcode := .Make }, { opcode := .Drop }, { opcode := .Halt }] }

/-- The state of `dropFull.assemble` after its first cycle; the node (capacity 1, one exa) is
full. -/
def dropFull.held (g : RandomEngine) : Network :=
  { random := g
    stats := { size := 3, cycles := 1 }
    nextFileId := 401
    pHomeNode := some 0
    nodes := [{ name := "N", capacity := 1, machines := [some dropFull.exa] }] }

/-- Every value with which a computation completes satisfies `P`. -/
structure Yields {α : Type} (P : α → Prop) (x : Exec α) : Prop where
  ok : ∀ net a n1, x net = .ok a n1 → P a

/-- The opcodes that set the instruction pointer themselves. -/
def Opcode.isJump : Opcode → Bool
  | .Jump | .Tjmp | .Fjmp => true
  | _ => false

/-- A token that `regOrVal` accepts as an operand: a register name, the name of a hardware
register, or a text that `std::stol` reads as an integer. -/
def isOperand (net : Network) (op : String) : Prop := ∃ o, regOrVal net op = .ok o

/-- The `Error` raised by the M check of `processDoubleArg` and `processTripleArg`. -/
def tooManyM : Abort := .error "Referenced M register too many times in one instruction"

/-- The buffers of arrivals only grow at their end: every node of `net` is a node of `n1`
whose `incomingMachines` begins with the old buffer. -/
def IncomingGrows (net n1 : Network) : Prop :=
  ∀ (j : Nat) (nd : Node), net.nodes[j]? = some nd →
    ∃ nd1 : Node, n1.nodes[j]? = some nd1 ∧ nd.incomingMachines <+: nd1.incomingMachines

/-- What a cycle does after slot `mi` of node `ni` has been stepped, up to the merge: the rest
of the machine loop of that node (`k1` slots), its drain, and the remaining nodes (`k2`). -/
def restOfStepping (ni mi k1 k2 : Nat) : Exec Unit := do
  stepMachinesFrom ni (mi + 1) k1
  modifyNode ni drainNode
  stepNodesFrom (ni + 1) k2

/-- A value that is a String, or a Number within the clamp range of the network. -/
def Network.inRange (net : Network) : Value → Prop
  | .str _ => True
  | .num n => net.rangeMin ≤ n ∧ n ≤ net.rangeMax

/-- The network that `dropFull.assemble` builds. -/
def dropFull.net (g : RandomEngine) : Network :=
  { random := g
    stats := { size := 3 }
    pHomeNode := some 0
    nodes := [{ name := "N"
                capacity := 1
                machines := [some { name := "r"
                                    code := [{ opcode := .Make }, { opcode := .Drop },
                                             { opcode := .Halt }] }] }] }

/-- A network in the middle of the assembly of an exa `w`. -/
def assembling : Network :=
  { Network.initial zeroEngine with pMachineBeingAssembled := some { name := "w" } }

/-- An exa before `link 800`. -/
def linkPair.rover : Machine :=
  { name := "rover"
    code := [{ opcode := .Link, op1 := .num 800 }, { opcode := .Halt }] }

/-- Node `A`, with the link 800 to the node of index 1, holding the rover. -/
def linkPair.A : Node :=
  { name := "A", links := [(800, 1)], machines := [some linkPair.rover] }

/-- Node `B`, with the link -1 back to the node of index 0. -/
def linkPair.B : Node := { name := "B", links := [(-1, 0)] }

/-- Two linked nodes, the rover on the first one. -/
def linkPair.net : Network := { random := zeroEngine, nodes := [linkPair.A, linkPair.B] }

/-- An exa that has forked twelve times, before `repl 2`; it holds the file 200. -/
def replNet.parent : Machine :=
  { name := "p"
    x := .num 7
    t := .str "k"
    replCount := 12
    globalMode := false
    file := some { id := 200, filename := "200.txt" }
    code := [{ opcode := .Repl, op1 := .addr 2 }, { opcode := .Halt }, { opcode := .Halt }] }

/-- The node of `replNet`. -/
def replNet.N : Node := { name := "N", machines := [some replNet.parent] }

/-- One node with the exa `replNet.parent`. -/
def replNet : Network := { random := zeroEngine, nodes := [replNet.N] }

/-- One exa on node `N` whose only instruction is `halt`. -/
def haltNet : Network :=
  { random := zeroEngine
    nodes := [{ name := "N", machines := [some { name := "h", code := [{ opcode := .Halt }] }] }] }

/-- The state in which `run` leaves `haltNet`. -/
def haltNet.final : Network :=
  { random := zeroEngine
    stats := { cycles := 1 }
    nodes := [{ name := "N" }] }

/-- What no step changes: the clamp range, and the value of a channel that is occupied. -/
def Steady (net n1 : Network) : Prop :=
  n1.rangeMin = net.rangeMin ∧ n1.rangeMax = net.rangeMax
    ∧ (∀ w, net.globalChannel.val = some w → n1.globalChannel.val = some w)
    ∧ (∀ (j : Nat) (nd : Node) (w : Value), net.nodes[j]? = some nd →
        nd.localChannel.val = some w →
          ∃ nd1 : Node, n1.nodes[j]? = some nd1 ∧ nd1.localChannel.val = some w)

/-- Every slot of a machine list other than slot `mi` of node `ni` holds what it held. -/
def OthersSame (ni mi : Nat) (net n1 : Network) : Prop :=
  ∀ nj mj, (nj ≠ ni ∨ mj ≠ mi) → n1.machineAt nj mj = net.machineAt nj mj

/-- The frame of an instruction executed by the exa in slot `mi` of node `ni`. -/
def Apart (ni mi : Nat) (net n1 : Network) : Prop :=
  OthersSame ni mi net n1 ∧ Steady net n1

/-- The exa in slot `mi` of node `ni` is still in its slot, under its name. -/
def OwnStays (ni mi : Nat) (net n1 : Network) : Prop :=
  ∀ m, net.machineAt ni mi = some m → ∃ m1, n1.machineAt ni mi = some m1 ∧ m1.name = m.name

/-- The slot `mj` of node `nj` holds what it held, or the same exa flagged terminated. -/
def SlotFlagOnly (nj mj : Nat) (net n1 : Network) : Prop :=
  n1.machineAt nj mj = net.machineAt nj mj
    ∨ ∃ m, net.machineAt nj mj = some m
        ∧ n1.machineAt nj mj = some { m with terminated := true }

/-- The frame of a step of another exa, seen from slot `mj` of node `nj`. -/
def Lenient (nj mj : Nat) (net n1 : Network) : Prop :=
  SlotFlagOnly nj mj net n1 ∧ Steady net n1

/-- Two exas on one node; the first one executes `halt`, the second one `noop`. -/
def failNet : Network :=
  { random := zeroEngine
    nodes := [{ name := "N"
                machines := [some { name := "a", code := [{ opcode := .Halt }] },
                             some { name := "b", code := [{ opcode := .Noop }] }] }] }

/-- One exa on node `N` that holds the file 200 with the values 1, 2, 3 and the cursor
`cursor`, before its only instruction `inst`. -/
def fileNet (cursor : Nat) (inst : Instruction) : Network :=
  { random := zeroEngine
    nodes := [{ name := "N"
                machines := [some { name := "r"
                                    code := [inst]
                                    file := some { id := 200
                                                   values := [.num 1, .num 2, .num 3]
                                                   offset := cursor } }] }] }

/-- The cursor and the number of values of the file held by the exa in slot 0 of node 0 after
one step of that exa, with its terminated flag. -/
def cursorAfterStep (net : Network) : Option (Nat × Nat × Bool) :=
  match Res.state? (stepMachine 0 0 net) with
  | some n1 =>
    match n1.machineAt 0 0 with
    | some m => m.file.map fun f => (f.offset, f.values.length, m.terminated)
    | none => none
  | none => none

/-- The slot of the channel that an exa on node `ni` is routed to, given its `globalMode`. -/
def Network.channelVal (net : Network) (ni : Nat) (globalMode : Bool) : Option (Option Value) :=
  if globalMode then some net.globalChannel.val
  else (net.nodes[ni]?).map fun nd => nd.localChannel.val

/-- Scenario S2: `.node N`, `.home N`, the exa `sender` and the exa `receiver`. -/
def S2.assemble (g : RandomEngine) : Asm Network := do
  let n ← processConfigDirective (.node "N" none) (Network.initial g)
  let n ← processConfigDirective (.home "N") n
  let n ← processConfigDirective (.start "sender") n
  let n ← processInstructions ["mode", "copy 42 m", "halt"] n
  let n ← processConfigDirective (.start "receiver") n
  let n ← processInstructions ["mode", "copy m x", "halt"] n
  finalizeActiveMachine n

/-- The network that scenario S2 assembles to. -/
def S2.net (g : RandomEngine) : Network :=
  { random := g
    stats := { size := 6 }
    pHomeNode := some 0
    nodes := [{ name := "N"
                machines := [some { name := "sender"
                                    code := [{ opcode := .Mode },
                                             { opcode := .Copy, op1 := .num 42, op2 := .reg .M },
                                             { opcode := .Halt }] },
                             some { name := "receiver"
                                    code := [{ opcode := .Mode },
                                             { opcode := .Copy, op1 := .reg .M, op2 := .reg .X },
                                             { opcode := .Halt }] }] }] }

/-- The sender of scenario S2 after the first cycle: in local mode, before `copy 42 m`. -/
def S2.sender : Machine :=
  { name := "sender"
    instPtr := 1
    globalMode := false
    code := [{ opcode := .Mode }, { opcode := .Copy, op1 := .num 42, op2 := .reg .M },
             { opcode := .Halt }] }

/-- The receiver of scenario S2 after the first cycle: in local mode, before `copy m x`. -/
def S2.receiver : Machine :=
  { name := "receiver"
    instPtr := 1
    globalMode := false
    code := [{ opcode := .Mode }, { opcode := .Copy, op1 := .reg .M, op2 := .reg .X },
             { opcode := .Halt }] }

/-- The state of scenario S2 after the first cycle. -/
def S2.ready (g : RandomEngine) : Network :=
  { random := g
    stats := { size := 6, cycles := 1 }
    pHomeNode := some 0
    nodes := [{ name := "N", machines := [some S2.sender, some S2.receiver] }] }

/-- Scenario S5: `.node N`, `.home N`, `.start p` and the lines `repl child`, `halt`,
`mark child`, `halt`. -/
def S5.assemble (g : RandomEngine) : Asm Network := do
  let n ← processConfigDirective (.node "N" none) (Network.initial g)
  let n ← processConfigDirective (.home "N") n
  let n ← processConfigDirective (.start "p") n
  let n ← processInstructions ["repl child", "halt", "mark child", "halt"] n
  finalizeActiveMachine n

/-- The code that scenario S5 assembles. -/
def S5.code : List Instruction :=
  [{ opcode := .Repl, op1 := .addr 2 }, { opcode := .Halt }, { opcode := .Halt }]

/-- The network that scenario S5 assembles to. -/
def S5.net (g : RandomEngine) : Network :=
  { random := g
    stats := { size := 3 }
    pHomeNode := some 0
    nodes := [{ name := "N", machines := [some { name := "p", code := S5.code }] }] }

/-- The state of scenario S5 after the first cycle: the parent and its fork. -/
def S5.forked (g : RandomEngine) : Network :=
  { random := g
    stats := { size := 3, cycles := 1 }
    pHomeNode := some 0
    nodes := [{ name := "N"
                machines := [some { name := "p", code := S5.code, instPtr := 1, replCount := 1 },
                             some { name := "p:0", code := S5.code, instPtr := 2 }] }] }

/-- The state in which `run` leaves scenario S5. -/
def S5.final (g : RandomEngine) : Network :=
  { random := g
    stats := { size := 3, cycles := 2 }
    pHomeNode := some 0
    nodes := [{ name := "N" }] }

/-- The instruction under the instruction pointer of the exa in slot `mi` of node 0. -/
def fetched (net : Network) (mi : Nat) : Option Instruction :=
  (net.machineAt 0 mi).bind fun m => m.code[m.instPtr]?

/-- An exa with T = 0 before a branch to address 5. -/
def jumpNet (opcode : Opcode) (t : Value) : Network :=
  { random := zeroEngine
    nodes := [{ name := "N"
                machines := [some { name := "j", t := t
                                    code := [{ opcode := opcode, op1 := .addr 5 }] }] }] }

/-- The instruction pointer of the exa of `jumpNet` after its step. -/
def ipAfterStep (net : Network) : Option Nat :=
  (Res.state? (stepMachine 0 0 net)).bind fun n1 => n1.ipAt 0 0

/-- The assembly of an exa `w` after its first line `halt`. -/
def assemblingAfterHalt : Network :=
  { Network.initial zeroEngine with
    pMachineBeingAssembled := some { name := "w", code := [{ opcode := .Halt }] } }

/-- A network with the node `N`, before any `.reg` line. -/
def regNet : Network := { Network.initial zeroEngine with nodes := [{ name := "N" }] }

/-- The state of `regNet` after `.reg stdout #OUT N`. -/
def regOne : Network :=
  { regNet with
    nodes := [{ name := "N"
                registers := [("#OUT", { name := "#OUT", host := 0, kind := .stdout [] })] }]
    hwRegMap := [("#out", { host := 0, name := "#OUT" })] }

/-- The state of `regOne` after `.reg stdout #out N`: a second register on the node. -/
def regTwo : Network :=
  { regNet with
    nodes := [{ name := "N"
                registers := [("#OUT", { name := "#OUT", host := 0, kind := .stdout [] }),
                              ("#out", { name := "#out", host := 0, kind := .stdout [] })] }]
    hwRegMap := [("#out", { host := 0, name := "#OUT" })] }

/-- The code of the exa being assembled after a step of the assembler that succeeds. -/
def codeAfter (r : Asm Network) : Option (List Instruction) :=
  match r with
  | .ok net => net.pMachineBeingAssembled.map fun m => m.code
  | .error _ => none

/-- An instruction as the assembler emits it: it refers to M at most once, and a branch
(`jump`, `tjmp`, `fjmp`, `repl`) carries its label as a string. -/
def Sound (e : Instruction) : Prop :=
  numM e ≤ 1 ∧ (e.opcode.isBranch = true → ∃ l, e.op1 = .str l)

/-- The last instruction of the code `c'` passes the M check whenever the last one of `c`
does: it is the same instruction, or it refers to M at most once. -/
def LastAgrees (c c' : List Instruction) : Prop :=
  c'.getLast? = c.getLast? ∨ ∃ e, c'.getLast? = some e ∧ numM e ≤ 1

/-- What a successful run of `f` (the assembly of one or more instruction lines) does: it
appends instructions `es` to the code of the exa being assembled and changes `addressLookup`,
nothing else; and it appends the same `es` from any other state with the same `hwRegMap`. -/
def EmitsSeq (f : Network → Asm Network) : Prop :=
  ∀ (net net1 : Network) (m : Machine), f net = .ok net1 → net.pMachineBeingAssembled = some m →
    ∃ (es : List Instruction) (lk : List (String × Nat)),
      net1 = { net with pMachineBeingAssembled := some { m with code := m.code ++ es }
                        addressLookup := lk }
      ∧ (∀ e ∈ es, Sound e)
      ∧ ∀ (net' : Network) (m' : Machine), net'.pMachineBeingAssembled = some m' →
          net'.hwRegMap = net.hwRegMap → LastAgrees m.code m'.code →
            ∃ lk', f net' = .ok { net' with
                pMachineBeingAssembled := some { m' with code := m'.code ++ es }
                addressLookup := lk' }

/-- A single line: as `EmitsSeq`, and `addressLookup` is unchanged, or the line is a `mark`
with a label in `P` that emits nothing and enters its label with the current length of the
code. -/
def Emits (P : String → Prop) (f : Network → Asm Network) : Prop :=
  ∀ (net net1 : Network) (m : Machine), f net = .ok net1 → net.pMachineBeingAssembled = some m →
    ∃ (es : List Instruction) (lk : List (String × Nat)),
      net1 = { net with pMachineBeingAssembled := some { m with code := m.code ++ es }
                        addressLookup := lk }
      ∧ (∀ e ∈ es, Sound e)
      ∧ (lk = net.addressLookup
          ∨ (es = [] ∧ ∃ l, P l ∧ lk = mapEmplace l m.code.length net.addressLookup))
      ∧ ∀ (net' : Network) (m' : Machine), net'.pMachineBeingAssembled = some m' →
          net'.hwRegMap = net.hwRegMap → LastAgrees m.code m'.code →
            ∃ lk', f net' = .ok { net' with
                pMachineBeingAssembled := some { m' with code := m'.code ++ es }
                addressLookup := lk' }

/-- The text of a raw line after the comment removal, the trimming and the lower-casing of the
constructor. -/
def normalLine (raw : String) : String :=
  String.mk ((trimLine (removeComments raw.data)).map Char.toLower)

/-- Whether the constructor treats a raw line as an instruction line: after comment removal
and trimming it is not empty and begins neither with `.` nor with `@`. -/
def isInstructionLine (raw : String) : Bool :=
  match trimLine (removeComments raw.data) with
  | [] => false
  | c :: _ => c ≠ '.' && c.toLower ≠ '@'

/-- Scenario S5 after `.node N`, `.home N` and `.start p`: the exa `p` is being assembled. -/
def S5.started (g : RandomEngine) : Network :=
  { random := g
    pHomeNode := some 0
    nodes := [{ name := "N" }]
    pMachineBeingAssembled := some { name := "p" } }

/-- Scenario S5 after its four instruction lines, before the exa is finalized. -/
def S5.assembled (g : RandomEngine) : Network :=
  { random := g
    pHomeNode := some 0
    nodes := [{ name := "N" }]
    addressLookup := [("child", 2)]
    pMachineBeingAssembled :=
      some { name := "p"
             code := [{ opcode := .Repl, op1 := .str "child" }, { opcode := .Halt },
                      { opcode := .Halt }] } }

/-- Two nodes; the first one carries the register `#IN`, a `stdin` register with the tokens
20000 and 7 still to be read, and the register `#OUT`. -/
def hwNet : Network :=
  { random := zeroEngine
    nodes := [{ name := "N"
                registers := [("#IN", { name := "#IN", host := 0, kind := .stdin ["20000", "7"] }),
                              ("#OUT", { name := "#OUT", host := 0, kind := .stdout [] })]
                machines := [some { name := "r" }] },
              { name := "O", machines := [some { name := "s" }] }] }

/-- The values written so far to the `stdout` register `name` of node `ni`, and the tokens a
`stdin` register of that name has still to deliver. -/
def registerLog (net : Network) (ni : Nat) (name : String) : Option (List Value × List String) :=
  match net.nodes[ni]? with
  | some nd =>
    match mapFind name nd.registers with
    | some r =>
      match r.kind with
      | .stdout w => some (w, [])
      | .stdin p => some ([], p)
      | _ => some ([], [])
    | none => none
  | none => none

/-- The file that `Opcode::Make` constructs when `nextFileId` is `id`: `File()` with the id and
the filename set. -/
def madeFile (id : Nat) : File := { id := id, filename := to_string id ++ ".txt" }

/-- A node with three exas that each stand before a `make`. -/
def makeNet : Network :=
  { random := zeroEngine
    nodes := [{ name := "N"
                machines := [some { name := "a", code := [{ opcode := .Make }] },
                             some { name := "b", code := [{ opcode := .Make }] },
                             some { name := "c", code := [{ opcode := .Make }] }] }] }

/-- The `k`-th least significant decimal digit of `n` (`k = 0` for the last digit). -/
def decimalDigit (n k : Nat) : Nat := n / 10 ^ k % 10

/-- The number of decimal digits of `n`, counted with at most `fuel` divisions. -/
def decimalLengthAux : Nat → Nat → Nat
  | 0, _ => 1
  | fuel + 1, n => if n < 10 then 1 else 1 + decimalLengthAux fuel (n / 10)

/-- The number of decimal digits of `n`; 0 has one digit. -/
def decimalLength (n : Nat) : Nat := decimalLengthAux n n

/-- The function `pick` of the specification of `swiz` for the input `input`: `pick(0) = 0`,
and `pick(m)` is the `(m-1)`-th least significant digit of the input if the input has at least
`m` digits, and 0 otherwise. -/
def swizPick (input m : Nat) : Nat :=
  if m = 0 then 0
  else if m ≤ decimalLength input then decimalDigit input (m - 1) else 0

/-- The sum of the specification of `swiz` over the decimal digits `m_k` of the mask:
the sum of `10^k * pick(m_k)`. -/
def swizSum (input mask : Nat) : Nat :=
  ((List.range (decimalLength mask)).map fun k =>
    10 ^ k * swizPick input (decimalDigit mask k)).sum

/-- The value that the specification gives for `swiz(input, mask)`: the sum, negated for a
negative mask. -/
def swizFormula (input mask : Int) : Int :=
  (if mask < 0 then -1 else 1) * (swizSum input.natAbs mask.natAbs : Int)

/-- The first `len` decimal digits of `n`, the least significant first. -/
def digitsLE (n : Nat) : Nat → List Nat
  | 0 => []
  | len + 1 => n % 10 :: digitsLE (n / 10) len

/-- The number written with the digits `p d` for the digits `d` of a list, the least
significant first. -/
def sumLE (p : Nat → Nat) : List Nat → Nat
  | [] => 0
  | d :: ds => p d + 10 * sumLE p ds

/-- One exa on node `N` in global mode that holds the file 200 with the values 1, 2, 3 and the
cursor at 0, before its only instruction `inst`; the global channel holds `chan`. -/
def cursorNet (inst : Instruction) (chan : Option Value) : Network :=
  { random := zeroEngine
    globalChannel := { val := chan }
    nodes := [{ name := "N"
                machines := [some { name := "r"
                                    x := .num 7
                                    code := [inst]
                                    file := some { id := 200
                                                   values := [.num 1, .num 2, .num 3] } }] }] }

/-- What a step of the exa of `cursorNet` leaves: its instruction pointer, its terminated
flag, its X, and the cursor of the file it holds. -/
def viewAfterStep (net : Network) : Option (Nat × Bool × Value × Option Nat) :=
  match Res.state? (stepMachine 0 0 net) with
  | some n1 =>
    (n1.machineAt 0 0).map fun m => (m.instPtr, m.terminated, m.x, m.file.map fun f => f.offset)
  | none => none

/-- Two nodes `A` and `B` with the link 800 from `A` to `B`; the exa `r` on `A` executes
`copy 800 x` and then `link x`. -/
def linkReg.assemble (g : RandomEngine) : Asm Network := do
  let n ← processConfigDirective (.node "A" none) (Network.initial g)
  let n ← processConfigDirective (.node "B" none) n
  let n ← processConfigDirective (.link "A" "800" "B" none) n
  let n ← processConfigDirective (.home "A") n
  let n ← processConfigDirective (.start "r") n
  let n ← processInstructions ["copy 800 x", "link x"] n
  finalizeActiveMachine n

/-- The network that `linkReg.assemble` builds. -/
def linkReg.net (g : RandomEngine) : Network :=
  { random := g
    stats := { size := 2 }
    pHomeNode := some 0
    nodes := [{ name := "A"
                links := [(800, 1)]
                machines := [some { name := "r"
                                    code := [{ opcode := .Copy, op1 := .num 800, op2 := .reg .X },
                                             { opcode := .Link, op1 := .reg .X }] }] },
              { name := "B" }] }

/-- Two nodes `A` and `B` with the link 800 from `A` to `B`; on `A` the exa `a` executes
`link 800` and the exa `b` executes `kill`. -/
def killVacant.assemble (g : RandomEngine) : Asm Network := do
  let n ← processConfigDirective (.node "A" none) (Network.initial g)
  let n ← processConfigDirective (.node "B" none) n
  let n ← processConfigDirective (.link "A" "800" "B" none) n
  let n ← processConfigDirective (.home "A") n
  let n ← processConfigDirective (.start "a") n
  let n ← processInstructions ["link 800"] n
  let n ← processConfigDirective (.start "b") n
  let n ← processInstructions ["kill"] n
  finalizeActiveMachine n

/-- The network that `killVacant.assemble` builds. -/
def killVacant.net (g : RandomEngine) : Network :=
  { random := g
    stats := { size := 2 }
    pHomeNode := some 0
    nodes := [{ name := "A"
                links := [(800, 1)]
                machines := [some { name := "a", code := [{ opcode := .Link, op1 := .num 800 }] },
                             some { name := "b", code := [{ opcode := .Kill }] }] },
              { name := "B" }] }

/-- The state of `killVacant.net` in its first cycle after the step of `a`: slot 0 of `A` is
vacated and `a` waits in the arrivals of `B`. -/
def killVacant.moved (g : RandomEngine) : Network :=
  { random := g
    stats := { size := 2, cycles := 1, activity := 1 }
    pHomeNode := some 0
    nodes := [{ name := "A"
                links := [(800, 1)]
                machines := [none, some { name := "b", code := [{ opcode := .Kill }] }] },
              { name := "B"
                incomingMachines := [{ name := "a", instPtr := 1
                                       code := [{ opcode := .Link, op1 := .num 800 }] }] }] }

/-- The sum that `Node::full` compares with the capacity. -/
def Node.load (nd : Node) : Nat :=
  nd.machines.length + nd.files.length + nd.incomingMachines.length

/-- The terminated flags of the machine list of a node, `none` for an empty slot. -/
def Node.flags (nd : Node) : List (Option Bool) :=
  nd.machines.map fun slot => slot.map fun m => m.terminated

/-- Every node holds at most as many exas, files and buffered arrivals as its capacity. -/
def Network.withinCapacity (net : Network) : Prop :=
  ∀ nd ∈ net.nodes, nd.load ≤ nd.capacity

/-- What an operand access, and every instruction other than KILL, LINK, REPL and DROP, keeps
of each node: its capacity, its buffer of arrivals and the terminated flags of its machine
list; the node has no more files than before. -/
def Calm (net n1 : Network) : Prop :=
  n1.nodes.length = net.nodes.length ∧
  ∀ (j : Nat) (nd : Node), net.nodes[j]? = some nd →
    ∃ nd1 : Node, n1.nodes[j]? = some nd1 ∧ nd1.capacity = nd.capacity
      ∧ nd1.incomingMachines = nd.incomingMachines
      ∧ nd1.files.length ≤ nd.files.length ∧ nd1.flags = nd.flags

/-- What every instruction keeps of each node: its capacity and the length of its machine
list; and a node within its capacity stays within it. -/
def Paced (net n1 : Network) : Prop :=
  n1.nodes.length = net.nodes.length ∧
  ∀ (j : Nat) (nd : Node), net.nodes[j]? = some nd →
    ∃ nd1 : Node, n1.nodes[j]? = some nd1 ∧ nd1.capacity = nd.capacity
      ∧ nd1.machines.length = nd.machines.length
      ∧ (nd.load ≤ nd.capacity → nd1.load ≤ nd1.capacity)

/-- What every part of a cycle keeps of each node: its capacity; and a node within its
capacity stays within it. -/
def Within (net n1 : Network) : Prop :=
  n1.nodes.length = net.nodes.length ∧
  ∀ (j : Nat) (nd : Node), net.nodes[j]? = some nd →
    ∃ nd1 : Node, n1.nodes[j]? = some nd1 ∧ nd1.capacity = nd.capacity
      ∧ (nd.load ≤ nd.capacity → nd1.load ≤ nd1.capacity)

/-- What the assembler keeps of a node it has built: no arrival is buffered, the machines and
files are within the capacity, the capacity is a `size_t`, and every slot of the machine list
holds an exa that is not flagged terminated. -/
def Node.assembled (nd : Node) : Prop :=
  nd.incomingMachines = [] ∧ nd.machines.length + nd.files.length ≤ nd.capacity
    ∧ nd.capacity < 2 ^ 64 ∧ ∀ slot ∈ nd.machines, ∃ m : Machine, slot = some m ∧ m.terminated = false

/-- The invariant of the constructor `Network::Network`: every node is `assembled`, and the exa
being assembled is not flagged terminated. -/
def Network.wellAssembled (net : Network) : Prop :=
  (∀ nd ∈ net.nodes, nd.assembled)
    ∧ ∀ m, net.pMachineBeingAssembled = some m → m.terminated = false

/-- The directives of the lines of `capLines`, as the patterns of `processConfigDirective`
match them. -/
def capParse (line : String) : Directive :=
  if line = ".node N 2" then .node "N" (some "2")
  else if line = ".home N" then .home "N"
  else if line = ".start a" then .start "a"
  else .unmatched line

/-- A node `N` of capacity 2 and an exa `a` on it that makes a file, drops it and halts. -/
def capLines : List String := [".node N 2", ".home N", ".start a", "make", "drop", "halt"]

/-- The state of the assembler after the lines of `capLines`. -/
def capAssembling : Network :=
  { random := zeroEngine
    pHomeNode := some 0
    pMachineBeingAssembled := some
      { name := "a"
        code := [{ opcode := .Make }, { opcode := .Drop }, { opcode := .Halt }] }
    nodes := [{ name := "N", capacity := 2 }] }

/-- The network assembled from `capLines`. -/
def capNet : Network :=
  { random := zeroEngine
    stats := { size := 3 }
    pHomeNode := some 0
    nodes := [{ name := "N", capacity := 2
                machines := [some { name := "a"
                                    code := [{ opcode := .Make }, { opcode := .Drop },
                                             { opcode := .Halt }] }] }] }

/-- The part of the state of a node that no step spoils: the capacity is a `size_t`, and no
buffered arrival is flagged terminated. -/
def Node.tidy (nd : Node) : Prop :=
  nd.capacity < 2 ^ 64 ∧ ∀ m ∈ nd.incomingMachines, m.terminated = false

/-- From slot `k` on, every slot of the machine list holds an exa that is not flagged
terminated. -/
def Node.freshFrom (nd : Node) (k : Nat) : Prop :=
  ∀ j, k ≤ j → j < nd.flags.length → nd.flags[j]? = some (some false)

/-- A node while the exa in its slot `mi` executes (`own`), or while an exa of another node
executes: every slot that is still to be stepped holds an exa that is not flagged, and the
executing exa is not flagged (its slot is empty once it has moved away). -/
def Node.inTurn (nd : Node) (own : Bool) (mi : Nat) : Prop :=
  nd.tidy ∧ nd.freshFrom (if own then mi + 1 else 0)
    ∧ (own = true → nd.flags[mi]? ≠ some (some true))

/-- The state of the engine when the turn of slot `mi` of node `ni` comes: on node `ni` every
slot from `mi` on, and on the other nodes every slot, holds an exa that is not flagged. -/
def Network.atTurn (net : Network) (ni mi : Nat) : Prop :=
  ∀ (j : Nat) (nd : Node), net.nodes[j]? = some nd →
    nd.tidy ∧ nd.freshFrom (if j = ni then mi else 0)

/-- The state of the engine while the exa in slot `mi` of node `ni` executes. -/
def Network.inTurn (net : Network) (ni mi : Nat) : Prop :=
  ∀ (j : Nat) (nd : Node), net.nodes[j]? = some nd → nd.inTurn (decide (j = ni)) mi


/-- What an instruction of the exa in slot `mi` of node `ni` keeps: the bound of `Paced`, and
from a state within the capacities the description `inTurn` of the state. -/
def Safe (ni mi : Nat) (net n1 : Network) : Prop :=
  Paced net n1 ∧ (net.withinCapacity → net.inTurn ni mi → n1.inTurn ni mi)

/-- Every slot of every machine list holds an exa that is not flagged terminated, and no
buffered arrival is flagged. -/
def Network.settled (net : Network) : Prop :=
  ∀ (j : Nat) (nd : Node), net.nodes[j]? = some nd → nd.tidy ∧ nd.freshFrom 0

/-- The state of the engine between two cycles: every node is within its capacity, and the
state is `settled`. -/
def Network.fresh (net : Network) : Prop := net.withinCapacity ∧ net.settled

/-- A state that no run reaches: the exa in slot 0 is flagged terminated and stands before
`addi x 1 x`. -/
def flaggedNet : Network :=
  { random := zeroEngine
    nodes := [{ name := "N"
                machines := [some { name := "a", terminated := true
                                    code := [{ opcode := .Addi, op1 := .reg .X, op2 := .num 1,
                                               op3 := .reg .X }] }] }] }

/-- Three nodes; the link 800 from `A` to `B` is made before the node `C` is declared. The exa
`r` on `A` is the one instruction `link 800`. -/
def staleLink.assemble (g : RandomEngine) : Asm Network := do
  let n ← processConfigDirective (.node "A" none) (Network.initial g)
  let n ← processConfigDirective (.node "B" none) n
  let n ← processConfigDirective (.link "A" "800" "B" none) n
  let n ← processConfigDirective (.node "C" none) n
  let n ← processConfigDirective (.home "A") n
  let n ← processConfigDirective (.start "r") n
  let n ← processInstructions ["link 800"] n
  finalizeActiveMachine n

/-- The network that `staleLink.assemble` builds: the third `emplace_back` finds the vector of
two nodes full and moves them, so the link 800 of `A` refers to the storage that `B` has
left. -/
def staleLink.net (g : RandomEngine) : Network :=
  { random := g
    stats := { size := 1 }
    pHomeNode := some 0
    nodes := [{ name := "A"
                links := [(800, 1)]
                danglingLinks := [800]
                machines := [some { name := "r", code := [{ opcode := .Link, op1 := .num 800 }] }] },
              { name := "B" },
              { name := "C" }] }

/-- The home node `A` is chosen before the node `B` is declared; then the exa `x` is started
and its one line `noop` is assembled. The final `finalizeActiveMachine` is still to come. -/
def staleHome.assembling (g : RandomEngine) : Asm Network := do
  let n ← processConfigDirective (.node "A" none) (Network.initial g)
  let n ← processConfigDirective (.home "A") n
  let n ← processConfigDirective (.node "B" none) n
  let n ← processConfigDirective (.start "x") n
  processInstructions ["noop"] n

/-- The state that `staleHome.assembling` reaches: the second `emplace_back` finds the vector
of one node full and moves it, so `pHomeNode` points to the storage that `A` has left. -/
def staleHome.pending (g : RandomEngine) : Network :=
  { random := g
    pHomeNode := some 0
    homeDangling := true
    nodes := [{ name := "A" }, { name := "B" }]
    pMachineBeingAssembled := some { name := "x", code := [{ opcode := .Noop }] } }

/-- The register `#OUT` of node `A` is made before the node `B` is declared. The exa `x` on
`A` is the one instruction `copy 1 #out`. -/
def staleHost.assemble (g : RandomEngine) : Asm Network := do
  let n ← processConfigDirective (.node "A" none) (Network.initial g)
  let n ← processConfigDirective (.reg .stdout "#OUT" "A" none [] g) n
  let n ← processConfigDirective (.node "B" none) n
  let n ← processConfigDirective (.home "A") n
  let n ← processConfigDirective (.start "x") n
  let n ← processInstructions ["copy 1 #out"] n
  finalizeActiveMachine n

/-- The network that `staleHost.assemble` builds: the second `emplace_back` moves the node
`A`, so the `pHost` of its register points to the storage that `A` has left. -/
def staleHost.net (g : RandomEngine) : Network :=
  { random := g
    stats := { size := 1 }
    pHomeNode := some 0
    hwRegMap := [("#out", { host := 0, name := "#OUT" })]
    nodes := [{ name := "A"
                registers := [("#OUT", { name := "#OUT", host := 0, kind := .stdout []
                                         hostDangling := true })]
                machines := [some { name := "x"
                                    code := [{ opcode := .Copy, op1 := .num 1
                                               op2 := .hw { host := 0, name := "#OUT" } }] }] },
              { name := "B" }] }

/-- One node; the exa `x` is the one instruction `test 1 = 1`. -/
def sameTag.assemble (g : RandomEngine) : Asm Network := do
  let n ← processConfigDirective (.node "N" none) (Network.initial g)
  let n ← processConfigDirective (.home "N") n
  let n ← processConfigDirective (.start "x") n
  let n ← processInstructions ["test 1 = 1"] n
  finalizeActiveMachine n

/-- The network that `sameTag.assemble` builds. -/
def sameTag.net (g : RandomEngine) : Network :=
  { random := g
    stats := { size := 1 }
    pHomeNode := some 0
    nodes := [{ name := "N"
                machines := [some { name := "x"
                                    code := [{ opcode := .TestEq, op1 := .num 1
                                               op2 := .num 1 }] }] }] }

@[simp] theorem bind_apply {α β : Type} (x : Exec α) (f : α → Exec β) (net : Network) :
    (x >>= f) net = match x net with
      | .ok a net1 => f a net1
      | .failure msg net1 => .failure msg net1
      | .abort e => .abort e := rfl

@[simp] theorem pure_apply {α : Type} (a : α) (net : Network) :
    (pure a : Exec α) net = .ok a net := rfl

theorem bind_eq_ok {α β : Type} {x : Exec α} {f : α → Exec β} {net n2 : Network} {b : β} :
    (x >>= f) net = .ok b n2 ↔ ∃ a n1, x net = .ok a n1 ∧ f a n1 = .ok b n2 := by
  rw [bind_apply]
  cases h : x net with
  | ok a n1 =>
    constructor
    · intro h2; exact ⟨a, n1, rfl, h2⟩
    · rintro ⟨a1, n3, h2, h3⟩
      cases h2; exact h3
  | failure m1 n1 => simp
  | abort e => simp

theorem bind_eq_failure {α β : Type} {x : Exec α} {f : α → Exec β} {net n2 : Network}
    {msg : String} :
    (x >>= f) net = .failure msg n2 ↔
      x net = .failure msg n2 ∨ ∃ a n1, x net = .ok a n1 ∧ f a n1 = .failure msg n2 := by
  rw [bind_apply]
  cases h : x net with
  | ok a n1 =>
    constructor
    · intro h2; exact Or.inr ⟨a, n1, rfl, h2⟩
    · rintro (h2 | ⟨a1, n3, h2, h3⟩)
      · cases h2
      · cases h2; exact h3
  | failure m1 n1 => simp
  | abort e => simp

theorem pure_eq_ok {α : Type} {a b : α} {net n1 : Network} :
    (pure a : Exec α) net = .ok b n1 ↔ a = b ∧ net = n1 := by
  rw [pure_apply]
  constructor
  · intro h; cases h; exact ⟨rfl, rfl⟩
  · rintro ⟨rfl, rfl⟩; rfl

theorem pure_ne_failure {α : Type} {a : α} {net n1 : Network} {msg : String} :
    (pure a : Exec α) net ≠ .failure msg n1 := by
  rw [pure_apply]; intro h; cases h

theorem getNet_eq_ok {net a n1 : Network} : getNet net = .ok a n1 ↔ net = a ∧ net = n1 := by
  unfold getNet
  constructor
  · intro h; cases h; exact ⟨rfl, rfl⟩
  · rintro ⟨rfl, rfl⟩; rfl

theorem modifyNet_eq_ok {f : Network → Network} {net n1 : Network} {u : Unit} :
    modifyNet f net = .ok u n1 ↔ f net = n1 := by
  unfold modifyNet
  constructor
  · intro h; cases h; rfl
  · rintro rfl; rfl

theorem getNode_eq_ok {ni : Nat} {net n1 : Network} {nd : Node} :
    getNode ni net = .ok nd n1 ↔ net.nodes[ni]? = some nd ∧ net = n1 := by
  unfold getNode
  cases h : net.nodes[ni]? with
  | none => simp
  | some d =>
    constructor
    · intro h2; cases h2; exact ⟨rfl, rfl⟩
    · rintro ⟨h2, rfl⟩; cases h2; rfl

theorem getMachine_eq_ok {ni mi : Nat} {net n1 : Network} {m : Machine} :
    getMachine ni mi net = .ok m n1 ↔ net.machineAt ni mi = some m ∧ net = n1 := by
  unfold getMachine Network.machineAt
  cases h : net.nodes[ni]? with
  | none => simp
  | some d =>
    simp only []
    cases h2 : d.machines[mi]? with
    | none => simp
    | some slot =>
      cases slot with
      | none => simp
      | some m1 =>
        simp only []
        constructor
        · intro h3; cases h3; exact ⟨rfl, rfl⟩
        · rintro ⟨h3, rfl⟩; cases h3; rfl

theorem raiseFailure_ne_ok {α : Type} {msg : String} {net n1 : Network} {a : α} :
    (raiseFailure msg : Exec α) net ≠ .ok a n1 := by
  unfold raiseFailure; intro h; cases h

theorem raiseError_ne_ok {α : Type} {msg : String} {net n1 : Network} {a : α} :
    (raiseError msg : Exec α) net ≠ .ok a n1 := by
  unfold raiseError; intro h; cases h

theorem raiseAbort_ne_ok {α : Type} {e : Abort} {net n1 : Network} {a : α} :
    (raiseAbort e : Exec α) net ≠ .ok a n1 := by
  unfold raiseAbort; intro h; cases h

theorem liftFailing_eq_ok {α : Type} {r : Failing α} {net n1 : Network} {a : α} :
    liftFailing r net = .ok a n1 ↔ r = .ok a ∧ net = n1 := by
  cases r with
  | error msg => simp [liftFailing, raiseFailure]
  | undefined => simp [liftFailing, raiseAbort]
  | ok b =>
    simp only [liftFailing, pure_eq_ok]
    constructor
    · rintro ⟨rfl, rfl⟩; exact ⟨rfl, rfl⟩
    · rintro ⟨h, rfl⟩; cases h; exact ⟨rfl, rfl⟩

/-! ## Facts about state updates -/

theorem modifyNode_eq_ok {ni : Nat} {f : Node → Node} {net n1 : Network} {u : Unit} :
    modifyNode ni f net = .ok u n1 ↔ net.updNode ni f = n1 := by
  unfold modifyNode; exact modifyNet_eq_ok

theorem modifyMachine_eq_ok {ni mi : Nat} {f : Machine → Machine} {net n1 : Network} {u : Unit} :
    modifyMachine ni mi f net = .ok u n1 ↔ net.updMachine ni mi f = n1 := by
  unfold modifyMachine; exact modifyNet_eq_ok

@[simp] theorem modifyNet_apply (f : Network → Network) (net : Network) :
    modifyNet f net = .ok () (f net) := rfl

@[simp] theorem modifyNode_apply (ni : Nat) (f : Node → Node) (net : Network) :
    modifyNode ni f net = .ok () (net.updNode ni f) := rfl

@[simp] theorem modifyMachine_apply (ni mi : Nat) (f : Machine → Machine) (net : Network) :
    modifyMachine ni mi f net = .ok () (net.updMachine ni mi f) := rfl

@[simp] theorem getNet_apply (net : Network) : getNet net = .ok net net := rfl

theorem getMachine_of {ni mi : Nat} {net : Network} {m : Machine}
    (h : net.machineAt ni mi = some m) : getMachine ni mi net = .ok m net :=
  getMachine_eq_ok.2 ⟨h, rfl⟩

theorem getNode_of {ni : Nat} {net : Network} {nd : Node}
    (h : net.nodes[ni]? = some nd) : getNode ni net = .ok nd net :=
  getNode_eq_ok.2 ⟨h, rfl⟩

@[simp] theorem updNode_nodes_self (net : Network) (ni : Nat) (f : Node → Node) :
    (net.updNode ni f).nodes[ni]? = (net.nodes[ni]?).map f := by
  simp [Network.updNode]

theorem updNode_nodes_ne (net : Network) {ni j : Nat} (f : Node → Node) (h : ni ≠ j) :
    (net.updNode ni f).nodes[j]? = net.nodes[j]? := by
  simp [Network.updNode, h]

@[simp] theorem updMachine_nodes_self (net : Network) (ni mi : Nat) (f : Machine → Machine) :
    (net.updMachine ni mi f).nodes[ni]?
      = (net.nodes[ni]?).map fun nd =>
          { nd with machines := nd.machines.modify (Option.map f) mi } := by
  simp [Network.updMachine]

@[simp] theorem machineAt_updMachine (net : Network) (ni mi : Nat) (f : Machine → Machine) :
    (net.updMachine ni mi f).machineAt ni mi = (net.machineAt ni mi).map f := by
  unfold Network.machineAt
  rw [updMachine_nodes_self]
  cases h : net.nodes[ni]? with
  | none => rfl
  | some nd =>
    simp only [Option.map_some']
    rw [List.getElem?_modify_eq]
    cases h2 : nd.machines[mi]? with
    | none => rfl
    | some slot => cases slot <;> rfl

theorem machineAt_node {net : Network} {ni mi : Nat} {m : Machine}
    (h : net.machineAt ni mi = some m) :
    ∃ nd, net.nodes[ni]? = some nd ∧ nd.machines[mi]? = some (some m) := by
  unfold Network.machineAt at h
  cases h1 : net.nodes[ni]? with
  | none => rw [h1] at h; cases h
  | some nd =>
    rw [h1] at h
    simp only [] at h
    cases h2 : nd.machines[mi]? with
    | none => rw [h2] at h; cases h
    | some slot =>
      rw [h2] at h
      cases slot with
      | none => cases h
      | some m1 => cases h; exact ⟨nd, rfl, h2⟩

/-! ## Clamping and the closed forms of `set` -/

theorem clampValue_in_range (lo hi : Number) (h : lo ≤ hi) (v : Value) :
    match clampValue lo hi v with
    | .str _ => True
    | .num n => lo ≤ n ∧ n ≤ hi := by
  cases v with
  | str s => simp [clampValue]
  | num n =>
    simp only [clampValue]
    split_ifs with h1 h2
    · exact ⟨le_refl _, h⟩
    · exact ⟨h, le_refl _⟩
    · exact ⟨not_lt.1 h1, not_lt.1 h2⟩

theorem write_stores (f : File) (c : Value) :
    (f.write c).values[min f.offset f.values.length]? = some c := by
  unfold File.write
  split_ifs with h
  · simp [Nat.min_eq_left (Nat.le_of_lt h), h]
  · have : f.values.length ≤ f.offset := not_lt.1 h
    simp [Nat.min_eq_right this]

theorem set_X_eq {net : Network} {ni mi : Nat} {m : Machine} (v : Value)
    (hm : net.machineAt ni mi = some m) :
    set ni mi (.reg .X) v net
      = .ok true (net.updMachine ni mi fun m1 => { m1 with x := net.clamp v }) := by
  simp [set, getMachine_of hm]

theorem set_T_eq {net : Network} {ni mi : Nat} {m : Machine} (v : Value)
    (hm : net.machineAt ni mi = some m) :
    set ni mi (.reg .T) v net
      = .ok true (net.updMachine ni mi fun m1 => { m1 with t := net.clamp v }) := by
  simp [set, getMachine_of hm]

theorem set_F_eq {net : Network} {ni mi : Nat} {m : Machine} {f : File} (v : Value)
    (hm : net.machineAt ni mi = some m) (hf : m.file = some f) :
    set ni mi (.reg .F) v net
      = .ok true (net.updMachine ni mi fun m1 => { m1 with file := some (f.write (net.clamp v)) }) := by
  simp [set, getMachine_of hm, hf]

theorem set_M_eq {net : Network} {ni mi : Nat} {m : Machine} {nd : Node} (v : Value)
    (hm : net.machineAt ni mi = some m) (hnd : net.nodes[ni]? = some nd) :
    set ni mi (.reg .M) v net
      = if m.globalMode then
          (if net.globalChannel.available then .ok false net
           else .ok true { net with globalChannel := (net.globalChannel.send (net.clamp v)).2 })
        else
          (if nd.localChannel.available then .ok false net
           else .ok true (net.updNode ni fun d =>
             { d with localChannel := (d.localChannel.send (net.clamp v)).2 })) := by
  simp only [set, bind_apply, getNet_apply, getMachine_of hm, getNode_of hnd]
  split_ifs <;> simp

/-! ## Relations kept by computations -/

theorem Keeps.pure {R : Network → Network → Prop} (hr : ∀ n, R n n) {α : Type} (a : α) :
    Keeps R (Pure.pure a : Exec α) :=
  ⟨fun _ _ _ h => (pure_eq_ok.1 h).2 ▸ hr _, fun _ _ _ h => absurd h pure_ne_failure⟩

theorem Keeps.bind {R : Network → Network → Prop} (ht : ∀ a b c, R a b → R b c → R a c)
    {α β : Type} {x : Exec α} {f : α → Exec β} (hx : Keeps R x) (hf : ∀ a, Keeps R (f a)) :
    Keeps R (x >>= f) := by
  constructor
  · intro net b n2 h
    obtain ⟨a, n1, h1, h2⟩ := bind_eq_ok.1 h
    exact ht _ _ _ (hx.ok _ _ _ h1) ((hf a).ok _ _ _ h2)
  · intro net msg n2 h
    rcases bind_eq_failure.1 h with h1 | ⟨a, n1, h1, h2⟩
    · exact hx.failure _ _ _ h1
    · exact ht _ _ _ (hx.ok _ _ _ h1) ((hf a).failure _ _ _ h2)

theorem Keeps.getNet {R : Network → Network → Prop} (hr : ∀ n, R n n) : Keeps R getNet :=
  ⟨fun _ _ _ h => (getNet_eq_ok.1 h).2 ▸ hr _, fun _ _ _ h => (by cases h)⟩

theorem Keeps.getNode {R : Network → Network → Prop} (hr : ∀ n, R n n) (ni : Nat) :
    Keeps R (getNode ni) := by
  constructor
  · intro net a n1 h
    rw [(getNode_eq_ok.1 h).2]; exact hr _
  · intro net msg n1 h
    unfold epp.getNode at h
    split at h <;> cases h

theorem Keeps.getMachine {R : Network → Network → Prop} (hr : ∀ n, R n n) (ni mi : Nat) :
    Keeps R (getMachine ni mi) := by
  constructor
  · intro net a n1 h
    rw [(getMachine_eq_ok.1 h).2]; exact hr _
  · intro net msg n1 h
    unfold epp.getMachine at h
    split at h
    · cases h
    · split at h <;> cases h

theorem Keeps.raiseFailure {R : Network → Network → Prop} (hr : ∀ n, R n n) {α : Type}
    (msg : String) : Keeps R (raiseFailure msg : Exec α) :=
  ⟨fun _ _ _ h => (by cases h), fun _ _ _ h => (by cases h; exact hr _)⟩

theorem Keeps.raiseError {R : Network → Network → Prop} {α : Type} (msg : String) :
    Keeps R (raiseError msg : Exec α) :=
  ⟨fun _ _ _ h => (by cases h), fun _ _ _ h => (by cases h)⟩

theorem Keeps.raiseAbort {R : Network → Network → Prop} {α : Type} (e : Abort) :
    Keeps R (raiseAbort e : Exec α) :=
  ⟨fun _ _ _ h => (by cases h), fun _ _ _ h => (by cases h)⟩

theorem Keeps.liftFailing {R : Network → Network → Prop} (hr : ∀ n, R n n) {α : Type}
    (r : Failing α) : Keeps R (liftFailing r) := by
  cases r with
  | ok a => exact Keeps.pure hr a
  | error msg => exact Keeps.raiseFailure hr msg
  | undefined => exact Keeps.raiseAbort _

theorem Keeps.modifyNet {R : Network → Network → Prop} {f : Network → Network}
    (h : ∀ n, R n (f n)) : Keeps R (modifyNet f) :=
  ⟨fun _ _ _ h1 => (by cases h1; exact h _), fun _ _ _ h1 => (by cases h1)⟩

theorem Keeps.modifyNode {R : Network → Network → Prop} {ni : Nat} {f : Node → Node}
    (h : ∀ n, R n (n.updNode ni f)) : Keeps R (modifyNode ni f) :=
  ⟨fun _ _ _ h1 => (by cases h1; exact h _), fun _ _ _ h1 => (by cases h1)⟩

theorem Keeps.modifyMachine {R : Network → Network → Prop} {ni mi : Nat} {f : Machine → Machine}
    (h : ∀ n, R n (n.updMachine ni mi f)) : Keeps R (modifyMachine ni mi f) :=
  ⟨fun _ _ _ h1 => (by cases h1; exact h _), fun _ _ _ h1 => (by cases h1)⟩

/-! ## Observations under state updates -/

theorem machineAt_updNode (net : Network) (j : Nat) (g : Node → Node) (ni mi : Nat)
    (hg : ∀ nd, (g nd).machines = nd.machines) :
    (net.updNode j g).machineAt ni mi = net.machineAt ni mi := by
  unfold Network.machineAt
  by_cases h : j = ni
  · subst h
    rw [updNode_nodes_self]
    cases net.nodes[j]? with
    | none => rfl
    | some nd => simp only [Option.map_some', hg]
  · rw [updNode_nodes_ne net g h]

theorem slotFor_updNode (net : Network) (j : Nat) (g : Node → Node) (ni mi : Nat)
    (hg : ∀ nd, (g nd).machines = nd.machines)
    (hc : ∀ nd, (g nd).localChannel = nd.localChannel) :
    (net.updNode j g).slotFor ni mi = net.slotFor ni mi := by
  unfold Network.slotFor
  rw [machineAt_updNode net j g ni mi hg]
  by_cases h : j = ni
  · subst h
    rw [updNode_nodes_self]
    cases net.nodes[j]? with
    | none => rfl
    | some nd =>
      cases net.machineAt j mi with
      | none => rfl
      | some m => simp [selectedChannel, hc, Network.updNode]
  · rw [updNode_nodes_ne net g h]
    cases net.nodes[ni]? with
    | none => rfl
    | some nd =>
      cases net.machineAt ni mi with
      | none => rfl
      | some m => simp [selectedChannel, Network.updNode]

theorem slotFor_updMachine (net : Network) (ni mi : Nat) (f : Machine → Machine)
    (hf : ∀ m, (f m).globalMode = m.globalMode) :
    (net.updMachine ni mi f).slotFor ni mi = net.slotFor ni mi := by
  unfold Network.slotFor
  rw [machineAt_updMachine, updMachine_nodes_self]
  cases net.nodes[ni]? with
  | none => cases net.machineAt ni mi <;> rfl
  | some nd =>
    cases net.machineAt ni mi with
    | none => rfl
    | some m => simp [selectedChannel, hf, Network.updMachine, Network.updNode]

theorem ipAt_updMachine (net : Network) (ni mi : Nat) (f : Machine → Machine)
    (hf : ∀ m, (f m).instPtr = m.instPtr) :
    (net.updMachine ni mi f).ipAt ni mi = net.ipAt ni mi := by
  unfold Network.ipAt
  rw [machineAt_updMachine]
  cases net.machineAt ni mi with
  | none => rfl
  | some m => simp [hf]

theorem ipAt_updNode (net : Network) (j : Nat) (g : Node → Node) (ni mi : Nat)
    (hg : ∀ nd, (g nd).machines = nd.machines) :
    (net.updNode j g).ipAt ni mi = net.ipAt ni mi := by
  unfold Network.ipAt
  rw [machineAt_updNode net j g ni mi hg]

theorem SameView.refl (ni mi : Nat) (n : Network) : SameView ni mi n n := ⟨rfl, rfl, rfl, rfl⟩

theorem SameView.trans (ni mi : Nat) (a b c : Network) (h1 : SameView ni mi a b)
    (h2 : SameView ni mi b c) : SameView ni mi a c :=
  ⟨h2.1.trans h1.1, h2.2.1.trans h1.2.1, h2.2.2.1.trans h1.2.2.1, h2.2.2.2.trans h1.2.2.2⟩

theorem SameView.updMachine (net : Network) (ni mi : Nat) (f : Machine → Machine)
    (h1 : ∀ m, (f m).globalMode = m.globalMode) (h2 : ∀ m, (f m).instPtr = m.instPtr) :
    SameView ni mi net (net.updMachine ni mi f) :=
  ⟨rfl, rfl, slotFor_updMachine net ni mi f h1, ipAt_updMachine net ni mi f h2⟩

theorem SameView.updNode (net : Network) (ni mi j : Nat) (g : Node → Node)
    (hg : ∀ nd, (g nd).machines = nd.machines)
    (hc : ∀ nd, (g nd).localChannel = nd.localChannel) :
    SameView ni mi net (net.updNode j g) :=
  ⟨rfl, rfl, slotFor_updNode net j g ni mi hg hc, ipAt_updNode net j g ni mi hg⟩

theorem Keeps_getRaw (ni mi : Nat) (src : Operand) :
    Keeps (SameView ni mi) (getRaw ni mi src) := by
  unfold getRaw
  split
  all_goals
    repeat' first
      | exact Keeps.pure (SameView.refl ni mi) _
      | exact Keeps.getNet (SameView.refl ni mi)
      | exact Keeps.getNode (SameView.refl ni mi) _
      | exact Keeps.getMachine (SameView.refl ni mi) _ _
      | exact Keeps.raiseFailure (SameView.refl ni mi) _
      | exact Keeps.raiseError _
      | exact Keeps.raiseAbort _
      | exact Keeps.liftFailing (SameView.refl ni mi) _
      | exact Keeps.modifyMachine fun n =>
          SameView.updMachine n ni mi _ (fun _ => rfl) (fun _ => rfl)
      | exact Keeps.modifyNode fun n =>
          SameView.updNode n ni mi _ _ (fun _ => rfl) (fun _ => rfl)
      | apply Keeps.bind (SameView.trans ni mi)
      | intro _
      | split

theorem Keeps_get (ni mi : Nat) (src : Operand) : Keeps (SameView ni mi) (get ni mi src) := by
  unfold get
  exact Keeps.bind (SameView.trans ni mi) (Keeps_getRaw ni mi src) fun _ =>
    Keeps.bind (SameView.trans ni mi) (Keeps.getNet (SameView.refl ni mi)) fun _ =>
      Keeps.pure (SameView.refl ni mi) _

theorem get_ne_none {ni mi : Nat} {src : Operand} {net n1 : Network} {r : Option Value}
    (hs : ∀ s, src ≠ .str s) (h : get ni mi src net = .ok r n1) :
    r = none ↔ src = .reg .M ∧ net.slotFor ni mi = some none := by
  unfold get at h
  obtain ⟨r0, n0, h0, h1⟩ := bind_eq_ok.1 h
  simp only [bind_apply, getNet_apply, pure_apply] at h1
  cases h1
  rw [Option.map_eq_none']
  unfold getRaw at h0
  split at h0
  · exact absurd h0 raiseError_ne_ok
  · obtain ⟨m, n2, h2, h3⟩ := bind_eq_ok.1 h0
    cases (pure_eq_ok.1 h3).1; simp
  · obtain ⟨m, n2, h2, h3⟩ := bind_eq_ok.1 h0
    cases (pure_eq_ok.1 h3).1; simp
  · obtain ⟨m, n2, h2, h3⟩ := bind_eq_ok.1 h0
    obtain ⟨hm, rfl⟩ := getMachine_eq_ok.1 h2
    simp only [bind_apply, getNet_apply] at h3
    cases hn : getNode ni net with
    | failure msg n3 => rw [hn] at h3; cases h3
    | abort e => rw [hn] at h3; cases h3
    | ok nd n3 =>
      rw [hn] at h3
      obtain ⟨hnd, rfl⟩ := getNode_eq_ok.1 hn
      simp only [Network.slotFor, hm, hnd, selectedChannel, true_and]
      simp only [] at h3
      cases hg : m.globalMode <;> simp only [hg] at h3 ⊢
      · cases hav : nd.localChannel.val with
        | none =>
          simp only [Channel.available, hav, Option.isSome_none, Bool.and_false, Bool.false_eq_true,
            if_false, Bool.false_and] at h3
          cases (pure_eq_ok.1 h3).1
          simp [hav]
        | some w =>
          simp only [Channel.available, hav, Option.isSome_some, Bool.and_true, Bool.not_false,
            Bool.false_and, Bool.false_eq_true, if_false, if_true] at h3
          cases (pure_eq_ok.1 h3).1
          simp [Channel.receive, hav]
      · cases hav : net.globalChannel.val with
        | none =>
          simp only [Channel.available, hav, Option.isSome_none, Bool.and_false, Bool.false_eq_true,
            if_false, Bool.not_true, Bool.false_and] at h3
          cases (pure_eq_ok.1 h3).1
          simp [hav]
        | some w =>
          simp only [Channel.available, hav, Option.isSome_some, Bool.and_true, if_true] at h3
          cases (pure_eq_ok.1 h3).1
          simp [Channel.receive, hav]
  · obtain ⟨m, n2, h2, h3⟩ := bind_eq_ok.1 h0
    cases hf : m.file with
    | none => rw [hf] at h3; exact absurd h3 raiseFailure_ne_ok
    | some f =>
      rw [hf] at h3
      obtain ⟨p, n3, h4, h5⟩ := bind_eq_ok.1 h3
      obtain ⟨u, n4, h6, h7⟩ := bind_eq_ok.1 h5
      cases (pure_eq_ok.1 h7).1; simp
  · cases (pure_eq_ok.1 h0).1; simp
  · exact absurd h0 raiseError_ne_ok
  · rename_i hw
    obtain ⟨host, n2, h2, h3⟩ := bind_eq_ok.1 h0
    cases hr : mapFind hw.name host.registers with
    | none => rw [hr] at h3; exact absurd h3 raiseAbort_ne_ok
    | some rg =>
      rw [hr] at h3
      simp only [] at h3
      by_cases hh : rg.hostDangling = false ∧ rg.host = ni
      · rw [if_pos hh] at h3
        obtain ⟨u, n4, h6, h7⟩ := bind_eq_ok.1 h3
        cases (pure_eq_ok.1 h7).1; simp
      · rw [if_neg hh] at h3
        exact absurd h3 raiseFailure_ne_ok
  · exact absurd rfl (hs _)

/-! ## Every write of an instruction goes through `set` -/

theorem writes_via_set {ni mi : Nat} {inst : Instruction} {net n1 : Network} {d : Operand}
    (hd : inst.dest = some d) (h : execInstruction ni mi inst net = .ok true n1) :
    ∃ na v, set ni mi d v na = .ok true n1
      ∧ na.rangeMin = net.rangeMin ∧ na.rangeMax = net.rangeMax := by
  obtain ⟨opcode, op1, op2, op3⟩ := inst
  have arith : ∀ (op : Value → Value → Failing Value),
      execArith ni mi ⟨opcode, op1, op2, op3⟩ op net = .ok true n1 →
        ∃ na v, set ni mi op3 v na = .ok true n1
          ∧ na.rangeMin = net.rangeMin ∧ na.rangeMax = net.rangeMax := by
    intro op h
    unfold execArith at h
    obtain ⟨l, na, hl, h2⟩ := bind_eq_ok.1 h
    obtain ⟨r, nb, hr, h3⟩ := bind_eq_ok.1 h2
    have hva := (Keeps_get ni mi _).ok _ _ _ hl
    have hvb := (Keeps_get ni mi _).ok _ _ _ hr
    cases l with
    | none =>
      simp only [] at h3
      have := (pure_eq_ok.1 h3).1
      cases this
    | some lv =>
      cases r with
      | none =>
        simp only [] at h3
        have := (pure_eq_ok.1 h3).1
        cases this
      | some rv =>
        simp only [] at h3
        obtain ⟨v, nc, hv, h4⟩ := bind_eq_ok.1 h3
        obtain ⟨_, rfl⟩ := liftFailing_eq_ok.1 hv
        exact ⟨_, v, h4, hvb.1.trans hva.1, hvb.2.1.trans hva.2.1⟩
  cases opcode <;> simp only [Instruction.dest, Option.some.injEq, reduceCtorEq] at hd
  case Copy =>
    subst hd
    simp only [execInstruction] at h
    obtain ⟨r, na, hr, h2⟩ := bind_eq_ok.1 h
    have hv := (Keeps_get ni mi _).ok _ _ _ hr
    cases r with
    | none =>
      simp only [] at h2
      have := (pure_eq_ok.1 h2).1
      cases this
    | some v =>
      simp only [] at h2
      exact ⟨na, v, h2, hv.1, hv.2.1⟩
  case Addi | Subi | Muli | Divi | Modi | Swiz =>
    subst hd
    simp only [execInstruction] at h
    exact arith _ h
  case Host =>
    subst hd
    simp only [execInstruction] at h
    obtain ⟨nd, na, hn, h2⟩ := bind_eq_ok.1 h
    obtain ⟨_, rfl⟩ := getNode_eq_ok.1 hn
    exact ⟨_, _, h2, rfl, rfl⟩
  case File =>
    subst hd
    simp only [execInstruction] at h
    obtain ⟨m, na, hg, h2⟩ := bind_eq_ok.1 h
    obtain ⟨_, rfl⟩ := getMachine_eq_ok.1 hg
    cases hf : m.file with
    | none => rw [hf] at h2; exact absurd h2 raiseFailure_ne_ok
    | some f =>
      rw [hf] at h2
      exact ⟨_, _, h2, rfl, rfl⟩
  case Rand =>
    subst hd
    simp only [execInstruction, bind_apply, getNet_apply, modifyNet_apply] at h
    exact ⟨_, _, h, rfl, rfl⟩

/-! ## The instruction pointer under the instructions that do not jump -/

theorem Keeps.mono {R S : Network → Network → Prop} (h : ∀ a b, R a b → S a b) {α : Type}
    {x : Exec α} (hx : Keeps R x) : Keeps S x :=
  ⟨fun _ _ _ e => h _ _ (hx.ok _ _ _ e), fun _ _ _ e => h _ _ (hx.failure _ _ _ e)⟩

theorem IpKept.ip_refl (ni mi : Nat) (n : Network) : IpKept ni mi n n := Or.inl rfl

theorem IpKept.ip_trans (ni mi : Nat) (a b c : Network) (h1 : IpKept ni mi a b)
    (h2 : IpKept ni mi b c) : IpKept ni mi a c := by
  unfold IpKept at *
  rcases h2 with h2 | h2
  · rcases h1 with h1 | h1
    · exact Or.inl (h2.trans h1)
    · exact Or.inr (h2.trans h1)
  · exact Or.inr h2

theorem IpKept.ip_same_nodes (ni mi : Nat) (n n1 : Network) (h : n1.nodes = n.nodes) :
    IpKept ni mi n n1 := by
  refine Or.inl ?_
  unfold Network.ipAt Network.machineAt
  rw [h]

theorem IpKept.ip_updMachine (n : Network) (ni mi : Nat) (f : Machine → Machine)
    (h : ∀ m, (f m).instPtr = m.instPtr) : IpKept ni mi n (n.updMachine ni mi f) :=
  Or.inl (ipAt_updMachine n ni mi f h)

theorem IpKept.ip_updNode (n : Network) (ni mi j : Nat) (g : Node → Node)
    (h : ∀ nd, (g nd).machines = nd.machines) : IpKept ni mi n (n.updNode j g) :=
  Or.inl (ipAt_updNode n j g ni mi h)

theorem Keeps_get_ip (ni mi : Nat) (src : Operand) : Keeps (IpKept ni mi) (get ni mi src) :=
  Keeps.mono (fun _ _ h => Or.inl h.2.2.2) (Keeps_get ni mi src)

theorem Keeps_set_ip (ni mi : Nat) (dest : Operand) (v : Value) :
    Keeps (IpKept ni mi) (set ni mi dest v) := by
  unfold set
  apply Keeps.bind (IpKept.ip_trans ni mi) (Keeps.getNet (IpKept.ip_refl ni mi))
  intro net0
  simp only []
  split
  all_goals
    repeat' first
      | exact Keeps.pure (IpKept.ip_refl ni mi) _
      | exact Keeps.getNet (IpKept.ip_refl ni mi)
      | exact Keeps.getNode (IpKept.ip_refl ni mi) _
      | exact Keeps.getMachine (IpKept.ip_refl ni mi) _ _
      | exact Keeps.raiseFailure (IpKept.ip_refl ni mi) _
      | exact Keeps.raiseError _
      | exact Keeps.raiseAbort _
      | exact Keeps.liftFailing (IpKept.ip_refl ni mi) _
      | exact Keeps.modifyMachine fun n => IpKept.ip_updMachine n ni mi _ (fun _ => rfl)
      | exact Keeps.modifyNode fun n => IpKept.ip_updNode n ni mi _ _ (fun _ => rfl)
      | exact Keeps.modifyNet fun n => IpKept.ip_same_nodes ni mi n _ rfl
      | apply Keeps.bind (IpKept.ip_trans ni mi)
      | intro _
      | split

theorem killLoop_map {β : Type} (g : Machine → β)
    (hg : ∀ m : Machine, g { m with terminated := true } = g m) (self target : Nat) :
    ∀ (l : List (Option Machine)) (j : Nat) (c : Int) (ms : List (Option Machine)),
      killLoop self target j c l = some ms →
        ms.map (Option.map g) = l.map (Option.map g) := by
  intro l
  induction l with
  | nil =>
    intro j c ms h
    simp only [killLoop] at h
    cases h; rfl
  | cons slot rest ih =>
    intro j c ms h
    simp only [killLoop] at h
    generalize (if j = self then c - 1 else c) = c1 at h
    by_cases ht : toSizeT c1 = target
    · rw [if_pos ht] at h
      cases slot with
      | none => cases h
      | some m =>
        simp only [Option.some.injEq] at h
        subst h
        simp [hg]
    · rw [if_neg ht] at h
      cases hr : killLoop self target (j + 1) c1 rest with
      | none => rw [hr] at h; cases h
      | some ms1 =>
        rw [hr] at h
        simp only [Option.map_some', Option.some.injEq] at h
        subst h
        simp only [List.map_cons, ih _ _ _ hr]

theorem machineAt_of_node {net : Network} {ni mi : Nat} {nd : Node}
    (h : net.nodes[ni]? = some nd) : net.machineAt ni mi = (nd.machines[mi]?).join := by
  unfold Network.machineAt
  rw [h]
  cases h2 : nd.machines[mi]? with
  | none => simp only [h2]; rfl
  | some slot => cases slot <;> (simp only [h2]; rfl)

theorem getNode_none {ni : Nat} {net : Network} (h : net.nodes[ni]? = none) :
    getNode ni net = .abort .badReference := by
  unfold getNode; rw [h]

theorem execKill_eq {ni mi : Nat} {net : Network} {nd : Node} (hnd : net.nodes[ni]? = some nd) :
    execKill ni mi net =
      if nd.machines.length > 1 then
        match killLoop mi (net.random.dist (nd.machines.length - 2)).1 0 0 nd.machines with
        | some ms =>
          .ok true (Network.updNode
            { net with stats := { net.stats with activity := net.stats.activity + 1 },
                       random := (net.random.dist (nd.machines.length - 2)).2 }
            ni fun d => { d with machines := ms })
        | none => .abort .nullDeref
      else .ok true { net with stats := { net.stats with activity := net.stats.activity + 1 } } := by
  have hnd1 : getNode ni { net with stats := { net.stats with activity := net.stats.activity + 1 } }
      = .ok nd { net with stats := { net.stats with activity := net.stats.activity + 1 } } :=
    getNode_of hnd
  unfold execKill
  simp only [bind_apply, modifyNet_apply, hnd1]
  by_cases hlen : nd.machines.length > 1
  · simp only [if_pos hlen, bind_apply, getNet_apply, modifyNet_apply]
    cases hk : killLoop mi (net.random.dist (nd.machines.length - 2)).1 0 0 nd.machines with
    | none => rfl
    | some ms => rfl
  · simp only [if_neg hlen, pure_apply]

theorem Keeps_execKill_ip (ni mi : Nat) : Keeps (IpKept ni mi) (execKill ni mi) := by
  have key : ∀ net, match execKill ni mi net with
      | .ok _ n1 => IpKept ni mi net n1
      | .failure _ n1 => IpKept ni mi net n1
      | .abort _ => True := by
    intro net
    cases hnd : net.nodes[ni]? with
    | none =>
      have : execKill ni mi net = .abort .badReference := by
        unfold execKill
        have hn : getNode ni { net with stats := { net.stats with activity := net.stats.activity + 1 } }
            = .abort .badReference := getNode_none hnd
        simp only [bind_apply, modifyNet_apply, hn]
      rw [this]; trivial
    | some nd =>
      rw [execKill_eq hnd]
      by_cases hlen : nd.machines.length > 1
      · rw [if_pos hlen]
        cases hk : killLoop mi (net.random.dist (nd.machines.length - 2)).1 0 0 nd.machines with
        | none => trivial
        | some ms =>
          refine Or.inl ?_
          unfold Network.ipAt
          rw [machineAt_of_node hnd]
          have hnd1 : (Network.updNode
              { net with stats := { net.stats with activity := net.stats.activity + 1 },
                         random := (net.random.dist (nd.machines.length - 2)).2 }
              ni fun d => { d with machines := ms }).nodes[ni]? = some { nd with machines := ms } := by
            rw [updNode_nodes_self]
            simp only [hnd, Option.map_some']
          rw [machineAt_of_node hnd1]
          have hmap := killLoop_map (fun m => m.instPtr) (fun _ => rfl) _ _ _ _ _ _ hk
          have h3 : (ms.map (Option.map fun m => m.instPtr))[mi]?
              = (nd.machines.map (Option.map fun m => m.instPtr))[mi]? := by rw [hmap]
          simp only [List.getElem?_map] at h3
          cases h4 : ms[mi]? with
          | none =>
            rw [h4] at h3
            cases h5 : nd.machines[mi]? with
            | none => rfl
            | some s5 => rw [h5] at h3; cases h3
          | some s4 =>
            rw [h4] at h3
            cases h5 : nd.machines[mi]? with
            | none => rw [h5] at h3; cases h3
            | some s5 =>
              rw [h5] at h3
              simp only [Option.map_some', Option.some.injEq] at h3
              simpa using h3
      · rw [if_neg hlen]
        exact IpKept.ip_same_nodes ni mi _ _ rfl
  constructor
  · intro net a n1 h
    have := key net
    rw [h] at this
    exact this
  · intro net msg n1 h
    have := key net
    rw [h] at this
    exact this

theorem ipAt_clear (n : Network) (ni mi : Nat) :
    (n.updNode ni fun d => { d with machines := d.machines.set mi none }).ipAt ni mi = none := by
  unfold Network.ipAt Network.machineAt
  rw [updNode_nodes_self]
  cases n.nodes[ni]? with
  | none => rfl
  | some nd =>
    simp only [Option.map_some']
    by_cases h : mi < nd.machines.length
    · simp [List.getElem?_set_self, h]
    · have h2 : nd.machines.length ≤ mi := not_lt.1 h
      have h3 : (nd.machines.set mi none)[mi]? = none := by
        rw [List.getElem?_eq_none_iff]; simpa using h2
      simp only [h3, Option.map_none']

theorem Keeps_execLink_ip (ni mi : Nat) (inst : Instruction) :
    Keeps (IpKept ni mi) (execLink ni mi inst) := by
  unfold execLink
  repeat' first
    | exact Keeps.pure (IpKept.ip_refl ni mi) _
    | exact Keeps_get_ip _ _ _
    | exact Keeps.getNet (IpKept.ip_refl ni mi)
    | exact Keeps.getNode (IpKept.ip_refl ni mi) _
    | exact Keeps.getMachine (IpKept.ip_refl ni mi) _ _
    | exact Keeps.raiseFailure (IpKept.ip_refl ni mi) _
    | exact Keeps.raiseError _
    | exact Keeps.raiseAbort _
    | exact Keeps.modifyNode fun n => Or.inr (ipAt_clear n ni mi)
    | exact Keeps.modifyNode fun n => IpKept.ip_updNode n ni mi _ _ (fun _ => rfl)
    | exact Keeps.modifyNet fun n => IpKept.ip_same_nodes ni mi n _ rfl
    | apply Keeps.bind (IpKept.ip_trans ni mi)
    | intro _
    | split

theorem Keeps_execArith_ip (ni mi : Nat) (inst : Instruction)
    (op : Value → Value → Failing Value) : Keeps (IpKept ni mi) (execArith ni mi inst op) := by
  unfold execArith
  repeat' first
    | exact Keeps.pure (IpKept.ip_refl ni mi) _
    | exact Keeps_get_ip _ _ _
    | exact Keeps_set_ip _ _ _ _
    | exact Keeps.liftFailing (IpKept.ip_refl ni mi) _
    | apply Keeps.bind (IpKept.ip_trans ni mi)
    | intro _
    | split

theorem Keeps_execTest_ip (ni mi : Nat) (inst : Instruction)
    (cmp : Value → Value → Option Bool) : Keeps (IpKept ni mi) (execTest ni mi inst cmp) := by
  unfold execTest
  repeat' first
    | exact Keeps.pure (IpKept.ip_refl ni mi) _
    | exact Keeps.raiseAbort _
    | exact Keeps_get_ip _ _ _
    | exact Keeps.getMachine (IpKept.ip_refl ni mi) _ _
    | exact Keeps.modifyMachine fun n => IpKept.ip_updMachine n ni mi _ (fun _ => rfl)
    | apply Keeps.bind (IpKept.ip_trans ni mi)
    | intro _
    | split

theorem Keeps_execInstruction_ip (ni mi : Nat) (inst : Instruction)
    (hj : inst.opcode ≠ .Jump ∧ inst.opcode ≠ .Tjmp ∧ inst.opcode ≠ .Fjmp) :
    Keeps (IpKept ni mi) (execInstruction ni mi inst) := by
  unfold execInstruction
  split
  case h_8 h => exact absurd h hj.1
  case h_9 h => exact absurd h hj.2.1
  case h_10 h => exact absurd h hj.2.2
  all_goals
    repeat' first
      | with_reducible exact Keeps.pure (IpKept.ip_refl ni mi) _
      | with_reducible exact Keeps_get_ip _ _ _
      | with_reducible exact Keeps_set_ip _ _ _ _
      | with_reducible exact Keeps_execArith_ip _ _ _ _
      | with_reducible exact Keeps_execTest_ip _ _ _ _
      | with_reducible exact Keeps_execKill_ip _ _
      | with_reducible exact Keeps_execLink_ip _ _ _
      | with_reducible exact Keeps.getNet (IpKept.ip_refl ni mi)
      | with_reducible exact Keeps.getNode (IpKept.ip_refl ni mi) _
      | with_reducible exact Keeps.getMachine (IpKept.ip_refl ni mi) _ _
      | with_reducible exact Keeps.raiseFailure (IpKept.ip_refl ni mi) _
      | with_reducible exact Keeps.raiseError _
      | with_reducible exact Keeps.raiseAbort _
      | with_reducible exact Keeps.liftFailing (IpKept.ip_refl ni mi) _
      | with_reducible apply Keeps.bind (IpKept.ip_trans ni mi)
      | exact Keeps.modifyMachine fun n => IpKept.ip_updMachine n ni mi _ (fun _ => rfl)
      | exact Keeps.modifyNode fun n => IpKept.ip_updNode n ni mi _ _ (fun _ => rfl)
      | exact Keeps.modifyNet fun n => IpKept.ip_same_nodes ni mi n _ rfl
      | intro _
      | split

/-! ## When `set` is refused -/

theorem slotFor_eq {net : Network} {ni mi : Nat} {m : Machine} {nd : Node}
    (hm : net.machineAt ni mi = some m) (hnd : net.nodes[ni]? = some nd) :
    net.slotFor ni mi = some (selectedChannel net nd m).val := by
  unfold Network.slotFor
  rw [hm, hnd]

theorem set_refused {ni mi : Nat} {dest : Operand} {v : Value} {net n1 : Network} {b : Bool}
    (h : set ni mi dest v net = .ok b n1) :
    (b = false ↔ dest = .reg .M ∧ ∃ w, net.slotFor ni mi = some (some w))
      ∧ (b = false → n1 = net) := by
  cases dest with
  | unassigned => simp [set, raiseError] at h
  | num n => simp [set, raiseError] at h
  | addr a => simp [set, raiseError] at h
  | str s =>
    simp only [set, bind_apply, getNet_apply, pure_apply] at h
    cases h; simp
  | hw r =>
    simp only [set, bind_apply, getNet_apply] at h
    obtain ⟨host, n2, h2, h3⟩ := bind_eq_ok.1 h
    cases hr : mapFind r.name host.registers with
    | none => rw [hr] at h3; exact absurd h3 raiseAbort_ne_ok
    | some rg =>
      rw [hr] at h3
      simp only [] at h3
      by_cases hh : rg.hostDangling = false ∧ rg.host = ni
      · rw [if_pos hh] at h3
        obtain ⟨u, n4, h6, h7⟩ := bind_eq_ok.1 h3
        cases (pure_eq_ok.1 h7).1; simp
      · rw [if_neg hh] at h3
        exact absurd h3 raiseFailure_ne_ok
  | reg r =>
    cases r with
    | X =>
      simp only [set, bind_apply, getNet_apply] at h
      cases hg : getMachine ni mi net with
      | failure msg n2 => rw [hg] at h; cases h
      | abort e => rw [hg] at h; cases h
      | ok m n2 =>
        rw [hg] at h
        simp only [bind_apply, modifyMachine_apply, pure_apply] at h
        cases h; simp
    | T =>
      simp only [set, bind_apply, getNet_apply] at h
      cases hg : getMachine ni mi net with
      | failure msg n2 => rw [hg] at h; cases h
      | abort e => rw [hg] at h; cases h
      | ok m n2 =>
        rw [hg] at h
        simp only [bind_apply, modifyMachine_apply, pure_apply] at h
        cases h; simp
    | F =>
      simp only [set, bind_apply, getNet_apply] at h
      cases hg : getMachine ni mi net with
      | failure msg n2 => rw [hg] at h; cases h
      | abort e => rw [hg] at h; cases h
      | ok m n2 =>
        rw [hg] at h
        simp only [] at h
        cases hf : m.file with
        | none => rw [hf] at h; exact absurd h raiseFailure_ne_ok
        | some f =>
          rw [hf] at h
          simp only [bind_apply, modifyMachine_apply, pure_apply] at h
          cases h; simp
    | M =>
      cases hg : getMachine ni mi net with
      | failure msg n2 => simp [set, hg] at h
      | abort e => simp [set, hg] at h
      | ok m n2 =>
        obtain ⟨hm, hn2⟩ := getMachine_eq_ok.1 hg
        subst hn2
        cases hn : net.nodes[ni]? with
        | none => simp [set, hg, getNode_none hn] at h
        | some nd =>
          rw [set_M_eq v hm hn] at h
          rw [slotFor_eq hm hn]
          unfold selectedChannel
          by_cases hgm : m.globalMode
          · simp only [hgm, if_true] at h ⊢
            cases hav : net.globalChannel.val with
            | none =>
              simp only [Channel.available, hav, Option.isSome_none, Bool.false_eq_true, if_false] at h
              cases h; simp
            | some w =>
              simp only [Channel.available, hav, Option.isSome_some, if_true] at h
              cases h; simp
          · simp only [hgm, Bool.false_eq_true, if_false] at h ⊢
            cases hav : nd.localChannel.val with
            | none =>
              simp only [Channel.available, hav, Option.isSome_none, Bool.false_eq_true, if_false] at h
              cases h; simp
            | some w =>
              simp only [Channel.available, hav, Option.isSome_some, if_true] at h
              cases h; simp

/-! ## Which executions leave `advance` false -/

theorem get_view {ni mi : Nat} {src : Operand} {net n1 : Network} {r : Option Value}
    (h : get ni mi src net = .ok r n1) :
    n1.slotFor ni mi = net.slotFor ni mi ∧ n1.ipAt ni mi = net.ipAt ni mi :=
  ⟨((Keeps_get ni mi src).ok _ _ _ h).2.2.1, ((Keeps_get ni mi src).ok _ _ _ h).2.2.2⟩

theorem copy_advance {ni mi : Nat} {op1 op2 : Operand} {net n1 : Network} {adv : Bool}
    (hs : ∀ s, op1 ≠ .str s)
    (h : (get ni mi op1 >>= fun val =>
            match val with
            | some v => set ni mi op2 v
            | none => pure false) net = .ok adv n1) :
    (adv = false ↔ (op1 = .reg .M ∧ net.slotFor ni mi = some none)
        ∨ (op2 = .reg .M ∧ ∃ w, net.slotFor ni mi = some (some w)))
      ∧ (adv = false → n1.ipAt ni mi = net.ipAt ni mi) := by
  obtain ⟨r, na, hr, h2⟩ := bind_eq_ok.1 h
  have hv := get_view hr
  have hn := get_ne_none hs hr
  cases r with
  | none =>
    simp only [] at h2
    obtain ⟨rfl, rfl⟩ := pure_eq_ok.1 h2
    have h3 := hn.1 rfl
    exact ⟨⟨fun _ => Or.inl h3, fun _ => rfl⟩, fun _ => hv.2⟩
  | some v =>
    simp only [] at h2
    have hset := set_refused h2
    rw [hv.1] at hset
    have hno : ¬ (op1 = .reg .M ∧ net.slotFor ni mi = some none) := by
      intro hc
      have := hn.2 hc
      cases this
    refine ⟨⟨fun ha => Or.inr (hset.1.1 ha), ?_⟩, ?_⟩
    · rintro (hc | hc)
      · exact absurd hc hno
      · exact hset.1.2 hc
    · intro ha
      rw [hset.2 ha]
      exact hv.2

theorem arith_advance {ni mi : Nat} {inst : Instruction} {op : Value → Value → Failing Value}
    {net n1 : Network} {adv : Bool}
    (hs1 : ∀ s, inst.op1 ≠ .str s) (hs2 : ∀ s, inst.op2 ≠ .str s)
    (h : execArith ni mi inst op net = .ok adv n1) :
    (adv = false ↔ ((inst.op1 = .reg .M ∨ inst.op2 = .reg .M) ∧ net.slotFor ni mi = some none)
        ∨ (inst.op3 = .reg .M ∧ ∃ w, net.slotFor ni mi = some (some w)))
      ∧ (adv = false → n1.ipAt ni mi = net.ipAt ni mi) := by
  unfold execArith at h
  obtain ⟨l, na, hl, h2⟩ := bind_eq_ok.1 h
  obtain ⟨r, nb, hr, h3⟩ := bind_eq_ok.1 h2
  have hva := get_view hl
  have hvb := get_view hr
  have hnl := get_ne_none hs1 hl
  have hnr := get_ne_none hs2 hr
  rw [hva.1] at hnr
  have hip : nb.ipAt ni mi = net.ipAt ni mi := hvb.2.trans hva.2
  have hslot : nb.slotFor ni mi = net.slotFor ni mi := hvb.1.trans hva.1
  cases l with
  | none =>
    simp only [] at h3
    obtain ⟨rfl, rfl⟩ := pure_eq_ok.1 h3
    have h4 := hnl.1 rfl
    exact ⟨⟨fun _ => Or.inl ⟨Or.inl h4.1, h4.2⟩, fun _ => rfl⟩, fun _ => hip⟩
  | some lv =>
    cases r with
    | none =>
      simp only [] at h3
      obtain ⟨rfl, rfl⟩ := pure_eq_ok.1 h3
      have h4 := hnr.1 rfl
      exact ⟨⟨fun _ => Or.inl ⟨Or.inr h4.1, h4.2⟩, fun _ => rfl⟩, fun _ => hip⟩
    | some rv =>
      simp only [] at h3
      obtain ⟨v, nc, hv, h4⟩ := bind_eq_ok.1 h3
      obtain ⟨_, rfl⟩ := liftFailing_eq_ok.1 hv
      have hset := set_refused h4
      rw [hslot] at hset
      have hno : ¬ ((inst.op1 = .reg .M ∨ inst.op2 = .reg .M) ∧ net.slotFor ni mi = some none) := by
        rintro ⟨hc | hc, hc2⟩
        · have := hnl.2 ⟨hc, hc2⟩
          cases this
        · have := hnr.2 ⟨hc, hc2⟩
          cases this
      refine ⟨⟨fun ha => Or.inr (hset.1.1 ha), ?_⟩, ?_⟩
      · rintro (hc | hc)
        · exact absurd hc hno
        · exact hset.1.2 hc
      · intro ha
        rw [hset.2 ha]
        exact hip

theorem test_advance {ni mi : Nat} {inst : Instruction} {cmp : Value → Value → Option Bool}
    {net n1 : Network} {adv : Bool}
    (hs1 : ∀ s, inst.op1 ≠ .str s) (hs2 : ∀ s, inst.op2 ≠ .str s)
    (h : execTest ni mi inst cmp net = .ok adv n1) :
    (adv = false ↔ ((inst.op1 = .reg .M ∨ inst.op2 = .reg .M) ∧ net.slotFor ni mi = some none))
      ∧ (adv = false → n1.ipAt ni mi = net.ipAt ni mi) := by
  unfold execTest at h
  obtain ⟨l, na, hl, h2⟩ := bind_eq_ok.1 h
  obtain ⟨r, nb, hr, h3⟩ := bind_eq_ok.1 h2
  have hva := get_view hl
  have hvb := get_view hr
  have hnl := get_ne_none hs1 hl
  have hnr := get_ne_none hs2 hr
  rw [hva.1] at hnr
  have hip : nb.ipAt ni mi = net.ipAt ni mi := hvb.2.trans hva.2
  cases l with
  | none =>
    simp only [] at h3
    obtain ⟨rfl, rfl⟩ := pure_eq_ok.1 h3
    have h4 := hnl.1 rfl
    exact ⟨⟨fun _ => ⟨Or.inl h4.1, h4.2⟩, fun _ => rfl⟩, fun _ => hip⟩
  | some lv =>
    cases r with
    | none =>
      simp only [] at h3
      obtain ⟨rfl, rfl⟩ := pure_eq_ok.1 h3
      have h4 := hnr.1 rfl
      exact ⟨⟨fun _ => ⟨Or.inr h4.1, h4.2⟩, fun _ => rfl⟩, fun _ => hip⟩
    | some rv =>
      simp only [] at h3
      cases hcmp : cmp lv rv with
      | none => rw [hcmp] at h3; exact absurd h3 raiseAbort_ne_ok
      | some c =>
        rw [hcmp] at h3
        simp only [] at h3
        obtain ⟨m0, nc, _, h4⟩ := bind_eq_ok.1 h3
        obtain ⟨u, nd, _, h5⟩ := bind_eq_ok.1 h4
        obtain ⟨rfl, _⟩ := pure_eq_ok.1 h5
        refine ⟨⟨fun ha => (by cases ha), ?_⟩, fun ha => (by cases ha)⟩
        rintro ⟨hc | hc, hc2⟩
        · have := hnl.2 ⟨hc, hc2⟩
          cases this
        · have := hnr.2 ⟨hc, hc2⟩
          cases this

theorem Yields.y_pure {α : Type} {P : α → Prop} {a : α} (h : P a) :
    Yields P (Pure.pure a : Exec α) :=
  ⟨fun _ _ _ e => (pure_eq_ok.1 e).1 ▸ h⟩

theorem Yields.y_bind {α β : Type} {P : β → Prop} {x : Exec α} {f : α → Exec β}
    (hf : ∀ a, Yields P (f a)) : Yields P (x >>= f) :=
  ⟨fun _ _ _ e => by
    obtain ⟨a, n1, _, h2⟩ := bind_eq_ok.1 e
    exact (hf a).ok _ _ _ h2⟩

theorem Yields.y_raiseFailure {α : Type} {P : α → Prop} (msg : String) :
    Yields P (raiseFailure msg : Exec α) :=
  ⟨fun _ _ _ e => absurd e raiseFailure_ne_ok⟩

theorem Yields.y_raiseError {α : Type} {P : α → Prop} (msg : String) :
    Yields P (raiseError msg : Exec α) :=
  ⟨fun _ _ _ e => absurd e raiseError_ne_ok⟩

theorem Yields.y_raiseAbort {α : Type} {P : α → Prop} (e : Abort) :
    Yields P (raiseAbort e : Exec α) :=
  ⟨fun _ _ _ h => absurd h raiseAbort_ne_ok⟩

theorem Yields_execKill (ni mi : Nat) : Yields (fun b => b = true) (execKill ni mi) := by
  unfold execKill
  repeat' first
    | with_reducible exact Yields.y_pure rfl
    | with_reducible exact Yields.y_raiseAbort _
    | with_reducible apply Yields.y_bind
    | intro _
    | split

theorem plain_advance {ni mi : Nat} {inst : Instruction} {net n1 : Network} {adv : Bool}
    (hop : inst.opcode = .Test1 ∨ inst.opcode = .Halt ∨ inst.opcode = .Kill
      ∨ inst.opcode = .Mode ∨ inst.opcode = .Make ∨ inst.opcode = .Wipe ∨ inst.opcode = .Noop
      ∨ inst.opcode = .Dump0 ∨ inst.opcode = .Dump1
      ∨ (inst.opcode = .Void ∧ inst.op1 ≠ .reg .M))
    (h : execInstruction ni mi inst net = .ok adv n1) : adv = true := by
  have hy : Yields (fun b => b = true) (execInstruction ni mi inst) := by
    obtain ⟨opcode, op1, op2, op3⟩ := inst
    simp only at hop
    rcases hop with rfl | rfl | rfl | rfl | rfl | rfl | rfl | rfl | rfl | ⟨rfl, hv⟩
    all_goals
      simp only [execInstruction]
      repeat' first
        | with_reducible exact Yields.y_pure rfl
        | with_reducible exact Yields_execKill _ _
        | with_reducible exact Yields.y_raiseAbort _
        | with_reducible exact Yields.y_raiseError _
        | with_reducible exact Yields.y_raiseFailure _
        | with_reducible apply Yields.y_bind
        | intro _
        | split
    all_goals exact absurd rfl hv
  exact hy.ok _ _ _ h

theorem dest_advance {ni mi : Nat} {dest : Operand} {v : Value} {net na n1 : Network}
    {adv : Bool} (hs : na.slotFor ni mi = net.slotFor ni mi) (hi : na.ipAt ni mi = net.ipAt ni mi)
    (h : set ni mi dest v na = .ok adv n1) :
    (adv = false ↔ dest = .reg .M ∧ ∃ w, net.slotFor ni mi = some (some w))
      ∧ (adv = false → n1.ipAt ni mi = net.ipAt ni mi) := by
  have hset := set_refused h
  rw [hs] at hset
  exact ⟨hset.1, fun ha => by rw [hset.2 ha]; exact hi⟩

theorem source_advance {ni mi : Nat} {op1 : Operand} {net n1 : Network} {adv : Bool}
    {f : Value → Exec Bool} (hs : ∀ s, op1 ≠ .str s)
    (hf : ∀ v, Yields (fun b => b = true) (f v))
    (h : (get ni mi op1 >>= fun r =>
            match r with
            | none => pure false
            | some v => f v) net = .ok adv n1) :
    (adv = false ↔ op1 = .reg .M ∧ net.slotFor ni mi = some none)
      ∧ (adv = false → n1.ipAt ni mi = net.ipAt ni mi) := by
  obtain ⟨r, na, hr, h2⟩ := bind_eq_ok.1 h
  have hv := get_view hr
  have hn := get_ne_none hs hr
  cases r with
  | none =>
    simp only [] at h2
    obtain ⟨rfl, rfl⟩ := pure_eq_ok.1 h2
    exact ⟨⟨fun _ => hn.1 rfl, fun _ => rfl⟩, fun _ => hv.2⟩
  | some v =>
    simp only [] at h2
    have ht := (hf v).ok _ _ _ h2
    subst ht
    refine ⟨⟨fun ha => (by cases ha), fun hc => ?_⟩, fun ha => (by cases ha)⟩
    have := hn.2 hc
    cases this

theorem get_num_eq (ni mi : Nat) (n : Number) (net : Network) :
    get ni mi (.num n) net = .ok (some (net.clamp (.num n))) net := by
  simp [get, getRaw]

theorem exec_advance {ni mi : Nat} {inst : Instruction} {net n1 : Network} {adv : Bool}
    (hsrc : ∀ o ∈ inst.sources, ∀ s, o ≠ .str s)
    (hj : inst.opcode ≠ .Jump ∧ inst.opcode ≠ .Tjmp ∧ inst.opcode ≠ .Fjmp)
    (h : execInstruction ni mi inst net = .ok adv n1) :
    (adv = false ↔ suspendCondition net ni mi inst)
      ∧ (adv = false → n1.ipAt ni mi = net.ipAt ni mi) := by
  obtain ⟨opcode, op1, op2, op3⟩ := inst
  have plain : ∀ {P : Prop}, adv = true → ¬ P → ((adv = false ↔ P) ∧ (adv = false →
      n1.ipAt ni mi = net.ipAt ni mi)) := by
    intro P ha hp
    subst ha
    exact ⟨⟨fun hc => (by cases hc), fun hc => absurd hc hp⟩, fun hc => (by cases hc)⟩
  cases opcode
  case Copy =>
    simp only [execInstruction] at h
    have hs : ∀ s, op1 ≠ .str s := hsrc op1 (by simp [Instruction.sources])
    have := copy_advance hs h
    simp only [suspendCondition, suspendConditionListed, Instruction.sources, Instruction.dest, List.mem_singleton,
      Option.some.injEq, reduceCtorEq, false_and, or_false, @eq_comm _ (Operand.reg Register.M)]
    exact this
  case Jump => exact absurd rfl hj.1
  case Tjmp => exact absurd rfl hj.2.1
  case Fjmp => exact absurd rfl hj.2.2
  case Addi | Subi | Muli | Divi | Modi | Swiz =>
    simp only [execInstruction] at h
    have hs1 : ∀ s, op1 ≠ .str s := hsrc op1 (by simp [Instruction.sources])
    have hs2 : ∀ s, op2 ≠ .str s := hsrc op2 (by simp [Instruction.sources])
    have := @arith_advance _ _ ⟨_, op1, op2, op3⟩ _ _ _ _ hs1 hs2 h
    simp only [suspendCondition, suspendConditionListed, Instruction.sources, Instruction.dest, List.mem_singleton,
      List.mem_cons, List.mem_nil_iff, or_false,
      Option.some.injEq, reduceCtorEq, false_and, @eq_comm _ (Operand.reg Register.M)]
    exact this
  case TestEq | TestGt | TestLt =>
    simp only [execInstruction] at h
    have hs1 : ∀ s, op1 ≠ .str s := hsrc op1 (by simp [Instruction.sources])
    have hs2 : ∀ s, op2 ≠ .str s := hsrc op2 (by simp [Instruction.sources])
    have := @test_advance _ _ ⟨_, op1, op2, op3⟩ _ _ _ _ hs1 hs2 h
    simp only [suspendCondition, suspendConditionListed, Instruction.sources, Instruction.dest, List.mem_singleton,
      List.mem_cons, List.mem_nil_iff, or_false,
      Option.some.injEq, reduceCtorEq, false_and, @eq_comm _ (Operand.reg Register.M)]
    exact this
  case Test1 | Halt | Kill | Mode | Make | Wipe | Noop | Dump0 | Dump1 =>
    refine plain (plain_advance (by simp) h) ?_
    simp [suspendCondition, suspendConditionListed, Instruction.sources, Instruction.dest]
  case Host =>
    simp only [execInstruction] at h
    obtain ⟨nd, na, hn, h2⟩ := bind_eq_ok.1 h
    obtain ⟨_, rfl⟩ := getNode_eq_ok.1 hn
    have := dest_advance rfl rfl h2
    simp only [suspendCondition, suspendConditionListed, Instruction.sources, Instruction.dest, List.mem_nil_iff,
      Option.some.injEq, reduceCtorEq, false_and, or_false, false_or]
    exact this
  case File =>
    simp only [execInstruction] at h
    obtain ⟨m, na, hg, h2⟩ := bind_eq_ok.1 h
    obtain ⟨_, rfl⟩ := getMachine_eq_ok.1 hg
    cases hf : m.file with
    | none => rw [hf] at h2; exact absurd h2 raiseFailure_ne_ok
    | some f =>
      rw [hf] at h2
      have := dest_advance rfl rfl h2
      simp only [suspendCondition, suspendConditionListed, Instruction.sources, Instruction.dest, List.mem_nil_iff,
        Option.some.injEq, reduceCtorEq, false_and, or_false, false_or]
      exact this
  case Rand =>
    simp only [execInstruction, bind_apply, getNet_apply, modifyNet_apply] at h
    have := @dest_advance _ _ _ _ net { net with random := net.random.next.2 } _ _ rfl rfl h
    simp only [suspendCondition, suspendConditionListed, Instruction.sources, Instruction.dest, List.mem_nil_iff,
      Option.some.injEq, reduceCtorEq, false_and, or_false, false_or]
    exact this
  case Void =>
    by_cases hv : op1 = .reg .M
    · subst hv
      simp only [execInstruction] at h
      obtain ⟨r, na, hr, h2⟩ := bind_eq_ok.1 h
      have hvw := get_view hr
      have hn := get_ne_none (by intro s hc; cases hc) hr
      obtain ⟨rfl, rfl⟩ := pure_eq_ok.1 h2
      simp only [suspendCondition, suspendConditionListed, Instruction.sources, Instruction.dest, List.mem_singleton,
        if_true, reduceCtorEq, false_and, or_false, true_and]
      refine ⟨?_, fun _ => hvw.2⟩
      have hn2 : r = none ↔ net.slotFor ni mi = some none := by simpa using hn
      rw [← hn2]
      cases r <;> simp
    · refine plain (plain_advance (Or.inr (Or.inr (Or.inr (Or.inr (Or.inr (Or.inr (Or.inr
        (Or.inr (Or.inr ⟨rfl, hv⟩))))))))) h) ?_
      simp [suspendCondition, suspendConditionListed, Instruction.sources, Instruction.dest, hv]
  case Grab =>
    simp only [execInstruction] at h
    have hs : ∀ s, op1 ≠ .str s := hsrc op1 (by simp [Instruction.sources])
    have := source_advance hs (f := fun v =>
      match v with
      | .str _ => raiseFailure "Tried to grab file with string name"
      | .num n => do
        let nd ← getNode ni
        match mapFind (toUInt16 n) nd.files with
        | none => raiseFailure "Tried to grab nonexistent file"
        | some f =>
          let _ ← getMachine ni mi
          modifyMachine ni mi fun m => { m with file := some f }
          modifyNode ni fun d => { d with files := mapErase (toUInt16 n) d.files }
          pure true) (by
        intro v
        simp only []
        repeat' first
          | with_reducible exact Yields.y_pure rfl
          | with_reducible exact Yields.y_raiseFailure _
          | with_reducible apply Yields.y_bind
          | intro _
          | split) h
    simp only [suspendCondition, suspendConditionListed, Instruction.sources, Instruction.dest, List.mem_singleton,
      reduceCtorEq, false_and, or_false, @eq_comm _ (Operand.reg Register.M)]
    exact this
  case Seek =>
    simp only [execInstruction] at h
    obtain ⟨m, na, hg, h2⟩ := bind_eq_ok.1 h
    obtain ⟨_, rfl⟩ := getMachine_eq_ok.1 hg
    by_cases hf : m.file.isSome = true
    · rw [if_pos hf] at h2
      have hs : ∀ s, op1 ≠ .str s := hsrc op1 (by simp [Instruction.sources])
      have := source_advance hs (f := fun v =>
        match v with
        | .str _ => raiseFailure "Cannot seek: offset is a string"
        | .num d => do
          modifyMachine ni mi fun m1 =>
            { m1 with file := m1.file.map fun f => { f with offset := (f.offset + toSizeT d) % 2 ^ 64 } }
          pure true) (by
          intro v
          simp only []
          repeat' first
            | with_reducible exact Yields.y_pure rfl
            | with_reducible exact Yields.y_raiseFailure _
            | with_reducible apply Yields.y_bind
            | intro _
            | split) h2
      simp only [suspendCondition, suspendConditionListed, Instruction.sources, Instruction.dest, List.mem_singleton,
        reduceCtorEq, false_and, or_false, @eq_comm _ (Operand.reg Register.M)]
      exact this
    · rw [if_neg hf] at h2
      exact absurd h2 raiseFailure_ne_ok
  case Drop =>
    simp only [execInstruction] at h
    obtain ⟨m, na, hg, h2⟩ := bind_eq_ok.1 h
    obtain ⟨_, rfl⟩ := getMachine_eq_ok.1 hg
    cases hf : m.file with
    | none => rw [hf] at h2; exact absurd h2 raiseFailure_ne_ok
    | some f =>
      rw [hf] at h2
      obtain ⟨nd, nb, hn, h3⟩ := bind_eq_ok.1 h2
      obtain ⟨hnd, rfl⟩ := getNode_eq_ok.1 hn
      simp only [suspendCondition, suspendConditionListed, Instruction.sources, Instruction.dest, List.mem_nil_iff,
        reduceCtorEq, false_and, or_false, false_or, true_and, hnd, Option.some.injEq,
        exists_eq_left']
      cases hfull : nd.full with
      | true =>
        simp only [hfull, Bool.not_true, Bool.false_eq_true, if_false] at h3
        obtain ⟨rfl, rfl⟩ := pure_eq_ok.1 h3
        exact ⟨by simp, fun _ => rfl⟩
      | false =>
        simp only [hfull, Bool.not_false, if_true, bind_apply, modifyNode_apply,
          modifyMachine_apply, pure_apply] at h3
        cases h3
        exact ⟨by simp, fun hc => (by cases hc)⟩
  case Repl =>
    simp only [execInstruction] at h
    cases op1 with
    | addr a =>
      simp only [] at h
      obtain ⟨nd, nb, hn, h3⟩ := bind_eq_ok.1 h
      obtain ⟨hnd, rfl⟩ := getNode_eq_ok.1 hn
      simp only [suspendCondition, suspendConditionListed, Instruction.sources, Instruction.dest, List.mem_nil_iff,
        reduceCtorEq, false_and, or_false, false_or, true_and, hnd, Option.some.injEq,
        exists_eq_left']
      cases hfull : nd.full with
      | true =>
        simp only [hfull, Bool.not_true, Bool.false_eq_true, if_false] at h3
        obtain ⟨rfl, rfl⟩ := pure_eq_ok.1 h3
        exact ⟨by simp, fun _ => rfl⟩
      | false =>
        simp only [hfull, Bool.not_false, if_true] at h3
        obtain ⟨m, nc, _, h4⟩ := bind_eq_ok.1 h3
        obtain ⟨_, nd2, _, h5⟩ := bind_eq_ok.1 h4
        obtain ⟨_, ne, _, h6⟩ := bind_eq_ok.1 h5
        obtain ⟨rfl, _⟩ := pure_eq_ok.1 h6
        exact ⟨by simp, fun hc => (by cases hc)⟩
    | _ => exact absurd h raiseError_ne_ok
  case Link =>
    simp only [execInstruction] at h
    unfold execLink at h
    have hs : ∀ s, op1 ≠ .str s := hsrc op1 (by simp [Instruction.sources])
    obtain ⟨r, na, hr, h2⟩ := bind_eq_ok.1 h
    have hv := get_view hr
    have hn := get_ne_none hs hr
    cases r with
    | none =>
      simp only [] at h2
      obtain ⟨rfl, rfl⟩ := pure_eq_ok.1 h2
      have h3 := hn.1 rfl
      refine ⟨⟨fun _ => Or.inl (Or.inl ⟨?_, h3.2⟩), fun _ => rfl⟩, fun _ => hv.2⟩
      simp [Instruction.sources, h3.1]
    | some d =>
      simp only [] at h2
      cases d with
      | str s => exact absurd h2 raiseFailure_ne_ok
      | num x =>
        simp only [] at h2
        cases op1 with
        | num n =>
          simp only [] at h2
          rw [get_num_eq] at hr
          cases hr
          obtain ⟨nd, nb, hgn, h3⟩ := bind_eq_ok.1 h2
          obtain ⟨hnd, rfl⟩ := getNode_eq_ok.1 hgn
          cases hl : mapFind (toInt16 (toUInt16 n)) nd.links with
          | none => rw [hl] at h3; exact absurd h3 raiseFailure_ne_ok
          | some ti =>
            rw [hl] at h3
            simp only [] at h3
            by_cases hdl : toInt16 (toUInt16 n) ∈ nd.danglingLinks
            · rw [if_pos hdl] at h3
              exact absurd h3 raiseAbort_ne_ok
            rw [if_neg hdl] at h3
            obtain ⟨target, nc, hgt, h4⟩ := bind_eq_ok.1 h3
            obtain ⟨htg, rfl⟩ := getNode_eq_ok.1 hgt
            cases hfull : target.full with
            | true =>
              simp only [hfull, if_true] at h4
              obtain ⟨rfl, rfl⟩ := pure_eq_ok.1 h4
              refine ⟨⟨fun _ => ?_, fun _ => rfl⟩, fun _ => rfl⟩
              exact Or.inl (Or.inr (Or.inr (Or.inl ⟨rfl, n, nd, ti, target, rfl, hnd, hl, htg, hfull⟩)))
            | false =>
              simp only [hfull, Bool.false_eq_true, if_false] at h4
              obtain ⟨_, n5, _, h5⟩ := bind_eq_ok.1 h4
              obtain ⟨_, n6, _, h6⟩ := bind_eq_ok.1 h5
              obtain ⟨_, n7, _, h7⟩ := bind_eq_ok.1 h6
              obtain ⟨_, n8, _, h8⟩ := bind_eq_ok.1 h7
              obtain ⟨rfl, _⟩ := pure_eq_ok.1 h8
              refine plain rfl ?_
              simp only [suspendCondition, suspendConditionListed, Instruction.sources, Instruction.dest,
                List.mem_singleton, reduceCtorEq, false_and, or_false, false_or, true_and]
              rintro ⟨n', nd', ti', target', h1, h2', h3', h4', h5'⟩
              cases h1
              rw [hnd] at h2'
              cases h2'
              rw [hl] at h3'
              cases h3'
              rw [htg] at h4'
              cases h4'
              rw [hfull] at h5'
              cases h5'
        | _ => exact absurd h2 raiseAbort_ne_ok

/-! ## One step of a machine -/

theorem fetchExec_eq {ni mi : Nat} {net : Network} {m : Machine} {inst : Instruction}
    (hm : net.machineAt ni mi = some m) (hfetch : m.code[m.instPtr]? = some inst) :
    fetchExec ni mi net = execInstruction ni mi inst net := by
  unfold fetchExec
  simp only [bind_apply, getMachine_of hm, hfetch]

theorem ipAt_of {net : Network} {ni mi : Nat} {m : Machine} (hm : net.machineAt ni mi = some m) :
    net.ipAt ni mi = some m.instPtr := by
  unfold Network.ipAt; rw [hm]; rfl

theorem ipAt_advance (net : Network) (ni mi : Nat) :
    (net.updMachine ni mi fun m => { m with instPtr := m.instPtr + 1 }).ipAt ni mi
      = (net.ipAt ni mi).map (· + 1) := by
  unfold Network.ipAt
  rw [machineAt_updMachine]
  cases net.machineAt ni mi <;> rfl

/-! ## The M check of the assembler -/

theorem regOrVal_M {net : Network} {op : String} {o : Operand} (h : regOrVal net op = .ok o) :
    o = .reg .M ↔ op = "m" := by
  unfold regOrVal at h
  split_ifs at h with h1 h2 h3 h4
  · cases h; subst h1; simp
  · cases h; subst h2; simp
  · cases h; simp [h3]
  · cases h; subst h4; simp
  · cases hf : mapFind op net.hwRegMap with
    | some r => rw [hf] at h; cases h; simp [h3]
    | none =>
      rw [hf] at h
      cases hs : stol op with
      | ok v => rw [hs] at h; cases h; simp [h3]
      | error e => rw [hs] at h; cases h

theorem reg_M {net : Network} {op : String} {o : Operand} (h : reg net op = .ok o) :
    o = .reg .M ↔ op = "m" := by
  unfold reg at h
  split_ifs at h with h1 h2 h3 h4
  · cases h; subst h1; simp
  · cases h; subst h2; simp
  · cases h; simp [h3]
  · cases h; subst h4; simp
  · cases hf : mapFind op net.hwRegMap with
    | some r => rw [hf] at h; cases h; simp [h3]
    | none => rw [hf] at h; cases h

theorem unrecognized_ne (op : String) :
    Abort.error ("Unrecognized register: " ++ op) ≠ tooManyM := by
  intro h
  unfold tooManyM at h
  have h2 := congrArg String.data (Abort.error.inj h)
  rw [String.data_append] at h2
  have h3 := congrArg List.head? h2
  have h4 : ("Unrecognized register: ".data ++ op.data).head? = some 'U' := rfl
  have h5 : "Referenced M register too many times in one instruction".data.head? = some 'R' := rfl
  rw [h4, h5] at h3
  revert h3
  decide

theorem reg_error {net : Network} {op : String} {e : Abort} (h : reg net op = .error e) :
    (∃ msg, e = .error msg) ∧ e ≠ tooManyM := by
  unfold reg at h
  split_ifs at h with h1 h2 h3 h4
  · cases h
  · cases h
  · cases h
  · cases h
  · cases hf : mapFind op net.hwRegMap with
    | some r => rw [hf] at h; cases h
    | none => rw [hf] at h; cases h; exact ⟨⟨_, rfl⟩, unrecognized_ne op⟩

theorem isM_eq (o : Operand) : isM o = if o = .reg .M then 1 else 0 := rfl

theorem checkM_emit (arity : Nat) (net : Network) (m : Machine) (inst : Instruction)
    (hm : net.pMachineBeingAssembled = some m) :
    (emit net inst >>= checkM arity)
      = if (if arity = 2 then isM inst.op1 + isM inst.op2 else numM inst) > 1 then .error tooManyM
        else .ok { net with pMachineBeingAssembled := some { m with code := m.code ++ [inst] } } := by
  simp only [emit, hm, bind, Except.bind, pure, Except.pure, checkM, List.getLast?_concat,
    tooManyM]
  split_ifs <;> rfl

theorem copy_check {net : Network} {m : Machine} {a b : String}
    (hm : net.pMachineBeingAssembled = some m) (ha : isOperand net a) :
    ((a = "m" ∧ b = "m") → ∃ msg, processDoubleArg "copy" a b net = .error (.error msg))
    ∧ (¬ (a = "m" ∧ b = "m") → processDoubleArg "copy" a b net ≠ .error tooManyM) := by
  obtain ⟨oa, hoa⟩ := ha
  have hA := regOrVal_M hoa
  cases hb : reg net b with
  | error e =>
    obtain ⟨⟨msg, hmsg⟩, hne⟩ := reg_error hb
    have hval : processDoubleArg "copy" a b net = .error e := by
      simp only [processDoubleArg, if_true, hoa, hb, bind, Except.bind, pure, Except.pure]
    rw [hval]
    refine ⟨fun _ => ⟨msg, by rw [hmsg]⟩, fun _ hc => ?_⟩
    cases hc
    exact hne rfl
  | ok ob =>
    have hB := reg_M hb
    have hval : processDoubleArg "copy" a b net
        = (emit net { opcode := .Copy, op1 := oa, op2 := ob } >>= checkM 2) := by
      simp only [processDoubleArg, if_true, hoa, hb, bind, Except.bind, pure, Except.pure]
    rw [hval, checkM_emit 2 net m _ hm]
    simp only [if_true, isM_eq, hA, hB]
    constructor
    · rintro ⟨rfl, rfl⟩
      exact ⟨_, rfl⟩
    · intro hn
      by_cases h1 : a = "m" <;> by_cases h2 : b = "m" <;> simp [h1, h2, tooManyM] at hn ⊢

theorem arith_check {net : Network} {m : Machine} {a b c : String} (opcode : Opcode)
    (hm : net.pMachineBeingAssembled = some m) (ha : isOperand net a) (hb : isOperand net b) :
    (2 ≤ [a, b, c].count "m" →
        ∃ msg, (emitArith opcode a b c net >>= checkM 3) = .error (.error msg))
    ∧ ([a, b, c].count "m" ≤ 1 → (emitArith opcode a b c net >>= checkM 3) ≠ .error tooManyM) := by
  obtain ⟨oa, hoa⟩ := ha
  obtain ⟨ob, hob⟩ := hb
  have hA := regOrVal_M hoa
  have hB := regOrVal_M hob
  cases hc : reg net c with
  | error e =>
    obtain ⟨⟨msg, hmsg⟩, hne⟩ := reg_error hc
    have hval : (emitArith opcode a b c net >>= checkM 3) = .error e := by
      simp only [emitArith, hoa, hob, hc, bind, Except.bind, pure, Except.pure]
    rw [hval]
    refine ⟨fun _ => ⟨msg, by rw [hmsg]⟩, fun _ h => ?_⟩
    cases h
    exact hne rfl
  | ok oc =>
    have hC := reg_M hc
    have hval : (emitArith opcode a b c net >>= checkM 3)
        = (emit net { opcode := opcode, op1 := oa, op2 := ob, op3 := oc } >>= checkM 3) := by
      simp only [emitArith, hoa, hob, hc, bind, Except.bind, pure, Except.pure]
    rw [hval, checkM_emit 3 net m _ hm]
    simp only [numM, isM_eq, hA, hB, hC]
    by_cases h1 : a = "m" <;> by_cases h2 : b = "m" <;> by_cases h3 : c = "m" <;>
      simp [h1, h2, h3, tooManyM, List.count_cons]

theorem test_check {net : Network} {m : Machine} {a c : String} (opcode : Opcode)
    (hm : net.pMachineBeingAssembled = some m) (ha : isOperand net a) (hc : isOperand net c) :
    ((a = "m" ∧ c = "m") → ∃ msg, (emitTest opcode a c net >>= checkM 3) = .error (.error msg))
    ∧ (¬ (a = "m" ∧ c = "m") → (emitTest opcode a c net >>= checkM 3) ≠ .error tooManyM) := by
  obtain ⟨oa, hoa⟩ := ha
  obtain ⟨oc, hoc⟩ := hc
  have hA := regOrVal_M hoa
  have hC := regOrVal_M hoc
  have hval : (emitTest opcode a c net >>= checkM 3)
      = (emit net { opcode := opcode, op1 := oa, op2 := oc } >>= checkM 3) := by
    simp only [emitTest, hoa, hoc, bind, Except.bind, pure, Except.pure]
  rw [hval, checkM_emit 3 net m _ hm]
  simp only [numM, isM_eq, hA, hC]
  by_cases h1 : a = "m" <;> by_cases h3 : c = "m" <;> simp [h1, h3, tooManyM]

/-! ## Arrivals are buffered until the end of the cycle -/

theorem IncomingGrows.in_refl (n : Network) : IncomingGrows n n :=
  fun _ nd h => ⟨nd, h, List.prefix_refl _⟩

theorem IncomingGrows.in_trans (a b c : Network) (h1 : IncomingGrows a b) (h2 : IncomingGrows b c) :
    IncomingGrows a c := by
  intro j nd h
  obtain ⟨nd1, hb, p1⟩ := h1 j nd h
  obtain ⟨nd2, hc, p2⟩ := h2 j nd1 hb
  exact ⟨nd2, hc, p1.trans p2⟩

theorem IncomingGrows.in_same_nodes (n n1 : Network) (h : n1.nodes = n.nodes) :
    IncomingGrows n n1 := by
  intro j nd hj
  exact ⟨nd, by rw [h]; exact hj, List.prefix_refl _⟩

theorem IncomingGrows.in_updNode (n : Network) (j : Nat) (g : Node → Node)
    (h : ∀ d, d.incomingMachines <+: (g d).incomingMachines) :
    IncomingGrows n (n.updNode j g) := by
  intro k nd hk
  by_cases hjk : j = k
  · subst hjk
    refine ⟨g nd, ?_, h nd⟩
    rw [updNode_nodes_self, hk]; rfl
  · exact ⟨nd, by rw [updNode_nodes_ne n g hjk]; exact hk, List.prefix_refl _⟩

theorem IncomingGrows.in_updMachine (n : Network) (ni mi : Nat) (f : Machine → Machine) :
    IncomingGrows n (n.updMachine ni mi f) :=
  IncomingGrows.in_updNode n ni _ fun _ => List.prefix_refl _

theorem Keeps_getRaw_in (ni mi : Nat) (src : Operand) :
    Keeps IncomingGrows (getRaw ni mi src) := by
  unfold getRaw
  split
  all_goals
    repeat' first
      | with_reducible exact Keeps.pure IncomingGrows.in_refl _
      | with_reducible exact Keeps.getNet IncomingGrows.in_refl
      | with_reducible exact Keeps.getNode IncomingGrows.in_refl _
      | with_reducible exact Keeps.getMachine IncomingGrows.in_refl _ _
      | with_reducible exact Keeps.raiseFailure IncomingGrows.in_refl _
      | with_reducible exact Keeps.raiseError _
      | with_reducible exact Keeps.raiseAbort _
      | with_reducible exact Keeps.liftFailing IncomingGrows.in_refl _
      | with_reducible apply Keeps.bind IncomingGrows.in_trans
      | exact Keeps.modifyMachine fun n => IncomingGrows.in_updMachine n _ _ _
      | exact Keeps.modifyNode fun n => IncomingGrows.in_updNode n _ _ (fun _ => List.prefix_refl _)
      | intro _
      | split

theorem Keeps_get_in (ni mi : Nat) (src : Operand) : Keeps IncomingGrows (get ni mi src) := by
  unfold get
  exact Keeps.bind IncomingGrows.in_trans (Keeps_getRaw_in ni mi src) fun _ =>
    Keeps.bind IncomingGrows.in_trans (Keeps.getNet IncomingGrows.in_refl) fun _ =>
      Keeps.pure IncomingGrows.in_refl _

theorem Keeps_set_in (ni mi : Nat) (dest : Operand) (v : Value) :
    Keeps IncomingGrows (set ni mi dest v) := by
  unfold set
  apply Keeps.bind IncomingGrows.in_trans (Keeps.getNet IncomingGrows.in_refl)
  intro net0
  simp only []
  split
  all_goals
    repeat' first
      | with_reducible exact Keeps.pure IncomingGrows.in_refl _
      | with_reducible exact Keeps.getNet IncomingGrows.in_refl
      | with_reducible exact Keeps.getNode IncomingGrows.in_refl _
      | with_reducible exact Keeps.getMachine IncomingGrows.in_refl _ _
      | with_reducible exact Keeps.raiseFailure IncomingGrows.in_refl _
      | with_reducible exact Keeps.raiseError _
      | with_reducible exact Keeps.raiseAbort _
      | with_reducible apply Keeps.bind IncomingGrows.in_trans
      | exact Keeps.modifyMachine fun n => IncomingGrows.in_updMachine n _ _ _
      | exact Keeps.modifyNode fun n => IncomingGrows.in_updNode n _ _ (fun _ => List.prefix_refl _)
      | exact Keeps.modifyNet fun n => IncomingGrows.in_same_nodes n _ rfl
      | intro _
      | split

theorem Keeps_execInstruction_in (ni mi : Nat) (inst : Instruction) :
    Keeps IncomingGrows (execInstruction ni mi inst) := by
  unfold execInstruction execArith execTest execKill execLink
  split
  all_goals
    repeat' first
      | with_reducible exact Keeps.pure IncomingGrows.in_refl _
      | with_reducible exact Keeps_get_in _ _ _
      | with_reducible exact Keeps_set_in _ _ _ _
      | with_reducible exact Keeps.getNet IncomingGrows.in_refl
      | with_reducible exact Keeps.getNode IncomingGrows.in_refl _
      | with_reducible exact Keeps.getMachine IncomingGrows.in_refl _ _
      | with_reducible exact Keeps.raiseFailure IncomingGrows.in_refl _
      | with_reducible exact Keeps.raiseError _
      | with_reducible exact Keeps.raiseAbort _
      | with_reducible exact Keeps.liftFailing IncomingGrows.in_refl _
      | with_reducible apply Keeps.bind IncomingGrows.in_trans
      | exact Keeps.modifyMachine fun n => IncomingGrows.in_updMachine n _ _ _
      | exact Keeps.modifyNode fun n => IncomingGrows.in_updNode n _ _ (fun _ => List.prefix_refl _)
      | exact Keeps.modifyNode fun n => IncomingGrows.in_updNode n _ _ (fun _ => List.prefix_append _ _)
      | exact Keeps.modifyNet fun n => IncomingGrows.in_same_nodes n _ rfl
      | intro _
      | split

theorem Keeps_stepMachine_in (ni mi : Nat) : Keeps IncomingGrows (stepMachine ni mi) := by
  have hadv : ∀ b, Keeps IncomingGrows (advanceIp ni mi b) := by
    intro b
    unfold advanceIp
    split
    · exact Keeps.modifyMachine fun n => IncomingGrows.in_updMachine n _ _ _
    · exact Keeps.pure IncomingGrows.in_refl _
  have hfetch : Keeps IncomingGrows (fetchExec ni mi) := by
    unfold fetchExec
    apply Keeps.bind IncomingGrows.in_trans (Keeps.getMachine IncomingGrows.in_refl _ _)
    intro m
    split
    · exact Keeps.raiseFailure IncomingGrows.in_refl _
    · exact Keeps_execInstruction_in _ _ _
  have hcatch : Keeps IncomingGrows
      (do modifyMachine ni mi fun m => { m with terminated := true }
          advanceIp ni mi true : Exec Unit) :=
    Keeps.bind IncomingGrows.in_trans
      (Keeps.modifyMachine fun n => IncomingGrows.in_updMachine n _ _ _) fun _ => hadv true
  constructor
  · intro net a n1 h
    unfold stepMachine at h
    cases hf : fetchExec ni mi net with
    | ok adv n2 =>
      rw [hf] at h
      exact IncomingGrows.in_trans _ _ _ (hfetch.ok _ _ _ hf) ((hadv adv).ok _ _ _ h)
    | failure msg n2 =>
      rw [hf] at h
      exact IncomingGrows.in_trans _ _ _ (hfetch.failure _ _ _ hf) (hcatch.ok _ _ _ h)
    | abort e => rw [hf] at h; cases h
  · intro net msg n1 h
    unfold stepMachine at h
    cases hf : fetchExec ni mi net with
    | ok adv n2 =>
      rw [hf] at h
      exact IncomingGrows.in_trans _ _ _ (hfetch.ok _ _ _ hf) ((hadv adv).failure _ _ _ h)
    | failure msg2 n2 =>
      rw [hf] at h
      exact IncomingGrows.in_trans _ _ _ (hfetch.failure _ _ _ hf) (hcatch.failure _ _ _ h)
    | abort e => rw [hf] at h; cases h

theorem Keeps_stepMachinesFrom_in (ni : Nat) :
    ∀ (count mi : Nat), Keeps IncomingGrows (stepMachinesFrom ni mi count) := by
  intro count
  induction count with
  | zero => intro mi; exact Keeps.pure IncomingGrows.in_refl _
  | succ k ih =>
    intro mi
    exact Keeps.bind IncomingGrows.in_trans (Keeps_stepMachine_in ni mi) fun _ => ih (mi + 1)

theorem Keeps_drain_in (ni : Nat) : Keeps IncomingGrows (modifyNode ni drainNode) :=
  Keeps.modifyNode fun n => IncomingGrows.in_updNode n _ _ (fun _ => List.prefix_refl _)

theorem Keeps_stepNode_in (ni : Nat) : Keeps IncomingGrows (stepNode ni) := by
  unfold stepNode machineLoop
  exact Keeps.bind IncomingGrows.in_trans
    (Keeps.bind IncomingGrows.in_trans (Keeps.getNode IncomingGrows.in_refl _) fun _ =>
      Keeps_stepMachinesFrom_in ni _ _) fun _ => Keeps_drain_in ni

theorem Keeps_stepNodesFrom_in :
    ∀ (count ni : Nat), Keeps IncomingGrows (stepNodesFrom ni count) := by
  intro count
  induction count with
  | zero => intro ni; exact Keeps.pure IncomingGrows.in_refl _
  | succ k ih =>
    intro ni
    exact Keeps.bind IncomingGrows.in_trans (Keeps_stepNode_in ni) fun _ => ih (ni + 1)

theorem Keeps_restOfStepping_in (ni mi k1 k2 : Nat) :
    Keeps IncomingGrows (restOfStepping ni mi k1 k2) := by
  unfold restOfStepping
  exact Keeps.bind IncomingGrows.in_trans (Keeps_stepMachinesFrom_in ni _ _) fun _ =>
    Keeps.bind IncomingGrows.in_trans (Keeps_drain_in ni) fun _ => Keeps_stepNodesFrom_in _ _

/-! ## The closed form of an accepted `LINK` -/

theorem updNode_nodes (net : Network) (j : Nat) (g : Node → Node) (k : Nat) :
    (net.updNode j g).nodes[k]? = if j = k then (net.nodes[k]?).map g else net.nodes[k]? := by
  by_cases h : j = k
  · subst h; rw [if_pos rfl, updNode_nodes_self]
  · rw [if_neg h, updNode_nodes_ne net g h]

theorem modify_set_none (l : List (Option Machine)) (mi : Nat) (f : Machine → Machine) :
    (l.set mi none).modify (Option.map f) mi = l.set mi none := by
  induction l generalizing mi with
  | nil => simp
  | cons a rest ih =>
    cases mi with
    | zero => simp
    | succ k => simp [ih]

/-- The state after an accepted `LINK` of the exa `m` in slot `mi` of node `ni` to node `ti`. -/
theorem stepMachine_link {net : Network} {ni mi : Nat} {m : Machine} {nd target : Node}
    {inst : Instruction} {n : Number} {ti : Nat}
    (hm : net.machineAt ni mi = some m) (hnd : net.nodes[ni]? = some nd)
    (hfetch : m.code[m.instPtr]? = some inst)
    (hop : inst.opcode = .Link) (hlit : inst.op1 = .num n)
    (hlink : mapFind (toInt16 (toUInt16 n)) nd.links = some ti)
    (hlive : toInt16 (toUInt16 n) ∉ nd.danglingLinks)
    (htgt : net.nodes[ti]? = some target) (hfree : target.full = false) :
    stepMachine ni mi net = .ok ()
      ((((Network.updNode
          { net with stats := { net.stats with activity := net.stats.activity + 1 } }
          ni fun d => { d with machines := d.machines.set mi none }).updNode
          ti fun d => { d with incomingMachines :=
            d.incomingMachines ++ [{ m with instPtr := m.instPtr + 1 }] }).updMachine
          ni mi fun m1 => { m1 with instPtr := m1.instPtr + 1 })) := by
  obtain ⟨opcode, op1, op2, op3⟩ := inst
  simp only at hop hlit
  subst hop hlit
  have hm1 : getMachine ni mi
      { net with stats := { net.stats with activity := net.stats.activity + 1 } }
      = .ok m { net with stats := { net.stats with activity := net.stats.activity + 1 } } :=
    getMachine_of hm
  have hexec : execInstruction ni mi ⟨.Link, .num n, op2, op3⟩ net = .ok true
      ((Network.updNode
          { net with stats := { net.stats with activity := net.stats.activity + 1 } }
          ni fun d => { d with machines := d.machines.set mi none }).updNode
          ti fun d => { d with incomingMachines :=
            d.incomingMachines ++ [{ m with instPtr := m.instPtr + 1 }] }) := by
    simp only [execInstruction, execLink, bind_apply, get_num_eq, Network.clamp, clampValue,
      getNode_of hnd, hlink, if_neg hlive, getNode_of htgt, hfree, Bool.false_eq_true, if_false,
      modifyNet_apply, hm1, modifyNode_apply, pure_apply]
  unfold stepMachine
  rw [fetchExec_eq hm hfetch, hexec]
  rfl

/-! ## The loops of a cycle, split at a slot -/

theorem bind_assoc_exec {α β γ : Type} (x : Exec α) (f : α → Exec β) (g : β → Exec γ) :
    ((x >>= f) >>= g) = (x >>= fun a => f a >>= g) := by
  funext net
  simp only [bind_apply]
  cases x net <;> rfl

theorem pure_bind_exec {α β : Type} (a : α) (f : α → Exec β) :
    ((pure a : Exec α) >>= f) = f a := by
  funext net
  simp only [bind_apply, pure_apply]

/-- The machine loop over `k1 + 1 + k2` slots is the loop over the first `k1`, the step of the
next slot, and the loop over the last `k2`. -/
theorem stepMachinesFrom_split (ni : Nat) :
    ∀ (k1 a k2 : Nat), stepMachinesFrom ni a (k1 + 1 + k2)
      = (stepMachinesFrom ni a k1 >>= fun _ =>
          stepMachine ni (a + k1) >>= fun _ => stepMachinesFrom ni (a + k1 + 1) k2) := by
  intro k1
  induction k1 with
  | zero =>
    intro a k2
    have h : 0 + 1 + k2 = k2 + 1 := by omega
    rw [h]
    simp only [stepMachinesFrom, Nat.add_zero, pure_bind_exec]
  | succ k ih =>
    intro a k2
    have h : k + 1 + 1 + k2 = (k + 1 + k2) + 1 := by omega
    rw [h]
    simp only [stepMachinesFrom]
    rw [ih (a + 1) k2, bind_assoc_exec]
    have h2 : a + 1 + k = a + (k + 1) := by omega
    rw [h2]

/-- The node loop over `k1 + 1 + k2` nodes is the loop over the first `k1`, the step of the
next node, and the loop over the last `k2`. -/
theorem stepNodesFrom_split :
    ∀ (k1 a k2 : Nat), stepNodesFrom a (k1 + 1 + k2)
      = (stepNodesFrom a k1 >>= fun _ =>
          stepNode (a + k1) >>= fun _ => stepNodesFrom (a + k1 + 1) k2) := by
  intro k1
  induction k1 with
  | zero =>
    intro a k2
    have h : 0 + 1 + k2 = k2 + 1 := by omega
    rw [h]
    simp only [stepNodesFrom, Nat.add_zero, pure_bind_exec]
  | succ k ih =>
    intro a k2
    have h : k + 1 + 1 + k2 = (k + 1 + k2) + 1 := by omega
    rw [h]
    simp only [stepNodesFrom]
    rw [ih (a + 1) k2, bind_assoc_exec]
    have h2 : a + 1 + k = a + (k + 1) := by omega
    rw [h2]

/-- A cycle, seen from slot `mi` of node `ni`: after the nodes before `ni` and the slots
before `mi` the slot is stepped; what follows is `restOfStepping`, then the merge. -/
theorem cycle_split (ni mi k1 k2 : Nat) (net : Network)
    (hN : net.nodes.length = ni + 1 + k2) :
    cycle net = (do
      modifyNet fun n => { n with stats := { n.stats with cycles := n.stats.cycles + 1 } }
      stepNodesFrom 0 ni
      let nd ← getNode ni
      if nd.machines.length = mi + 1 + k1 then do
        stepMachinesFrom ni 0 mi
        stepMachine ni mi
        restOfStepping ni mi k1 k2
        modifyNet mergeAll
        let net1 ← getNet
        pure (machinesRemaining net1)
      else do
        stepMachinesFrom ni 0 nd.machines.length
        modifyNode ni drainNode
        stepNodesFrom (ni + 1) k2
        modifyNet mergeAll
        let net1 ← getNet
        pure (machinesRemaining net1)) net := by
  unfold cycle
  simp only [bind_apply, modifyNet_apply, getNet_apply]
  have hlen : ({ net with stats := { net.stats with cycles := net.stats.cycles + 1 } } :
      Network).nodes.length = ni + 1 + k2 := hN
  rw [hlen, stepNodesFrom_split ni 0 k2]
  simp only [bind_apply, Nat.zero_add]
  cases h1 : stepNodesFrom 0 ni
      { net with stats := { net.stats with cycles := net.stats.cycles + 1 } } with
  | failure msg na => rfl
  | abort e => rfl
  | ok u na =>
    simp only [stepNode, machineLoop, bind_apply]
    cases h2 : getNode ni na with
    | failure msg nb => rfl
    | abort e => rfl
    | ok nd nb =>
      simp only []
      by_cases hL : nd.machines.length = mi + 1 + k1
      · rw [if_pos hL, hL, stepMachinesFrom_split ni mi 0 k1]
        simp only [bind_apply, Nat.zero_add, restOfStepping]
        cases h3 : stepMachinesFrom ni 0 mi nb with
        | failure msg nc => rfl
        | abort e => rfl
        | ok u2 nc =>
          simp only []
          cases h4 : stepMachine ni mi nc with
          | failure msg nd2 => rfl
          | abort e => rfl
          | ok u3 nd2 =>
            simp only []
            cases h5 : stepMachinesFrom ni (mi + 1) k1 nd2 with
            | failure msg ne => rfl
            | abort e => rfl
            | ok u4 ne =>
              simp only [modifyNode_apply]
              cases h6 : stepNodesFrom (ni + 1) k2 (ne.updNode ni drainNode) with
              | failure msg nf => rfl
              | abort e => rfl
              | ok u5 nf => rfl
      · rw [if_neg hL]
        simp only [bind_apply]
        cases h3 : stepMachinesFrom ni 0 nd.machines.length nb with
        | failure msg nc => rfl
        | abort e => rfl
        | ok u2 nc =>
          simp only [modifyNode_apply]
          cases h6 : stepNodesFrom (ni + 1) k2 (nc.updNode ni drainNode) with
          | failure msg nf => rfl
          | abort e => rfl
          | ok u5 nf => rfl

/-! ## Slots other than the one that is updated -/

theorem machineAt_updMachine_other (net : Network) (ni mi : Nat) (f : Machine → Machine)
    (nj mj : Nat) (h : nj ≠ ni ∨ mj ≠ mi) :
    (net.updMachine ni mi f).machineAt nj mj = net.machineAt nj mj := by
  unfold Network.machineAt Network.updMachine
  by_cases hn : ni = nj
  · subst hn
    have hmj : mj ≠ mi := by
      rcases h with h | h
      · exact absurd rfl h
      · exact h
    rw [updNode_nodes_self]
    cases net.nodes[ni]? with
    | none => rfl
    | some nd =>
      simp [List.getElem?_modify, Ne.symm hmj]
  · rw [updNode_nodes_ne _ _ hn]

/-! ## The closed form of an accepted `REPL` -/

theorem stepMachine_repl {net : Network} {ni mi : Nat} {p : Machine} {nd : Node}
    {inst : Instruction} {a : Nat}
    (hm : net.machineAt ni mi = some p) (hnd : net.nodes[ni]? = some nd)
    (hfetch : p.code[p.instPtr]? = some inst)
    (hop : inst.opcode = .Repl) (haddr : inst.op1 = .addr a) (hfree : nd.full = false) :
    stepMachine ni mi net = .ok ()
      (((net.updMachine ni mi fun m1 => (m1.repl a).2).updNode ni fun d =>
          { d with incomingMachines := d.incomingMachines ++ [(p.repl a).1] }).updMachine
        ni mi fun m1 => { m1 with instPtr := m1.instPtr + 1 }) := by
  obtain ⟨opcode, op1, op2, op3⟩ := inst
  simp only at hop haddr
  subst hop haddr
  have hexec : execInstruction ni mi ⟨.Repl, .addr a, op2, op3⟩ net = .ok true
      ((net.updMachine ni mi fun m1 => (m1.repl a).2).updNode ni fun d =>
          { d with incomingMachines := d.incomingMachines ++ [(p.repl a).1] }) := by
    simp only [execInstruction, bind_apply, getNode_of hnd, hfree, getMachine_of hm,
      Bool.not_false, if_true, modifyMachine_apply, modifyNode_apply, pure_apply]
  unfold stepMachine
  rw [fetchExec_eq hm hfetch, hexec]
  rfl

/-! ## The end of a cycle -/

theorem cycle_eq_ok {net n1 : Network} {r : Nat} (h : cycle net = .ok r n1) :
    r = machinesRemaining n1 ∧ ∃ n0, n1 = mergeAll n0 := by
  unfold cycle at h
  obtain ⟨_, na, _, h⟩ := bind_eq_ok.1 h
  obtain ⟨_, nb, _, h⟩ := bind_eq_ok.1 h
  obtain ⟨_, nc, _, h⟩ := bind_eq_ok.1 h
  obtain ⟨_, nd, h1, h⟩ := bind_eq_ok.1 h
  obtain ⟨_, ne, h2, h⟩ := bind_eq_ok.1 h
  obtain ⟨_, rfl⟩ := modifyNet_eq_ok.1 h1
  obtain ⟨rfl, rfl⟩ := getNet_eq_ok.1 h2
  obtain ⟨rfl, rfl⟩ := pure_eq_ok.1 h
  exact ⟨rfl, nc, rfl⟩

theorem mergeAll_incoming (n0 : Network) :
    ∀ nd ∈ (mergeAll n0).nodes, nd.incomingMachines = [] := by
  intro nd hnd
  simp only [mergeAll, List.mem_map] at hnd
  obtain ⟨d0, _, rfl⟩ := hnd
  rfl

theorem machinesRemaining_zero {net : Network} (h : machinesRemaining net = 0) :
    ∀ nd ∈ net.nodes, nd.machines = [] := by
  intro nd hnd
  unfold machinesRemaining at h
  have := List.sum_eq_zero_iff.1 h nd.machines.length (List.mem_map.2 ⟨nd, hnd, rfl⟩)
  exact List.length_eq_zero.1 this

/-! ## The frame of a step -/

theorem Steady.st_refl (n : Network) : Steady n n :=
  ⟨rfl, rfl, fun _ h => h, fun _ nd _ h1 h2 => ⟨nd, h1, h2⟩⟩

theorem Steady.st_trans (a b c : Network) (h1 : Steady a b) (h2 : Steady b c) : Steady a c := by
  refine ⟨h2.1.trans h1.1, h2.2.1.trans h1.2.1, fun w h => h2.2.2.1 w (h1.2.2.1 w h), ?_⟩
  intro j nd w hj hw
  obtain ⟨nd1, e1, e2⟩ := h1.2.2.2 j nd w hj hw
  exact h2.2.2.2 j nd1 w e1 e2

theorem Steady.st_updNode (n : Network) (j : Nat) (g : Node → Node)
    (hg : ∀ (d : Node) (w : Value), d.localChannel.val = some w → (g d).localChannel.val = some w) :
    Steady n (n.updNode j g) := by
  refine ⟨rfl, rfl, fun _ h => h, ?_⟩
  intro k nd w hk hw
  by_cases hjk : j = k
  · subst hjk
    exact ⟨g nd, by rw [updNode_nodes_self, hk]; rfl, hg nd w hw⟩
  · exact ⟨nd, by rw [updNode_nodes_ne n g hjk]; exact hk, hw⟩

theorem Steady.st_same_nodes (n n1 : Network) (h1 : n1.nodes = n.nodes)
    (h2 : n1.rangeMin = n.rangeMin) (h3 : n1.rangeMax = n.rangeMax)
    (h4 : ∀ w, n.globalChannel.val = some w → n1.globalChannel.val = some w) : Steady n n1 :=
  ⟨h2, h3, h4, fun _ nd _ e1 e2 => ⟨nd, by rw [h1]; exact e1, e2⟩⟩

theorem send_keeps (c : Channel) (v w : Value) (h : c.val = some w) :
    (c.send v).2.val = some w := by
  simp [Channel.send, h]

theorem machineAt_same_nodes {n n1 : Network} (h : n1.nodes = n.nodes) (nj mj : Nat) :
    n1.machineAt nj mj = n.machineAt nj mj := by
  unfold Network.machineAt; rw [h]

theorem machineAt_clear_other (n : Network) (ni mi nj mj : Nat) (h : nj ≠ ni ∨ mj ≠ mi) :
    (n.updNode ni fun d => { d with machines := d.machines.set mi none }).machineAt nj mj
      = n.machineAt nj mj := by
  unfold Network.machineAt
  by_cases hn : ni = nj
  · subst hn
    have hmj : mj ≠ mi := by
      rcases h with h | h
      · exact absurd rfl h
      · exact h
    rw [updNode_nodes_self]
    cases n.nodes[ni]? with
    | none => rfl
    | some nd => simp [List.getElem?_set, Ne.symm hmj]
  · rw [updNode_nodes_ne _ _ hn]

theorem Apart.ap_refl (ni mi : Nat) (n : Network) : Apart ni mi n n :=
  ⟨fun _ _ _ => rfl, Steady.st_refl n⟩

theorem Apart.ap_trans (ni mi : Nat) (a b c : Network) (h1 : Apart ni mi a b)
    (h2 : Apart ni mi b c) : Apart ni mi a c :=
  ⟨fun nj mj h => (h2.1 nj mj h).trans (h1.1 nj mj h), Steady.st_trans a b c h1.2 h2.2⟩

theorem Apart.ap_updMachine (n : Network) (ni mi : Nat) (f : Machine → Machine) :
    Apart ni mi n (n.updMachine ni mi f) :=
  ⟨fun nj mj h => machineAt_updMachine_other n ni mi f nj mj h,
    Steady.st_updNode n ni _ fun _ _ h => h⟩

theorem Apart.ap_updNode (n : Network) (ni mi j : Nat) (g : Node → Node)
    (hg : ∀ d, (g d).machines = d.machines)
    (hc : ∀ (d : Node) (w : Value), d.localChannel.val = some w → (g d).localChannel.val = some w) :
    Apart ni mi n (n.updNode j g) :=
  ⟨fun nj mj _ => machineAt_updNode n j g nj mj hg, Steady.st_updNode n j g hc⟩

theorem Apart.ap_clear (n : Network) (ni mi : Nat) :
    Apart ni mi n (n.updNode ni fun d => { d with machines := d.machines.set mi none }) :=
  ⟨fun nj mj h => machineAt_clear_other n ni mi nj mj h, Steady.st_updNode n ni _ fun _ _ h => h⟩

theorem Apart.ap_same_nodes (ni mi : Nat) (n n1 : Network) (h1 : n1.nodes = n.nodes)
    (h2 : n1.rangeMin = n.rangeMin) (h3 : n1.rangeMax = n.rangeMax)
    (h4 : ∀ w, n.globalChannel.val = some w → n1.globalChannel.val = some w) :
    Apart ni mi n n1 :=
  ⟨fun nj mj _ => machineAt_same_nodes h1 nj mj, Steady.st_same_nodes n n1 h1 h2 h3 h4⟩

theorem Keeps_getRaw_ap (ni mi : Nat) (src : Operand) :
    Keeps (Apart ni mi) (getRaw ni mi src) := by
  unfold getRaw
  split
  all_goals
    repeat' first
      | with_reducible exact Keeps.pure (Apart.ap_refl ni mi) _
      | with_reducible exact Keeps.getNet (Apart.ap_refl ni mi)
      | with_reducible exact Keeps.getNode (Apart.ap_refl ni mi) _
      | with_reducible exact Keeps.getMachine (Apart.ap_refl ni mi) _ _
      | with_reducible exact Keeps.raiseFailure (Apart.ap_refl ni mi) _
      | with_reducible exact Keeps.raiseError _
      | with_reducible exact Keeps.raiseAbort _
      | with_reducible exact Keeps.liftFailing (Apart.ap_refl ni mi) _
      | with_reducible apply Keeps.bind (Apart.ap_trans ni mi)
      | exact Keeps.modifyMachine fun n => Apart.ap_updMachine n _ _ _
      | exact Keeps.modifyNode fun n => Apart.ap_updNode n _ _ _ _ (fun _ => rfl) (fun _ _ h => h)
      | intro _
      | split

theorem Keeps_get_ap (ni mi : Nat) (src : Operand) : Keeps (Apart ni mi) (get ni mi src) := by
  unfold get
  exact Keeps.bind (Apart.ap_trans ni mi) (Keeps_getRaw_ap ni mi src) fun _ =>
    Keeps.bind (Apart.ap_trans ni mi) (Keeps.getNet (Apart.ap_refl ni mi)) fun _ =>
      Keeps.pure (Apart.ap_refl ni mi) _

theorem Keeps_set_ap (ni mi : Nat) (dest : Operand) (v : Value) :
    Keeps (Apart ni mi) (set ni mi dest v) := by
  unfold set
  apply Keeps.bind (Apart.ap_trans ni mi) (Keeps.getNet (Apart.ap_refl ni mi))
  intro net0
  simp only []
  split
  all_goals
    repeat' first
      | with_reducible exact Keeps.pure (Apart.ap_refl ni mi) _
      | with_reducible exact Keeps.getNet (Apart.ap_refl ni mi)
      | with_reducible exact Keeps.getNode (Apart.ap_refl ni mi) _
      | with_reducible exact Keeps.getMachine (Apart.ap_refl ni mi) _ _
      | with_reducible exact Keeps.raiseFailure (Apart.ap_refl ni mi) _
      | with_reducible exact Keeps.raiseError _
      | with_reducible exact Keeps.raiseAbort _
      | with_reducible apply Keeps.bind (Apart.ap_trans ni mi)
      | exact Keeps.modifyMachine fun n => Apart.ap_updMachine n _ _ _
      | exact Keeps.modifyNode fun n => Apart.ap_updNode n _ _ _ _ (fun _ => rfl) (fun _ _ h => h)
      | exact Keeps.modifyNode fun n =>
          Apart.ap_updNode n _ _ _ _ (fun _ => rfl) (fun d w h => send_keeps d.localChannel _ w h)
      | exact Keeps.modifyNet fun n =>
          Apart.ap_same_nodes _ _ n _ rfl rfl rfl (fun w h => send_keeps n.globalChannel _ w h)
      | intro _
      | split

theorem Keeps_execInstruction_ap (ni mi : Nat) (inst : Instruction)
    (hk : inst.opcode ≠ .Kill) : Keeps (Apart ni mi) (execInstruction ni mi inst) := by
  unfold execInstruction execArith execTest execLink
  split
  case h_16 h => exact absurd h hk
  all_goals
    repeat' first
      | with_reducible exact Keeps.pure (Apart.ap_refl ni mi) _
      | with_reducible exact Keeps_get_ap _ _ _
      | with_reducible exact Keeps_set_ap _ _ _ _
      | with_reducible exact Keeps.getNet (Apart.ap_refl ni mi)
      | with_reducible exact Keeps.getNode (Apart.ap_refl ni mi) _
      | with_reducible exact Keeps.getMachine (Apart.ap_refl ni mi) _ _
      | with_reducible exact Keeps.raiseFailure (Apart.ap_refl ni mi) _
      | with_reducible exact Keeps.raiseError _
      | with_reducible exact Keeps.raiseAbort _
      | with_reducible exact Keeps.liftFailing (Apart.ap_refl ni mi) _
      | with_reducible apply Keeps.bind (Apart.ap_trans ni mi)
      | exact Keeps.modifyMachine fun n => Apart.ap_updMachine n _ _ _
      | exact Keeps.modifyNode fun n => Apart.ap_clear n _ _
      | exact Keeps.modifyNode fun n => Apart.ap_updNode n _ _ _ _ (fun _ => rfl) (fun _ _ h => h)
      | exact Keeps.modifyNet fun n => Apart.ap_same_nodes _ _ n _ rfl rfl rfl (fun _ h => h)
      | intro _
      | split

/-! ## The frame of a step, seen from another slot -/

theorem killLoop_slot (self target : Nat) :
    ∀ (l : List (Option Machine)) (j : Nat) (c : Int) (ms : List (Option Machine)),
      killLoop self target j c l = some ms →
        ∀ i : Nat, ms[i]? = l[i]?
          ∨ ∃ m : Machine, l[i]? = some (some m)
              ∧ ms[i]? = some (some { m with terminated := true }) := by
  intro l
  induction l with
  | nil =>
    intro j c ms h i
    simp only [killLoop] at h
    cases h
    exact Or.inl rfl
  | cons slot rest ih =>
    intro j c ms h i
    simp only [killLoop] at h
    generalize (if j = self then c - 1 else c) = c1 at h
    by_cases ht : toSizeT c1 = target
    · rw [if_pos ht] at h
      cases slot with
      | none => cases h
      | some m =>
        simp only [Option.some.injEq] at h
        subst h
        cases i with
        | zero => exact Or.inr ⟨m, by simp, by simp⟩
        | succ k => exact Or.inl (by simp)
    · rw [if_neg ht] at h
      cases hr : killLoop self target (j + 1) c1 rest with
      | none => rw [hr] at h; cases h
      | some ms1 =>
        rw [hr] at h
        simp only [Option.map_some', Option.some.injEq] at h
        subst h
        cases i with
        | zero => exact Or.inl (by simp)
        | succ k => simpa using ih _ _ _ hr k

theorem Lenient.le_refl (nj mj : Nat) (n : Network) : Lenient nj mj n n :=
  ⟨Or.inl rfl, Steady.st_refl n⟩

theorem Lenient.le_trans (nj mj : Nat) (a b c : Network) (h1 : Lenient nj mj a b)
    (h2 : Lenient nj mj b c) : Lenient nj mj a c := by
  refine ⟨?_, Steady.st_trans a b c h1.2 h2.2⟩
  rcases h1.1 with e1 | ⟨m, e1, e2⟩
  · rcases h2.1 with e3 | ⟨m2, e3, e4⟩
    · exact Or.inl (e3.trans e1)
    · exact Or.inr ⟨m2, by rw [← e1]; exact e3, e4⟩
  · rcases h2.1 with e3 | ⟨m2, e3, e4⟩
    · exact Or.inr ⟨m, e1, by rw [e3]; exact e2⟩
    · rw [e2] at e3
      injection e3 with e3
      subst e3
      exact Or.inr ⟨m, e1, e4⟩

theorem Lenient.of_apart {ni mi nj mj : Nat} (h : nj ≠ ni ∨ mj ≠ mi) (a b : Network)
    (hab : Apart ni mi a b) : Lenient nj mj a b :=
  ⟨Or.inl (hab.1 nj mj h), hab.2⟩

theorem Keeps_execKill_le (ni mi nj mj : Nat) : Keeps (Lenient nj mj) (execKill ni mi) := by
  have key : ∀ net, match execKill ni mi net with
      | .ok _ n1 => Lenient nj mj net n1
      | .failure _ n1 => Lenient nj mj net n1
      | .abort _ => True := by
    intro net
    cases hnd : net.nodes[ni]? with
    | none =>
      have : execKill ni mi net = .abort .badReference := by
        unfold execKill
        have hn : getNode ni { net with stats := { net.stats with activity := net.stats.activity + 1 } }
            = .abort .badReference := getNode_none hnd
        simp only [bind_apply, modifyNet_apply, hn]
      rw [this]; trivial
    | some nd =>
      rw [execKill_eq hnd]
      by_cases hlen : nd.machines.length > 1
      · rw [if_pos hlen]
        cases hk : killLoop mi (net.random.dist (nd.machines.length - 2)).1 0 0 nd.machines with
        | none => trivial
        | some ms =>
          refine ⟨?_, Steady.st_updNode _ ni _ fun _ _ h => h⟩
          by_cases hn : ni = nj
          · subst hn
            have hnd1 : (Network.updNode
                { net with stats := { net.stats with activity := net.stats.activity + 1 },
                           random := (net.random.dist (nd.machines.length - 2)).2 }
                ni fun d => { d with machines := ms }).nodes[ni]?
                  = some { nd with machines := ms } := by
              rw [updNode_nodes_self]
              simp only [hnd, Option.map_some']
            unfold SlotFlagOnly
            rw [machineAt_of_node hnd, machineAt_of_node hnd1]
            rcases killLoop_slot _ _ _ _ _ _ hk mj with e | ⟨m, e1, e2⟩
            · exact Or.inl (by simp only [e])
            · exact Or.inr ⟨m, by simp only [e1]; rfl, by simp only [e2]; rfl⟩
          · refine Or.inl ?_
            unfold Network.machineAt
            rw [updNode_nodes_ne _ _ hn]
      · rw [if_neg hlen]
        exact ⟨Or.inl (machineAt_same_nodes rfl nj mj), Steady.st_same_nodes _ _ rfl rfl rfl fun _ h => h⟩
  constructor
  · intro net a n1 h
    have := key net
    rw [h] at this
    exact this
  · intro net msg n1 h
    have := key net
    rw [h] at this
    exact this

theorem execInstruction_kill {ni mi : Nat} {inst : Instruction} (h : inst.opcode = .Kill) :
    execInstruction ni mi inst = execKill ni mi := by
  obtain ⟨opcode, op1, op2, op3⟩ := inst
  simp only at h
  subst h
  rfl

theorem Keeps_execInstruction_le (ni mi nj mj : Nat) (h : nj ≠ ni ∨ mj ≠ mi)
    (inst : Instruction) : Keeps (Lenient nj mj) (execInstruction ni mi inst) := by
  by_cases hk : inst.opcode = .Kill
  · rw [execInstruction_kill hk]
    exact Keeps_execKill_le ni mi nj mj
  · exact Keeps.mono (Lenient.of_apart h) (Keeps_execInstruction_ap ni mi inst hk)

theorem Lenient.le_updMachine {ni mi nj mj : Nat} (h : nj ≠ ni ∨ mj ≠ mi) (n : Network)
    (f : Machine → Machine) : Lenient nj mj n (n.updMachine ni mi f) :=
  Lenient.of_apart h _ _ (Apart.ap_updMachine n ni mi f)

theorem Keeps_stepMachine_le (ni mi nj mj : Nat) (h : nj ≠ ni ∨ mj ≠ mi) :
    Keeps (Lenient nj mj) (stepMachine ni mi) := by
  have hadv : ∀ b, Keeps (Lenient nj mj) (advanceIp ni mi b) := by
    intro b
    unfold advanceIp
    split
    · exact Keeps.modifyMachine fun n => Lenient.le_updMachine h n _
    · exact Keeps.pure (Lenient.le_refl nj mj) _
  have hfetch : Keeps (Lenient nj mj) (fetchExec ni mi) := by
    unfold fetchExec
    apply Keeps.bind (Lenient.le_trans nj mj) (Keeps.getMachine (Lenient.le_refl nj mj) _ _)
    intro m
    split
    · exact Keeps.raiseFailure (Lenient.le_refl nj mj) _
    · exact Keeps_execInstruction_le ni mi nj mj h _
  have hcatch : Keeps (Lenient nj mj)
      (do modifyMachine ni mi fun m => { m with terminated := true }
          advanceIp ni mi true : Exec Unit) :=
    Keeps.bind (Lenient.le_trans nj mj)
      (Keeps.modifyMachine fun n => Lenient.le_updMachine h n _) fun _ => hadv true
  constructor
  · intro net a n1 h
    unfold stepMachine at h
    cases hf : fetchExec ni mi net with
    | ok adv n2 =>
      rw [hf] at h
      exact Lenient.le_trans _ _ _ _ _ (hfetch.ok _ _ _ hf) ((hadv adv).ok _ _ _ h)
    | failure msg n2 =>
      rw [hf] at h
      exact Lenient.le_trans _ _ _ _ _ (hfetch.failure _ _ _ hf) (hcatch.ok _ _ _ h)
    | abort e => rw [hf] at h; cases h
  · intro net msg n1 h
    unfold stepMachine at h
    cases hf : fetchExec ni mi net with
    | ok adv n2 =>
      rw [hf] at h
      exact Lenient.le_trans _ _ _ _ _ (hfetch.ok _ _ _ hf) ((hadv adv).failure _ _ _ h)
    | failure msg2 n2 =>
      rw [hf] at h
      exact Lenient.le_trans _ _ _ _ _ (hfetch.failure _ _ _ hf) (hcatch.failure _ _ _ h)
    | abort e => rw [hf] at h; cases h

theorem Keeps_stepMachinesFrom_le (ni nj mj : Nat) :
    ∀ (count a : Nat), (nj ≠ ni ∨ mj < a ∨ a + count ≤ mj) →
      Keeps (Lenient nj mj) (stepMachinesFrom ni a count) := by
  intro count
  induction count with
  | zero => intro a _; exact Keeps.pure (Lenient.le_refl nj mj) _
  | succ k ih =>
    intro a h
    have h1 : nj ≠ ni ∨ mj ≠ a := by
      rcases h with h | h | h
      · exact Or.inl h
      · exact Or.inr (by omega)
      · exact Or.inr (by omega)
    have h2 : nj ≠ ni ∨ mj < a + 1 ∨ a + 1 + k ≤ mj := by
      rcases h with h | h | h
      · exact Or.inl h
      · exact Or.inr (Or.inl (by omega))
      · exact Or.inr (Or.inr (by omega))
    exact Keeps.bind (Lenient.le_trans nj mj) (Keeps_stepMachine_le ni a nj mj h1) fun _ =>
      ih (a + 1) h2

/-! ## The failing exa stays in its slot -/

theorem OwnStays.os_refl (ni mi : Nat) (n : Network) : OwnStays ni mi n n :=
  fun m h => ⟨m, h, rfl⟩

theorem OwnStays.os_trans (ni mi : Nat) (a b c : Network) (h1 : OwnStays ni mi a b)
    (h2 : OwnStays ni mi b c) : OwnStays ni mi a c := by
  intro m hm
  obtain ⟨m1, e1, e2⟩ := h1 m hm
  obtain ⟨m2, e3, e4⟩ := h2 m1 e1
  exact ⟨m2, e3, e4.trans e2⟩

theorem OwnStays.os_updMachine (n : Network) (ni mi : Nat) (f : Machine → Machine)
    (hf : ∀ m, (f m).name = m.name) : OwnStays ni mi n (n.updMachine ni mi f) := by
  intro m hm
  exact ⟨f m, by rw [machineAt_updMachine, hm]; rfl, hf m⟩

theorem OwnStays.os_updNode (n : Network) (ni mi j : Nat) (g : Node → Node)
    (hg : ∀ d, (g d).machines = d.machines) : OwnStays ni mi n (n.updNode j g) := by
  intro m hm
  exact ⟨m, by rw [machineAt_updNode n j g ni mi hg]; exact hm, rfl⟩

theorem OwnStays.os_same_nodes (ni mi : Nat) (n n1 : Network) (h : n1.nodes = n.nodes) :
    OwnStays ni mi n n1 := by
  intro m hm
  exact ⟨m, by rw [machineAt_same_nodes h]; exact hm, rfl⟩

theorem Keeps_getRaw_os (ni mi : Nat) (src : Operand) :
    Keeps (OwnStays ni mi) (getRaw ni mi src) := by
  unfold getRaw
  split
  all_goals
    repeat' first
      | with_reducible exact Keeps.pure (OwnStays.os_refl ni mi) _
      | with_reducible exact Keeps.getNet (OwnStays.os_refl ni mi)
      | with_reducible exact Keeps.getNode (OwnStays.os_refl ni mi) _
      | with_reducible exact Keeps.getMachine (OwnStays.os_refl ni mi) _ _
      | with_reducible exact Keeps.raiseFailure (OwnStays.os_refl ni mi) _
      | with_reducible exact Keeps.raiseError _
      | with_reducible exact Keeps.raiseAbort _
      | with_reducible exact Keeps.liftFailing (OwnStays.os_refl ni mi) _
      | with_reducible apply Keeps.bind (OwnStays.os_trans ni mi)
      | exact Keeps.modifyMachine fun n => OwnStays.os_updMachine n _ _ _ (fun _ => rfl)
      | exact Keeps.modifyNode fun n => OwnStays.os_updNode n _ _ _ _ (fun _ => rfl)
      | intro _
      | split

theorem Keeps_get_os (ni mi : Nat) (src : Operand) : Keeps (OwnStays ni mi) (get ni mi src) := by
  unfold get
  exact Keeps.bind (OwnStays.os_trans ni mi) (Keeps_getRaw_os ni mi src) fun _ =>
    Keeps.bind (OwnStays.os_trans ni mi) (Keeps.getNet (OwnStays.os_refl ni mi)) fun _ =>
      Keeps.pure (OwnStays.os_refl ni mi) _

theorem Keeps_set_os (ni mi : Nat) (dest : Operand) (v : Value) :
    Keeps (OwnStays ni mi) (set ni mi dest v) := by
  unfold set
  apply Keeps.bind (OwnStays.os_trans ni mi) (Keeps.getNet (OwnStays.os_refl ni mi))
  intro net0
  simp only []
  split
  all_goals
    repeat' first
      | with_reducible exact Keeps.pure (OwnStays.os_refl ni mi) _
      | with_reducible exact Keeps.getNet (OwnStays.os_refl ni mi)
      | with_reducible exact Keeps.getNode (OwnStays.os_refl ni mi) _
      | with_reducible exact Keeps.getMachine (OwnStays.os_refl ni mi) _ _
      | with_reducible exact Keeps.raiseFailure (OwnStays.os_refl ni mi) _
      | with_reducible exact Keeps.raiseError _
      | with_reducible exact Keeps.raiseAbort _
      | with_reducible apply Keeps.bind (OwnStays.os_trans ni mi)
      | exact Keeps.modifyMachine fun n => OwnStays.os_updMachine n _ _ _ (fun _ => rfl)
      | exact Keeps.modifyNode fun n => OwnStays.os_updNode n _ _ _ _ (fun _ => rfl)
      | exact Keeps.modifyNet fun n => OwnStays.os_same_nodes _ _ n _ rfl
      | intro _
      | split

theorem Keeps_execInstruction_os (ni mi : Nat) (inst : Instruction)
    (hk : inst.opcode ≠ .Kill) (hl : inst.opcode ≠ .Link) :
    Keeps (OwnStays ni mi) (execInstruction ni mi inst) := by
  unfold execInstruction execArith execTest
  split
  case h_16 h => exact absurd h hk
  case h_17 h => exact absurd h hl
  all_goals
    repeat' first
      | with_reducible exact Keeps.pure (OwnStays.os_refl ni mi) _
      | with_reducible exact Keeps_get_os _ _ _
      | with_reducible exact Keeps_set_os _ _ _ _
      | with_reducible exact Keeps.getNet (OwnStays.os_refl ni mi)
      | with_reducible exact Keeps.getNode (OwnStays.os_refl ni mi) _
      | with_reducible exact Keeps.getMachine (OwnStays.os_refl ni mi) _ _
      | with_reducible exact Keeps.raiseFailure (OwnStays.os_refl ni mi) _
      | with_reducible exact Keeps.raiseError _
      | with_reducible exact Keeps.raiseAbort _
      | with_reducible exact Keeps.liftFailing (OwnStays.os_refl ni mi) _
      | with_reducible apply Keeps.bind (OwnStays.os_trans ni mi)
      | exact Keeps.modifyMachine fun n => OwnStays.os_updMachine n _ _ _ (fun _ => rfl)
      | exact Keeps.modifyNode fun n => OwnStays.os_updNode n _ _ _ _ (fun _ => rfl)
      | exact Keeps.modifyNet fun n => OwnStays.os_same_nodes _ _ n _ rfl
      | intro _
      | split

theorem execKill_no_failure (ni mi : Nat) (net : Network) (msg : String) (nf : Network) :
    execKill ni mi net ≠ .failure msg nf := by
  intro h
  cases hnd : net.nodes[ni]? with
  | none =>
    have : execKill ni mi net = .abort .badReference := by
      unfold execKill
      have hn : getNode ni { net with stats := { net.stats with activity := net.stats.activity + 1 } }
          = .abort .badReference := getNode_none hnd
      simp only [bind_apply, modifyNet_apply, hn]
    rw [this] at h
    cases h
  | some nd =>
    rw [execKill_eq hnd] at h
    by_cases hlen : nd.machines.length > 1
    · rw [if_pos hlen] at h
      cases hk : killLoop mi (net.random.dist (nd.machines.length - 2)).1 0 0 nd.machines with
      | none => rw [hk] at h; cases h
      | some ms => rw [hk] at h; cases h
    · rw [if_neg hlen] at h
      cases h

/-- A `LINK` that raises a failure does so in its operand read or right after it. -/
theorem execLink_failure {ni mi : Nat} {inst : Instruction} {net nf : Network} {msg : String}
    (h : execLink ni mi inst net = .failure msg nf) :
    get ni mi inst.op1 net = .failure msg nf ∨ ∃ r, get ni mi inst.op1 net = .ok r nf := by
  unfold execLink at h
  rcases bind_eq_failure.1 h with h1 | ⟨dest, na, h1, h2⟩
  · exact Or.inl h1
  · refine Or.inr ⟨dest, ?_⟩
    suffices hs : nf = na by rw [hs]; exact h1
    cases dest with
    | none => exact absurd h2 pure_ne_failure
    | some d =>
      cases d with
      | str s => simp only [raiseFailure] at h2; cases h2; rfl
      | num k =>
        simp only [] at h2
        cases hop : inst.op1 with
        | num n =>
          rw [hop] at h2
          simp only [] at h2
          rcases bind_eq_failure.1 h2 with h3 | ⟨nd, nb, h3, h4⟩
          · exact absurd h3 (by unfold getNode; split <;> simp)
          · obtain ⟨_, rfl⟩ := getNode_eq_ok.1 h3
            cases hl : mapFind (toInt16 (toUInt16 n)) nd.links with
            | none => rw [hl] at h4; simp only [raiseFailure] at h4; cases h4; rfl
            | some ti =>
              rw [hl] at h4
              simp only [] at h4
              by_cases hdl : toInt16 (toUInt16 n) ∈ nd.danglingLinks
              · rw [if_pos hdl] at h4
                simp only [raiseAbort] at h4
                cases h4
              rw [if_neg hdl] at h4
              rcases bind_eq_failure.1 h4 with h5 | ⟨target, nc, h5, h6⟩
              · exact absurd h5 (by unfold getNode; split <;> simp)
              · obtain ⟨_, rfl⟩ := getNode_eq_ok.1 h5
                by_cases hfull : target.full = true
                · rw [if_pos hfull] at h6
                  exact absurd h6 pure_ne_failure
                · rw [if_neg hfull] at h6
                  exfalso
                  simp only [bind_apply, modifyNet_apply, modifyNode_apply, pure_apply] at h6
                  split at h6
                  · cases h6
                  · rename_i hg
                    unfold getMachine at hg
                    split at hg
                    · cases hg
                    · split at hg <;> cases hg
                  · cases h6
        | unassigned => rw [hop] at h2; cases h2
        | reg r => rw [hop] at h2; cases h2
        | addr a => rw [hop] at h2; cases h2
        | hw hh => rw [hop] at h2; cases h2
        | str s => rw [hop] at h2; cases h2

theorem execInstruction_link {ni mi : Nat} {inst : Instruction} (h : inst.opcode = .Link) :
    execInstruction ni mi inst = execLink ni mi inst := by
  obtain ⟨opcode, op1, op2, op3⟩ := inst
  simp only at h
  subst h
  rfl

/-- The state in which an instruction raises a failure: the exa is still in its slot, every
other slot and every buffered arrival is as before. -/
theorem failure_frame {ni mi : Nat} {inst : Instruction} {net nf : Network} {msg : String}
    (h : execInstruction ni mi inst net = .failure msg nf) :
    OwnStays ni mi net nf ∧ Apart ni mi net nf ∧ IncomingGrows net nf := by
  have hin := (Keeps_execInstruction_in ni mi inst).failure _ _ _ h
  by_cases hk : inst.opcode = .Kill
  · rw [execInstruction_kill hk] at h
    exact absurd h (execKill_no_failure ni mi net msg nf)
  · have hap := (Keeps_execInstruction_ap ni mi inst hk).failure _ _ _ h
    refine ⟨?_, hap, hin⟩
    by_cases hl : inst.opcode = .Link
    · rw [execInstruction_link hl] at h
      rcases execLink_failure h with h1 | ⟨r, h1⟩
      · exact (Keeps_get_os ni mi _).failure _ _ _ h1
      · exact (Keeps_get_os ni mi _).ok _ _ _ h1
    · exact (Keeps_execInstruction_os ni mi inst hk hl).failure _ _ _ h

theorem filter_skip {α : Type} (p : α → Bool) (l : List α) (i : Nat) (s : α)
    (h : l[i]? = some s) (hp : p s = false) :
    l.filter p = (l.take i).filter p ++ (l.drop (i + 1)).filter p := by
  have hi : i < l.length := by
    by_contra hc
    rw [List.getElem?_eq_none (not_lt.1 hc)] at h
    cases h
  have hs : l[i] = s := by
    rw [List.getElem?_eq_getElem hi] at h
    injection h
  have hl : l = l.take i ++ s :: l.drop (i + 1) := by
    rw [← hs, ← List.drop_eq_getElem_cons hi, List.take_append_drop]
  conv_lhs => rw [hl]
  rw [List.filter_append, List.filter_cons, hp]
  rfl

theorem slot_of_machineAt {net : Network} {ni mi : Nat} {nd : Node} {m : Machine}
    (hnd : net.nodes[ni]? = some nd) (hm : net.machineAt ni mi = some m) :
    nd.machines[mi]? = some (some m) := by
  obtain ⟨nd1, h1, h2⟩ := machineAt_node hm
  rw [hnd] at h1
  injection h1 with h1
  rw [h1]
  exact h2

/-! ## A send and a receive in the same machine loop -/

theorem clamp_idem (net : Network) (hr : net.rangeMin ≤ net.rangeMax) (v : Value) :
    net.clamp (net.clamp v) = net.clamp v := by
  cases v with
  | str s => rfl
  | num n =>
    simp only [Network.clamp, clampValue]
    by_cases h1 : n < net.rangeMin
    · simp [h1, not_lt.2 hr]
    · by_cases h2 : net.rangeMax < n
      · simp [h1, h2, not_lt.2 hr]
      · simp [h1, h2]

theorem clamp_of_steady {net n1 : Network} (h : Steady net n1) : n1.clamp = net.clamp := by
  funext w
  unfold Network.clamp
  rw [h.1, h.2.1]

theorem channelVal_of_steady {net n1 : Network} (h : Steady net n1) (ni : Nat) (g : Bool)
    (w : Value) (hc : net.channelVal ni g = some (some w)) :
    n1.channelVal ni g = some (some w) := by
  unfold Network.channelVal at hc ⊢
  cases g with
  | true =>
    simp only [if_true, Option.some.injEq] at hc ⊢
    exact h.2.2.1 w hc
  | false =>
    simp only [Bool.false_eq_true, if_false] at hc ⊢
    cases hnd : net.nodes[ni]? with
    | none => rw [hnd] at hc; cases hc
    | some nd =>
      rw [hnd] at hc
      simp only [Option.map_some', Option.some.injEq] at hc
      obtain ⟨nd1, e1, e2⟩ := h.2.2.2 ni nd w hnd hc
      rw [e1]
      simp only [Option.map_some', e2]

theorem channelVal_selected {net : Network} {ni : Nat} {nd : Node} (m : Machine)
    (hnd : net.nodes[ni]? = some nd) :
    net.channelVal ni m.globalMode = some (selectedChannel net nd m).val := by
  unfold Network.channelVal selectedChannel
  cases m.globalMode <;> simp [hnd]

theorem get_M_eq {net : Network} {ni mi : Nat} {m : Machine} {nd : Node} {c : Value}
    (hm : net.machineAt ni mi = some m) (hnd : net.nodes[ni]? = some nd)
    (hc : net.channelVal ni m.globalMode = some (some c)) :
    get ni mi (.reg .M) net = .ok (some (net.clamp c)) net := by
  rw [channelVal_selected m hnd] at hc
  simp only [Option.some.injEq] at hc
  unfold selectedChannel at hc
  cases hg : m.globalMode with
  | true =>
    rw [hg] at hc
    simp only [if_true] at hc
    simp [get, getRaw, getMachine_of hm, getNode_of hnd, hg, Channel.available,
      Channel.receive, hc]
  | false =>
    rw [hg] at hc
    simp only [Bool.false_eq_true, if_false] at hc
    simp [get, getRaw, getMachine_of hm, getNode_of hnd, hg, Channel.available,
      Channel.receive, hc]

/-- The step of `copy m x` when the exa's channel holds `c`. -/
theorem stepMachine_receive {net : Network} {ni mi : Nat} {m : Machine} {inst : Instruction}
    {c : Value}
    (hm : net.machineAt ni mi = some m) (hfetch : m.code[m.instPtr]? = some inst)
    (hop : inst.opcode = .Copy) (h1 : inst.op1 = .reg .M) (h2 : inst.op2 = .reg .X)
    (hc : net.channelVal ni m.globalMode = some (some c)) :
    ∃ n2, stepMachine ni mi net = .ok () n2
      ∧ n2.machineAt ni mi
          = some { m with x := net.clamp (net.clamp c), instPtr := m.instPtr + 1 }
      ∧ Steady net n2 := by
  obtain ⟨nd, hnd, _⟩ := machineAt_node hm
  obtain ⟨opcode, op1, op2, op3⟩ := inst
  simp only at hop h1 h2
  subst hop h1 h2
  have hexec : execInstruction ni mi ⟨.Copy, .reg .M, .reg .X, op3⟩ net = .ok true
      (net.updMachine ni mi fun m1 => { m1 with x := net.clamp (net.clamp c) }) := by
    simp only [execInstruction, bind_apply, get_M_eq hm hnd hc, set_X_eq _ hm]
  have hstep : stepMachine ni mi net = .ok ()
      ((net.updMachine ni mi fun m1 => { m1 with x := net.clamp (net.clamp c) }).updMachine
        ni mi fun m1 => { m1 with instPtr := m1.instPtr + 1 }) := by
    unfold stepMachine
    rw [fetchExec_eq hm hfetch, hexec]
    rfl
  refine ⟨_, hstep, ?_, ?_⟩
  · rw [machineAt_updMachine, machineAt_updMachine, hm]
    rfl
  · exact Steady.st_trans _ _ _ (Apart.ap_updMachine _ ni mi _).2 (Apart.ap_updMachine _ ni mi _).2

/-- The step of `copy v m` with a literal `v` when the exa's channel is empty. -/
theorem stepMachine_send {net : Network} {ni mi : Nat} {m : Machine} {inst : Instruction}
    {v : Number}
    (hm : net.machineAt ni mi = some m) (hfetch : m.code[m.instPtr]? = some inst)
    (hop : inst.opcode = .Copy) (h1 : inst.op1 = .num v) (h2 : inst.op2 = .reg .M)
    (hc : net.channelVal ni m.globalMode = some none) :
    ∃ n1, stepMachine ni mi net = .ok () n1
      ∧ n1.channelVal ni m.globalMode = some (some (net.clamp (net.clamp (.num v))))
      ∧ n1.machineAt ni mi = some { m with instPtr := m.instPtr + 1 }
      ∧ n1.rangeMin = net.rangeMin ∧ n1.rangeMax = net.rangeMax
      ∧ OthersSame ni mi net n1 := by
  obtain ⟨nd, hnd, _⟩ := machineAt_node hm
  obtain ⟨opcode, op1, op2, op3⟩ := inst
  simp only at hop h1 h2
  subst hop h1 h2
  have hsel := channelVal_selected m hnd
  rw [hc] at hsel
  simp only [Option.some.injEq] at hsel
  unfold selectedChannel at hsel
  by_cases hg : m.globalMode = true
  · rw [if_pos hg] at hsel
    have hav : net.globalChannel.available = false := by
      simp [Channel.available, ← hsel]
    have hexec : execInstruction ni mi ⟨.Copy, .num v, .reg .M, op3⟩ net = .ok true
        { net with globalChannel :=
            (net.globalChannel.send (net.clamp (net.clamp (.num v)))).2 } := by
      simp only [execInstruction, bind_apply, get_num_eq, set_M_eq _ hm hnd, hg, if_true, hav,
        Bool.false_eq_true, if_false]
    have hstep : stepMachine ni mi net = .ok ()
        (Network.updMachine { net with globalChannel :=
            (net.globalChannel.send (net.clamp (net.clamp (.num v)))).2 }
          ni mi fun m1 => { m1 with instPtr := m1.instPtr + 1 }) := by
      unfold stepMachine
      rw [fetchExec_eq hm hfetch, hexec]
      rfl
    refine ⟨_, hstep, ?_, ?_, rfl, rfl, ?_⟩
    · simp [Network.channelVal, Network.updMachine, Network.updNode, Channel.send, ← hsel, hg]
    · rw [machineAt_updMachine]
      show Option.map _ (net.machineAt ni mi) = _
      rw [hm]
      rfl
    · intro nj mj h
      rw [machineAt_updMachine_other _ _ _ _ _ _ h]
      rfl
  · rw [if_neg hg] at hsel
    have hav : nd.localChannel.available = false := by
      simp [Channel.available, ← hsel]
    have hexec : execInstruction ni mi ⟨.Copy, .num v, .reg .M, op3⟩ net = .ok true
        (net.updNode ni fun d =>
          { d with localChannel := (d.localChannel.send (net.clamp (net.clamp (.num v)))).2 }) := by
      simp only [execInstruction, bind_apply, get_num_eq, set_M_eq _ hm hnd, hg, hav,
        Bool.false_eq_true, if_false]
    have hstep : stepMachine ni mi net = .ok ()
        ((net.updNode ni fun d =>
          { d with localChannel :=
              (d.localChannel.send (net.clamp (net.clamp (.num v)))).2 }).updMachine
          ni mi fun m1 => { m1 with instPtr := m1.instPtr + 1 }) := by
      unfold stepMachine
      rw [fetchExec_eq hm hfetch, hexec]
      rfl
    refine ⟨_, hstep, ?_, ?_, rfl, rfl, ?_⟩
    · simp [Network.channelVal, Network.updMachine, updNode_nodes_self, hnd, Channel.send,
        ← hsel, hg]
    · rw [machineAt_updMachine, machineAt_updNode, hm]
      · rfl
      · intro _; rfl
    · intro nj mj h
      rw [machineAt_updMachine_other _ _ _ _ _ _ h, machineAt_updNode]
      intro _; rfl

theorem slotFlagOnly_fields {nj mj : Nat} {n n1 : Network} {m : Machine}
    (h : SlotFlagOnly nj mj n n1) (hm : n.machineAt nj mj = some m) :
    ∃ m1, n1.machineAt nj mj = some m1 ∧ m1.x = m.x ∧ m1.t = m.t ∧ m1.code = m.code
      ∧ m1.instPtr = m.instPtr ∧ m1.globalMode = m.globalMode ∧ m1.file = m.file := by
  rcases h with e | ⟨m0, e1, e2⟩
  · exact ⟨m, by rw [e]; exact hm, rfl, rfl, rfl, rfl, rfl, rfl⟩
  · rw [hm] at e1
    injection e1 with e1
    subst e1
    exact ⟨_, e2, rfl, rfl, rfl, rfl, rfl, rfl⟩

/-! ## The branches -/

theorem stepMachine_of_exec {net n1 : Network} {ni mi : Nat} {m : Machine} {inst : Instruction}
    {adv : Bool} (hm : net.machineAt ni mi = some m) (hfetch : m.code[m.instPtr]? = some inst)
    (hexec : execInstruction ni mi inst net = .ok adv n1) :
    stepMachine ni mi net = advanceIp ni mi adv n1 := by
  unfold stepMachine
  rw [fetchExec_eq hm hfetch, hexec]

theorem firstValid_blanks (n i : Nat) : firstValid (List.replicate n ' ') i = 0 := by
  induction n generalizing i with
  | zero => rfl
  | succ k ih =>
    simp only [List.replicate_succ, firstValid]
    have : isBlank ' ' = true := rfl
    simp [this, ih]

theorem lastValid_blanks (n i last : Nat) : lastValid (List.replicate n ' ') i last = last := by
  induction n generalizing i with
  | zero => rfl
  | succ k ih =>
    simp only [List.replicate_succ, lastValid]
    have : isBlank ' ' = true := rfl
    simp [this, ih]

theorem emplace_after {α : Type} (k k' : String) (a a' : α) (h1 : k' ≠ k) (h2 : ¬ k < k') :
    mapEmplace k a [(k', a')] = [(k', a'), (k, a)] := by
  simp [mapEmplace, h1, h2]

/-! ## What the assembly of an instruction line does -/

theorem regOrVal_hw {net net' : Network} (h : net'.hwRegMap = net.hwRegMap) (op : String) :
    regOrVal net' op = regOrVal net op := by
  unfold regOrVal
  rw [h]

theorem reg_hw {net net' : Network} (h : net'.hwRegMap = net.hwRegMap) (op : String) :
    reg net' op = reg net op := by
  unfold reg
  rw [h]

theorem emit_eq {net : Network} {m : Machine} (hm : net.pMachineBeingAssembled = some m)
    (inst : Instruction) :
    emit net inst
      = .ok { net with pMachineBeingAssembled := some { m with code := m.code ++ [inst] } } := by
  unfold emit
  rw [hm]
  rfl

theorem net_eta (net : Network) (m : Machine) (hm : net.pMachineBeingAssembled = some m) :
    net = { net with pMachineBeingAssembled := some { m with code := m.code ++ [] }
                     addressLookup := net.addressLookup } := by
  cases net
  simp only [List.append_nil] at hm ⊢
  simp only [hm]

theorem numM_op1 (opcode : Opcode) (o : Operand) :
    numM { opcode := opcode, op1 := o } ≤ 1 := by
  show isM o + isM .unassigned + isM .unassigned ≤ 1
  have h0 : isM Operand.unassigned = 0 := by decide
  rw [h0]
  unfold isM
  split_ifs <;> simp

theorem Sound_label (opcode : Opcode) (l : String) :
    Sound { opcode := opcode, op1 := .str l } :=
  ⟨numM_op1 _ _, fun _ => ⟨l, rfl⟩⟩

theorem Sound_op1 (opcode : Opcode) (o : Operand) (h : opcode.isBranch = false) :
    Sound { opcode := opcode, op1 := o } :=
  ⟨numM_op1 _ _, fun hb => by rw [h] at hb; cases hb⟩

theorem Sound_plain (inst : Instruction) (hn : numM inst ≤ 1) (h : inst.opcode.isBranch = false) :
    Sound inst :=
  ⟨hn, fun hb => by rw [h] at hb; cases hb⟩

theorem Emits.em_mono {P Q : String → Prop} {f : Network → Asm Network} (h : Emits P f)
    (hpq : ∀ l, P l → Q l) : Emits Q f := by
  intro net net1 m hf hm
  obtain ⟨es, lk, e1, e2, e3, e4⟩ := h net net1 m hf hm
  refine ⟨es, lk, e1, e2, ?_, e4⟩
  rcases e3 with e3 | ⟨e3, l, hl, e5⟩
  · exact Or.inl e3
  · exact Or.inr ⟨e3, l, hpq l hl, e5⟩

theorem Emits_throw (P : String → Prop) (e : Abort) :
    Emits P (fun _ => (throw e : Asm Network)) := by
  intro net net1 m h _
  cases h

theorem Emits_pure (P : String → Prop) : Emits P (fun net => (pure net : Asm Network)) := by
  intro net net1 m h hm
  cases h
  refine ⟨[], net.addressLookup, net_eta net m hm, by simp, Or.inl rfl, ?_⟩
  intro net' m' hm' _ _
  exact ⟨net'.addressLookup, congrArg Except.ok (net_eta net' m' hm')⟩

theorem Emits_emit (P : String → Prop) (inst : Instruction) (hi : Sound inst) :
    Emits P (fun net => emit net inst) := by
  intro net net1 m h hm
  simp only [emit_eq hm] at h
  cases h
  refine ⟨[inst], net.addressLookup, rfl, by simpa using hi, Or.inl rfl, ?_⟩
  intro net' m' hm' _ _
  exact ⟨net'.addressLookup, by simp only [emit_eq hm']⟩

theorem Emits_operand (P : String → Prop) (p : Network → String → Asm Operand)
    (hp : ∀ (net net' : Network), net'.hwRegMap = net.hwRegMap → ∀ op, p net' op = p net op)
    (op : String) (mk : Operand → Instruction) (hmk : ∀ o, Sound (mk o)) :
    Emits P (fun net => p net op >>= fun o => emit net (mk o)) := by
  intro net net1 m h hm
  cases ho : p net op with
  | error e => simp only [ho, bind, Except.bind] at h; cases h
  | ok o =>
    simp only [ho, bind, Except.bind, emit_eq hm] at h
    cases h
    refine ⟨[mk o], net.addressLookup, rfl, by simpa using hmk o, Or.inl rfl, ?_⟩
    intro net' m' hm' hhw _
    exact ⟨net'.addressLookup, by simp only [hp net net' hhw, ho, bind, Except.bind, emit_eq hm']⟩

theorem Emits_mark (label : String) :
    Emits (fun l => l = label) (fun net =>
      match net.pMachineBeingAssembled with
      | some m =>
        (pure { net with addressLookup := mapEmplace label m.code.length net.addressLookup } :
          Asm Network)
      | none => throw .nullDeref) := by
  intro net net1 m h hm
  simp only [hm] at h
  cases h
  refine ⟨[], _, ?_, by simp, Or.inr ⟨rfl, label, rfl, rfl⟩, ?_⟩
  · cases net
    simp only [List.append_nil] at hm ⊢
  · intro net' m' hm' _ _
    refine ⟨mapEmplace label m'.code.length net'.addressLookup, ?_⟩
    simp only [hm']
    cases net'
    simp only [List.append_nil] at hm' ⊢
    rfl

theorem Emits_ite (P : String → Prop) (c : Prop) [Decidable c] (f g : Network → Asm Network)
    (hf : Emits P f) (hg : Emits P g) : Emits P (fun net => if c then f net else g net) := by
  by_cases h : c
  · simp only [if_pos h]; exact hf
  · simp only [if_neg h]; exact hg

theorem Emits_noArgs (P : String → Prop) (mne : String) : Emits P (processNoArgs mne) := by
  show Emits P (fun net => processNoArgs mne net)
  unfold processNoArgs
  repeat' first
    | exact Emits_emit _ _ (Sound_op1 _ _ rfl)
    | exact Emits_throw _ _
    | apply Emits_ite

theorem Emits_singleArg (mne op1 : String) :
    Emits (fun l => mne = "mark" ∧ l = op1) (processSingleArg mne op1) := by
  show Emits _ (fun net => processSingleArg mne op1 net)
  unfold processSingleArg
  by_cases hmk : mne = "mark"
  · simp only [if_pos hmk]
    exact (Emits_mark op1).em_mono fun l hl => ⟨hmk, hl⟩
  · simp only [if_neg hmk]
    repeat' first
      | exact Emits_emit _ _ (Sound_label _ _)
      | exact Emits_emit _ _ (Sound_op1 _ _ rfl)
      | exact Emits_pure _
      | exact Emits_throw _ _
      | exact Emits_operand _ regOrVal (fun _ _ h => regOrVal_hw h) _ _ (fun _ => Sound_op1 _ _ rfl)
      | exact Emits_operand _ reg (fun _ _ h => reg_hw h) _ _ (fun _ => Sound_op1 _ _ rfl)
      | apply Emits_ite

theorem Emits_checkM (P : String → Prop) : Emits P (checkM 3) := by
  intro net net1 m h hm
  unfold checkM at h
  rw [hm] at h
  simp only [] at h
  cases hl : m.code.getLast? with
  | none => rw [hl] at h; cases h
  | some last =>
    rw [hl] at h
    simp only [] at h
    have h3 : (3 : Nat) ≠ 2 := by decide
    simp only [if_neg h3] at h
    by_cases hc : numM last > 1
    · rw [if_pos hc] at h; cases h
    · rw [if_neg hc] at h
      cases h
      refine ⟨[], net.addressLookup, net_eta net m hm, by simp, Or.inl rfl, ?_⟩
      intro net' m' hm' _ hla
      refine ⟨net'.addressLookup, ?_⟩
      have hok : ∃ e, m'.code.getLast? = some e ∧ ¬ numM e > 1 := by
        rcases hla with e1 | ⟨e, e1, e2⟩
        · exact ⟨last, by rw [e1, hl], hc⟩
        · exact ⟨e, e1, by omega⟩
      obtain ⟨e, he1, he2⟩ := hok
      unfold checkM
      rw [hm']
      simp only [he1, if_neg h3, if_neg he2]
      exact congrArg Except.ok (net_eta net' m' hm')

/-- An instruction computed from the operands of the line, emitted and then checked. -/
theorem Emits_checked (P : String → Prop) (arity : Nat) (f : Network → Asm Network)
    (p : Network → Asm Instruction)
    (hf : ∀ net, f net = ((p net >>= fun inst => emit net inst) >>= checkM arity))
    (hp : ∀ (net net' : Network), net'.hwRegMap = net.hwRegMap → p net' = p net)
    (hplain : ∀ net inst, p net = .ok inst → inst.opcode.isBranch = false
      ∧ (if arity = 2 then isM inst.op1 + isM inst.op2 else numM inst) = numM inst) :
    Emits P f := by
  intro net net1 m h hm
  rw [hf] at h
  cases hi : p net with
  | error e => rw [hi] at h; cases h
  | ok inst =>
    have hform : ∀ (n : Network), p n = .ok inst →
        ((p n >>= fun i => emit n i) >>= checkM arity) = (emit n inst >>= checkM arity) := by
      intro n hpn
      rw [hpn]
      rfl
    rw [hform net hi, checkM_emit arity net m inst hm] at h
    obtain ⟨hb, hnum⟩ := hplain net inst hi
    by_cases hc : (if arity = 2 then isM inst.op1 + isM inst.op2 else numM inst) > 1
    · rw [if_pos hc] at h; cases h
    · rw [if_neg hc] at h
      cases h
      have hs : Sound inst := Sound_plain inst (by rw [hnum] at hc; omega) hb
      refine ⟨[inst], net.addressLookup, rfl, by simpa using hs, Or.inl rfl, ?_⟩
      intro net' m' hm' hhw _
      refine ⟨net'.addressLookup, ?_⟩
      rw [hf, hform net' (by rw [hp net net' hhw, hi]), checkM_emit arity net' m' inst hm',
        if_neg hc]

theorem Emits_arith (P : String → Prop) (opcode : Opcode) (hb : opcode.isBranch = false)
    (op1 op2 op3 : String) :
    Emits P (fun net => emitArith opcode op1 op2 op3 net >>= fun y => checkM 3 y) := by
  refine Emits_checked P 3 _
    (fun net => do
      let a ← regOrVal net op1
      let b ← regOrVal net op2
      let c ← reg net op3
      pure { opcode := opcode, op1 := a, op2 := b, op3 := c }) ?_ ?_ ?_
  · intro net
    unfold emitArith
    beta_reduce
    cases regOrVal net op1 <;> cases regOrVal net op2 <;> cases reg net op3 <;> rfl
  · intro net net' h
    simp only [regOrVal_hw h, reg_hw h]
  · intro net inst h
    cases h1 : regOrVal net op1 <;> cases h2 : regOrVal net op2 <;> cases h3 : reg net op3 <;>
      simp only [h1, h2, h3, bind, Except.bind, pure, Except.pure] at h <;> cases h
    exact ⟨hb, rfl⟩

theorem Emits_test (P : String → Prop) (opcode : Opcode) (hb : opcode.isBranch = false)
    (op1 op3 : String) :
    Emits P (fun net => emitTest opcode op1 op3 net >>= fun y => checkM 3 y) := by
  refine Emits_checked P 3 _
    (fun net => do
      let a ← regOrVal net op1
      let b ← regOrVal net op3
      pure { opcode := opcode, op1 := a, op2 := b }) ?_ ?_ ?_
  · intro net
    unfold emitTest
    beta_reduce
    cases regOrVal net op1 <;> cases regOrVal net op3 <;> rfl
  · intro net net' h
    simp only [regOrVal_hw h]
  · intro net inst h
    cases h1 : regOrVal net op1 <;> cases h2 : regOrVal net op3 <;>
      simp only [h1, h2, bind, Except.bind, pure, Except.pure] at h <;> cases h
    exact ⟨hb, rfl⟩

theorem Emits_tripleArg (P : String → Prop) (mne op1 op2 op3 : String) :
    Emits P (processTripleArg mne op1 op2 op3) := by
  show Emits P (fun net => processTripleArg mne op1 op2 op3 net)
  unfold processTripleArg
  dsimp only
  repeat' first
    | exact Emits_arith _ _ (by rfl) _ _ _
    | exact Emits_test _ _ (by rfl) _ _
    | exact Emits_checkM _
    | exact Emits_throw _ _
    | apply Emits_ite

theorem Emits_doubleArg (P : String → Prop) (mne op1 op2 : String) :
    Emits P (processDoubleArg mne op1 op2) := by
  show Emits P (fun net => processDoubleArg mne op1 op2 net)
  unfold processDoubleArg
  dsimp only
  apply Emits_ite
  · refine Emits_checked P 2 _
      (fun net => do
        let a ← regOrVal net op1
        let b ← reg net op2
        pure { opcode := .Copy, op1 := a, op2 := b }) ?_ ?_ ?_
    · intro net
      beta_reduce
      cases regOrVal net op1 <;> cases reg net op2 <;> rfl
    · intro net net' h
      simp only [regOrVal_hw h, reg_hw h]
    · intro net inst h
      cases h1 : regOrVal net op1 <;> cases h2 : reg net op2 <;>
        simp only [h1, h2, bind, Except.bind, pure, Except.pure] at h <;> cases h
      refine ⟨rfl, ?_⟩
      show isM _ + isM _ = isM _ + isM _ + isM .unassigned
      have h0 : isM Operand.unassigned = 0 := by decide
      rw [h0]
      rfl
  · exact Emits_throw _ _

theorem Emits_processInstruction (line : String) :
    Emits (fun l => tokens line = some ["mark", l]) (processInstruction line) := by
  show Emits _ (fun net => processInstruction line net)
  unfold processInstruction
  generalize tokens line = t
  rcases t with _ | ⟨_ | ⟨mne, _ | ⟨a, _ | ⟨b, _ | ⟨c, _ | ⟨d, r⟩⟩⟩⟩⟩⟩
  · exact Emits_throw _ _
  · exact Emits_throw _ _
  · exact Emits_ite _ _ _ _ (Emits_noArgs _ _) (Emits_throw _ _)
  · refine Emits_ite _ _ _ _ ?_ (Emits_throw _ _)
    refine (Emits_singleArg mne a).em_mono ?_
    rintro l ⟨h1, h2⟩
    rw [h1, h2]
  · exact Emits_ite _ _ _ _ (Emits_doubleArg _ _ _ _) (Emits_throw _ _)
  · exact Emits_ite _ _ _ _ (Emits_tripleArg _ _ _ _ _) (Emits_throw _ _)
  · exact Emits_throw _ _

theorem Emits.em_toSeq {P : String → Prop} {f : Network → Asm Network} (h : Emits P f) :
    EmitsSeq f := by
  intro net net1 m hf hm
  obtain ⟨es, lk, e1, e2, _, e4⟩ := h net net1 m hf hm
  exact ⟨es, lk, e1, e2, e4⟩

theorem LastAgrees.la_append {c c' : List Instruction} (h : LastAgrees c c')
    (es : List Instruction) : LastAgrees (c ++ es) (c' ++ es) := by
  cases es with
  | nil => simpa using h
  | cons e t =>
    left
    rw [List.getLast?_append_of_ne_nil _ (List.cons_ne_nil e t),
      List.getLast?_append_of_ne_nil _ (List.cons_ne_nil e t)]

theorem LastAgrees.la_refl (c : List Instruction) : LastAgrees c c := Or.inl rfl

theorem LastAgrees.la_grown (c es : List Instruction) (hes : ∀ e ∈ es, Sound e) :
    LastAgrees c (c ++ es) := by
  cases hl : es.getLast? with
  | none =>
    have : es = [] := List.getLast?_eq_none_iff.1 hl
    subst this
    simpa using LastAgrees.la_refl c
  | some e =>
    right
    have hne : es ≠ [] := by
      rintro rfl
      cases hl
    refine ⟨e, by rw [List.getLast?_append_of_ne_nil _ hne, hl], ?_⟩
    exact (hes e (List.mem_of_getLast?_eq_some hl)).1

theorem EmitsSeq_pure : EmitsSeq (fun net => (pure net : Asm Network)) :=
  (Emits_pure (fun _ => False)).em_toSeq

theorem EmitsSeq_bind {f g : Network → Asm Network} (hf : EmitsSeq f) (hg : EmitsSeq g) :
    EmitsSeq (fun net => f net >>= g) := by
  intro net net1 m h hm
  have h' : (f net >>= g) = .ok net1 := h
  cases hfa : f net with
  | error e => rw [hfa] at h'; cases h'
  | ok netA =>
    rw [hfa] at h'
    have hga : g netA = .ok net1 := h'
    obtain ⟨es1, lk1, a1, a2, a3⟩ := hf net netA m hfa hm
    have hmA : netA.pMachineBeingAssembled = some { m with code := m.code ++ es1 } := by
      rw [a1]
    obtain ⟨es2, lk2, b1, b2, b3⟩ := hg netA net1 _ hga hmA
    refine ⟨es1 ++ es2, lk2, ?_, ?_, ?_⟩
    · rw [b1, a1]
      simp only [List.append_assoc]
    · intro e he
      rcases List.mem_append.1 he with h1 | h1
      · exact a2 e h1
      · exact b2 e h1
    · intro net' m' hm' hhw hla
      obtain ⟨lk1', c1⟩ := a3 net' m' hm' hhw hla
      obtain ⟨lk2', c2⟩ := b3
        { net' with pMachineBeingAssembled := some { m' with code := m'.code ++ es1 }
                    addressLookup := lk1' }
        { m' with code := m'.code ++ es1 } rfl
        (by rw [a1]; exact hhw) (hla.la_append es1)
      refine ⟨lk2', ?_⟩
      show (f net' >>= g) = _
      rw [c1]
      show g _ = _
      rw [c2]
      simp only [List.append_assoc]

theorem EmitsSeq_processInstructions (block : List String) :
    EmitsSeq (processInstructions block) := by
  induction block with
  | nil => exact EmitsSeq_pure
  | cons line rest ih =>
    exact EmitsSeq_bind (Emits_processInstruction line).em_toSeq ih

theorem processInstructions_append (pre post : List String) (net : Network) :
    processInstructions (pre ++ post) net
      = (processInstructions pre net >>= processInstructions post) := by
  induction pre generalizing net with
  | nil => rfl
  | cons line rest ih =>
    show (processInstruction line net >>= processInstructions (rest ++ post))
      = ((processInstruction line net >>= processInstructions rest)
        >>= processInstructions post)
    cases processInstruction line net with
    | error e => rfl
    | ok n1 => exact ih n1

theorem expandBlock_plain (i : Nat) (block : List String)
    (hplain : ∀ l ∈ block, incrementor l.data = none) (net : Network) :
    expandBlock i block net = processInstructions block net := by
  induction block generalizing net with
  | nil => rfl
  | cons line rest ih =>
    have h1 : expandLine i line = .ok line := by
      unfold expandLine
      rw [hplain line (List.mem_cons_self _ _)]
      rfl
    show (expandLine i line >>= fun text => processInstruction text net >>= expandBlock i rest) = _
    rw [h1]
    show (processInstruction line net >>= expandBlock i rest) = _
    have h2 : expandBlock i rest = processInstructions rest :=
      funext fun n => ih (fun l hl => hplain l (List.mem_cons_of_mem _ hl)) n
    rw [h2]
    rfl

/-- The outer loop of `@end` on a block without placeholders: `count` copies of what the
block emits. -/
theorem expandFrom_copies (block : List String)
    (hplain : ∀ l ∈ block, incrementor l.data = none)
    (net : Network) (m : Machine) (es : List Instruction)
    (hes : ∀ e ∈ es, Sound e)
    (htrans : ∀ (net' : Network) (m' : Machine), net'.pMachineBeingAssembled = some m' →
      net'.hwRegMap = net.hwRegMap → LastAgrees m.code m'.code →
        ∃ lk', processInstructions block net' = .ok { net' with
          pMachineBeingAssembled := some { m' with code := m'.code ++ es }
          addressLookup := lk' })
    (count : Nat) :
    ∀ (i : Nat) (net' : Network) (m' : Machine), net'.pMachineBeingAssembled = some m' →
      net'.hwRegMap = net.hwRegMap → LastAgrees m.code m'.code →
        ∃ lk', expandFrom block count i net' = .ok { net' with
          pMachineBeingAssembled :=
            some { m' with code := m'.code ++ (List.replicate count es).flatten }
          addressLookup := lk' } := by
  induction count with
  | zero =>
    intro i net' m' hm' _ _
    refine ⟨net'.addressLookup, ?_⟩
    show Except.ok net' = _
    simp only [List.replicate_zero, List.flatten_nil]
    exact congrArg Except.ok (net_eta net' m' hm')
  | succ k ih =>
    intro i net' m' hm' hhw hla
    obtain ⟨lk1, h1⟩ := htrans net' m' hm' hhw hla
    have hla2 : LastAgrees m.code (m'.code ++ es) := by
      rcases hla with e1 | ⟨e, e1, e2⟩
      · have := LastAgrees.la_grown m'.code es hes
        rcases this with g1 | g2
        · exact Or.inl (by rw [g1, e1])
        · exact Or.inr g2
      · have := LastAgrees.la_grown m'.code es hes
        rcases this with g1 | g2
        · exact Or.inr ⟨e, by rw [g1, e1], e2⟩
        · exact Or.inr g2
    obtain ⟨lk2, h2⟩ := ih (i + 1)
      { net' with pMachineBeingAssembled := some { m' with code := m'.code ++ es }
                  addressLookup := lk1 }
      { m' with code := m'.code ++ es } rfl hhw hla2
    refine ⟨lk2, ?_⟩
    show (expandBlock i block net' >>= expandFrom block k (i + 1)) = _
    rw [expandBlock_plain i block hplain, h1]
    show expandFrom block k (i + 1) _ = _
    rw [h2]
    simp only [List.replicate_succ, List.flatten_cons, List.append_assoc]

theorem processLine_instruction (parse : String → Directive) (raw : String) (net : Network)
    (m : Machine) (hm : net.pMachineBeingAssembled = some m)
    (hraw : isInstructionLine raw = true) :
    processLine parse raw net
      = if net.addRepLines then
          pure { net with repLines := net.repLines ++ [normalLine raw] }
        else processInstruction (normalLine raw) net := by
  unfold processLine normalLine
  unfold isInstructionLine at hraw
  cases h : trimLine (removeComments raw.data) with
  | nil => rw [h] at hraw; cases hraw
  | cons c rest =>
    rw [h] at hraw
    simp only [Bool.and_eq_true, decide_eq_true_eq] at hraw
    simp only [if_neg hraw.1, if_neg hraw.2, hm, Option.isNone_some, Bool.false_eq_true,
      if_false]

theorem beginsWith_at (ps l : List Char)
    (h : beginsWith ('@' :: ps) (l.map Char.toLower) = true) :
    ∃ c rest, l = c :: rest ∧ c.toLower = '@' ∧ c ≠ '.' := by
  cases l with
  | nil => cases h
  | cons c rest =>
    simp only [List.map_cons, beginsWith, Bool.and_eq_true, decide_eq_true_eq] at h
    refine ⟨c, rest, rfl, h.1.symm, ?_⟩
    rintro rfl
    exact absurd h.1 (by decide)

theorem processLine_directive (parse : String → Directive) (raw : String) (net : Network)
    (m : Machine) (hm : net.pMachineBeingAssembled = some m) (ps : List Char)
    (hraw : beginsWith ('@' :: ps) (normalLine raw).data = true) :
    processLine parse raw net = processPreprocessorDirective (normalLine raw) net := by
  unfold normalLine at hraw ⊢
  obtain ⟨c, rest, h, hc, hdot⟩ := beginsWith_at ps _ hraw
  unfold processLine
  rw [h]
  simp only [if_neg hdot, hc, if_true, hm, Option.isNone_some, Bool.false_eq_true, if_false]

theorem processLines_alone (parse : String → Directive) (lines : List String)
    (hlines : ∀ l ∈ lines, isInstructionLine l = true)
    (net : Network) (m : Machine) (hm : net.pMachineBeingAssembled = some m)
    (hoff : net.addRepLines = false) :
    processLines parse lines net = processInstructions (lines.map normalLine) net := by
  induction lines generalizing net m with
  | nil => rfl
  | cons l rest ih =>
    show (processLine parse l net >>= processLines parse rest)
      = (processInstruction (normalLine l) net >>= processInstructions (rest.map normalLine))
    rw [processLine_instruction parse l net m hm (hlines l (List.mem_cons_self _ _)), hoff]
    simp only [Bool.false_eq_true, if_false]
    cases h : processInstruction (normalLine l) net with
    | error e => rfl
    | ok n1 =>
      obtain ⟨es, lk, e1, _⟩ := (Emits_processInstruction (normalLine l)).em_toSeq net n1 m h hm
      show processLines parse rest n1 = processInstructions (rest.map normalLine) n1
      exact ih (fun x hx => hlines x (List.mem_cons_of_mem _ hx)) n1 _
        (by rw [e1]) (by rw [e1]; exact hoff)

theorem processLines_buffer (parse : String → Directive) (lines : List String)
    (hlines : ∀ l ∈ lines, isInstructionLine l = true)
    (net : Network) (m : Machine) (hm : net.pMachineBeingAssembled = some m)
    (hon : net.addRepLines = true) :
    processLines parse lines net
      = .ok { net with repLines := net.repLines ++ lines.map normalLine } := by
  induction lines generalizing net with
  | nil =>
    show Except.ok net = _
    simp only [List.map_nil, List.append_nil]
  | cons l rest ih =>
    have hstep : processLine parse l net
        = .ok { net with repLines := net.repLines ++ [normalLine l] } := by
      rw [processLine_instruction parse l net m hm (hlines l (List.mem_cons_self _ _)),
        if_pos hon]
      rfl
    show (processLine parse l net >>= processLines parse rest) = _
    rw [hstep]
    show processLines parse rest { net with repLines := net.repLines ++ [normalLine l] } = _
    rw [ih (fun x hx => hlines x (List.mem_cons_of_mem _ hx))
      { net with repLines := net.repLines ++ [normalLine l] } hm hon]
    simp only [List.map_cons, List.append_assoc, List.singleton_append]

theorem processLines_append (parse : String → Directive) (pre post : List String)
    (net : Network) :
    processLines parse (pre ++ post) net
      = (processLines parse pre net >>= processLines parse post) := by
  induction pre generalizing net with
  | nil => rfl
  | cons line rest ih =>
    show (processLine parse line net >>= processLines parse (rest ++ post))
      = ((processLine parse line net >>= processLines parse rest) >>= processLines parse post)
    cases processLine parse line net with
    | error e => rfl
    | ok n1 => exact ih n1

theorem not_rep_of_end (l : List Char) (h : beginsWith "@end".data l = true) :
    beginsWith "@rep".data l = false := by
  rcases l with _ | ⟨a, _ | ⟨b, t⟩⟩
  · cases h
  · simp [beginsWith] at h
  · simp only [String.data, beginsWith, Bool.and_eq_true, decide_eq_true_eq] at h
    obtain ⟨_, hb, _⟩ := h
    subst hb
    simp [beginsWith]

/-! ## Labels and the end of the assembly of an exa -/

theorem mapFind_mapEmplace {κ α : Type} [LT κ] [DecidableEq κ]
    [DecidableRel (fun a b : κ => a < b)] (k k' : κ) (a b : α) (lk : List (κ × α))
    (h : mapFind k' (mapEmplace k a lk) = some b) :
    (k' = k ∧ b = a) ∨ mapFind k' lk = some b := by
  induction lk with
  | nil =>
    simp only [mapEmplace, mapFind] at h
    by_cases hk : k = k'
    · rw [if_pos hk] at h
      exact Or.inl ⟨hk.symm, (Option.some.inj h).symm⟩
    · rw [if_neg hk] at h
      cases h
  | cons p rest ih =>
    obtain ⟨k0, a0⟩ := p
    simp only [mapEmplace] at h
    by_cases h1 : k0 = k
    · rw [if_pos h1] at h
      exact Or.inr h
    · rw [if_neg h1] at h
      by_cases h2 : k < k0
      · rw [if_pos h2] at h
        simp only [mapFind] at h ⊢
        by_cases hk : k = k'
        · rw [if_pos hk] at h
          exact Or.inl ⟨hk.symm, (Option.some.inj h).symm⟩
        · rw [if_neg hk] at h
          exact Or.inr h
      · rw [if_neg h2] at h
        simp only [mapFind] at h ⊢
        by_cases hk : k0 = k'
        · rw [if_pos hk] at h ⊢
          exact Or.inr h
        · rw [if_neg hk] at h ⊢
          exact ih h

/-- What the label loop of `finalizeActiveMachine` returns: the code has its length, the
instructions that are no branches are kept, and a branch has its label replaced by the address
found under it. -/
theorem resolveLabels_ok (lk : List (String × Nat)) (cs cs' : List Instruction)
    (h : resolveLabels lk cs = .ok cs') :
    cs'.length = cs.length
    ∧ ∀ (k : Nat) (inst : Instruction), cs[k]? = some inst →
        (inst.opcode.isBranch = false → cs'[k]? = some inst)
        ∧ (inst.opcode.isBranch = true →
            ∃ label a, inst.op1 = .str label ∧ mapFind label lk = some a
              ∧ cs'[k]? = some { inst with op1 := .addr a }) := by
  induction cs generalizing cs' with
  | nil =>
    cases h
    exact ⟨rfl, fun k inst hk => by simp at hk⟩
  | cons e rest ih =>
    unfold resolveLabels at h
    by_cases hb : e.opcode.isBranch = true
    · rw [if_pos hb] at h
      cases ho : e.op1 with
      | str label =>
        rw [ho] at h
        simp only [] at h
        cases hf : mapFind label lk with
        | none => rw [hf] at h; cases h
        | some a =>
          rw [hf] at h
          simp only [] at h
          cases hr : resolveLabels lk rest with
          | error er => rw [hr] at h; cases h
          | ok rest1 =>
            rw [hr] at h
            cases h
            obtain ⟨i1, i2⟩ := ih rest1 hr
            refine ⟨by simp [i1], ?_⟩
            intro k inst hk
            cases k with
            | zero =>
              simp only [List.getElem?_cons_zero, Option.some.injEq] at hk
              subst hk
              refine ⟨fun hn => (by rw [hb] at hn; cases hn), fun _ => ⟨label, a, ho, hf, ?_⟩⟩
              simp
            | succ j =>
              simp only [List.getElem?_cons_succ] at hk ⊢
              exact i2 j inst hk
      | reg r => rw [ho] at h; cases h
      | num n => rw [ho] at h; cases h
      | addr n => rw [ho] at h; cases h
      | hw r => rw [ho] at h; cases h
      | unassigned => rw [ho] at h; cases h
    · rw [if_neg hb] at h
      cases hr : resolveLabels lk rest with
      | error er => rw [hr] at h; cases h
      | ok rest1 =>
        rw [hr] at h
        cases h
        obtain ⟨i1, i2⟩ := ih rest1 hr
        refine ⟨by simp [i1], ?_⟩
        intro k inst hk
        cases k with
        | zero =>
          simp only [List.getElem?_cons_zero, Option.some.injEq] at hk
          subst hk
          exact ⟨fun _ => by simp, fun hn => absurd hn hb⟩
        | succ j =>
          simp only [List.getElem?_cons_succ] at hk ⊢
          exact i2 j inst hk

theorem resolveLabels_unknown (lk : List (String × Nat)) (cs : List Instruction)
    (hs : ∀ e ∈ cs, e.opcode.isBranch = true → ∃ l, e.op1 = .str l)
    (hu : ∃ e ∈ cs, e.opcode.isBranch = true ∧ ∃ l, e.op1 = .str l ∧ mapFind l lk = none) :
    ∃ l, mapFind l lk = none
      ∧ resolveLabels lk cs
          = .error (.error ("Tried to jump/repl to unrecognized label: " ++ l)) := by
  induction cs with
  | nil =>
    obtain ⟨e, he, _⟩ := hu
    cases he
  | cons e rest ih =>
    unfold resolveLabels
    by_cases hb : e.opcode.isBranch = true
    · rw [if_pos hb]
      obtain ⟨l0, hl0⟩ := hs e (List.mem_cons_self _ _) hb
      rw [hl0]
      simp only []
      cases hf : mapFind l0 lk with
      | none => exact ⟨l0, hf, rfl⟩
      | some a =>
        simp only []
        have hrest : ∃ e' ∈ rest, e'.opcode.isBranch = true
            ∧ ∃ l, e'.op1 = .str l ∧ mapFind l lk = none := by
          obtain ⟨e', he', hb', l, hl, hn⟩ := hu
          rcases List.mem_cons.1 he' with rfl | hin
          · rw [hl0] at hl
            cases hl
            rw [hf] at hn
            cases hn
          · exact ⟨e', hin, hb', l, hl, hn⟩
        obtain ⟨l, hl1, hl2⟩ := ih (fun x hx => hs x (List.mem_cons_of_mem _ hx)) hrest
        exact ⟨l, hl1, by rw [hl2]; rfl⟩
    · rw [if_neg hb]
      have hrest : ∃ e' ∈ rest, e'.opcode.isBranch = true
          ∧ ∃ l, e'.op1 = .str l ∧ mapFind l lk = none := by
        obtain ⟨e', he', hb', l, hl, hn⟩ := hu
        rcases List.mem_cons.1 he' with rfl | hin
        · exact absurd hb' hb
        · exact ⟨e', hin, hb', l, hl, hn⟩
      obtain ⟨l, hl1, hl2⟩ := ih (fun x hx => hs x (List.mem_cons_of_mem _ hx)) hrest
      exact ⟨l, hl1, by rw [hl2]; rfl⟩

/-- The state that `finalizeActiveMachine` returns for the exa `m` with the resolved code. -/
theorem finalize_eq (net : Network) (m : Machine) (hi : Nat) (home : Node)
    (hm : net.pMachineBeingAssembled = some m) (hrep : net.addRepLines = false)
    (hhome : net.pHomeNode = some hi) (hlive : net.homeDangling = false)
    (hnd : net.nodes[hi]? = some home)
    (hcap : home.machines.length + home.files.length < home.capacity) :
    finalizeActiveMachine net
      = (resolveLabels net.addressLookup m.code >>= fun code =>
          pure { net with
            stats := { net.stats with size := net.stats.size + code.length }
            nodes := net.nodes.modify
              (fun nd => { nd with machines := nd.machines ++ [some { m with code := code }] }) hi
            pMachineBeingAssembled := none
            addressLookup := [] }) := by
  unfold finalizeActiveMachine
  simp only [hm, hrep, hhome, hlive, hnd, if_pos hcap, Bool.false_eq_true, if_false]

theorem finalize_ok_inv (net net2 : Network) (m : Machine)
    (hm : net.pMachineBeingAssembled = some m) (h : finalizeActiveMachine net = .ok net2) :
    net.addRepLines = false
    ∧ ∃ hi home code, net.pHomeNode = some hi ∧ net.nodes[hi]? = some home
        ∧ home.machines.length + home.files.length < home.capacity
        ∧ resolveLabels net.addressLookup m.code = .ok code
        ∧ net2 = { net with
            stats := { net.stats with size := net.stats.size + code.length }
            nodes := net.nodes.modify
              (fun nd => { nd with machines := nd.machines ++ [some { m with code := code }] }) hi
            pMachineBeingAssembled := none
            addressLookup := [] } := by
  cases hrep : net.addRepLines with
  | true =>
    unfold finalizeActiveMachine at h
    simp only [hm, hrep, if_true] at h
    cases h
  | false =>
    refine ⟨rfl, ?_⟩
    cases hhome : net.pHomeNode with
    | none =>
      unfold finalizeActiveMachine at h
      simp only [hm, hrep, hhome, Bool.false_eq_true, if_false] at h
      cases h
    | some hi =>
      cases hlive : net.homeDangling with
      | true =>
        unfold finalizeActiveMachine at h
        simp only [hm, hrep, hhome, hlive, Bool.false_eq_true, if_false, if_true] at h
        cases h
      | false =>
        cases hnd : net.nodes[hi]? with
        | none =>
          unfold finalizeActiveMachine at h
          simp only [hm, hrep, hhome, hlive, hnd, Bool.false_eq_true, if_false] at h
          cases h
        | some home =>
          by_cases hcap : home.machines.length + home.files.length < home.capacity
          · rw [finalize_eq net m hi home hm hrep hhome hlive hnd hcap] at h
            cases hr : resolveLabels net.addressLookup m.code with
            | error e => rw [hr] at h; cases h
            | ok code =>
              rw [hr] at h
              cases h
              exact ⟨hi, home, code, rfl, hnd, hcap, rfl, by simp only [hrep, hhome, hlive]⟩
          · unfold finalizeActiveMachine at h
            simp only [hm, hrep, hhome, hlive, hnd, if_neg hcap, Bool.false_eq_true, if_false] at h
            cases h

/-- Every entry of `addressLookup` after the assembly of `lines` was there before, or was
entered by a line `mark` with the number of instructions emitted before that line. -/
theorem marks_found (lines : List String) :
    ∀ (net0 net1 : Network) (m0 : Machine), net0.pMachineBeingAssembled = some m0 →
      processInstructions lines net0 = .ok net1 →
      ∀ (label : String) (a : Nat), mapFind label net1.addressLookup = some a →
        mapFind label net0.addressLookup = some a
        ∨ ∃ pre mk post netp mp, lines = pre ++ mk :: post ∧ tokens mk = some ["mark", label]
            ∧ processInstructions pre net0 = .ok netp
            ∧ netp.pMachineBeingAssembled = some mp ∧ mp.code.length = a := by
  induction lines with
  | nil =>
    intro net0 net1 m0 _ h label a hf
    cases h
    exact Or.inl hf
  | cons line rest ih =>
    intro net0 net1 m0 hm h label a hf
    have h' : (processInstruction line net0 >>= processInstructions rest) = .ok net1 := h
    cases hA : processInstruction line net0 with
    | error e => rw [hA] at h'; cases h'
    | ok netA =>
      rw [hA] at h'
      have hrest : processInstructions rest netA = .ok net1 := h'
      obtain ⟨es, lk, e1, _, e3, _⟩ := Emits_processInstruction line net0 netA m0 hA hm
      have hmA : netA.pMachineBeingAssembled = some { m0 with code := m0.code ++ es } := by
        rw [e1]
      have hlkA : netA.addressLookup = lk := by rw [e1]
      rcases ih netA net1 _ hmA hrest label a hf with hold | ⟨pre, mk, post, netp, mp, p1, p2, p3, p4, p5⟩
      · rw [hlkA] at hold
        rcases e3 with e3 | ⟨_, l, hl, e3⟩
        · rw [e3] at hold
          exact Or.inl hold
        · rw [e3] at hold
          rcases mapFind_mapEmplace _ _ _ _ _ hold with ⟨k1, k2⟩ | hprev
          · refine Or.inr ⟨[], line, rest, net0, m0, rfl, ?_, rfl, hm, k2.symm⟩
            rw [hl, k1]
          · exact Or.inl hprev
      · refine Or.inr ⟨line :: pre, mk, post, netp, mp, by rw [p1]; rfl, p2, ?_, p4, p5⟩
        show (processInstruction line net0 >>= processInstructions pre) = _
        rw [hA]
        exact p3

theorem wrap64_id (z : Int) (h1 : -(2 ^ 63) ≤ z) (h2 : z < 2 ^ 63) : wrap64 z = z := by
  unfold wrap64
  omega

/-! ## The decimal text of a number and the loop of `swiz` -/

theorem decimalLengthAux_fuel :
    ∀ (f1 f2 n : Nat), n ≤ f1 → n ≤ f2 → decimalLengthAux f1 n = decimalLengthAux f2 n := by
  intro f1
  induction f1 with
  | zero =>
    intro f2 n h1 _
    have hn : n = 0 := by omega
    subst hn
    cases f2 <;> rfl
  | succ f ih =>
    intro f2 n h1 h2
    cases f2 with
    | zero =>
      have hn : n = 0 := by omega
      subst hn
      rfl
    | succ g =>
      unfold decimalLengthAux
      by_cases h : n < 10
      · rw [if_pos h, if_pos h]
      · rw [if_neg h, if_neg h, ih g (n / 10) (by omega) (by omega)]

theorem decimalLength_small (n : Nat) (h : n < 10) : decimalLength n = 1 := by
  unfold decimalLength
  cases n with
  | zero => rfl
  | succ k =>
    unfold decimalLengthAux
    rw [if_pos h]

theorem decimalLength_large (n : Nat) (h : ¬ n < 10) :
    decimalLength n = 1 + decimalLength (n / 10) := by
  unfold decimalLength
  cases n with
  | zero => omega
  | succ k =>
    conv => lhs; unfold decimalLengthAux
    rw [if_neg h, decimalLengthAux_fuel k ((k + 1) / 10) ((k + 1) / 10) (by omega) (le_refl _)]

theorem natDigits_eq :
    ∀ (fuel n : Nat) (acc : List Char), n < fuel →
      natDigits fuel n acc
        = ((digitsLE n (decimalLength n)).reverse.map digitChar) ++ acc := by
  intro fuel
  induction fuel with
  | zero => intro n acc h; omega
  | succ f ih =>
    intro n acc h
    unfold natDigits
    by_cases h10 : n < 10
    · rw [if_pos h10, decimalLength_small n h10]
      simp only [digitsLE, List.reverse_cons, List.reverse_nil, List.nil_append, List.map_cons,
        List.map_nil, List.singleton_append, Nat.mod_eq_of_lt h10]
    · rw [if_neg h10, ih (n / 10) _ (by omega), decimalLength_large n h10, Nat.add_comm 1]
      simp only [digitsLE, List.reverse_cons, List.map_append, List.map_cons, List.map_nil,
        List.append_assoc, List.singleton_append]

theorem toChars_nat (n : Nat) :
    toChars (n : Int) = (digitsLE n (decimalLength n)).reverse.map digitChar := by
  unfold toChars
  rw [if_neg (by omega)]
  simp only [Int.natAbs_ofNat]
  rw [natDigits_eq (n + 1) n [] (by omega), List.append_nil]

theorem toChars_neg (z : Int) (h : z < 0) :
    toChars z = '-' :: (digitsLE z.natAbs (decimalLength z.natAbs)).reverse.map digitChar := by
  unfold toChars
  rw [if_pos h, natDigits_eq (z.natAbs + 1) z.natAbs [] (by omega), List.append_nil]

theorem digitsLE_length (n len : Nat) : (digitsLE n len).length = len := by
  induction len generalizing n with
  | zero => rfl
  | succ k ih => simp [digitsLE, ih]

theorem digitsLE_lt (n len : Nat) : ∀ d ∈ digitsLE n len, d < 10 := by
  induction len generalizing n with
  | zero => intro d hd; cases hd
  | succ k ih =>
    intro d hd
    simp only [digitsLE, List.mem_cons] at hd
    rcases hd with rfl | hd
    · exact Nat.mod_lt _ (by norm_num)
    · exact ih _ d hd

theorem digitsLE_get (n len k : Nat) (h : k < len) :
    (digitsLE n len)[k]? = some (decimalDigit n k) := by
  induction len generalizing n k with
  | zero => omega
  | succ l ih =>
    cases k with
    | zero => simp [digitsLE, decimalDigit]
    | succ j =>
      simp only [digitsLE, List.getElem?_cons_succ]
      rw [ih (n / 10) j (by omega)]
      unfold decimalDigit
      rw [Nat.pow_succ, Nat.mul_comm, Nat.div_div_eq_div_mul]

theorem digitChar_facts (d : Nat) (h : d < 10) :
    digitChar d ≠ '-' ∧ (digitChar d = '0' ↔ d = 0) ∧ (digitChar d).toNat = 48 + d := by
  interval_cases d <;> decide

/-- The character of the text of `n` that the mask digit with `dgt = m - 1` selects. -/
theorem text_getD (n dgt : Nat) (h : dgt < decimalLength n) :
    ((digitsLE n (decimalLength n)).reverse.map digitChar).getD (decimalLength n - dgt - 1) '0'
      = digitChar (decimalDigit n dgt) := by
  have hlen : (digitsLE n (decimalLength n)).length = decimalLength n := digitsLE_length _ _
  rw [List.getD_eq_getElem?_getD, List.getElem?_map, List.getElem?_reverse (by rw [hlen]; omega),
    hlen]
  have : decimalLength n - 1 - (decimalLength n - dgt - 1) = dgt := by omega
  rw [this, digitsLE_get n _ dgt h]
  rfl

theorem swizLoop_append (inStr : List Char) :
    ∀ (xs ys : List Char) (out : Int) (neg : Bool),
      swizLoop inStr (xs ++ ys) out neg
        = swizLoop inStr ys (swizLoop inStr xs out neg).1 (swizLoop inStr xs out neg).2 := by
  intro xs
  induction xs with
  | nil => intro ys out neg; rfl
  | cons c rest ih =>
    intro ys out neg
    simp only [List.cons_append, swizLoop]
    split_ifs <;> exact ih _ _ _

/-- One mask digit `d` of the loop of `swiz`, when no overflow occurs. -/
theorem swizLoop_digit (n d : Nat) (hd : d < 10) (rest : List Char) (out : Int) (neg : Bool)
    (h0 : 0 ≤ out) (hfit : out * 10 + (swizPick n d : Int) < 2 ^ 63) :
    swizLoop ((digitsLE n (decimalLength n)).reverse.map digitChar) (digitChar d :: rest) out neg
      = swizLoop ((digitsLE n (decimalLength n)).reverse.map digitChar) rest
          (out * 10 + (swizPick n d : Int)) neg := by
  obtain ⟨f1, f2, f3⟩ := digitChar_facts d hd
  have hlen : ((digitsLE n (decimalLength n)).reverse.map digitChar).length = decimalLength n := by
    rw [List.length_map, List.length_reverse, digitsLE_length]
  have hp : (0 : Int) ≤ (swizPick n d : Int) := Int.ofNat_nonneg _
  have hw : wrap64 (out * 10) = out * 10 := wrap64_id _ (by omega) (by omega)
  rw [swizLoop, if_neg f1]
  simp only [hw]
  by_cases hz : d = 0
  · rw [if_pos (f2.2 hz)]
    subst hz
    have : swizPick n 0 = 0 := rfl
    rw [this]
    simp
  · rw [if_neg (fun h => hz (f2.1 h))]
    have hdgt : toSizeT (((digitChar d).toNat : Int) - 49) = d - 1 := by
      rw [f3]
      unfold toSizeT
      omega
    rw [hdgt, hlen]
    by_cases hin : d - 1 < decimalLength n
    · rw [if_pos hin, text_getD n (d - 1) hin]
      have hdd : decimalDigit n (d - 1) < 10 := Nat.mod_lt _ (by norm_num)
      have hpick : swizPick n d = decimalDigit n (d - 1) := by
        unfold swizPick
        rw [if_neg hz, if_pos (by omega)]
      have hto : ((digitChar (decimalDigit n (d - 1))).toNat : Int) - 48
          = (decimalDigit n (d - 1) : Int) := by
        rw [(digitChar_facts _ hdd).2.2]
        omega
      rw [hto, hpick]
      rw [hpick] at hfit
      rw [wrap64_id _ (by omega) hfit]
    · rw [if_neg hin]
      have hpick : swizPick n d = 0 := by
        unfold swizPick
        rw [if_neg hz, if_neg (by omega)]
      rw [hpick]
      simp

/-- The loop of `swiz` over the text of the digits `ds` (the least significant first in `ds`),
when the result fits in 64 bits. -/
theorem swizLoop_digits (n : Nat) (neg : Bool) :
    ∀ (ds : List Nat) (out : Int), (∀ d ∈ ds, d < 10) → 0 ≤ out →
      out * 10 ^ ds.length + (sumLE (swizPick n) ds : Int) < 2 ^ 63 →
      swizLoop ((digitsLE n (decimalLength n)).reverse.map digitChar)
          (ds.reverse.map digitChar) out neg
        = (out * 10 ^ ds.length + (sumLE (swizPick n) ds : Int), neg) := by
  intro ds
  induction ds with
  | nil =>
    intro out _ _ _
    simp [swizLoop, sumLE]
  | cons d rest ih =>
    intro out hds h0 hfit
    have hd : d < 10 := hds d (List.mem_cons_self _ _)
    have hrest : ∀ x ∈ rest, x < 10 := fun x hx => hds x (List.mem_cons_of_mem _ hx)
    have hval : out * 10 ^ (d :: rest).length + (sumLE (swizPick n) (d :: rest) : Int)
        = (out * 10 ^ rest.length + (sumLE (swizPick n) rest : Int)) * 10
            + (swizPick n d : Int) := by
      simp only [List.length_cons, sumLE, pow_succ]
      push_cast
      ring
    rw [hval] at hfit ⊢
    have hinner0 : 0 ≤ out * 10 ^ rest.length + (sumLE (swizPick n) rest : Int) := by
      have h1 : (0 : Int) ≤ 10 ^ rest.length := by positivity
      have h2 : (0 : Int) ≤ (sumLE (swizPick n) rest : Int) := Int.ofNat_nonneg _
      have h3 : 0 ≤ out * 10 ^ rest.length := Int.mul_nonneg h0 h1
      omega
    have hp : (0 : Int) ≤ (swizPick n d : Int) := Int.ofNat_nonneg _
    have hinner : out * 10 ^ rest.length + (sumLE (swizPick n) rest : Int) < 2 ^ 63 := by
      omega
    rw [List.reverse_cons, List.map_append, swizLoop_append, ih out hrest h0 hinner]
    simp only [List.map_cons, List.map_nil]
    rw [swizLoop_digit n d hd [] _ neg hinner0 hfit]
    rfl

theorem sumLE_digits (p : Nat → Nat) :
    ∀ (len n : Nat), sumLE p (digitsLE n len)
      = ((List.range len).map fun k => 10 ^ k * p (decimalDigit n k)).sum := by
  intro len
  induction len with
  | zero => intro n; rfl
  | succ l ih =>
    intro n
    rw [List.range_succ_eq_map]
    simp only [digitsLE, sumLE, List.map_cons, List.sum_cons, List.map_map, ih (n / 10)]
    have h0 : decimalDigit n 0 = n % 10 := by simp [decimalDigit]
    rw [h0, pow_zero, Nat.one_mul, ← List.sum_map_mul_left]
    congr 2
    apply List.map_congr_left
    intro k _
    simp only [Function.comp, decimalDigit]
    rw [Nat.pow_succ, Nat.div_div_eq_div_mul, Nat.mul_comm 10 (10 ^ k)]
    ring

theorem swizSum_eq (input mask : Nat) :
    swizSum input mask = sumLE (swizPick input) (digitsLE mask (decimalLength mask)) := by
  unfold swizSum
  rw [sumLE_digits]

theorem swizPick_lt (input m : Nat) : swizPick input m < 10 := by
  unfold swizPick
  split_ifs
  · norm_num
  · exact Nat.mod_lt _ (by norm_num)
  · norm_num

theorem sumLE_lt (p : Nat → Nat) (hp : ∀ d, p d < 10) :
    ∀ ds : List Nat, sumLE p ds < 10 ^ ds.length := by
  intro ds
  induction ds with
  | nil => simp [sumLE]
  | cons d rest ih =>
    simp only [sumLE, List.length_cons, pow_succ]
    have := hp d
    omega

theorem swizSum_lt (input mask : Nat) : swizSum input mask < 10 ^ decimalLength mask := by
  rw [swizSum_eq]
  have := sumLE_lt (swizPick input) (swizPick_lt input) (digitsLE mask (decimalLength mask))
  rwa [digitsLE_length] at this

/-! ## The closed form of `MAKE` -/

theorem stepMachine_make {net : Network} {ni mi : Nat} {m : Machine} {inst : Instruction}
    (hm : net.machineAt ni mi = some m) (hfetch : m.code[m.instPtr]? = some inst)
    (hop : inst.opcode = .Make) (hfile : m.file = none) :
    stepMachine ni mi net = .ok ()
      ((({ net with nextFileId := (net.nextFileId + 1) % 2 ^ 16 } : Network).updMachine ni mi
          fun m1 => { m1 with file := some (madeFile net.nextFileId) }).updMachine ni mi
        fun m1 => { m1 with instPtr := m1.instPtr + 1 }) := by
  obtain ⟨opcode, op1, op2, op3⟩ := inst
  simp only at hop
  subst hop
  have hexec : execInstruction ni mi ⟨.Make, op1, op2, op3⟩ net = .ok true
      (({ net with nextFileId := (net.nextFileId + 1) % 2 ^ 16 } : Network).updMachine ni mi
          fun m1 => { m1 with file := some (madeFile net.nextFileId) }) := by
    simp only [execInstruction, bind_apply, getMachine_of hm, hfile, Option.isSome_none,
      Bool.false_eq_true, if_false, getNet_apply, modifyNet_apply, modifyMachine_apply,
      pure_apply]
    rfl
  unfold stepMachine
  rw [fetchExec_eq hm hfetch, hexec]
  rfl

theorem fetchExec_make_held {net : Network} {ni mi : Nat} {m : Machine} {inst : Instruction}
    {f : File} (hm : net.machineAt ni mi = some m) (hfetch : m.code[m.instPtr]? = some inst)
    (hop : inst.opcode = .Make) (hfile : m.file = some f) :
    fetchExec ni mi net = .failure "Tried to make, but already holding file" net := by
  obtain ⟨opcode, op1, op2, op3⟩ := inst
  simp only at hop
  subst hop
  rw [fetchExec_eq hm hfetch]
  simp only [execInstruction, bind_apply, getMachine_of hm, hfile, Option.isSome_some, if_true,
    raiseFailure]

theorem machineAt_after_make (net : Network) (ni mi : Nat) (id : Nat) (f g : Machine → Machine)
    (nj mj : Nat) :
    ((({ net with nextFileId := id } : Network).updMachine ni mi f).updMachine ni mi g).machineAt
        nj mj
      = if nj = ni ∧ mj = mi then (net.machineAt ni mi).map (fun m => g (f m))
        else net.machineAt nj mj := by
  by_cases h : nj = ni ∧ mj = mi
  · obtain ⟨rfl, rfl⟩ := h
    rw [if_pos ⟨rfl, rfl⟩, machineAt_updMachine, machineAt_updMachine]
    have : ({ net with nextFileId := id } : Network).machineAt nj mj = net.machineAt nj mj :=
      machineAt_same_nodes rfl nj mj
    rw [this]
    cases net.machineAt nj mj <;> rfl
  · rw [if_neg h]
    have h' : nj ≠ ni ∨ mj ≠ mi := by
      by_cases h1 : nj = ni
      · exact Or.inr fun h2 => h ⟨h1, h2⟩
      · exact Or.inl h1
    rw [machineAt_updMachine_other _ _ _ _ _ _ h', machineAt_updMachine_other _ _ _ _ _ _ h']
    exact machineAt_same_nodes rfl nj mj

/-- The machine loop over `k` slots from slot `a` on, each holding an exa without a file
before a `make`. -/
theorem makes_in_a_row (ni : Nat) :
    ∀ (k a : Nat) (net : Network),
      (∀ j, a ≤ j → j < a + k → ∃ mj inst, net.machineAt ni j = some mj ∧ mj.file = none
        ∧ mj.code[mj.instPtr]? = some inst ∧ inst.opcode = .Make) →
      net.nextFileId < 65536 → net.nextFileId + k ≤ 65536 →
      ∃ n1, stepMachinesFrom ni a k net = .ok () n1
        ∧ n1.nextFileId = (net.nextFileId + k) % 65536
        ∧ (∀ j, a ≤ j → j < a + k → ∃ mj, net.machineAt ni j = some mj
            ∧ n1.machineAt ni j
                = some { mj with file := some (madeFile (net.nextFileId + (j - a)))
                                 instPtr := mj.instPtr + 1 })
        ∧ (∀ j, j < a → n1.machineAt ni j = net.machineAt ni j) := by
  intro k
  induction k with
  | zero =>
    intro a net _ hlt hn
    refine ⟨net, rfl, ?_, fun j h1 h2 => by omega, fun _ _ => rfl⟩
    rw [Nat.add_zero, Nat.mod_eq_of_lt hlt]
  | succ k ih =>
    intro a net hall hlt hn
    obtain ⟨ma, inst, hma, hfa, hca, hoa⟩ := hall a (le_refl _) (by omega)
    have hstep := stepMachine_make hma hca hoa hfa
    have hpow : (2 : Nat) ^ 16 = 65536 := by norm_num
    rw [hpow] at hstep
    have hnext : (net.nextFileId + 1) % 65536 = net.nextFileId + 1 ∨ k = 0 := by omega
    obtain ⟨n2, hstep2, hother, hid2, hown⟩ : ∃ n2, stepMachine ni a net = .ok () n2
        ∧ (∀ j, j ≠ a → n2.machineAt ni j = net.machineAt ni j)
        ∧ n2.nextFileId = (net.nextFileId + 1) % 65536
        ∧ n2.machineAt ni a
            = some { ma with file := some (madeFile net.nextFileId)
                             instPtr := ma.instPtr + 1 } := by
      refine ⟨_, hstep, ?_, rfl, ?_⟩
      · intro j hj
        rw [machineAt_after_make, if_neg (fun h => hj h.2)]
      · rw [machineAt_after_make, if_pos ⟨rfl, rfl⟩, hma]
        rfl
    obtain ⟨n1, h1, h2, h3, h4⟩ := ih (a + 1) n2
      (by
        intro j hj1 hj2
        rw [hother j (by omega)]
        exact hall j (by omega) (by omega))
      (by rw [hid2]; exact Nat.mod_lt _ (by norm_num))
      (by rw [hid2]; omega)
    refine ⟨n1, ?_, ?_, ?_, ?_⟩
    · show (stepMachine ni a >>= fun _ => stepMachinesFrom ni (a + 1) k) net = _
      rw [bind_apply, hstep2]
      exact h1
    · rw [h2, hid2]
      omega
    · intro j hj1 hj2
      by_cases hja : j = a
      · subst hja
        refine ⟨ma, hma, ?_⟩
        rw [h4 j (by omega), hown, Nat.sub_self]
        rfl
      · obtain ⟨mj, e1, e2⟩ := h3 j (by omega) (by omega)
        rw [hother j hja] at e1
        refine ⟨mj, e1, ?_⟩
        rw [e2, hid2]
        have hk : k ≠ 0 := by omega
        have hid : (net.nextFileId + 1) % 65536 + (j - (a + 1)) = net.nextFileId + (j - a) := by
          rcases hnext with h | h
          · rw [h]; omega
          · exact absurd h hk
        rw [hid]
    · intro j hj
      rw [h4 j (by omega), hother j (by omega)]

/-! ## The capacity of a node under the instructions -/

theorem updNode_length (n : Network) (j : Nat) (g : Node → Node) :
    (n.updNode j g).nodes.length = n.nodes.length := by
  simp [Network.updNode]

theorem map_modify_same {α β : Type} (g : α → β) (h : α → α) (hg : ∀ x, g (h x) = g x) :
    ∀ (l : List α) (k : Nat), (l.modify h k).map g = l.map g := by
  intro l k
  apply List.ext_getElem?
  intro i
  simp only [List.getElem?_map, List.getElem?_modify]
  cases l[i]? with
  | none => rfl
  | some a => by_cases hk : k = i <;> simp [hk, hg]

theorem mapErase_length_le {κ α : Type} [DecidableEq κ] (k : κ) (l : List (κ × α)) :
    (mapErase k l).length ≤ l.length := by
  induction l with
  | nil => exact le_refl _
  | cons p rest ih =>
    obtain ⟨k1, a⟩ := p
    unfold mapErase
    split
    · simp
    · simp only [List.length_cons]; omega

theorem mapEmplace_length_le {κ α : Type} [LT κ] [DecidableEq κ]
    [DecidableRel (fun a b : κ => a < b)] (k : κ) (a : α) (l : List (κ × α)) :
    (mapEmplace k a l).length ≤ l.length + 1 := by
  induction l with
  | nil => exact le_refl _
  | cons p rest ih =>
    obtain ⟨k1, a1⟩ := p
    unfold mapEmplace
    split
    · simp
    · split
      · simp
      · simp only [List.length_cons]; omega

theorem Calm.ca_refl (n : Network) : Calm n n :=
  ⟨rfl, fun _ nd h => ⟨nd, h, rfl, rfl, le_refl _, rfl⟩⟩

theorem Calm.ca_trans (a b c : Network) (h1 : Calm a b) (h2 : Calm b c) : Calm a c := by
  refine ⟨h2.1.trans h1.1, ?_⟩
  intro j nd h
  obtain ⟨nd1, e1, c1, i1, f1, g1⟩ := h1.2 j nd h
  obtain ⟨nd2, e2, c2, i2, f2, g2⟩ := h2.2 j nd1 e1
  exact ⟨nd2, e2, c2.trans c1, i2.trans i1, le_trans f2 f1, g2.trans g1⟩

theorem Calm.ca_updNode (n : Network) (j : Nat) (g : Node → Node)
    (hc : ∀ d, (g d).capacity = d.capacity)
    (hi : ∀ d, (g d).incomingMachines = d.incomingMachines)
    (hf : ∀ d, (g d).files.length ≤ d.files.length)
    (hm : ∀ d, (g d).flags = d.flags) : Calm n (n.updNode j g) := by
  refine ⟨updNode_length n j g, ?_⟩
  intro k nd hk
  rw [updNode_nodes]
  by_cases hjk : j = k
  · rw [if_pos hjk, hk]; exact ⟨g nd, rfl, hc nd, hi nd, hf nd, hm nd⟩
  · rw [if_neg hjk]; exact ⟨nd, hk, rfl, rfl, le_refl _, rfl⟩

theorem Calm.ca_updMachine (n : Network) (ni mi : Nat) (f : Machine → Machine)
    (hf : ∀ m, (f m).terminated = m.terminated) : Calm n (n.updMachine ni mi f) := by
  refine Calm.ca_updNode n ni _ (fun _ => rfl) (fun _ => rfl) (fun _ => le_refl _) ?_
  intro d
  unfold Node.flags
  refine map_modify_same _ _ ?_ d.machines mi
  intro slot
  cases slot with
  | none => rfl
  | some m => simp [hf m]

theorem Calm.ca_same_nodes (n n1 : Network) (h : n1.nodes = n.nodes) : Calm n n1 :=
  ⟨by rw [h], fun _ nd e => ⟨nd, by rw [h]; exact e, rfl, rfl, le_refl _, rfl⟩⟩

theorem Keeps_getRaw_ca (ni mi : Nat) (src : Operand) : Keeps Calm (getRaw ni mi src) := by
  unfold getRaw
  split
  all_goals
    repeat' first
      | with_reducible exact Keeps.pure Calm.ca_refl _
      | with_reducible exact Keeps.getNet Calm.ca_refl
      | with_reducible exact Keeps.getNode Calm.ca_refl _
      | with_reducible exact Keeps.getMachine Calm.ca_refl _ _
      | with_reducible exact Keeps.raiseFailure Calm.ca_refl _
      | with_reducible exact Keeps.raiseError _
      | with_reducible exact Keeps.raiseAbort _
      | with_reducible exact Keeps.liftFailing Calm.ca_refl _
      | with_reducible apply Keeps.bind Calm.ca_trans
      | exact Keeps.modifyMachine fun n => Calm.ca_updMachine n _ _ _ (fun _ => rfl)
      | exact Keeps.modifyNode fun n =>
          Calm.ca_updNode n _ _ (fun _ => rfl) (fun _ => rfl) (fun _ => le_refl _) (fun _ => rfl)
      | intro _
      | split

theorem Keeps_get_ca (ni mi : Nat) (src : Operand) : Keeps Calm (get ni mi src) := by
  unfold get
  exact Keeps.bind Calm.ca_trans (Keeps_getRaw_ca ni mi src) fun _ =>
    Keeps.bind Calm.ca_trans (Keeps.getNet Calm.ca_refl) fun _ => Keeps.pure Calm.ca_refl _

theorem Keeps_set_ca (ni mi : Nat) (dest : Operand) (v : Value) :
    Keeps Calm (set ni mi dest v) := by
  unfold set
  apply Keeps.bind Calm.ca_trans (Keeps.getNet Calm.ca_refl)
  intro net0
  simp only []
  split
  all_goals
    repeat' first
      | with_reducible exact Keeps.pure Calm.ca_refl _
      | with_reducible exact Keeps.getNet Calm.ca_refl
      | with_reducible exact Keeps.getNode Calm.ca_refl _
      | with_reducible exact Keeps.getMachine Calm.ca_refl _ _
      | with_reducible exact Keeps.raiseFailure Calm.ca_refl _
      | with_reducible exact Keeps.raiseError _
      | with_reducible exact Keeps.raiseAbort _
      | with_reducible apply Keeps.bind Calm.ca_trans
      | exact Keeps.modifyMachine fun n => Calm.ca_updMachine n _ _ _ (fun _ => rfl)
      | exact Keeps.modifyNode fun n =>
          Calm.ca_updNode n _ _ (fun _ => rfl) (fun _ => rfl) (fun _ => le_refl _) (fun _ => rfl)
      | exact Keeps.modifyNet fun n => Calm.ca_same_nodes n _ rfl
      | intro _
      | split

theorem Keeps_execInstruction_ca (ni mi : Nat) (inst : Instruction)
    (hk : inst.opcode ≠ .Kill) (hl : inst.opcode ≠ .Link) (hd : inst.opcode ≠ .Drop)
    (hr : inst.opcode ≠ .Repl) : Keeps Calm (execInstruction ni mi inst) := by
  unfold execInstruction execArith execTest
  split
  case h_16 h => exact absurd h hk
  case h_17 h => exact absurd h hl
  case h_25 h => exact absurd h hd
  case h_29 h => exact absurd h hr
  all_goals
    repeat' first
      | with_reducible exact Keeps.pure Calm.ca_refl _
      | with_reducible exact Keeps_get_ca _ _ _
      | with_reducible exact Keeps_set_ca _ _ _ _
      | with_reducible exact Keeps.getNet Calm.ca_refl
      | with_reducible exact Keeps.getNode Calm.ca_refl _
      | with_reducible exact Keeps.getMachine Calm.ca_refl _ _
      | with_reducible exact Keeps.raiseFailure Calm.ca_refl _
      | with_reducible exact Keeps.raiseError _
      | with_reducible exact Keeps.raiseAbort _
      | with_reducible exact Keeps.liftFailing Calm.ca_refl _
      | with_reducible apply Keeps.bind Calm.ca_trans
      | exact Keeps.modifyMachine fun n => Calm.ca_updMachine n _ _ _ (fun _ => rfl)
      | exact Keeps.modifyNode fun n =>
          Calm.ca_updNode n _ _ (fun _ => rfl) (fun _ => rfl) (fun _ => le_refl _) (fun _ => rfl)
      | exact Keeps.modifyNode fun n =>
          Calm.ca_updNode n _ _ (fun _ => rfl) (fun _ => rfl) (fun _ => mapErase_length_le _ _)
            (fun _ => rfl)
      | exact Keeps.modifyNet fun n => Calm.ca_same_nodes n _ rfl
      | intro _
      | split

/-! ## The instructions whose effect depends on what they read from the state -/

theorem Keeps.of_key {R : Network → Network → Prop} {α : Type} {x : Exec α}
    (key : ∀ net, match x net with
      | .ok _ n1 => R net n1
      | .failure _ n1 => R net n1
      | .abort _ => True) : Keeps R x := by
  constructor
  · intro net a n1 h
    have := key net
    rw [h] at this
    exact this
  · intro net msg n1 h
    have := key net
    rw [h] at this
    exact this

theorem getMachine_none {net : Network} {ni mi : Nat} (h : net.machineAt ni mi = none) :
    ∃ e, getMachine ni mi net = .abort e := by
  unfold Network.machineAt at h
  unfold getMachine
  cases h1 : net.nodes[ni]? with
  | none => exact ⟨_, rfl⟩
  | some nd =>
    rw [h1] at h
    simp only [] at h ⊢
    cases h2 : nd.machines[mi]? with
    | none => exact ⟨_, rfl⟩
    | some slot =>
      rw [h2] at h
      cases slot with
      | none => exact ⟨_, rfl⟩
      | some m => cases h

/-- `Opcode::Drop`, for a relation that holds of the accepted drop. -/
theorem Keeps_drop_of {R : Network → Network → Prop} (ni mi : Nat) (inst : Instruction)
    (hop : inst.opcode = .Drop) (hrefl : ∀ n, R n n)
    (hstep : ∀ (net : Network) (nd : Node) (m : Machine) (f : File),
      net.nodes[ni]? = some nd → net.machineAt ni mi = some m → m.file = some f →
        nd.full = false →
          R net ((net.updNode ni fun d => { d with files := mapEmplace f.id f d.files }).updMachine
            ni mi fun m1 => { m1 with file := none })) :
    Keeps R (execInstruction ni mi inst) := by
  obtain ⟨opcode, op1, op2, op3⟩ := inst
  simp only at hop
  subst hop
  apply Keeps.of_key
  intro net
  cases hm : net.machineAt ni mi with
  | none =>
    obtain ⟨e, he⟩ := getMachine_none hm
    simp only [execInstruction, bind_apply, he]
  | some m =>
    obtain ⟨nd, hnd, _⟩ := machineAt_node hm
    simp only [execInstruction, bind_apply, getMachine_of hm]
    cases hf : m.file with
    | none => exact hrefl net
    | some f =>
      simp only [bind_apply, getNode_of hnd]
      cases hfull : nd.full with
      | true => exact hrefl net
      | false => exact hstep net nd m f hnd hm hf hfull

/-- `Opcode::Repl`, for a relation that holds of the accepted fork. -/
theorem Keeps_repl_of {R : Network → Network → Prop} (ni mi : Nat) (inst : Instruction)
    (hop : inst.opcode = .Repl) (hrefl : ∀ n, R n n)
    (hstep : ∀ (net : Network) (nd : Node) (m : Machine) (a : Nat),
      net.nodes[ni]? = some nd → net.machineAt ni mi = some m → nd.full = false →
        R net ((net.updMachine ni mi fun m1 => (m1.repl a).2).updNode ni fun d =>
          { d with incomingMachines := d.incomingMachines ++ [(m.repl a).1] })) :
    Keeps R (execInstruction ni mi inst) := by
  obtain ⟨opcode, op1, op2, op3⟩ := inst
  simp only at hop
  subst hop
  apply Keeps.of_key
  intro net
  cases op1 with
  | addr a =>
    cases hnd : net.nodes[ni]? with
    | none =>
      simp only [execInstruction, bind_apply, getNode_none hnd]
    | some nd =>
      simp only [execInstruction, bind_apply, getNode_of hnd]
      cases hfull : nd.full with
      | true => exact hrefl net
      | false =>
        cases hm : net.machineAt ni mi with
        | none =>
          obtain ⟨e, he⟩ := getMachine_none hm
          simp only [Bool.not_false, if_true, bind_apply, he]
        | some m =>
          simp only [Bool.not_false, if_true, bind_apply, getMachine_of hm, modifyMachine_apply,
            modifyNode_apply, pure_apply]
          exact hstep net nd m a hnd hm hfull
  | unassigned => simp only [execInstruction, raiseError]
  | num n => simp only [execInstruction, raiseError]
  | reg r => simp only [execInstruction, raiseError]
  | str s => simp only [execInstruction, raiseError]
  | hw h => simp only [execInstruction, raiseError]

/-- `Opcode::Kill`, for a relation that holds of the state in which the search loop has
flagged a slot. -/
theorem Keeps_kill_of {R : Network → Network → Prop} (ni mi : Nat)
    (hsame : ∀ n n1 : Network, n1.nodes = n.nodes → R n n1)
    (hstep : ∀ (net : Network) (nd : Node) (ms : List (Option Machine)),
      net.nodes[ni]? = some nd → nd.machines.length > 1 →
        killLoop mi (net.random.dist (nd.machines.length - 2)).1 0 0 nd.machines = some ms →
          R net (Network.updNode
            { net with stats := { net.stats with activity := net.stats.activity + 1 },
                       random := (net.random.dist (nd.machines.length - 2)).2 }
            ni fun d => { d with machines := ms })) :
    Keeps R (execKill ni mi) := by
  apply Keeps.of_key
  intro net
  cases hnd : net.nodes[ni]? with
  | none =>
    have : execKill ni mi net = .abort .badReference := by
      unfold execKill
      have hn : getNode ni { net with stats := { net.stats with activity := net.stats.activity + 1 } }
          = .abort .badReference := getNode_none hnd
      simp only [bind_apply, modifyNet_apply, hn]
    rw [this]; trivial
  | some nd =>
    rw [execKill_eq hnd]
    by_cases hlen : nd.machines.length > 1
    · rw [if_pos hlen]
      cases hk : killLoop mi (net.random.dist (nd.machines.length - 2)).1 0 0 nd.machines with
      | none => trivial
      | some ms => exact hstep net nd ms hnd hlen hk
    · rw [if_neg hlen]
      exact hsame _ _ rfl

/-- `Opcode::Link`, for a relation that the operand read keeps and that holds of the accepted
move. -/
theorem Keeps_link_of {R : Network → Network → Prop} (ni mi : Nat) (inst : Instruction)
    (hrefl : ∀ n, R n n) (htrans : ∀ a b c, R a b → R b c → R a c)
    (hget : Keeps R (get ni mi inst.op1))
    (hstep : ∀ (net : Network) (nd target : Node) (m : Machine) (ti : Nat),
      net.nodes[ni]? = some nd → net.nodes[ti]? = some target → target.full = false →
        net.machineAt ni mi = some m →
          R net ((Network.updNode
            { net with stats := { net.stats with activity := net.stats.activity + 1 } }
            ni fun d => { d with machines := d.machines.set mi none }).updNode
            ti fun d => { d with incomingMachines :=
              d.incomingMachines ++ [{ m with instPtr := m.instPtr + 1 }] })) :
    Keeps R (execLink ni mi inst) := by
  obtain ⟨opcode, op1, op2, op3⟩ := inst
  unfold execLink
  apply Keeps.bind htrans hget
  intro dest
  cases dest with
  | none => exact Keeps.pure hrefl _
  | some d =>
    cases d with
    | str s => exact Keeps.raiseFailure hrefl _
    | num k =>
      cases op1 with
      | num n =>
        apply Keeps.of_key
        intro net
        cases hnd : net.nodes[ni]? with
        | none => simp only [bind_apply, getNode_none hnd]
        | some nd =>
          simp only [bind_apply, getNode_of hnd]
          cases hl : mapFind (toInt16 (toUInt16 n)) nd.links with
          | none => exact hrefl net
          | some ti =>
            by_cases hdl : toInt16 (toUInt16 n) ∈ nd.danglingLinks
            · simp only [if_pos hdl, raiseAbort]
            simp only [if_neg hdl]
            cases htg : net.nodes[ti]? with
            | none => simp only [bind_apply, getNode_none htg]
            | some target =>
              simp only [bind_apply, getNode_of htg]
              cases hfull : target.full with
              | true => exact hrefl net
              | false =>
                cases hm : net.machineAt ni mi with
                | none =>
                  have hm1 : ({ net with stats :=
                      { net.stats with activity := net.stats.activity + 1 } } : Network).machineAt
                      ni mi = none := hm
                  obtain ⟨e, he⟩ := getMachine_none hm1
                  simp only [Bool.false_eq_true, if_false, bind_apply, modifyNet_apply, he]
                | some m =>
                  have hm1 : getMachine ni mi
                      { net with stats := { net.stats with activity := net.stats.activity + 1 } }
                      = .ok m { net with stats :=
                          { net.stats with activity := net.stats.activity + 1 } } :=
                    getMachine_of hm
                  simp only [Bool.false_eq_true, if_false, bind_apply, modifyNet_apply, hm1,
                    modifyNode_apply, pure_apply]
                  exact hstep net nd target m ti hnd htg hfull hm
      | unassigned => exact Keeps.raiseAbort _
      | reg r => exact Keeps.raiseAbort _
      | addr a => exact Keeps.raiseAbort _
      | str s => exact Keeps.raiseAbort _
      | hw h => exact Keeps.raiseAbort _

theorem opcode_special_or (inst : Instruction) :
    inst.opcode = .Kill ∨ inst.opcode = .Link ∨ inst.opcode = .Drop ∨ inst.opcode = .Repl
      ∨ (inst.opcode ≠ .Kill ∧ inst.opcode ≠ .Link ∧ inst.opcode ≠ .Drop
          ∧ inst.opcode ≠ .Repl) := by
  cases inst.opcode <;> simp

theorem Paced.pa_refl (n : Network) : Paced n n :=
  ⟨rfl, fun _ nd h => ⟨nd, h, rfl, rfl, fun h => h⟩⟩

theorem Paced.pa_trans (a b c : Network) (h1 : Paced a b) (h2 : Paced b c) : Paced a c := by
  refine ⟨h2.1.trans h1.1, ?_⟩
  intro j nd h
  obtain ⟨nd1, e1, c1, m1, l1⟩ := h1.2 j nd h
  obtain ⟨nd2, e2, c2, m2, l2⟩ := h2.2 j nd1 e1
  exact ⟨nd2, e2, c2.trans c1, m2.trans m1, fun h => l2 (l1 h)⟩

theorem flags_length (nd : Node) : nd.flags.length = nd.machines.length := by
  simp [Node.flags]

theorem Paced.of_calm (a b : Network) (h : Calm a b) : Paced a b := by
  refine ⟨h.1, ?_⟩
  intro j nd hj
  obtain ⟨nd1, e1, c1, i1, f1, g1⟩ := h.2 j nd hj
  have hlen : nd1.machines.length = nd.machines.length := by
    rw [← flags_length, ← flags_length, g1]
  refine ⟨nd1, e1, c1, hlen, ?_⟩
  intro hl
  unfold Node.load at hl ⊢
  rw [c1, i1, hlen]
  omega

theorem Paced.pa_same_nodes (n n1 : Network) (h : n1.nodes = n.nodes) : Paced n n1 :=
  ⟨by rw [h], fun _ nd e => ⟨nd, by rw [h]; exact e, rfl, rfl, fun h => h⟩⟩

theorem Paced.pa_updNode_at (n : Network) (j : Nat) (g : Node → Node) (nd : Node)
    (hnd : n.nodes[j]? = some nd) (hc : (g nd).capacity = nd.capacity)
    (hm : (g nd).machines.length = nd.machines.length)
    (hl : nd.load ≤ nd.capacity → (g nd).load ≤ nd.capacity) : Paced n (n.updNode j g) := by
  refine ⟨updNode_length n j g, ?_⟩
  intro k d hk
  rw [updNode_nodes]
  by_cases hjk : j = k
  · subst hjk
    rw [if_pos rfl, hk]
    rw [hnd] at hk
    cases hk
    exact ⟨g nd, rfl, hc, hm, fun h => by rw [hc]; exact hl h⟩
  · rw [if_neg hjk]; exact ⟨d, hk, rfl, rfl, fun h => h⟩

theorem full_false {nd : Node} (h : nd.full = false) : nd.load < nd.capacity := by
  unfold Node.full at h
  unfold Node.load
  have := of_decide_eq_false h
  omega

theorem killLoop_length {self target j : Nat} {c : Int} {l ms : List (Option Machine)}
    (h : killLoop self target j c l = some ms) : ms.length = l.length := by
  have := congrArg List.length (killLoop_map (fun _ => ()) (fun _ => rfl) _ _ _ _ _ _ h)
  simpa using this

theorem paced_kill {net : Network} {ni : Nat} {nd : Node} {ms : List (Option Machine)}
    (g : RandomEngine) (hnd : net.nodes[ni]? = some nd) (hlen : ms.length = nd.machines.length) :
    Paced net (Network.updNode
      { net with stats := { net.stats with activity := net.stats.activity + 1 }, random := g }
      ni fun d => { d with machines := ms }) := by
  refine Paced.pa_trans _ _ _ (Paced.pa_same_nodes net _ rfl)
    (Paced.pa_updNode_at _ ni _ nd hnd rfl hlen ?_)
  intro h
  unfold Node.load at h ⊢
  simp only [hlen]
  exact h

theorem paced_link {net : Network} {ni mi ti : Nat} {nd target : Node} (m : Machine)
    (hnd : net.nodes[ni]? = some nd) (htg : net.nodes[ti]? = some target)
    (hfull : target.full = false) :
    Paced net ((Network.updNode
      { net with stats := { net.stats with activity := net.stats.activity + 1 } }
      ni fun d => { d with machines := d.machines.set mi none }).updNode
      ti fun d => { d with incomingMachines := d.incomingMachines ++ [m] }) := by
  have h1 : Paced net (Network.updNode
      { net with stats := { net.stats with activity := net.stats.activity + 1 } }
      ni fun d => { d with machines := d.machines.set mi none }) :=
    Paced.pa_trans _ _ _ (Paced.pa_same_nodes net _ rfl)
      (Paced.pa_updNode_at _ ni _ nd hnd rfl (by simp) (fun h => by
        unfold Node.load at h ⊢
        simpa using h))
  refine Paced.pa_trans _ _ _ h1 ?_
  obtain ⟨t1, ht1, hc1, hm1, hl1⟩ := h1.2 ti target htg
  refine Paced.pa_updNode_at _ ti _ t1 ht1 rfl rfl ?_
  intro _
  by_cases hti : ni = ti
  · subst hti
    rw [updNode_nodes_self] at ht1
    have hnd1 : ({ net with stats := { net.stats with activity := net.stats.activity + 1 } } :
        Network).nodes[ni]? = some target := htg
    rw [hnd1] at ht1
    simp only [Option.map_some', Option.some.injEq] at ht1
    subst ht1
    have := full_false hfull
    unfold Node.load at this ⊢
    simp only [List.length_set, List.length_append, List.length_singleton]
    omega
  · rw [updNode_nodes_ne _ _ hti] at ht1
    have hnd1 : ({ net with stats := { net.stats with activity := net.stats.activity + 1 } } :
        Network).nodes[ti]? = some target := htg
    rw [hnd1] at ht1
    cases ht1
    have := full_false hfull
    unfold Node.load at this ⊢
    simp only [List.length_append, List.length_singleton]
    omega

theorem paced_drop {net : Network} {ni mi : Nat} {nd : Node} (f : File)
    (hnd : net.nodes[ni]? = some nd) (hfull : nd.full = false) :
    Paced net ((net.updNode ni fun d => { d with files := mapEmplace f.id f d.files }).updMachine
      ni mi fun m1 => { m1 with file := none }) := by
  refine Paced.pa_trans _ _ _ (Paced.pa_updNode_at net ni _ nd hnd rfl rfl ?_)
    (Paced.of_calm _ _ (Calm.ca_updMachine _ ni mi _ fun _ => rfl))
  intro _
  have := full_false hfull
  have h2 := mapEmplace_length_le f.id f nd.files
  unfold Node.load at this ⊢
  simp only
  omega

theorem paced_repl {net : Network} {ni mi : Nat} {nd : Node} (a : Nat) (fork : Machine)
    (hnd : net.nodes[ni]? = some nd) (hfull : nd.full = false) :
    Paced net ((net.updMachine ni mi fun m1 => (m1.repl a).2).updNode ni fun d =>
      { d with incomingMachines := d.incomingMachines ++ [fork] }) := by
  have h1 : Paced net (net.updMachine ni mi fun m1 => (m1.repl a).2) :=
    Paced.of_calm _ _ (Calm.ca_updMachine _ ni mi _ fun _ => rfl)
  refine Paced.pa_trans _ _ _ h1 ?_
  have ht1 : (net.updMachine ni mi fun m1 => (m1.repl a).2).nodes[ni]?
      = some { nd with machines := nd.machines.modify (Option.map fun m1 => (m1.repl a).2) mi } := by
    rw [updMachine_nodes_self, hnd]; rfl
  refine Paced.pa_updNode_at _ ni _ _ ht1 rfl rfl ?_
  intro _
  have := full_false hfull
  unfold Node.load at this ⊢
  simp only [List.length_append, List.length_singleton, List.length_modify]
  omega

theorem Keeps_execInstruction_pa (ni mi : Nat) (inst : Instruction) :
    Keeps Paced (execInstruction ni mi inst) := by
  rcases opcode_special_or inst with hk | hl | hd | hr | ⟨hk, hl, hd, hr⟩
  · rw [execInstruction_kill hk]
    exact Keeps_kill_of ni mi (fun n n1 h => Paced.pa_same_nodes n n1 h)
      fun net nd ms hnd _ hkl => paced_kill _ hnd (killLoop_length hkl)
  · rw [execInstruction_link hl]
    exact Keeps_link_of ni mi inst Paced.pa_refl Paced.pa_trans
      (Keeps.mono Paced.of_calm (Keeps_get_ca ni mi inst.op1))
      fun net nd target m ti hnd htg hfull _ => paced_link _ hnd htg hfull
  · exact Keeps_drop_of ni mi inst hd Paced.pa_refl
      fun net nd m f hnd _ _ hfull => paced_drop f hnd hfull
  · exact Keeps_repl_of ni mi inst hr Paced.pa_refl
      fun net nd m a hnd _ hfull => paced_repl a _ hnd hfull
  · exact Keeps.mono Paced.of_calm (Keeps_execInstruction_ca ni mi inst hk hl hd hr)

/-! ## The capacity of a node through a cycle -/

theorem Paced.pa_updMachine (n : Network) (ni mi : Nat) (f : Machine → Machine) :
    Paced n (n.updMachine ni mi f) := by
  refine ⟨updNode_length n ni _, ?_⟩
  intro k d hk
  unfold Network.updMachine
  rw [updNode_nodes]
  by_cases hjk : ni = k
  · rw [if_pos hjk, hk]
    refine ⟨_, rfl, rfl, by simp, ?_⟩
    intro h
    unfold Node.load at h ⊢
    simpa using h
  · rw [if_neg hjk]; exact ⟨d, hk, rfl, rfl, fun h => h⟩

theorem Keeps_stepMachine_pa (ni mi : Nat) : Keeps Paced (stepMachine ni mi) := by
  have hadv : ∀ b, Keeps Paced (advanceIp ni mi b) := by
    intro b
    unfold advanceIp
    split
    · exact Keeps.modifyMachine fun n => Paced.pa_updMachine n ni mi _
    · exact Keeps.pure Paced.pa_refl _
  have hfetch : Keeps Paced (fetchExec ni mi) := by
    unfold fetchExec
    apply Keeps.bind Paced.pa_trans (Keeps.getMachine Paced.pa_refl _ _)
    intro m
    split
    · exact Keeps.raiseFailure Paced.pa_refl _
    · exact Keeps_execInstruction_pa ni mi _
  have hcatch : Keeps Paced
      (do modifyMachine ni mi fun m => { m with terminated := true }
          advanceIp ni mi true : Exec Unit) :=
    Keeps.bind Paced.pa_trans
      (Keeps.modifyMachine fun n => Paced.pa_updMachine n ni mi _) fun _ => hadv true
  constructor
  · intro net a n1 h
    unfold stepMachine at h
    cases hf : fetchExec ni mi net with
    | ok adv n2 =>
      rw [hf] at h
      exact Paced.pa_trans _ _ _ (hfetch.ok _ _ _ hf) ((hadv adv).ok _ _ _ h)
    | failure msg n2 =>
      rw [hf] at h
      exact Paced.pa_trans _ _ _ (hfetch.failure _ _ _ hf) (hcatch.ok _ _ _ h)
    | abort e => rw [hf] at h; cases h
  · intro net msg n1 h
    unfold stepMachine at h
    cases hf : fetchExec ni mi net with
    | ok adv n2 =>
      rw [hf] at h
      exact Paced.pa_trans _ _ _ (hfetch.ok _ _ _ hf) ((hadv adv).failure _ _ _ h)
    | failure msg2 n2 =>
      rw [hf] at h
      exact Paced.pa_trans _ _ _ (hfetch.failure _ _ _ hf) (hcatch.failure _ _ _ h)
    | abort e => rw [hf] at h; cases h

theorem Keeps_stepMachinesFrom_pa (ni : Nat) :
    ∀ (count a : Nat), Keeps Paced (stepMachinesFrom ni a count) := by
  intro count
  induction count with
  | zero => intro a; exact Keeps.pure Paced.pa_refl _
  | succ k ih =>
    intro a
    exact Keeps.bind Paced.pa_trans (Keeps_stepMachine_pa ni a) fun _ => ih (a + 1)

theorem Within.wi_refl (n : Network) : Within n n :=
  ⟨rfl, fun _ nd h => ⟨nd, h, rfl, fun h => h⟩⟩

theorem Within.wi_trans (a b c : Network) (h1 : Within a b) (h2 : Within b c) : Within a c := by
  refine ⟨h2.1.trans h1.1, ?_⟩
  intro j nd h
  obtain ⟨nd1, e1, c1, l1⟩ := h1.2 j nd h
  obtain ⟨nd2, e2, c2, l2⟩ := h2.2 j nd1 e1
  exact ⟨nd2, e2, c2.trans c1, fun h => l2 (l1 h)⟩

theorem Within.of_paced (a b : Network) (h : Paced a b) : Within a b :=
  ⟨h.1, fun j nd hj =>
    let ⟨nd1, e1, c1, _, l1⟩ := h.2 j nd hj
    ⟨nd1, e1, c1, l1⟩⟩

theorem Within.wi_same_nodes (n n1 : Network) (h : n1.nodes = n.nodes) : Within n n1 :=
  ⟨by rw [h], fun _ nd e => ⟨nd, by rw [h]; exact e, rfl, fun h => h⟩⟩

theorem Within.wi_updNode (n : Network) (j : Nat) (g : Node → Node)
    (hc : ∀ d, (g d).capacity = d.capacity) (hl : ∀ d, (g d).load ≤ d.load) :
    Within n (n.updNode j g) := by
  refine ⟨updNode_length n j g, ?_⟩
  intro k d hk
  rw [updNode_nodes]
  by_cases hjk : j = k
  · rw [if_pos hjk, hk]
    exact ⟨g d, rfl, hc d, fun h => by rw [hc]; exact le_trans (hl d) h⟩
  · rw [if_neg hjk]; exact ⟨d, hk, rfl, fun h => h⟩

theorem drain_load (ms : List (Option Machine)) :
    ∀ files : List (Nat × File),
      (ms.filter fun slot => !removable slot).length + (drainFiles ms files).length
        ≤ ms.length + files.length := by
  induction ms with
  | nil => intro files; simp [drainFiles]
  | cons slot rest ih =>
    intro files
    cases slot with
    | none =>
      have hfil : (none :: rest).filter (fun slot => !removable slot)
          = rest.filter (fun slot => !removable slot) :=
        List.filter_cons_of_neg (by simp [removable])
      have hdr : drainFiles (none :: rest) files = drainFiles rest files := rfl
      have := ih files
      rw [hfil, hdr, List.length_cons]
      omega
    | some m =>
      cases ht : m.terminated with
      | false =>
        have hfil : (some m :: rest).filter (fun slot => !removable slot)
            = some m :: rest.filter (fun slot => !removable slot) :=
          List.filter_cons_of_pos (by simp [removable, ht])
        have hdr : drainFiles (some m :: rest) files = drainFiles rest files := by
          simp only [drainFiles, ht, Bool.false_eq_true, if_false]
        have := ih files
        rw [hfil, hdr, List.length_cons, List.length_cons]
        omega
      | true =>
        have hfil : (some m :: rest).filter (fun slot => !removable slot)
            = rest.filter (fun slot => !removable slot) :=
          List.filter_cons_of_neg (by simp [removable, ht])
        cases hf : m.file with
        | none =>
          have hdr : drainFiles (some m :: rest) files = drainFiles rest files := by
            simp only [drainFiles, ht, if_true, hf]
          have := ih files
          rw [hfil, hdr, List.length_cons]
          omega
        | some f =>
          have hdr : drainFiles (some m :: rest) files
              = drainFiles rest (mapEmplace f.id f files) := by
            simp only [drainFiles, ht, if_true, hf]
          have := ih (mapEmplace f.id f files)
          have h2 := mapEmplace_length_le f.id f files
          rw [hfil, hdr, List.length_cons]
          omega

theorem Within.wi_drain (n : Network) (ni : Nat) : Within n (n.updNode ni drainNode) := by
  refine Within.wi_updNode n ni drainNode (fun _ => rfl) ?_
  intro d
  have := drain_load d.machines d.files
  unfold Node.load drainNode
  simp only
  omega

theorem Within.wi_mergeAll (n : Network) : Within n (mergeAll n) := by
  refine ⟨by simp [mergeAll], ?_⟩
  intro j nd hj
  refine ⟨mergeIncoming nd, by simp [mergeAll, hj], rfl, ?_⟩
  intro h
  unfold Node.load at h ⊢
  simp only [mergeIncoming, List.length_append, List.length_map, List.length_nil]
  show _ ≤ nd.capacity
  omega

theorem Keeps_stepNode_wi (ni : Nat) : Keeps Within (stepNode ni) := by
  unfold stepNode machineLoop
  refine Keeps.bind Within.wi_trans ?_ fun _ => Keeps.modifyNode fun n => Within.wi_drain n ni
  exact Keeps.bind Within.wi_trans (Keeps.getNode Within.wi_refl _) fun _ =>
    Keeps.mono Within.of_paced (Keeps_stepMachinesFrom_pa ni _ _)

theorem Keeps_stepNodesFrom_wi : ∀ (count a : Nat), Keeps Within (stepNodesFrom a count) := by
  intro count
  induction count with
  | zero => intro a; exact Keeps.pure Within.wi_refl _
  | succ k ih =>
    intro a
    exact Keeps.bind Within.wi_trans (Keeps_stepNode_wi a) fun _ => ih (a + 1)

theorem Keeps_cycle_wi : Keeps Within cycle := by
  unfold cycle
  refine Keeps.bind Within.wi_trans
    (Keeps.modifyNet fun n => Within.wi_same_nodes n _ rfl) fun _ => ?_
  refine Keeps.bind Within.wi_trans (Keeps.getNet Within.wi_refl) fun _ => ?_
  refine Keeps.bind Within.wi_trans (Keeps_stepNodesFrom_wi _ _) fun _ => ?_
  refine Keeps.bind Within.wi_trans (Keeps.modifyNet fun n => Within.wi_mergeAll n) fun _ => ?_
  exact Keeps.bind Within.wi_trans (Keeps.getNet Within.wi_refl) fun _ =>
    Keeps.pure Within.wi_refl _

theorem withinCapacity_of_within {a b : Network} (h : Within a b) (ha : a.withinCapacity) :
    b.withinCapacity := by
  intro nd1 hmem
  obtain ⟨j, hj, hget⟩ := List.getElem_of_mem hmem
  have hja : j < a.nodes.length := by rw [← h.1]; exact hj
  obtain ⟨nd2, e2, c2, l2⟩ := h.2 j a.nodes[j] (List.getElem?_eq_getElem hja)
  rw [List.getElem?_eq_getElem hj, hget] at e2
  cases e2
  exact l2 (ha _ (List.getElem_mem hja))

theorem afterCycles_within :
    ∀ (k : Nat) (net n1 : Network), afterCycles k net = some n1 → Within net n1 := by
  intro k
  induction k with
  | zero =>
    intro net n1 h
    simp only [afterCycles, Option.some.injEq] at h
    subst h
    exact Within.wi_refl net
  | succ k ih =>
    intro net n1 h
    simp only [afterCycles] at h
    cases hc : cycle net with
    | ok r n2 =>
      rw [hc] at h
      exact Within.wi_trans _ _ _ (Keeps_cycle_wi.ok _ _ _ hc) (ih n2 n1 h)
    | failure msg n2 => rw [hc] at h; cases h
    | abort e => rw [hc] at h; cases h

/-! ## The capacity of a node through the assembly -/

theorem forall_modify {α : Type} (P : α → Prop) (l : List α) (g : α → α) (i : Nat)
    (hl : ∀ x ∈ l, P x) (hg : ∀ d, l[i]? = some d → P (g d)) : ∀ x ∈ l.modify g i, P x := by
  intro x hx
  obtain ⟨k, hk, hget⟩ := List.getElem_of_mem hx
  have h1 : (l.modify g i)[k]? = some x := by rw [List.getElem?_eq_getElem hk, hget]
  rw [List.getElem?_modify] at h1
  cases hlk : l[k]? with
  | none => rw [hlk] at h1; cases h1
  | some a =>
    rw [hlk] at h1
    simp only [Option.map_eq_map, Option.map_some', Option.some.injEq] at h1
    by_cases hik : i = k
    · subst hik
      rw [if_pos rfl] at h1
      subst h1
      exact hg a hlk
    · rw [if_neg hik] at h1
      subst h1
      exact hl a (List.getElem?_mem hlk)

theorem stoul_lt {s : String} {n : Nat} (h : stoul s = .ok n) : n < 2 ^ 64 := by
  unfold stoul at h
  simp only at h
  split at h
  · cases h
  · split at h
    · cases h
    · cases h; omega

theorem wellAssembled_of_fields {net n1 : Network} (h : net.wellAssembled)
    (hn : n1.nodes = net.nodes) (hm : n1.pMachineBeingAssembled = net.pMachineBeingAssembled) :
    n1.wellAssembled :=
  ⟨by rw [hn]; exact h.1, by rw [hm]; exact h.2⟩

theorem processInstruction_wa {line : String} {net n1 : Network} {m : Machine}
    (h : processInstruction line net = .ok n1) (hm : net.pMachineBeingAssembled = some m)
    (hw : net.wellAssembled) :
    n1.wellAssembled ∧ ∃ m1, n1.pMachineBeingAssembled = some m1 := by
  obtain ⟨es, lk, e1, _⟩ := Emits_processInstruction line net n1 m h hm
  subst e1
  refine ⟨⟨hw.1, ?_⟩, _, rfl⟩
  intro m1 h1
  simp only [Option.some.injEq] at h1
  subst h1
  exact hw.2 m hm

theorem expandBlock_wa (i : Nat) :
    ∀ (block : List String) (net n1 : Network) (m : Machine),
      expandBlock i block net = .ok n1 → net.pMachineBeingAssembled = some m →
        net.wellAssembled → n1.wellAssembled ∧ ∃ m1, n1.pMachineBeingAssembled = some m1 := by
  intro block
  induction block with
  | nil =>
    intro net n1 m h hm hw
    cases h
    exact ⟨hw, m, hm⟩
  | cons line rest ih =>
    intro net n1 m h hm hw
    simp only [expandBlock] at h
    cases ht : expandLine i line with
    | error e => rw [ht] at h; cases h
    | ok text =>
      rw [ht] at h
      cases hp : processInstruction text net with
      | error e =>
        have h' : (processInstruction text net >>= fun net1 => expandBlock i rest net1)
            = .ok n1 := h
        rw [hp] at h'; cases h'
      | ok n2 =>
        have h' : (processInstruction text net >>= fun net1 => expandBlock i rest net1)
            = .ok n1 := h
        rw [hp] at h'
        obtain ⟨hw2, m2, hm2⟩ := processInstruction_wa hp hm hw
        exact ih n2 n1 m2 h' hm2 hw2

theorem expandFrom_wa (lines : List String) :
    ∀ (count i : Nat) (net n1 : Network) (m : Machine),
      expandFrom lines count i net = .ok n1 → net.pMachineBeingAssembled = some m →
        net.wellAssembled → n1.wellAssembled ∧ ∃ m1, n1.pMachineBeingAssembled = some m1 := by
  intro count
  induction count with
  | zero =>
    intro i net n1 m h hm hw
    cases h
    exact ⟨hw, m, hm⟩
  | succ k ih =>
    intro i net n1 m h hm hw
    simp only [expandFrom] at h
    cases hp : expandBlock i lines net with
    | error e =>
      have h' : (expandBlock i lines net >>= fun net1 => expandFrom lines k (i + 1) net1)
          = .ok n1 := h
      rw [hp] at h'; cases h'
    | ok n2 =>
      have h' : (expandBlock i lines net >>= fun net1 => expandFrom lines k (i + 1) net1)
          = .ok n1 := h
      rw [hp] at h'
      obtain ⟨hw2, m2, hm2⟩ := expandBlock_wa i lines net n2 m hp hm hw
      exact ih (i + 1) n2 n1 m2 h' hm2 hw2

theorem processPreprocessorDirective_wa {line : String} {net n1 : Network} {m : Machine}
    (h : processPreprocessorDirective line net = .ok n1)
    (hm : net.pMachineBeingAssembled = some m) (hw : net.wellAssembled) :
    n1.wellAssembled := by
  unfold processPreprocessorDirective at h
  split at h
  · split at h
    · cases h
    · split at h
      · cases h; exact wellAssembled_of_fields hw rfl rfl
      · cases h
  · split at h
    · split at h
      · cases h
      · cases hp : expandFrom net.repLines net.repCount 0 { net with addRepLines := false } with
        | error e =>
          have h' : (expandFrom net.repLines net.repCount 0 { net with addRepLines := false }
              >>= fun net1 => (pure { net1 with repLines := [] } : Asm Network)) = .ok n1 := h
          rw [hp] at h'; cases h'
        | ok n2 =>
          have h' : (expandFrom net.repLines net.repCount 0 { net with addRepLines := false }
              >>= fun net1 => (pure { net1 with repLines := [] } : Asm Network)) = .ok n1 := h
          rw [hp] at h'
          cases h'
          have hw0 : ({ net with addRepLines := false } : Network).wellAssembled :=
            wellAssembled_of_fields hw rfl rfl
          exact wellAssembled_of_fields
            (expandFrom_wa _ _ _ _ n2 m hp hm hw0).1 rfl rfl
    · cases h; exact hw

theorem asm_bind_ok {α β : Type} {x : Asm α} {f : α → Asm β} {b : β}
    (h : (x >>= f) = .ok b) : ∃ a, x = .ok a ∧ f a = .ok b := by
  cases hx : x with
  | error e => rw [hx] at h; cases h
  | ok a => rw [hx] at h; exact ⟨a, rfl, h⟩

theorem finalize_wa {net n1 : Network} (h : finalizeActiveMachine net = .ok n1)
    (hw : net.wellAssembled) : n1.wellAssembled ∧ n1.pMachineBeingAssembled = none := by
  cases hm : net.pMachineBeingAssembled with
  | none =>
    unfold finalizeActiveMachine at h
    rw [hm] at h
    cases h
    exact ⟨hw, hm⟩
  | some m =>
    obtain ⟨_, hi, home, code, _, hnd, hcap, _, e⟩ := finalize_ok_inv net n1 m hm h
    subst e
    refine ⟨⟨?_, fun m1 h1 => by cases h1⟩, rfl⟩
    refine forall_modify Node.assembled net.nodes _ hi hw.1 ?_
    intro d hd
    rw [hnd] at hd
    cases hd
    obtain ⟨a1, a2, a3, a4⟩ := hw.1 home (List.getElem?_mem hnd)
    refine ⟨a1, ?_, a3, ?_⟩
    · simp only [List.length_append, List.length_singleton]
      omega
    · intro slot hs
      rcases List.mem_append.1 hs with hs | hs
      · exact a4 slot hs
      · rw [List.mem_singleton] at hs
        exact ⟨_, hs, hw.2 m hm⟩

theorem addLink_wa {ni : Nat} {id : Int} {target : Nat} {net n1 : Network}
    (h : addLink ni id target net = .ok n1) (hw : net.wellAssembled) :
    n1.wellAssembled ∧ n1.pMachineBeingAssembled = net.pMachineBeingAssembled := by
  unfold addLink at h
  split at h
  · cases h
  · split at h
    · cases h
    · cases h
      refine ⟨⟨?_, hw.2⟩, rfl⟩
      refine forall_modify Node.assembled net.nodes _ ni hw.1 ?_
      intro d hd
      exact hw.1 d (List.getElem?_mem hd)

theorem emplaceNode_wa {net : Network} {node : Node} (hw : net.wellAssembled)
    (hn : node.assembled) : (net.emplaceNode node).wellAssembled := by
  unfold Network.emplaceNode
  split
  · refine ⟨?_, hw.2⟩
    intro nd hnd
    rcases List.mem_append.1 hnd with hnd | hnd
    · obtain ⟨d, hd, rfl⟩ := List.mem_map.1 hnd
      exact hw.1 d hd
    · rw [List.mem_singleton] at hnd
      subst hnd
      exact hn
  · refine ⟨?_, hw.2⟩
    intro nd hnd
    rcases List.mem_append.1 hnd with hnd | hnd
    · exact hw.1 nd hnd
    · rw [List.mem_singleton] at hnd
      subst hnd
      exact hn

theorem processConfigDirective_wa {d : Directive} {net n1 : Network}
    (h : processConfigDirective d net = .ok n1) (hw : net.wellAssembled) :
    n1.wellAssembled := by
  cases d with
  | range lo hi =>
    simp only [processConfigDirective] at h
    split at h
    · cases h; exact wellAssembled_of_fields hw rfl rfl
    · cases h
    · cases h
  | node name cap =>
    simp only [processConfigDirective] at h
    cases cap with
    | none =>
      cases h
      exact emplaceNode_wa hw
        ⟨rfl, Nat.zero_le _, (by show 2 ^ 64 - 1 < 2 ^ 64; omega), fun _ hs => by cases hs⟩
    | some c =>
      simp only at h
      cases hc : stoul c with
      | error e => rw [hc] at h; cases h
      | ok n =>
        rw [hc] at h
        cases h
        exact emplaceNode_wa hw ⟨rfl, Nat.zero_le _, stoul_lt hc, fun _ hs => by cases hs⟩
  | link src srcId dst dstId =>
    simp only [processConfigDirective] at h
    split at h
    · cases h
    · split at h
      · cases h
      · obtain ⟨fromNum, _, h⟩ := asm_bind_ok h
        obtain ⟨net1, h2, h⟩ := asm_bind_ok h
        have hw1 := (addLink_wa h2 hw).1
        cases dstId with
        | none => cases h; exact hw1
        | some t =>
          obtain ⟨toNum, _, h⟩ := asm_bind_ok h
          exact (addLink_wa h hw1).1
  | file path node id mode locked loaded =>
    simp only [processConfigDirective] at h
    split at h
    · cases h
    · rename_i i _
      split at h
      · cases h
      · cases h
      · rename_i n nd hs hnd
        split at h
        · rename_i hcap
          cases h
          refine ⟨?_, hw.2⟩
          refine forall_modify Node.assembled net.nodes _ i hw.1 ?_
          intro d hd
          rw [hnd] at hd
          cases hd
          obtain ⟨a1, a2, a3, a4⟩ := hw.1 nd (List.getElem?_mem hnd)
          refine ⟨a1, ?_, a3, a4⟩
          have := mapEmplace_length_le (n % 2 ^ 16)
            ({ filename := path, values := loaded, id := n % 2 ^ 16,
               readonly := decide (mode = "ro"), locked := locked } : File) nd.files
          simp only
          omega
        · cases h
  | reg kind name node arg input gen =>
    simp only [processConfigDirective] at h
    split at h
    · cases h
    · rename_i i _
      split at h
      · cases h
      · split at h
        · cases h
        · obtain ⟨opened, _, h⟩ := asm_bind_ok h
          cases h
          refine ⟨?_, hw.2⟩
          refine forall_modify Node.assembled net.nodes _ i hw.1 ?_
          intro d hd
          exact hw.1 d (List.getElem?_mem hd)
  | start name =>
    simp only [processConfigDirective] at h
    obtain ⟨net1, hf, h⟩ := asm_bind_ok h
    cases h
    refine ⟨(finalize_wa hf hw).1.1, ?_⟩
    intro m hm
    simp only [Option.some.injEq] at hm
    subst hm
    rfl
  | home name =>
    simp only [processConfigDirective] at h
    split at h
    · cases h
    · cases h; exact wellAssembled_of_fields hw rfl rfl
  | unmatched line =>
    simp only [processConfigDirective] at h
    cases h

theorem processLine_wa {parse : String → Directive} {raw : String} {net n1 : Network}
    (h : processLine parse raw net = .ok n1) (hw : net.wellAssembled) : n1.wellAssembled := by
  unfold processLine at h
  split at h
  · cases h; exact hw
  · split at h
    · exact processConfigDirective_wa h hw
    · split at h
      · cases h
      · rename_i hsome
        cases hm : net.pMachineBeingAssembled with
        | none => rw [hm] at hsome; exact absurd rfl hsome
        | some m =>
          split at h
          · exact processPreprocessorDirective_wa h hm hw
          · split at h
            · cases h; exact wellAssembled_of_fields hw rfl rfl
            · exact (processInstruction_wa h hm hw).1

theorem processLines_wa (parse : String → Directive) :
    ∀ (lines : List String) (net n1 : Network),
      processLines parse lines net = .ok n1 → net.wellAssembled → n1.wellAssembled := by
  intro lines
  induction lines with
  | nil => intro net n1 h hw; cases h; exact hw
  | cons raw rest ih =>
    intro net n1 h hw
    simp only [processLines] at h
    cases hp : processLine parse raw net with
    | error e =>
      have h' : (processLine parse raw net >>= fun net1 => processLines parse rest net1)
          = .ok n1 := h
      rw [hp] at h'; cases h'
    | ok n2 =>
      have h' : (processLine parse raw net >>= fun net1 => processLines parse rest net1)
          = .ok n1 := h
      rw [hp] at h'
      exact ih n2 n1 h' (processLine_wa hp hw)

theorem initial_wa (g : RandomEngine) : (Network.initial g).wellAssembled :=
  ⟨fun _ h => (by cases h), fun _ h => (by cases h)⟩

theorem withinCapacity_of_wa {net : Network} (h : net.wellAssembled) : net.withinCapacity := by
  intro nd hnd
  obtain ⟨a1, a2, _, _⟩ := h.1 nd hnd
  unfold Node.load
  rw [a1]
  simpa using a2

/-! ## No exa is flagged before its turn -/

theorem toSizeT_neg_one : toSizeT (-1) = 2 ^ 64 - 1 := by
  unfold toSizeT
  norm_num
  rfl

theorem killLoop_later (self target : Nat) (ht : target < 2 ^ 64 - 1) :
    ∀ (l : List (Option Machine)) (j : Nat) (c : Int) (ms : List (Option Machine)),
      killLoop self target j c l = some ms →
        ((j ≤ self ∧ c = 0) ∨ (self < j ∧ c = -1)) →
          ∀ i : Nat, self ≤ j + i → ms[i]? = l[i]? := by
  have hne : toSizeT (-1) ≠ target := by rw [toSizeT_neg_one]; omega
  intro l
  induction l with
  | nil =>
    intro j c ms h _ i _
    simp only [killLoop] at h
    cases h
    rfl
  | cons slot rest ih =>
    intro j c ms h hinv i hi
    simp only [killLoop] at h
    by_cases hjs : j = self
    · have hc : c = 0 := by
        rcases hinv with ⟨_, hc⟩ | ⟨hlt, _⟩
        · exact hc
        · omega
      subst hc
      rw [if_pos hjs] at h
      have h0 : (0 : Int) - 1 = -1 := by norm_num
      rw [h0, if_neg hne] at h
      cases hr : killLoop self target (j + 1) (-1) rest with
      | none => rw [hr] at h; cases h
      | some ms1 =>
        rw [hr] at h
        simp only [Option.map_some', Option.some.injEq] at h
        subst h
        cases i with
        | zero => simp
        | succ k =>
          simpa using ih (j + 1) (-1) ms1 hr (Or.inr ⟨by omega, rfl⟩) k (by omega)
    · rw [if_neg hjs] at h
      rcases hinv with ⟨hle, hc⟩ | ⟨hlt, hc⟩
      · subst hc
        by_cases htt : toSizeT 0 = target
        · rw [if_pos htt] at h
          cases slot with
          | none => cases h
          | some m =>
            simp only [Option.some.injEq] at h
            subst h
            cases i with
            | zero => omega
            | succ k => simp
        · rw [if_neg htt] at h
          cases hr : killLoop self target (j + 1) 0 rest with
          | none => rw [hr] at h; cases h
          | some ms1 =>
            rw [hr] at h
            simp only [Option.map_some', Option.some.injEq] at h
            subst h
            cases i with
            | zero => omega
            | succ k =>
              simpa using ih (j + 1) 0 ms1 hr (Or.inl ⟨by omega, rfl⟩) k (by omega)
      · subst hc
        rw [if_neg hne] at h
        cases hr : killLoop self target (j + 1) (-1) rest with
        | none => rw [hr] at h; cases h
        | some ms1 =>
          rw [hr] at h
          simp only [Option.map_some', Option.some.injEq] at h
          subst h
          cases i with
          | zero => simp
          | succ k =>
            simpa using ih (j + 1) (-1) ms1 hr (Or.inr ⟨by omega, rfl⟩) k (by omega)

theorem flags_getElem (nd : Node) (k : Nat) :
    nd.flags[k]? = (nd.machines[k]?).map fun slot => slot.map fun m => m.terminated := by
  simp [Node.flags]

theorem inTurn_node_of (nd nd1 : Node) {own : Bool} {mi : Nat}
    (hc : nd1.capacity = nd.capacity)
    (hi : ∀ m ∈ nd1.incomingMachines, m ∈ nd.incomingMachines ∨ m.terminated = false)
    (hlen : nd1.flags.length = nd.flags.length)
    (hf : ∀ k, (own = true → mi < k) → nd1.flags[k]? = nd.flags[k]?)
    (ho : own = true → nd1.flags[mi]? ≠ some (some true))
    (h : nd.inTurn own mi) : nd1.inTurn own mi := by
  obtain ⟨⟨t1, t2⟩, f1, _⟩ := h
  refine ⟨⟨by rw [hc]; exact t1, ?_⟩, ?_, ho⟩
  · intro m hm
    rcases hi m hm with h | h
    · exact t2 m h
    · exact h
  · intro j hj hlt
    have hk : own = true → mi < j := by
      intro ho'
      rw [if_pos ho'] at hj
      omega
    rw [hf j hk]
    exact f1 j hj (by rw [← hlen]; exact hlt)

theorem node_back {a b : Network} {j : Nat} {nd1 : Node}
    (hlen : b.nodes.length = a.nodes.length) (hj : b.nodes[j]? = some nd1) :
    ∃ nd, a.nodes[j]? = some nd := by
  have h1 : j < b.nodes.length := (List.getElem?_eq_some.1 hj).1
  have h2 : j < a.nodes.length := by rw [← hlen]; exact h1
  exact ⟨a.nodes[j], List.getElem?_eq_getElem h2⟩

theorem inTurn_same_nodes {n n1 : Network} {ni mi : Nat} (h : n1.nodes = n.nodes)
    (hin : n.inTurn ni mi) : n1.inTurn ni mi := by
  intro j nd hj
  rw [h] at hj
  exact hin j nd hj

theorem inTurn_updNode {n : Network} {ni mi : Nat} (j : Nat) (g : Node → Node)
    (hg : ∀ d, n.nodes[j]? = some d → d.inTurn (decide (j = ni)) mi →
      (g d).inTurn (decide (j = ni)) mi)
    (h : n.inTurn ni mi) : (n.updNode j g).inTurn ni mi := by
  intro k d hk
  rw [updNode_nodes] at hk
  by_cases hjk : j = k
  · subst hjk
    rw [if_pos rfl] at hk
    cases hd : n.nodes[j]? with
    | none => rw [hd] at hk; cases hk
    | some d0 =>
      rw [hd] at hk
      cases hk
      exact hg d0 hd (h j d0 hd)
  · rw [if_neg hjk] at hk
    exact h k d hk

theorem inTurn_of_calm {a b : Network} {ni mi : Nat} (h : Calm a b) (hin : a.inTurn ni mi) :
    b.inTurn ni mi := by
  intro j nd1 hj
  obtain ⟨nd, hnd⟩ := node_back h.1 hj
  obtain ⟨nd2, e1, c1, i1, _, g1⟩ := h.2 j nd hnd
  rw [hj] at e1
  cases e1
  exact inTurn_node_of nd nd1 c1 (fun m hm => Or.inl (by rw [← i1]; exact hm)) (by rw [g1])
    (fun k _ => by rw [g1]) (fun ho => by rw [g1]; exact (hin j nd hnd).2.2 ho) (hin j nd hnd)

theorem inTurn_arrival {nd : Node} {own : Bool} {mi : Nat} (m : Machine)
    (hm : m.terminated = false) (h : nd.inTurn own mi) :
    ({ nd with incomingMachines := nd.incomingMachines ++ [m] } : Node).inTurn own mi := by
  refine inTurn_node_of nd _ rfl ?_ rfl (fun _ _ => rfl) h.2.2 h
  intro m1 h1
  rcases List.mem_append.1 h1 with h1 | h1
  · exact Or.inl h1
  · rw [List.mem_singleton] at h1
    subst h1
    exact Or.inr hm

theorem inTurn_clear {nd : Node} {mi : Nat} (h : nd.inTurn true mi) :
    ({ nd with machines := nd.machines.set mi none } : Node).inTurn true mi := by
  refine inTurn_node_of nd _ rfl (fun _ hm => Or.inl hm) (by simp [Node.flags]) ?_ ?_ h
  · intro k hk
    have hk1 : mi ≠ k := by have := hk rfl; omega
    rw [flags_getElem, flags_getElem]
    simp only [List.getElem?_set_ne hk1]
  · intro _
    rw [flags_getElem]
    intro hc
    simp [List.getElem?_set] at hc

theorem Safe.sf_refl (ni mi : Nat) (n : Network) : Safe ni mi n n :=
  ⟨Paced.pa_refl n, fun _ h => h⟩

theorem Safe.sf_trans (ni mi : Nat) (a b c : Network) (h1 : Safe ni mi a b)
    (h2 : Safe ni mi b c) : Safe ni mi a c :=
  ⟨Paced.pa_trans a b c h1.1 h2.1, fun hw hi =>
    h2.2 (withinCapacity_of_within (Within.of_paced _ _ h1.1) hw) (h1.2 hw hi)⟩

theorem Safe.sf_of_calm (ni mi : Nat) (a b : Network) (h : Calm a b) : Safe ni mi a b :=
  ⟨Paced.of_calm a b h, fun _ hi => inTurn_of_calm h hi⟩

theorem Safe.sf_same_nodes (ni mi : Nat) (n n1 : Network) (h : n1.nodes = n.nodes) :
    Safe ni mi n n1 :=
  ⟨Paced.pa_same_nodes n n1 h, fun _ hi => inTurn_same_nodes h hi⟩

theorem own_unflagged {net : Network} {ni mi : Nat} {m : Machine}
    (hin : net.inTurn ni mi) (hm : net.machineAt ni mi = some m) : m.terminated = false := by
  obtain ⟨nd, hnd, hslot⟩ := machineAt_node hm
  have h := (hin ni nd hnd).2.2 (by simp)
  rw [flags_getElem, hslot] at h
  simp only [Option.map_some'] at h
  cases ht : m.terminated with
  | false => rfl
  | true => rw [ht] at h; exact absurd rfl h

theorem Keeps_execInstruction_sf (ni mi : Nat) (inst : Instruction) :
    Keeps (Safe ni mi) (execInstruction ni mi inst) := by
  rcases opcode_special_or inst with hk | hl | hd | hr | ⟨hk, hl, hd, hr⟩
  · rw [execInstruction_kill hk]
    refine Keeps_kill_of ni mi (fun n n1 h => Safe.sf_same_nodes ni mi n n1 h) ?_
    intro net nd ms hnd hlen hkl
    refine ⟨paced_kill _ hnd (killLoop_length hkl), fun hw hin => ?_⟩
    have hcap : nd.capacity < 2 ^ 64 := (hin ni nd hnd).1.1
    have hload := hw nd (List.getElem?_mem hnd)
    have htarget : (net.random.dist (nd.machines.length - 2)).1 < 2 ^ 64 - 1 := by
      have h1 : (net.random.dist (nd.machines.length - 2)).1
          = net.random.next.1 % (nd.machines.length - 2 + 1) := rfl
      have h2 : net.random.next.1 % (nd.machines.length - 2 + 1) < nd.machines.length - 2 + 1 :=
        Nat.mod_lt _ (Nat.succ_pos _)
      rw [h1]
      unfold Node.load at hload
      omega
    have hlater := killLoop_later mi _ htarget nd.machines 0 0 ms hkl (Or.inl ⟨Nat.zero_le _, rfl⟩)
    refine inTurn_updNode ni _ ?_ (@inTurn_same_nodes net _ ni mi rfl hin)
    intro d hd hdin
    have hd' : net.nodes[ni]? = some d := hd
    rw [hnd] at hd'
    cases hd'
    refine inTurn_node_of nd _ rfl (fun _ hm => Or.inl hm) ?_ ?_ ?_ hdin
    · simp only [Node.flags, List.length_map]
      exact killLoop_length hkl
    · intro k hk
      have hk1 : mi < k := hk (by simp)
      rw [flags_getElem, flags_getElem]
      show (ms[k]?).map _ = _
      rw [hlater k (by omega)]
    · intro _
      rw [flags_getElem]
      show (ms[mi]?).map _ ≠ _
      rw [hlater mi (by omega), ← flags_getElem]
      exact hdin.2.2 (by simp)
  · rw [execInstruction_link hl]
    refine Keeps_link_of ni mi inst (Safe.sf_refl ni mi) (Safe.sf_trans ni mi)
      (Keeps.mono (Safe.sf_of_calm ni mi) (Keeps_get_ca ni mi inst.op1)) ?_
    intro net nd target m ti hnd htg hfull hm
    refine ⟨paced_link _ hnd htg hfull, fun _ hin => ?_⟩
    have hmt := own_unflagged hin hm
    refine inTurn_updNode ti _ (fun d _ hdin => inTurn_arrival _ hmt hdin) ?_
    refine inTurn_updNode ni _ ?_ (@inTurn_same_nodes net _ ni mi rfl hin)
    intro d _ hdin
    have ht : decide (ni = ni) = true := by simp
    rw [ht] at hdin ⊢
    exact inTurn_clear hdin
  · refine Keeps_drop_of ni mi inst hd (Safe.sf_refl ni mi) ?_
    intro net nd m f hnd _ _ hfull
    refine ⟨paced_drop f hnd hfull, fun _ hin => ?_⟩
    refine inTurn_of_calm (Calm.ca_updMachine _ ni mi _ fun _ => rfl) ?_
    refine inTurn_updNode ni _ ?_ hin
    intro d _ hdin
    exact inTurn_node_of d _ rfl (fun _ hm => Or.inl hm) rfl (fun _ _ => rfl) hdin.2.2 hdin
  · refine Keeps_repl_of ni mi inst hr (Safe.sf_refl ni mi) ?_
    intro net nd m a hnd _ hfull
    refine ⟨paced_repl a _ hnd hfull, fun _ hin => ?_⟩
    refine inTurn_updNode ni _ (fun d _ hdin => inTurn_arrival _ rfl hdin) ?_
    exact inTurn_of_calm (Calm.ca_updMachine _ ni mi _ fun _ => rfl) hin
  · exact Keeps.mono (Safe.sf_of_calm ni mi) (Keeps_execInstruction_ca ni mi inst hk hl hd hr)

theorem Keeps_fetchExec_sf (ni mi : Nat) : Keeps (Safe ni mi) (fetchExec ni mi) := by
  unfold fetchExec
  apply Keeps.bind (Safe.sf_trans ni mi) (Keeps.getMachine (Safe.sf_refl ni mi) _ _)
  intro m
  split
  · exact Keeps.raiseFailure (Safe.sf_refl ni mi) _
  · exact Keeps_execInstruction_sf ni mi _

theorem atTurn_of_inTurn {n : Network} {ni mi : Nat} (h : n.inTurn ni mi) :
    n.atTurn ni (mi + 1) := by
  intro j nd hj
  obtain ⟨t, f, _⟩ := h j nd hj
  refine ⟨t, ?_⟩
  by_cases hji : j = ni
  · rw [if_pos hji]
    have hd : decide (j = ni) = true := by simp [hji]
    rw [hd] at f
    exact f
  · rw [if_neg hji]
    have hd : decide (j = ni) = false := by simp [hji]
    rw [hd] at f
    exact f

theorem inTurn_of_atTurn {n : Network} {ni mi : Nat} (h : n.atTurn ni mi)
    (hmi : ∀ nd, n.nodes[ni]? = some nd → mi < nd.machines.length) : n.inTurn ni mi := by
  intro j nd hj
  obtain ⟨t, f⟩ := h j nd hj
  by_cases hji : j = ni
  · subst hji
    rw [if_pos rfl] at f
    have hd : decide (j = j) = true := by simp
    rw [hd]
    refine ⟨t, ?_, ?_⟩
    · intro k hk hlt
      exact f k (by simp at hk; omega) hlt
    · intro _
      rw [f mi (le_refl _) (by rw [flags_length]; exact hmi nd hj)]
      intro hc
      cases hc
  · rw [if_neg hji] at f
    have hd : decide (j = ni) = false := by simp [hji]
    rw [hd]
    exact ⟨t, f, fun hc => by cases hc⟩

theorem atTurn_updMachine {n : Network} {ni mi : Nat} (f : Machine → Machine)
    (h : n.atTurn ni (mi + 1)) : (n.updMachine ni mi f).atTurn ni (mi + 1) := by
  intro k d hk
  unfold Network.updMachine at hk
  rw [updNode_nodes] at hk
  by_cases hik : ni = k
  · subst hik
    rw [if_pos rfl] at hk
    cases hd : n.nodes[ni]? with
    | none => rw [hd] at hk; cases hk
    | some d0 =>
      rw [hd] at hk
      cases hk
      obtain ⟨t, fr⟩ := h ni d0 hd
      refine ⟨t, ?_⟩
      rw [if_pos rfl] at fr ⊢
      intro j hj hlt
      have hlen : ({ d0 with machines := d0.machines.modify (Option.map f) mi } : Node).flags.length
          = d0.flags.length := by simp [Node.flags]
      have := fr j hj (by rw [← hlen]; exact hlt)
      rw [flags_getElem] at this ⊢
      have hne : mi ≠ j := by omega
      simp only [List.getElem?_modify, if_neg hne]
      simpa using this
  · rw [if_neg hik] at hk
    exact h k d hk

theorem stepMachine_turn {net n1 : Network} {ni mi : Nat} (hw : net.withinCapacity)
    (hat : net.atTurn ni mi) (hmi : ∀ nd, net.nodes[ni]? = some nd → mi < nd.machines.length)
    (h : stepMachine ni mi net = .ok () n1) : n1.atTurn ni (mi + 1) := by
  have hin := inTurn_of_atTurn hat hmi
  unfold stepMachine at h
  cases hf : fetchExec ni mi net with
  | ok adv n2 =>
    rw [hf] at h
    have h2 := atTurn_of_inTurn (((Keeps_fetchExec_sf ni mi).ok _ _ _ hf).2 hw hin)
    cases adv with
    | true =>
      simp only [advanceIp, if_true, modifyMachine_apply, Res.ok.injEq, true_and] at h
      subst h
      exact atTurn_updMachine _ h2
    | false =>
      simp only [advanceIp, Bool.false_eq_true, if_false, pure_apply, Res.ok.injEq,
        true_and] at h
      subst h
      exact h2
  | failure msg n2 =>
    rw [hf] at h
    have h2 := atTurn_of_inTurn (((Keeps_fetchExec_sf ni mi).failure _ _ _ hf).2 hw hin)
    simp only [bind_apply, modifyMachine_apply, advanceIp, if_true, Res.ok.injEq,
      true_and] at h
    subst h
    exact atTurn_updMachine _ (atTurn_updMachine _ h2)
  | abort e => rw [hf] at h; cases h

theorem paced_length {a b : Network} {ni : Nat} {nd1 : Node} (h : Paced a b)
    (hj : b.nodes[ni]? = some nd1) :
    ∃ nd, a.nodes[ni]? = some nd ∧ nd1.machines.length = nd.machines.length := by
  obtain ⟨nd, hnd⟩ := node_back h.1 hj
  obtain ⟨nd2, e1, _, m1, _⟩ := h.2 ni nd hnd
  rw [hj] at e1
  cases e1
  exact ⟨nd, hnd, m1⟩

theorem stepMachinesFrom_turn (ni : Nat) :
    ∀ (count a : Nat) (net n1 : Network), net.withinCapacity → net.atTurn ni a →
      (∀ nd, net.nodes[ni]? = some nd → a + count ≤ nd.machines.length) →
        stepMachinesFrom ni a count net = .ok () n1 → n1.atTurn ni (a + count) := by
  intro count
  induction count with
  | zero =>
    intro a net n1 _ hat _ h
    simp only [stepMachinesFrom, pure_apply, Res.ok.injEq, true_and] at h
    subst h
    exact hat
  | succ k ih =>
    intro a net n1 hw hat hlen h
    simp only [stepMachinesFrom] at h
    obtain ⟨_, n2, h1, h2⟩ := bind_eq_ok.1 h
    have hp := (Keeps_stepMachine_pa ni a).ok _ _ _ h1
    have hw2 := withinCapacity_of_within (Within.of_paced _ _ hp) hw
    have hat2 := stepMachine_turn hw hat (fun nd hnd => by have := hlen nd hnd; omega) h1
    have hlen2 : ∀ nd, n2.nodes[ni]? = some nd → a + 1 + k ≤ nd.machines.length := by
      intro nd2 hnd2
      obtain ⟨nd, hnd, hm⟩ := paced_length hp hnd2
      have := hlen nd hnd
      omega
    have := ih (a + 1) n2 n1 hw2 hat2 hlen2 h2
    have he : a + (k + 1) = a + 1 + k := by omega
    rw [he]
    exact this

theorem freshFrom_zero_of_all {nd : Node} (h : ∀ x ∈ nd.flags, x = some false) :
    nd.freshFrom 0 := by
  intro k _ hlt
  rw [List.getElem?_eq_getElem hlt, h _ (List.getElem_mem hlt)]

theorem settled_drain {n : Network} {ni L : Nat} (hat : n.atTurn ni L) :
    (n.updNode ni drainNode).settled := by
  intro j nd hj
  rw [updNode_nodes] at hj
  by_cases hij : ni = j
  · subst hij
    rw [if_pos rfl] at hj
    cases hd : n.nodes[ni]? with
    | none => rw [hd] at hj; cases hj
    | some d0 =>
      rw [hd] at hj
      cases hj
      refine ⟨(hat ni d0 hd).1, ?_⟩
      apply freshFrom_zero_of_all
      intro x hmem
      simp only [Node.flags, drainNode, List.mem_map, List.mem_filter] at hmem
      obtain ⟨slot, ⟨_, hrem⟩, hx⟩ := hmem
      rw [← hx]
      cases slot with
      | none => simp [removable] at hrem
      | some m =>
        simp only [removable, Bool.not_eq_true'] at hrem
        simp [hrem]
  · rw [if_neg hij] at hj
    have := hat j nd hj
    rw [if_neg (Ne.symm hij)] at this
    exact this

theorem atTurn_of_settled {n : Network} (ni : Nat) (h : n.settled) : n.atTurn ni 0 := by
  intro j nd hj
  obtain ⟨t, f⟩ := h j nd hj
  refine ⟨t, ?_⟩
  split <;> exact f

theorem stepNode_settled {n n1 : Network} {ni : Nat} (hw : n.withinCapacity) (hs : n.settled)
    (h : stepNode ni n = .ok () n1) : n1.settled := by
  unfold stepNode machineLoop at h
  obtain ⟨_, n2, h1, h2⟩ := bind_eq_ok.1 h
  obtain ⟨nd, n3, h3, h4⟩ := bind_eq_ok.1 h1
  obtain ⟨hnd, e⟩ := getNode_eq_ok.1 h3
  subst e
  have hat := stepMachinesFrom_turn ni nd.machines.length 0 n n2 hw (atTurn_of_settled ni hs)
    (fun d hd => by rw [hnd] at hd; cases hd; omega) h4
  have e2 := modifyNode_eq_ok.1 h2
  subst e2
  exact settled_drain hat

theorem stepNodesFrom_fresh :
    ∀ (count a : Nat) (n n1 : Network), n.fresh → stepNodesFrom a count n = .ok () n1 →
      n1.fresh := by
  intro count
  induction count with
  | zero =>
    intro a n n1 hf h
    simp only [stepNodesFrom, pure_apply, Res.ok.injEq, true_and] at h
    subst h
    exact hf
  | succ k ih =>
    intro a n n1 hf h
    simp only [stepNodesFrom] at h
    obtain ⟨_, n2, h1, h2⟩ := bind_eq_ok.1 h
    exact ih (a + 1) n2 n1
      ⟨withinCapacity_of_within ((Keeps_stepNode_wi a).ok _ _ _ h1) hf.1,
        stepNode_settled hf.1 hf.2 h1⟩ h2

theorem settled_mergeAll {n : Network} (h : n.settled) : (mergeAll n).settled := by
  intro j nd hj
  simp only [mergeAll, List.getElem?_map] at hj
  cases hd : n.nodes[j]? with
  | none => rw [hd] at hj; cases hj
  | some d0 =>
    rw [hd] at hj
    simp only [Option.map_some', Option.some.injEq] at hj
    subst hj
    obtain ⟨⟨t1, t2⟩, f⟩ := h j d0 hd
    refine ⟨⟨t1, fun m hm => by cases hm⟩, ?_⟩
    apply freshFrom_zero_of_all
    intro x hmem
    simp only [Node.flags, mergeIncoming, List.map_append, List.map_map, List.mem_append,
      List.mem_map] at hmem
    rcases hmem with ⟨slot, hs, hx⟩ | ⟨m, hm, hx⟩
    · have hin : slot.map (fun m => m.terminated) ∈ d0.flags :=
        List.mem_map.2 ⟨slot, hs, rfl⟩
      obtain ⟨i, hi, hget⟩ := List.getElem_of_mem hin
      have := f i (Nat.zero_le _) hi
      rw [List.getElem?_eq_getElem hi, hget] at this
      rw [← hx]
      exact Option.some.inj this
    · rw [← hx]
      simp [t2 m hm]

theorem fresh_same_nodes {n n1 : Network} (h : n1.nodes = n.nodes) (hf : n.fresh) : n1.fresh := by
  refine ⟨?_, ?_⟩
  · intro nd hnd
    rw [h] at hnd
    exact hf.1 nd hnd
  · intro j nd hj
    rw [h] at hj
    exact hf.2 j nd hj

theorem cycle_fresh {n n1 : Network} {r : Nat} (hf : n.fresh) (h : cycle n = .ok r n1) :
    n1.fresh := by
  unfold cycle at h
  obtain ⟨_, na, h1, h⟩ := bind_eq_ok.1 h
  obtain ⟨_, nb, h2, h⟩ := bind_eq_ok.1 h
  obtain ⟨_, nc, h3, h⟩ := bind_eq_ok.1 h
  obtain ⟨_, nd, h4, h⟩ := bind_eq_ok.1 h
  obtain ⟨_, ne, h5, h⟩ := bind_eq_ok.1 h
  have e1 := modifyNet_eq_ok.1 h1
  obtain ⟨e2, e2'⟩ := getNet_eq_ok.1 h2
  have e4 := modifyNet_eq_ok.1 h4
  obtain ⟨e5, e5'⟩ := getNet_eq_ok.1 h5
  obtain ⟨_, e6⟩ := pure_eq_ok.1 h
  subst e6 e5' e4 e2'
  have hfa : na.fresh := by
    rw [← e1]
    exact fresh_same_nodes rfl hf
  have hfc := stepNodesFrom_fresh _ _ _ _ hfa h3
  exact ⟨withinCapacity_of_within (Within.wi_mergeAll nc) hfc.1, settled_mergeAll hfc.2⟩

theorem afterCycles_fresh :
    ∀ (k : Nat) (net n1 : Network), net.fresh → afterCycles k net = some n1 → n1.fresh := by
  intro k
  induction k with
  | zero =>
    intro net n1 hf h
    simp only [afterCycles, Option.some.injEq] at h
    subst h
    exact hf
  | succ k ih =>
    intro net n1 hf h
    simp only [afterCycles] at h
    cases hc : cycle net with
    | ok r n2 =>
      rw [hc] at h
      exact ih n2 n1 (cycle_fresh hf hc) h
    | failure msg n2 => rw [hc] at h; cases h
    | abort e => rw [hc] at h; cases h

theorem fresh_of_wa {net : Network} (h : net.wellAssembled) : net.fresh := by
  refine ⟨withinCapacity_of_wa h, ?_⟩
  intro j nd hj
  obtain ⟨a1, _, a3, a4⟩ := h.1 nd (List.getElem?_mem hj)
  refine ⟨⟨a3, fun m hm => by rw [a1] at hm; cases hm⟩, ?_⟩
  intro k _ hlt
  rw [flags_length] at hlt
  rw [flags_getElem, List.getElem?_eq_getElem hlt]
  obtain ⟨m, hm, ht⟩ := a4 _ (List.getElem_mem hlt)
  rw [hm]
  simp [ht]

theorem turn_unflagged {n n2 n3 : Network} {ni mi : Nat} {nd : Node} (hf : n.fresh)
    (h2 : stepNodesFrom 0 ni n = .ok () n2) (hnd : n2.nodes[ni]? = some nd)
    (hmi : mi < nd.machines.length) (h3 : stepMachinesFrom ni 0 mi n2 = .ok () n3) :
    ∃ m, n3.machineAt ni mi = some m ∧ m.terminated = false := by
  have hf2 := stepNodesFrom_fresh _ _ _ _ hf h2
  have hat := stepMachinesFrom_turn ni mi 0 n2 n3 hf2.1 (atTurn_of_settled ni hf2.2)
    (fun d hd => by rw [hnd] at hd; cases hd; omega) h3
  have hp := (Keeps_stepMachinesFrom_pa ni mi 0).ok _ _ _ h3
  obtain ⟨nd3, hnd3, _, hlen, _⟩ := hp.2 ni nd hnd
  have hfr := (hat ni nd3 hnd3).2
  rw [if_pos rfl] at hfr
  have := hfr mi (by omega) (by rw [flags_length, hlen]; exact hmi)
  rw [flags_getElem] at this
  cases hs : nd3.machines[mi]? with
  | none => rw [hs] at this; cases this
  | some slot =>
    rw [hs] at this
    cases slot with
    | none => simp at this
    | some m =>
      simp only [Option.map_some', Option.some.injEq] at this
      exact ⟨m, by unfold Network.machineAt; rw [hnd3]; simp only [hs], this⟩

/-- The machine loop has no test of `terminated`: in a state with a flagged exa in a slot,
`stepMachine` executes the instruction of that exa (X becomes 1 and the instruction pointer
advances). By `turn_unflagged` no run reaches such a state. -/
theorem stepMachine_steps_flagged :
    (Res.state? (stepMachine 0 0 flaggedNet)).map
        (fun n => (n.machineAt 0 0).map fun m => (m.x, m.instPtr, m.terminated))
      = some (some (.num 1, 1, true)) := rfl

/-! ## The claims -/

theorem clampValue_inRange (net : Network) (h : net.rangeMin ≤ net.rangeMax) (v : Value) :
    net.inRange (net.clamp v) := by
  have := clampValue_in_range net.rangeMin net.rangeMax h v
  unfold Network.inRange Network.clamp
  cases hc : clampValue net.rangeMin net.rangeMax v with
  | str s => trivial
  | num n => rw [hc] at this; exact this

theorem set_X_stored {ni mi : Nat} {na n1 : Network} {w : Value} {m1 : Machine}
    (h : set ni mi (.reg .X) w na = .ok true n1) (h1 : n1.machineAt ni mi = some m1) :
    m1.x = na.clamp w := by
  cases hma : na.machineAt ni mi with
  | none =>
    exfalso
    simp only [set, bind_apply, getNet_apply] at h
    cases hg : getMachine ni mi na with
    | ok a nb =>
      have h3 := (getMachine_eq_ok.1 hg).1
      rw [hma] at h3
      cases h3
    | failure msg nb => rw [hg] at h; cases h
    | abort e => rw [hg] at h; cases h
  | some m0 =>
    rw [set_X_eq w hma] at h
    injection h with _ h2
    subst h2
    rw [machineAt_updMachine, hma] at h1
    injection h1 with h1
    subst h1
    rfl

theorem set_T_stored {ni mi : Nat} {na n1 : Network} {w : Value} {m1 : Machine}
    (h : set ni mi (.reg .T) w na = .ok true n1) (h1 : n1.machineAt ni mi = some m1) :
    m1.t = na.clamp w := by
  cases hma : na.machineAt ni mi with
  | none =>
    exfalso
    simp only [set, bind_apply, getNet_apply] at h
    cases hg : getMachine ni mi na with
    | ok a nb =>
      have h3 := (getMachine_eq_ok.1 hg).1
      rw [hma] at h3
      cases h3
    | failure msg nb => rw [hg] at h; cases h
    | abort e => rw [hg] at h; cases h
  | some m0 =>
    rw [set_T_eq w hma] at h
    injection h with _ h2
    subst h2
    rw [machineAt_updMachine, hma] at h1
    injection h1 with h1
    subst h1
    rfl

/-- C1: with `rangeMin ≤ rangeMax`, a `set` on X, on T, on M with the exa's channel empty, or
on F with a file held succeeds and stores exactly `clamp v` (in the register, in the channel
slot, at the cursor of the held file); `clamp` of a Number is `rangeMin` below the range,
`rangeMax` above it and the Number itself otherwise, `clamp` of a String is that String, and a
clamped value is a String or a Number within the range. Every instruction with a destination
operand (`COPY`, `ADDI`, `SUBI`, `MULI`, `DIVI`, `MODI`, `SWIZ`, `RAND`, and also `HOST` and
`FILE`) that completes its write performs it as one `set` under the same clamp, so a register X
or T written by it holds a String or a Number within the range. -/
theorem set_stores_clamped (net : Network) (ni mi : Nat) (m : Machine) (v : Value)
    (hr : net.rangeMin ≤ net.rangeMax) (hm : net.machineAt ni mi = some m) :
    (∃ n1, set ni mi (.reg .X) v net = .ok true n1
        ∧ n1.machineAt ni mi = some { m with x := net.clamp v })
    ∧ (∃ n1, set ni mi (.reg .T) v net = .ok true n1
        ∧ n1.machineAt ni mi = some { m with t := net.clamp v })
    ∧ (net.channelFor ni m = some { val := none } →
        ∃ n1, set ni mi (.reg .M) v net = .ok true n1
          ∧ n1.channelFor ni m = some { val := some (net.clamp v) })
    ∧ (∀ f, m.file = some f →
        ∃ n1, set ni mi (.reg .F) v net = .ok true n1
          ∧ n1.machineAt ni mi = some { m with file := some (f.write (net.clamp v)) }
          ∧ (f.write (net.clamp v)).values[min f.offset f.values.length]? = some (net.clamp v))
    ∧ (∀ n, net.clamp (.num n)
        = .num (if n < net.rangeMin then net.rangeMin
                else if n > net.rangeMax then net.rangeMax else n))
    ∧ (∀ s, net.clamp (.str s) = .str s)
    ∧ net.inRange (net.clamp v)
    ∧ (∀ (inst : Instruction) (d : Operand) (n1 : Network),
        inst.dest = some d → execInstruction ni mi inst net = .ok true n1 →
          ∃ na w, set ni mi d w na = .ok true n1 ∧ na.clamp = net.clamp)
    ∧ (∀ (inst : Instruction) (n1 : Network) (m1 : Machine),
        execInstruction ni mi inst net = .ok true n1 → n1.machineAt ni mi = some m1 →
          (inst.dest = some (.reg .X) → net.inRange m1.x)
          ∧ (inst.dest = some (.reg .T) → net.inRange m1.t)) := by
  obtain ⟨nd, hnd, hslot⟩ := machineAt_node hm
  have hclamp : ∀ na : Network, na.rangeMin = net.rangeMin → na.rangeMax = net.rangeMax →
      na.clamp = net.clamp := by
    intro na h1 h2
    funext w
    unfold Network.clamp
    rw [h1, h2]
  refine ⟨⟨_, set_X_eq v hm, by simp [hm]⟩, ⟨_, set_T_eq v hm, by simp [hm]⟩, ?_, ?_, ?_, ?_,
    clampValue_inRange net hr v, ?_, ?_⟩
  · intro hc
    rw [set_M_eq v hm hnd]
    simp only [Network.channelFor, hnd, selectedChannel] at hc
    by_cases hg : m.globalMode
    · simp only [hg, if_true] at hc ⊢
      have hc2 : net.globalChannel = { val := none } := by simpa using hc
      refine ⟨_, by simp [hc2, Channel.available]; rfl, ?_⟩
      simp [Network.channelFor, hnd, selectedChannel, hg, Channel.send]
    · simp only [hg] at hc ⊢
      have hc2 : nd.localChannel = { val := none } := by simpa using hc
      refine ⟨_, by simp [hc2, Channel.available]; rfl, ?_⟩
      simp [Network.channelFor, hnd, selectedChannel, hg, Channel.send, hc2]
  · intro f hf
    exact ⟨_, set_F_eq v hm hf, by simp [hm], write_stores f _⟩
  · intro n; rfl
  · intro s; rfl
  · intro inst d n1 hd h
    obtain ⟨na, w, hs, h1, h2⟩ := writes_via_set hd h
    exact ⟨na, w, hs, hclamp na h1 h2⟩
  · intro inst n1 m1 h h1
    constructor
    · intro hd
      obtain ⟨na, w, hs, e1, e2⟩ := writes_via_set hd h
      rw [set_X_stored hs h1, hclamp na e1 e2]
      exact clampValue_inRange net hr w
    · intro hd
      obtain ⟨na, w, hs, e1, e2⟩ := writes_via_set hd h
      rw [set_T_stored hs h1, hclamp na e1 e2]
      exact clampValue_inRange net hr w

/-- C1 at a concrete input: scenario S1 (range [-100, 100]), its exa, and the value 125. -/
theorem set_stores_clamped_witness :
    (S1.net zeroEngine).rangeMin ≤ (S1.net zeroEngine).rangeMax
    ∧ (S1.net zeroEngine).clamp (.num 125) = .num 100
    ∧ (∃ n1, set 0 0 (.reg .X) (.num 125) (S1.net zeroEngine) = .ok true n1
        ∧ (n1.machineAt 0 0).map (fun m1 => m1.x) = some (.num 100)) := by
  have hr : (S1.net zeroEngine).rangeMin ≤ (S1.net zeroEngine).rangeMax := by decide
  obtain ⟨n1, h1, h2⟩ := (set_stores_clamped (S1.net zeroEngine) 0 0 _ (.num 125) hr rfl).1
  exact ⟨hr, rfl, n1, h1, by rw [h2]; rfl⟩

/-- C2 (the code at the failing input): with the global channel holding 42, a `get` on
register M returns 42 and leaves the slot occupied: a second `get` returns 42 again, a `set`
on M is refused, and the channel still holds 42. The same holds after the whole step of
`copy m x`. -/
theorem get_M_does_not_clear_channel :
    Res.value? ((do
        let first ← get 0 0 (.reg .M)
        let second ← get 0 0 (.reg .M)
        let sent ← set 0 0 (.reg .M) (.num 7)
        let net ← getNet
        pure (first, second, sent, net.globalChannel.val)) receiverNet)
      = some (some (.num 42), some (.num 42), false, some (.num 42))
    ∧ (Res.state? (stepMachine 0 0 receiverNet)).map
        (fun net => (net.globalChannel.val, (net.machineAt 0 0).map fun m => m.x))
      = some (some (.num 42), some (.num 42)) :=
  ⟨rfl, rfl⟩

/-- C3 (the code at the failing input): the exa makes file 400 in the first cycle, so the
network owns the files 300 (on the node) and 400 (held); `grab 300` in the second cycle
replaces the held file: the exa then holds file 300 and file 400 is owned by nobody. -/
theorem grab_while_holding_loses_file (g : RandomEngine) :
    grabWhileHolding.assemble g = .ok (grabWhileHolding.net g)
      ∧ (afterCycles 1 (grabWhileHolding.net g)).map Network.fileIds = some [300, 400]
      ∧ (haltState 1 0 0 (grabWhileHolding.net g)).map
          (fun m => (m.terminated, m.file.map fun f => f.id)) = some (false, some 300)
      ∧ (afterCycles 2 (grabWhileHolding.net g)).map Network.fileIds = some [300] :=
  ⟨rfl, rfl, rfl, rfl⟩

set_option maxHeartbeats 4000000 in
/-- C4 (counterexample): in scenario S4 the file 300 left on node N does not hold [2, 3]. -/
theorem scenario_S4_not_2_3 :
    S4.assemble zeroEngine = .ok (S4.net zeroEngine)
      ∧ runFiles 5 (S4.net zeroEngine) ≠ some [[(300, [.num 2, .num 3], 0)]]
      ∧ (runFiles 5 (S4.net zeroEngine)).map (fun fs => fs.map fun l => l.map fun e => (e.1, e.2.1))
          ≠ some [[(300, [.num 2, .num 3])]] := by
  refine ⟨rfl, ?_, ?_⟩
  · have h : runFiles 5 (S4.net zeroEngine) = some [[(300, [.num 1, .num 3], 1)]] := rfl
    rw [h]; decide
  · have h : runFiles 5 (S4.net zeroEngine) = some [[(300, [.num 1, .num 3], 1)]] := rfl
    rw [h]; decide

set_option maxHeartbeats 4000000 in
/-- C4 (amended): scenario S4 assembles to `S4.net`; `copy f x` reads 1 and moves the cursor
to 1, so `void f` removes the value 2: the exa halts (in the fifth cycle) with X = 1 holding no
file, and `run` ends with node N holding file 300 with values [1, 3] and cursor 1. -/
theorem scenario_S4 (g : RandomEngine) :
    S4.assemble g = .ok (S4.net g)
      ∧ (haltState 4 0 0 (S4.net g)).map (fun m => (m.x, m.file, m.terminated))
          = some (.num 1, none, true)
      ∧ runFiles 5 (S4.net g) = some [[(300, [.num 1, .num 3], 1)]]
      ∧ runStats 5 (S4.net g) = some { size := 5, cycles := 5, activity := 0 } :=
  ⟨rfl, rfl, rfl, rfl⟩

/-- C5 (counterexample): the source's swizzle of 1234 with mask 4321 is not 4321. -/
theorem swiz_1234_4321_ne : swiz (.num 1234) (.num 4321) ≠ .ok (.num 4321) := by
  intro h
  have h2 : swiz (.num 1234) (.num 4321) = .ok (.num 1234) := rfl
  rw [h2] at h
  cases h

/-- C5 (amended): mask digit k selects the k-th decimal digit of the input counted from the
right, so `swiz(1234, 4321) = 1234`, `swiz(1234, 12) = 43` and `swiz(1234, -12) = -43`. -/
theorem swiz_scenario_S6 :
    swiz (.num 1234) (.num 4321) = .ok (.num 1234)
      ∧ swiz (.num 1234) (.num 12) = .ok (.num 43)
      ∧ swiz (.num 1234) (.num (-12)) = .ok (.num (-43)) :=
  ⟨rfl, rfl, rfl⟩

set_option maxHeartbeats 4000000 in
/-- C6: scenario S1 assembles to `S1.net` (range [-100, 100], one exa on node N, size 4);
three cycles leave the exa before `halt`, not terminated; the machine loop of the fourth cycle
flags it terminated with X = 100 and T = 75; `run` returns size 4, cycles 4, activity 0, and
three cycles do not end the run. -/
theorem scenario_S1 (g : RandomEngine) :
    S1.assemble g = .ok (S1.net g)
      ∧ (haltState 2 0 0 (S1.net g)).map (fun m => (m.instPtr, m.terminated)) = some (3, false)
      ∧ (haltState 3 0 0 (S1.net g)).map (fun m => (m.x, m.t, m.terminated))
          = some (.num 100, .num 75, true)
      ∧ runStats 4 (S1.net g) = some { size := 4, cycles := 4, activity := 0 }
      ∧ run 3 (S1.net g) = none :=
  ⟨rfl, rfl, rfl, rfl, rfl⟩

/-- C7: for operand tokens that `regOrVal` accepts, while an exa is being assembled: `copy a b`
with M in both positions, an arithmetic line (`addi`, `subi`, `muli`, `divi`, `modi`, `swiz`)
with M in two or three of its positions, and `test a OP b` (OP one of `<`, `=`, `>`) with M in
both positions are rejected with an `Error`; when M stands in at most one position, the line
does not end in the `Error` of the M check. -/
theorem m_reference_check (net : Network) (m : Machine) (a b c : String)
    (hm : net.pMachineBeingAssembled = some m)
    (ha : isOperand net a) (hb : isOperand net b) (hc : isOperand net c) :
    ((a = "m" ∧ b = "m") → ∃ msg, processDoubleArg "copy" a b net = .error (.error msg))
    ∧ (¬ (a = "m" ∧ b = "m") → processDoubleArg "copy" a b net ≠ .error tooManyM)
    ∧ (∀ mne ∈ ["addi", "subi", "muli", "divi", "modi", "swiz"],
        (2 ≤ [a, b, c].count "m" → ∃ msg, processTripleArg mne a b c net = .error (.error msg))
        ∧ ([a, b, c].count "m" ≤ 1 → processTripleArg mne a b c net ≠ .error tooManyM))
    ∧ (∀ cmp ∈ ["<", "=", ">"],
        ((a = "m" ∧ c = "m") → ∃ msg, processTripleArg "test" a cmp c net = .error (.error msg))
        ∧ (¬ (a = "m" ∧ c = "m") → processTripleArg "test" a cmp c net ≠ .error tooManyM)) := by
  refine ⟨(copy_check hm ha).1, (copy_check hm ha).2, ?_, ?_⟩
  · intro mne hmne
    simp only [List.mem_cons, List.mem_singleton, List.mem_nil_iff, or_false] at hmne
    rcases hmne with rfl | rfl | rfl | rfl | rfl | rfl
    · exact arith_check .Addi hm ha hb
    · exact arith_check .Subi hm ha hb
    · exact arith_check .Muli hm ha hb
    · exact arith_check .Divi hm ha hb
    · exact arith_check .Modi hm ha hb
    · exact arith_check .Swiz hm ha hb
  · intro cmp hcmp
    simp only [List.mem_cons, List.mem_singleton, List.mem_nil_iff, or_false] at hcmp
    rcases hcmp with rfl | rfl | rfl
    · exact test_check .TestLt hm ha hc
    · exact test_check .TestEq hm ha hc
    · exact test_check .TestGt hm ha hc

/-- C7 at a concrete input: `addi m x m` and `copy m m` are rejected, `addi m x x` is not. -/
theorem m_reference_check_witness :
    assembling.pMachineBeingAssembled = some { name := "w" }
    ∧ isOperand assembling "m" ∧ isOperand assembling "x"
    ∧ processTripleArg "addi" "m" "x" "m" assembling = .error tooManyM
    ∧ (∃ msg, processTripleArg "addi" "m" "x" "m" assembling = .error (.error msg))
    ∧ (∃ msg, processDoubleArg "copy" "m" "m" assembling = .error (.error msg))
    ∧ processTripleArg "addi" "m" "x" "x" assembling ≠ .error tooManyM := by
  have hM : isOperand assembling "m" := ⟨_, rfl⟩
  have hX : isOperand assembling "x" := ⟨_, rfl⟩
  have h1 := m_reference_check assembling { name := "w" } "m" "x" "m" rfl hM hX hM
  have h2 := m_reference_check assembling { name := "w" } "m" "m" "x" rfl hM hM hX
  have h3 := m_reference_check assembling { name := "w" } "m" "x" "x" rfl hM hX hX
  refine ⟨rfl, hM, hX, rfl, ?_, h2.1 ⟨rfl, rfl⟩, ?_⟩
  · exact (h1.2.2.1 "addi" (by simp)).1 (by decide)
  · exact (h3.2.2.1 "addi" (by simp)).2 (by decide)

/-- C8 (the code at the failing input): the counter `curIdx` of the search loop is never
incremented. With two exas and the executor first, the only draw 0 flags nobody; with three
exas and the executor in the middle, draw 0 flags the first exa, draw 1 flags nobody, and the
third exa is selected by no draw. -/
theorem kill_misses_targets :
    (Res.state? (stepMachine 0 0 (killNet zeroEngine))).map
        (fun net => (terminatedFlags net, net.stats.activity))
      = some ([some false, some false], 1)
    ∧ (killLoop 1 0 0 0 [some { name := "b" }, some { name := "a" }, some { name := "c" }]).map
        (fun l => l.map fun slot => slot.map fun m => m.terminated)
      = some [some true, some false, some false]
    ∧ (killLoop 1 1 0 0 [some { name := "b" }, some { name := "a" }, some { name := "c" }]).map
        (fun l => l.map fun slot => slot.map fun m => m.terminated)
      = some [some false, some false, some false] :=
  ⟨rfl, rfl, rfl⟩

theorem jump_not_suspended {net : Network} {ni mi : Nat} {inst : Instruction}
    (h : inst.opcode.isJump = true) : ¬ suspendCondition net ni mi inst := by
  obtain ⟨opcode, op1, op2, op3⟩ := inst
  cases opcode <;> simp only [Opcode.isJump, reduceCtorEq] at h <;>
    simp [suspendCondition, suspendConditionListed, Instruction.sources, Instruction.dest]

theorem not_jump {op : Opcode} (h : op.isJump = false) :
    op ≠ .Jump ∧ op ≠ .Tjmp ∧ op ≠ .Fjmp := by
  cases op <;> simp [Opcode.isJump] at h ⊢

set_option maxHeartbeats 4000000 in
/-- C9 (counterexample): the exa of `dropFull` makes a file on a node of capacity 1 that it
fills alone; in the next cycle its `drop` raises no failure, takes no jump and leaves the exa
in its slot with the instruction pointer unchanged, although the instruction reads and writes
no M and is neither `LINK` nor `REPL`. -/
theorem drop_on_full_node_suspends :
    dropFull.assemble zeroEngine = .ok (dropFull.net zeroEngine)
    ∧ afterCycles 1 (dropFull.net zeroEngine) = some (dropFull.held zeroEngine)
    ∧ (dropFull.held zeroEngine).machineAt 0 0 = some dropFull.exa
    ∧ dropFull.exa.code[dropFull.exa.instPtr]? = some { opcode := .Drop }
    ∧ execInstruction 0 0 { opcode := .Drop } (dropFull.held zeroEngine)
        = .ok false (dropFull.held zeroEngine)
    ∧ stepMachine 0 0 (dropFull.held zeroEngine) = .ok () (dropFull.held zeroEngine)
    ∧ ¬ suspendConditionListed (dropFull.held zeroEngine) 0 0 { opcode := .Drop } := by
  refine ⟨rfl, rfl, rfl, rfl, rfl, rfl, ?_⟩
  simp [suspendConditionListed, Instruction.sources, Instruction.dest]

/-- C9 (amended): for an instruction that reads no String operand and whose execution raises
no failure, `advance` is left false without a jump exactly when (a) a source operand is M and
the exa's channel is empty, (b) the destination is M and the channel is occupied, (c) the
instruction is `LINK` (its id a literal) with a full target node or `REPL` on a full node, or
(d) the instruction is `DROP` and the exa's node is full; and for an instruction other than a
jump the step then completes with the exa in its slot at the same instruction pointer exactly
under these conditions. -/
theorem suspension_iff (net : Network) (ni mi : Nat) (m : Machine) (inst : Instruction)
    (adv : Bool) (n1 : Network)
    (hm : net.machineAt ni mi = some m) (hfetch : m.code[m.instPtr]? = some inst)
    (hsrc : ∀ o ∈ inst.sources, ∀ s, o ≠ .str s)
    (hexec : execInstruction ni mi inst net = .ok adv n1) :
    ((adv = false ∧ inst.opcode.isJump = false) ↔ suspendCondition net ni mi inst)
      ∧ (inst.opcode.isJump = false →
          ∃ n2, stepMachine ni mi net = .ok () n2
            ∧ (n2.ipAt ni mi = some m.instPtr ↔ suspendCondition net ni mi inst)) := by
  cases hjmp : inst.opcode.isJump with
  | true =>
    refine ⟨⟨fun h => ?_, fun h => absurd h (jump_not_suspended hjmp)⟩, fun h => ?_⟩
    · cases h.2
    · cases h
  | false =>
    have hj := not_jump hjmp
    have hadv := exec_advance hsrc hj hexec
    have hkept := (Keeps_execInstruction_ip ni mi inst hj).ok _ _ _ hexec
    have hip := ipAt_of hm
    refine ⟨⟨fun h => hadv.1.1 h.1, fun h => ⟨hadv.1.2 h, rfl⟩⟩, fun _ => ?_⟩
    have hstep : stepMachine ni mi net = advanceIp ni mi adv n1 := by
      unfold stepMachine
      rw [fetchExec_eq hm hfetch, hexec]
    rw [hstep]
    cases adv with
    | false =>
      refine ⟨n1, rfl, ?_⟩
      have h1 := hadv.2 rfl
      rw [h1, hip]
      exact ⟨fun _ => hadv.1.1 rfl, fun _ => rfl⟩
    | true =>
      refine ⟨_, rfl, ?_⟩
      rw [ipAt_advance]
      have hno : ¬ suspendCondition net ni mi inst := fun hc => by
        have := hadv.1.2 hc
        cases this
      refine ⟨fun h => ?_, fun h => absurd h hno⟩
      exfalso
      rcases hkept with hk | hk
      · rw [hk, hip] at h
        simp at h
      · rw [hk] at h
        cases h

/-- C9 (amended) at a concrete input: the `drop` of `dropFull` on its full node. -/
theorem suspension_iff_witness :
    execInstruction 0 0 { opcode := .Drop } (dropFull.held zeroEngine)
        = .ok false (dropFull.held zeroEngine)
    ∧ suspendCondition (dropFull.held zeroEngine) 0 0 { opcode := .Drop }
    ∧ ∃ n2, stepMachine 0 0 (dropFull.held zeroEngine) = .ok () n2
        ∧ n2.ipAt 0 0 = some 1 := by
  have h := suspension_iff (dropFull.held zeroEngine) 0 0 dropFull.exa { opcode := .Drop } false
    (dropFull.held zeroEngine) rfl rfl (by simp [Instruction.sources]) rfl
  have hc := h.1.1 ⟨rfl, rfl⟩
  obtain ⟨n2, hs, hiff⟩ := h.2 rfl
  exact ⟨rfl, hc, n2, hs, hiff.2 hc⟩

/-- The accepted `LINK` through a reference that still refers to a node: the exa in slot `mi`
of node `ni` stands before `LINK n` with a literal `n`, the node has the link `n`, made after
the nodes were last moved, to a node that is not full. The step completes, raises `activity` by
one, leaves the source slot vacated, appends the exa with its instruction pointer raised by one
to the target's `incomingMachines`, and leaves every other node as it was. Whatever the rest of
the cycle's stepping does (the later slots of the node, its drain, the later nodes), the exa
lies unchanged at the same place of that buffer, so no instruction of it is executed; the merge
that ends the cycle puts it on the target's machine list and empties every buffer. -/
theorem link_migrates (net : Network) (ni mi : Nat) (m : Machine) (nd target : Node)
    (inst : Instruction) (n : Number) (ti : Nat)
    (hm : net.machineAt ni mi = some m) (hnd : net.nodes[ni]? = some nd)
    (hfetch : m.code[m.instPtr]? = some inst)
    (hop : inst.opcode = .Link) (hlit : inst.op1 = .num n)
    (hlink : mapFind (toInt16 (toUInt16 n)) nd.links = some ti)
    (hlive : toInt16 (toUInt16 n) ∉ nd.danglingLinks)
    (htgt : net.nodes[ti]? = some target) (hfree : target.full = false) :
    ∃ n1, stepMachine ni mi net = .ok () n1
      ∧ n1.stats.activity = net.stats.activity + 1
      ∧ (n1.nodes[ni]?).map (fun d => d.machines) = some (nd.machines.set mi none)
      ∧ (n1.nodes[ti]?).map (fun d => d.incomingMachines)
          = some (target.incomingMachines ++ [{ m with instPtr := m.instPtr + 1 }])
      ∧ (∀ j, j ≠ ni → j ≠ ti → n1.nodes[j]? = net.nodes[j]?)
      ∧ (∀ k1 k2 n2, restOfStepping ni mi k1 k2 n1 = .ok () n2 →
          ∃ (t2 : Node) (later : List Machine), n2.nodes[ti]? = some t2
            ∧ t2.incomingMachines
                = target.incomingMachines ++ [{ m with instPtr := m.instPtr + 1 }] ++ later
            ∧ (mergeAll n2).nodes[ti]? = some (mergeIncoming t2)
            ∧ (mergeIncoming t2).machines
                = t2.machines ++ (target.incomingMachines.map some
                    ++ some { m with instPtr := m.instPtr + 1 } :: later.map some)
            ∧ ∀ (j : Nat) (d : Node), (mergeAll n2).nodes[j]? = some d → d.incomingMachines = []) := by
  have hin : ((((Network.updNode
          { net with stats := { net.stats with activity := net.stats.activity + 1 } }
          ni fun d => { d with machines := d.machines.set mi none }).updNode
          ti fun d => { d with incomingMachines :=
            d.incomingMachines ++ [{ m with instPtr := m.instPtr + 1 }] }).updMachine
          ni mi fun m1 => { m1 with instPtr := m1.instPtr + 1 }).nodes[ti]?).map
        (fun d => d.incomingMachines)
      = some (target.incomingMachines ++ [{ m with instPtr := m.instPtr + 1 }]) := by
    have hti : ∀ (X : Network) (f : Machine → Machine),
        ((X.updMachine ni mi f).nodes[ti]?).map (fun d => d.incomingMachines)
          = (X.nodes[ti]?).map (fun d => d.incomingMachines) := by
      intro X f
      simp only [Network.updMachine, updNode_nodes]
      split_ifs with h
      · rw [Option.map_map]; rfl
      · rfl
    rw [hti]
    simp only [updNode_nodes, if_true, Option.map_map]
    by_cases h : ni = ti
    · subst h
      simp [hnd] at htgt ⊢
      rw [htgt]
    · simp [h, htgt]
  refine ⟨_, stepMachine_link hm hnd hfetch hop hlit hlink hlive htgt hfree, rfl, ?_, hin, ?_, ?_⟩
  · simp only [Network.updMachine, updNode_nodes, if_true, Option.map_map]
    by_cases h : ti = ni
    · subst h
      simp [hnd, modify_set_none]
    · have h2 : ¬ ni = ti := fun hc => h hc.symm
      simp [hnd, modify_set_none, h]
  · intro j h1 h2
    simp only [Network.updMachine, updNode_nodes, if_neg (Ne.symm h1), if_neg (Ne.symm h2)]
  · intro k1 k2 n2 hrest
    have hgrow := (Keeps_restOfStepping_in ni mi k1 k2).ok _ _ _ hrest
    rw [Option.map_eq_some'] at hin
    obtain ⟨tF, htF, hinF⟩ := hin
    obtain ⟨t2, ht2, hpre⟩ := hgrow ti tF htF
    obtain ⟨later, hlater⟩ := hpre
    rw [hinF] at hlater
    refine ⟨t2, later, ht2, hlater.symm, ?_, ?_, ?_⟩
    · simp only [mergeAll, List.getElem?_map, ht2, Option.map_some']
    · simp only [mergeIncoming, ← hlater, List.map_append, List.map_cons, List.map_nil,
        List.append_assoc, List.singleton_append]
    · intro j d hd
      simp only [mergeAll, List.getElem?_map] at hd
      rw [Option.map_eq_some'] at hd
      obtain ⟨d0, _, rfl⟩ := hd
      rfl

/-- The rover on node `A` executes `link 800` towards node `B`, through a live reference. -/
theorem link_migrates_witness :
    linkPair.net.machineAt 0 0 = some linkPair.rover
    ∧ mapFind (toInt16 (toUInt16 800)) linkPair.A.links = some 1
    ∧ linkPair.B.full = false
    ∧ ∃ n1, stepMachine 0 0 linkPair.net = .ok () n1
        ∧ n1.stats.activity = 1
        ∧ (n1.nodes[0]?).map (fun d => d.machines) = some [none]
        ∧ (n1.nodes[1]?).map (fun d => d.incomingMachines)
            = some [{ linkPair.rover with instPtr := 1 }] := by
  have h := link_migrates linkPair.net 0 0 linkPair.rover linkPair.A linkPair.B
    { opcode := .Link, op1 := .num 800 } 800 1 rfl rfl rfl rfl rfl rfl (List.not_mem_nil _)
    rfl rfl
  obtain ⟨n1, h1, h2, h3, h4, _⟩ := h
  exact ⟨rfl, rfl, rfl, n1, h1, h2, h3, h4⟩

set_option maxHeartbeats 4000000 in
/-- C10 (the code at the failing input): `.node A`, `.node B`, `.link A 800 B`, `.node C`,
`.home A`, `.start r`, `link 800`. The node `A` has the link 800 and its target `B` is empty,
so the `LINK` is accepted. The link holds a `std::reference_wrapper<Node>` into the vector of
nodes, and the `emplace_back` of `C` has moved the nodes: `full()` and
`incomingMachines.emplace_back` go through a reference to the storage that `B` has left. The
step ends the run there; the exa is not placed in the `incomingMachines` of node `B`. -/
theorem link_reference_dangles (g : RandomEngine) :
    staleLink.assemble g = .ok (staleLink.net g)
    ∧ (staleLink.net g).machineAt 0 0
        = some { name := "r", code := [{ opcode := .Link, op1 := .num 800 }] }
    ∧ ((staleLink.net g).nodes[0]?).map (fun d => mapFind (toInt16 (toUInt16 800)) d.links)
        = some (some 1)
    ∧ ((staleLink.net g).nodes[1]?).map (fun d => d.full) = some false
    ∧ reallocates 2 = true
    ∧ stepMachine 0 0 (staleLink.net g) = .abort .danglingReference
    ∧ cycle (staleLink.net g) = .abort .danglingReference
    ∧ run 1 (staleLink.net g) = some (.abort .danglingReference) := by
  have h1 : processConfigDirective (.node "A" none) (Network.initial g)
      = .ok { random := g, nodes := [{ name := "A" }] } := rfl
  have h2 : processConfigDirective (.node "B" none) { random := g, nodes := [{ name := "A" }] }
      = .ok { random := g, nodes := [{ name := "A" }, { name := "B" }] } := rfl
  have h3 : processConfigDirective (.link "A" "800" "B" none)
        { random := g, nodes := [{ name := "A" }, { name := "B" }] }
      = .ok { random := g, nodes := [{ name := "A", links := [(800, 1)] }, { name := "B" }] } :=
    rfl
  have h4 : processConfigDirective (.node "C" none)
        { random := g, nodes := [{ name := "A", links := [(800, 1)] }, { name := "B" }] }
      = .ok { random := g
              nodes := [{ name := "A", links := [(800, 1)], danglingLinks := [800] },
                        { name := "B" }, { name := "C" }] } := rfl
  have h5 : (do
        let n ← processConfigDirective (.home "A")
          { random := g
            nodes := [{ name := "A", links := [(800, 1)], danglingLinks := [800] },
                      { name := "B" }, { name := "C" }] }
        let n ← processConfigDirective (.start "r") n
        let n ← processInstructions ["link 800"] n
        finalizeActiveMachine n) = .ok (staleLink.net g) := rfl
  have hasm : staleLink.assemble g = .ok (staleLink.net g) := by
    unfold staleLink.assemble
    simp only [h1, h2, h3, h4, bind, Except.bind]
    exact h5
  exact ⟨hasm, rfl, rfl, rfl, rfl, rfl, rfl, rfl⟩

/-- C11: when the exa `p` in slot `mi` of node `ni` stands before `REPL` with the resolved
address `a` and the node is not full, the step completes; it appends to the node's
`incomingMachines` a fork with the `x`, `t`, `code` and `globalMode` of `p`, instruction
pointer `a`, `replCount` 0, not terminated, holding no file, named `p.name`, a colon and the
decimal text of `p.replCount`; `p` stays in its slot with `replCount` and instruction pointer
each raised by one and everything else, its held file included, as before; the machine lists
of the node and the other nodes are otherwise unchanged. -/
theorem repl_forks (net : Network) (ni mi : Nat) (p : Machine) (nd : Node)
    (inst : Instruction) (a : Nat)
    (hm : net.machineAt ni mi = some p) (hnd : net.nodes[ni]? = some nd)
    (hfetch : p.code[p.instPtr]? = some inst)
    (hop : inst.opcode = .Repl) (haddr : inst.op1 = .addr a) (hfree : nd.full = false) :
    ∃ n1, stepMachine ni mi net = .ok () n1
      ∧ (n1.nodes[ni]?).map (fun d => d.incomingMachines)
          = some (nd.incomingMachines ++
              [{ name := p.name ++ ":" ++ to_string p.replCount
                 x := p.x
                 t := p.t
                 outM := none
                 file := none
                 code := p.code
                 instPtr := a
                 replCount := 0
                 globalMode := p.globalMode
                 terminated := false }])
      ∧ n1.machineAt ni mi
          = some { p with replCount := p.replCount + 1, instPtr := p.instPtr + 1 }
      ∧ (n1.machineAt ni mi).map (fun m1 => m1.file) = some p.file
      ∧ (∀ k, k ≠ mi → n1.machineAt ni k = net.machineAt ni k)
      ∧ (∀ j, j ≠ ni → n1.nodes[j]? = net.nodes[j]?) := by
  refine ⟨_, stepMachine_repl hm hnd hfetch hop haddr hfree, ?_, ?_, ?_, ?_, ?_⟩
  · simp [Network.updMachine, updNode_nodes_self, hnd, Machine.repl]
  · rw [machineAt_updMachine, machineAt_updNode, machineAt_updMachine, hm]
    · rfl
    · intro _; rfl
  · rw [machineAt_updMachine, machineAt_updNode, machineAt_updMachine, hm]
    · rfl
    · intro _; rfl
  · intro k hk
    rw [machineAt_updMachine_other _ _ _ _ _ _ (Or.inr hk), machineAt_updNode,
      machineAt_updMachine_other _ _ _ _ _ _ (Or.inr hk)]
    intro _; rfl
  · intro j hj
    simp only [Network.updMachine, updNode_nodes_ne _ _ (Ne.symm hj)]

/-- C11 at a concrete input: the exa `p` of `replNet`, with `replCount` 12, executes
`repl 2`. -/
theorem repl_forks_witness :
    replNet.machineAt 0 0 = some replNet.parent
    ∧ replNet.N.full = false
    ∧ ∃ n1, stepMachine 0 0 replNet = .ok () n1
        ∧ (n1.nodes[0]?).map (fun d => d.incomingMachines)
            = some [{ name := "p:12", x := .num 7, t := .str "k", code := replNet.parent.code
                      instPtr := 2, globalMode := false }]
        ∧ (n1.machineAt 0 0).map (fun m1 => (m1.replCount, m1.instPtr, m1.file))
            = some (13, 1, some { id := 200, filename := "200.txt" }) := by
  obtain ⟨n1, h1, h2, h3, _⟩ := repl_forks replNet 0 0 replNet.parent replNet.N
    { opcode := .Repl, op1 := .addr 2 } 2 rfl rfl rfl rfl rfl rfl
  exact ⟨rfl, rfl, n1, h1, by rw [h2]; rfl, by rw [h3]; rfl⟩

/-- C12: when `run` returns (within whatever bound on the number of cycles), every node of the
returned state has an empty machine list and an empty `incomingMachines` buffer, and the
returned statistics are those of that state. -/
theorem run_ends_quiescent (fuel : Nat) (net : Network) (stats : RunStats) (n1 : Network)
    (h : run fuel net = some (.ok stats n1)) :
    (∀ nd ∈ n1.nodes, nd.machines = [] ∧ nd.incomingMachines = []) ∧ stats = n1.stats := by
  induction fuel generalizing net with
  | zero => simp [run] at h
  | succ k ih =>
    unfold run at h
    cases hc : cycle net with
    | ok r net1 =>
      rw [hc] at h
      simp only [] at h
      by_cases hr : r > 0
      · rw [if_pos hr] at h
        exact ih net1 h
      · rw [if_neg hr] at h
        injection h with h
        injection h with h1 h2
        subst h2
        obtain ⟨hrem, n0, hn0⟩ := cycle_eq_ok hc
        have hz : machinesRemaining net1 = 0 := by omega
        refine ⟨fun nd hnd => ⟨machinesRemaining_zero hz nd hnd, ?_⟩, h1.symm⟩
        rw [hn0] at hnd
        exact mergeAll_incoming n0 nd hnd
    | failure msg net1 => rw [hc] at h; simp at h
    | abort e => rw [hc] at h; simp at h

/-- C12 at a concrete input: the run of `haltNet` returns after one cycle. -/
theorem run_ends_quiescent_witness :
    run 1 haltNet = some (.ok { cycles := 1 } haltNet.final)
    ∧ ∀ nd ∈ haltNet.final.nodes, nd.machines = [] ∧ nd.incomingMachines = [] :=
  ⟨rfl, (run_ends_quiescent 1 haltNet { cycles := 1 } haltNet.final rfl).1⟩

/-- C13: when the instruction of the exa in slot `mi` of node `ni` raises a `MachineFailure`
(as `halt` always does), the step completes: the failure is caught and the machine loop goes
on with the next slot. After the step the exa is still in its slot, flagged terminated; every
other slot of every machine list holds exactly what it held, and every buffered arrival is
unchanged. The flag stays through the rest of the machine loop, and the drain that ends the
node's step drops the slot: the drained list is made of the slots before it and the slots
after it that are neither empty nor terminated. -/
theorem failure_terminates_only_the_exa (net : Network) (ni mi : Nat) (m : Machine)
    (msg : String) (nf : Network)
    (hm : net.machineAt ni mi = some m)
    (hfail : fetchExec ni mi net = .failure msg nf) :
    (∀ inst, m.code[m.instPtr]? = some inst → inst.opcode = .Halt →
        fetchExec ni mi net = .failure "Halted" net)
    ∧ ∃ n1, stepMachine ni mi net = .ok () n1
      ∧ (∃ m1, n1.machineAt ni mi = some m1 ∧ m1.terminated = true ∧ m1.name = m.name)
      ∧ (∀ nj mj, (nj ≠ ni ∨ mj ≠ mi) → n1.machineAt nj mj = net.machineAt nj mj)
      ∧ IncomingGrows net n1
      ∧ (∀ k, stepMachinesFrom ni mi (k + 1) net = stepMachinesFrom ni (mi + 1) k n1)
      ∧ (∀ k n2, stepMachinesFrom ni (mi + 1) k n1 = .ok () n2 →
          (∃ m2, n2.machineAt ni mi = some m2 ∧ m2.terminated = true)
          ∧ ∀ nd2, n2.nodes[ni]? = some nd2 →
              (drainNode nd2).machines
                  = (nd2.machines.take mi).filter (fun s => !removable s)
                    ++ (nd2.machines.drop (mi + 1)).filter (fun s => !removable s)
              ∧ ∀ slot ∈ (drainNode nd2).machines,
                  ∃ m3 : Machine, slot = some m3 ∧ m3.terminated = false) := by
  constructor
  · intro inst hfetch hop
    rw [fetchExec_eq hm hfetch]
    obtain ⟨opcode, op1, op2, op3⟩ := inst
    simp only at hop
    subst hop
    rfl
  have hframe : OwnStays ni mi net nf ∧ Apart ni mi net nf ∧ IncomingGrows net nf := by
    unfold fetchExec at hfail
    simp only [bind_apply, getMachine_of hm] at hfail
    cases hc : m.code[m.instPtr]? with
    | none =>
      rw [hc] at hfail
      simp only [raiseFailure] at hfail
      cases hfail
      exact ⟨OwnStays.os_refl ni mi net, Apart.ap_refl ni mi net, IncomingGrows.in_refl net⟩
    | some inst =>
      rw [hc] at hfail
      exact failure_frame hfail
  obtain ⟨hown, hap, hin⟩ := hframe
  obtain ⟨mf, hmf, hname⟩ := hown m hm
  have hstep : stepMachine ni mi net = .ok ()
      ((nf.updMachine ni mi fun m0 => { m0 with terminated := true }).updMachine ni mi
        fun m0 => { m0 with instPtr := m0.instPtr + 1 }) := by
    unfold stepMachine
    rw [hfail]
    rfl
  have hflag : ((nf.updMachine ni mi fun m0 => { m0 with terminated := true }).updMachine ni mi
        fun m0 => { m0 with instPtr := m0.instPtr + 1 }).machineAt ni mi
      = some { mf with terminated := true, instPtr := mf.instPtr + 1 } := by
    rw [machineAt_updMachine, machineAt_updMachine, hmf]
    rfl
  refine ⟨_, hstep, ⟨_, hflag, rfl, hname⟩, ?_, ?_, ?_, ?_⟩
  · intro nj mj h
    rw [machineAt_updMachine_other _ _ _ _ _ _ h, machineAt_updMachine_other _ _ _ _ _ _ h]
    exact hap.1 nj mj h
  · exact IncomingGrows.in_trans _ _ _ hin
      (IncomingGrows.in_trans _ _ _ (IncomingGrows.in_updMachine _ _ _ _)
        (IncomingGrows.in_updMachine _ _ _ _))
  · intro k
    simp only [stepMachinesFrom, bind_apply, hstep]
  · intro k n2 hrest
    have hle := (Keeps_stepMachinesFrom_le ni ni mi k (mi + 1)
      (Or.inr (Or.inl (Nat.lt_succ_self mi)))).ok _ _ _ hrest
    have hterm : ∃ m2, n2.machineAt ni mi = some m2 ∧ m2.terminated = true := by
      rcases hle.1 with e | ⟨m0, e1, e2⟩
      · exact ⟨_, by rw [e]; exact hflag, rfl⟩
      · exact ⟨_, e2, rfl⟩
    refine ⟨hterm, fun nd2 hnd2 => ?_⟩
    obtain ⟨m2, hm2, ht2⟩ := hterm
    have hslot := slot_of_machineAt hnd2 hm2
    constructor
    · exact filter_skip (fun s => !removable s) nd2.machines mi (some m2) hslot
        (by simp [removable, ht2])
    · intro slot hs
      simp only [drainNode, List.mem_filter] at hs
      cases slot with
      | none => simp [removable] at hs
      | some m3 => exact ⟨m3, rfl, by simpa [removable] using hs.2⟩

/-- C13 at a concrete input: the first exa of `failNet` executes `halt`. -/
theorem failure_terminates_only_the_exa_witness :
    fetchExec 0 0 failNet = .failure "Halted" failNet
    ∧ ∃ n1, stepMachine 0 0 failNet = .ok () n1
        ∧ (∃ m1, n1.machineAt 0 0 = some m1 ∧ m1.terminated = true ∧ m1.name = "a")
        ∧ n1.machineAt 0 1 = some { name := "b", code := [{ opcode := .Noop }] } := by
  obtain ⟨n1, h1, h2, h3, _⟩ := (failure_terminates_only_the_exa failNet 0 0
    { name := "a", code := [{ opcode := .Halt }] } "Halted" failNet rfl rfl).2
  exact ⟨rfl, n1, h1, h2, by rw [h3 0 1 (Or.inr (by decide))]; rfl⟩

/-- C14 (counterexample): for the Numbers `-2^63` and `-1`, neither a String and the second not
0, `/` and `%` neither raise a `MachineFailure` nor return a Number: the `int64_t` division
overflows, which is undefined (the processor traps). -/
theorem division_overflow_undefined :
    Value.div (.num (-(2 ^ 63))) (.num (-1)) = .undefined
    ∧ Value.mod (.num (-(2 ^ 63))) (.num (-1)) = .undefined
    ∧ ¬ ((∃ msg, Value.div (.num (-(2 ^ 63))) (.num (-1)) = .error msg)
          ∨ (∃ n, Value.div (.num (-(2 ^ 63))) (.num (-1)) = .ok (.num n)))
    ∧ ¬ ((∃ msg, Value.mod (.num (-(2 ^ 63))) (.num (-1)) = .error msg)
          ∨ (∃ n, Value.mod (.num (-(2 ^ 63))) (.num (-1)) = .ok (.num n))) := by
  have h1 : Value.div (.num (-(2 ^ 63))) (.num (-1)) = .undefined := by decide
  have h2 : Value.mod (.num (-(2 ^ 63))) (.num (-1)) = .undefined := by decide
  refine ⟨h1, h2, ?_, ?_⟩
  · rw [h1]
    rintro (⟨msg, h⟩ | ⟨n, h⟩) <;> cases h
  · rw [h2]
    rintro (⟨msg, h⟩ | ⟨n, h⟩) <;> cases h

/-- C14 (amended): for all values `l`, `r`, each of `+`, `-`, `*`, `/`, `%` raises a
`MachineFailure` exactly when `l` or `r` is a String, or (for `/` and `%`) `r` is the Number 0.
In every other case `+`, `-`, `*` return a Number, and so do `/` and `%` unless `l` is the
Number `-2^63` and `r` the Number `-1`: there, and only there, the division is undefined. -/
theorem arithmetic_failure_iff (l r : Value) :
    ((∃ msg, Value.add l r = .error msg) ↔ (l.isNum = false ∨ r.isNum = false))
    ∧ ((∃ msg, Value.sub l r = .error msg) ↔ (l.isNum = false ∨ r.isNum = false))
    ∧ ((∃ msg, Value.mul l r = .error msg) ↔ (l.isNum = false ∨ r.isNum = false))
    ∧ ((∃ msg, Value.div l r = .error msg)
        ↔ (l.isNum = false ∨ r.isNum = false ∨ r = .num 0))
    ∧ ((∃ msg, Value.mod l r = .error msg)
        ↔ (l.isNum = false ∨ r.isNum = false ∨ r = .num 0))
    ∧ (∀ op ∈ [Value.add, Value.sub, Value.mul],
        (∃ msg, op l r = .error msg) ∨ (∃ n, op l r = .ok (.num n)))
    ∧ (∀ op ∈ [Value.div, Value.mod],
        (op l r = .undefined ↔ (l = .num (-(2 ^ 63)) ∧ r = .num (-1)))
        ∧ (¬ (l = .num (-(2 ^ 63)) ∧ r = .num (-1)) →
            (∃ msg, op l r = .error msg) ∨ (∃ n, op l r = .ok (.num n)))) := by
  cases l with
  | str a =>
    cases r <;> simp [Value.add, Value.sub, Value.mul, Value.div, Value.mod, Value.isNum]
  | num a =>
    cases r with
    | str b => simp [Value.add, Value.sub, Value.mul, Value.div, Value.mod, Value.isNum]
    | num b =>
      by_cases hb : b = 0
      · subst hb
        simp [Value.add, Value.sub, Value.mul, Value.div, Value.mod, Value.isNum]
      · by_cases hex : a = -(2 ^ 63) ∧ b = -1
        · obtain ⟨rfl, rfl⟩ := hex
          simp [Value.add, Value.sub, Value.mul, Value.div, Value.mod, Value.isNum]
        · have hd : Value.div (.num a) (.num b) = .ok (.num (wrap64 (Int.tdiv a b))) := by
            simp only [Value.div, if_neg hb, if_neg hex]
          have hm : Value.mod (.num a) (.num b) = .ok (.num (wrap64 (Int.tmod a b))) := by
            simp only [Value.mod, if_neg hb, if_neg hex]
          have hne : ¬ ((Value.num a) = .num (-(2 ^ 63)) ∧ (Value.num b) = .num (-1)) := by
            rintro ⟨h1, h2⟩
            exact hex ⟨Value.num.inj h1, Value.num.inj h2⟩
          have hb0 : ¬ (Value.num b) = .num 0 := fun h => hb (Value.num.inj h)
          refine ⟨?_, ?_, ?_, ?_, ?_, ?_, ?_⟩
          · simp [Value.add, Value.isNum]
          · simp [Value.sub, Value.isNum]
          · simp [Value.mul, Value.isNum]
          · rw [hd]
            simp [Value.isNum, hb]
          · rw [hm]
            simp [Value.isNum, hb]
          · intro op hop
            simp only [List.mem_cons, List.mem_singleton, List.not_mem_nil, or_false] at hop
            rcases hop with rfl | rfl | rfl
            · exact Or.inr ⟨_, rfl⟩
            · exact Or.inr ⟨_, rfl⟩
            · exact Or.inr ⟨_, rfl⟩
          · intro op hop
            simp only [List.mem_cons, List.mem_singleton, List.not_mem_nil, or_false] at hop
            rcases hop with rfl | rfl
            · rw [hd]
              exact ⟨⟨fun h => (by cases h), fun h => absurd h hne⟩, fun _ => Or.inr ⟨_, rfl⟩⟩
            · rw [hm]
              exact ⟨⟨fun h => (by cases h), fun h => absurd h hne⟩, fun _ => Or.inr ⟨_, rfl⟩⟩

set_option maxHeartbeats 4000000 in
/-- C15 (the code at the failing input): `test 1 = 1`, and every comparison of two values of
the same tag. Between a Number and a String `<`, `=` and `>` return false. For two Numbers or
two Strings the body of each operator is `arg < right` (`==`, `>`) with `arg` the alternative
held by `left` and `right` a `Value`: the only operator that applies is the one being defined,
called with `arg` converted back to a `Value`, so the call repeats itself with the same
operands and never returns. No comparison of two values of the same tag yields true or
false; the exa that executes `test 1 = 1` never completes its step, and `run` does not
return. -/
theorem comparison_never_returns (a b : Number) (s u : String) (g : RandomEngine) :
    (Value.lt (.num a) (.str s) = some false ∧ Value.eq (.num a) (.str s) = some false
        ∧ Value.gt (.num a) (.str s) = some false)
    ∧ (Value.lt (.str s) (.num a) = some false ∧ Value.eq (.str s) (.num a) = some false
        ∧ Value.gt (.str s) (.num a) = some false)
    ∧ (Value.lt (.num a) (.num b) = none ∧ Value.eq (.num a) (.num b) = none
        ∧ Value.gt (.num a) (.num b) = none)
    ∧ (Value.lt (.str s) (.str u) = none ∧ Value.eq (.str s) (.str u) = none
        ∧ Value.gt (.str s) (.str u) = none)
    ∧ sameTag.assemble g = .ok (sameTag.net g)
    ∧ execInstruction 0 0 { opcode := .TestEq, op1 := .num 1, op2 := .num 1 } (sameTag.net g)
        = .abort .unboundedRecursion
    ∧ stepMachine 0 0 (sameTag.net g) = .abort .unboundedRecursion
    ∧ run 1 (sameTag.net g) = some (.abort .unboundedRecursion) :=
  ⟨⟨rfl, rfl, rfl⟩, ⟨rfl, rfl, rfl⟩, ⟨rfl, rfl, rfl⟩, ⟨rfl, rfl, rfl⟩, rfl, rfl, rfl, rfl⟩

/-- C16: `write` with the cursor below the length replaces the value under the cursor and
leaves the length, the cursor and every other element as they were; `write` with the cursor at
the length appends the value as the last element, leaves the earlier elements as they were and
moves the cursor to the new length. The other fields of the file are untouched. -/
theorem write_at_cursor (f : File) (v : Value) :
    (f.offset < f.values.length →
      (f.write v).values.length = f.values.length
      ∧ (f.write v).offset = f.offset
      ∧ (f.write v).values[f.offset]? = some v
      ∧ ∀ i, i ≠ f.offset → (f.write v).values[i]? = f.values[i]?)
    ∧ (f.offset = f.values.length →
      (f.write v).values = f.values ++ [v]
      ∧ (f.write v).values.length = f.values.length + 1
      ∧ (f.write v).values.getLast? = some v
      ∧ (∀ i, i < f.values.length → (f.write v).values[i]? = f.values[i]?)
      ∧ (f.write v).offset = (f.write v).values.length)
    ∧ ((f.write v).id = f.id ∧ (f.write v).filename = f.filename
      ∧ (f.write v).locked = f.locked ∧ (f.write v).readonly = f.readonly) := by
  refine ⟨fun h => ?_, fun h => ?_, ?_⟩
  · simp only [File.write, if_pos h]
    refine ⟨by simp, trivial, by simp [h], fun i hi => ?_⟩
    simp [List.getElem?_set, Ne.symm hi]
  · have hn : ¬ f.offset < f.values.length := by omega
    simp only [File.write, if_neg hn]
    refine ⟨trivial, by simp, by simp, fun i hi => ?_, by simp⟩
    simp [List.getElem?_append_left hi]
  · unfold File.write
    split_ifs <;> exact ⟨rfl, rfl, rfl, rfl⟩

/-- C17: `voidCurrent` with the cursor below the length removes exactly the element under the
cursor: the length drops by one, the cursor stays, the elements before the cursor keep their
index and the elements after it move down by one. With the cursor at or past the length it
raises a `MachineFailure`, and the step of `void f` then ends in the same state. -/
theorem voidCurrent_at_cursor (f : File) :
    (f.offset < f.values.length →
      ∃ g, f.voidCurrent = .ok g
        ∧ g.values = f.values.eraseIdx f.offset
        ∧ g.values.length + 1 = f.values.length
        ∧ g.offset = f.offset
        ∧ (∀ i, i < f.offset → g.values[i]? = f.values[i]?)
        ∧ (∀ i, f.offset ≤ i → g.values[i]? = f.values[i + 1]?)
        ∧ g.id = f.id ∧ g.filename = f.filename)
    ∧ (f.values.length ≤ f.offset →
      f.voidCurrent = .error "Tried to void past end of file"
      ∧ ∀ (net : Network) (ni mi : Nat) (m : Machine),
          net.machineAt ni mi = some m → m.file = some f →
            execInstruction ni mi { opcode := .Void, op1 := .reg .F } net
              = .failure "Tried to void past end of file" net) := by
  refine ⟨fun h => ?_, fun h => ?_⟩
  · refine ⟨{ f with values := f.values.eraseIdx f.offset }, by simp [File.voidCurrent, h], rfl,
      ?_, rfl, fun i hi => ?_, fun i hi => ?_, rfl, rfl⟩
    · simp only [List.length_eraseIdx, if_pos h]
      omega
    · simp [List.getElem?_eraseIdx, hi]
    · simp [List.getElem?_eraseIdx, not_lt.2 hi]
  · have hn : ¬ f.offset < f.values.length := by omega
    refine ⟨by simp [File.voidCurrent, hn], fun net ni mi m hm hf => ?_⟩
    simp [execInstruction, getMachine_of hm, hf, File.voidCurrent, hn, liftFailing,
      raiseFailure]

/-- C18 (counterexample): an exa holding a file of three values with the cursor at 3 executes
`seek 1`: the step completes and the cursor is 4, above the length 3. -/
theorem seek_moves_cursor_past_length :
    cursorAfterStep (fileNet 3 { opcode := .Seek, op1 := .num 1 }) = some (4, 3, false)
    ∧ ¬ (4 ≤ 3) :=
  ⟨rfl, by decide⟩

/-- C18 (amended): whatever the file, after a successful `read`, after `write`, after a
successful `voidCurrent` and after `wipe` the cursor is at most the length; so these four
operations keep the bound, and `write` and `wipe` restore it after a `SEEK` has broken it. -/
theorem cursor_bound_kept (f : File) :
    (∀ v g, f.read = .ok (v, g) → g.offset ≤ g.values.length)
    ∧ (∀ v, (f.write v).offset ≤ (f.write v).values.length)
    ∧ (∀ g, f.voidCurrent = .ok g → g.offset ≤ g.values.length)
    ∧ f.wipe.offset ≤ f.wipe.values.length := by
  refine ⟨fun v g hr => ?_, fun v => ?_, fun g hv => ?_, by simp [File.wipe]⟩
  · unfold File.read at hr
    cases hv : f.values[f.offset]? with
    | none => rw [hv] at hr; cases hr
    | some w =>
      rw [hv] at hr
      have hlt : f.offset < f.values.length := by
        by_contra hc
        rw [List.getElem?_eq_none (not_lt.1 hc)] at hv
        cases hv
      injection hr with hr
      injection hr with _ hg
      subst hg
      exact hlt
  · unfold File.write
    split_ifs with h1
    · simp only [List.length_set]; omega
    · simp
  · unfold File.voidCurrent at hv
    split_ifs at hv with h1
    injection hv with hv
    subst hv
    simp only [List.length_eraseIdx, if_pos h1]
    omega

/-- C19 (the code at the failing input): the cursor is a `size_t` and `SEEK` adds the operand
to it modulo 2^64. With the cursor at 0, `seek -1` leaves the cursor at 2^64 - 1 and not at
0; with the cursor at 2, `seek -5` leaves it at 2^64 - 3. A sum that is not negative is the new
cursor: from 1, `seek 1` gives 2 and `seek 7` gives 8, past the length 3. -/
theorem seek_below_zero_wraps :
    cursorAfterStep (fileNet 0 { opcode := .Seek, op1 := .num (-1) })
        = some (18446744073709551615, 3, false)
    ∧ cursorAfterStep (fileNet 2 { opcode := .Seek, op1 := .num (-5) })
        = some (18446744073709551613, 3, false)
    ∧ cursorAfterStep (fileNet 1 { opcode := .Seek, op1 := .num 1 }) = some (2, 3, false)
    ∧ cursorAfterStep (fileNet 1 { opcode := .Seek, op1 := .num 7 }) = some (8, 3, false) :=
  ⟨rfl, rfl, rfl, rfl⟩

set_option maxHeartbeats 4000000 in
/-- C20: on a network with `rangeMin ≤ rangeMax`, let exa `A` stand in slot `a` of node `ni`
before `copy v m` (`v` a literal) and exa `B` in the later slot `a + 1 + k` before `copy m x`,
both in the same mode, their channel empty. Then the step of `A` completes, stores `clamp v`
in the channel and advances `A`; and when the `k` exas between them have been stepped, the
step of `B` in the same machine loop completes with `clamp v` in `B`'s X and `B` advanced, and
X keeps this value through the rest of the machine loop. In scenario S2 (which assembles to
`S2.net`) the receiver has X = 42 after the machine loop of the second cycle and halts with
X = 42 in the third; `run` returns with 3 cycles and does not return within 2. -/
theorem same_cycle_rendezvous (g : RandomEngine) (net : Network) (ni a k : Nat)
    (A B : Machine) (instA instB : Instruction) (v : Number)
    (hr : net.rangeMin ≤ net.rangeMax)
    (hA : net.machineAt ni a = some A) (hfA : A.code[A.instPtr]? = some instA)
    (hA0 : instA.opcode = .Copy) (hA1 : instA.op1 = .num v) (hA2 : instA.op2 = .reg .M)
    (hB : net.machineAt ni (a + 1 + k) = some B) (hfB : B.code[B.instPtr]? = some instB)
    (hB0 : instB.opcode = .Copy) (hB1 : instB.op1 = .reg .M) (hB2 : instB.op2 = .reg .X)
    (hmode : B.globalMode = A.globalMode)
    (hempty : net.channelVal ni A.globalMode = some none) :
    (∃ nA, stepMachine ni a net = .ok () nA
      ∧ nA.channelVal ni A.globalMode = some (some (net.clamp (.num v)))
      ∧ nA.machineAt ni a = some { A with instPtr := A.instPtr + 1 }
      ∧ ∀ nB, stepMachinesFrom ni (a + 1) k nA = .ok () nB →
          ∃ n2 B2, stepMachine ni (a + 1 + k) nB = .ok () n2
            ∧ stepMachinesFrom ni a (k + 2) net = .ok () n2
            ∧ n2.machineAt ni (a + 1 + k) = some B2
            ∧ B2.x = net.clamp (.num v) ∧ B2.instPtr = B.instPtr + 1
            ∧ ∀ k1 n3, stepMachinesFrom ni (a + 1 + k + 1) k1 n2 = .ok () n3 →
                ∃ B3, n3.machineAt ni (a + 1 + k) = some B3 ∧ B3.x = net.clamp (.num v))
    ∧ (S2.assemble g = .ok (S2.net g)
      ∧ (haltState 1 0 1 (S2.net g)).map (fun m => (m.x, m.instPtr, m.terminated))
          = some (.num 42, 2, false)
      ∧ (haltState 2 0 1 (S2.net g)).map (fun m => (m.x, m.terminated)) = some (.num 42, true)
      ∧ runStats 3 (S2.net g) = some { size := 6, cycles := 3, activity := 0 }
      ∧ run 2 (S2.net g) = none) := by
  refine ⟨?_, rfl, rfl, rfl, rfl, rfl⟩
  obtain ⟨nA, hsA, hchA, hmA, hrA1, hrA2, hoA⟩ := stepMachine_send hA hfA hA0 hA1 hA2 hempty
  rw [clamp_idem net hr] at hchA
  refine ⟨nA, hsA, hchA, hmA, fun nB hmid => ?_⟩
  have hclampA : nA.clamp = net.clamp := by
    funext w
    unfold Network.clamp
    rw [hrA1, hrA2]
  have hBA : nA.machineAt ni (a + 1 + k) = some B := by
    rw [hoA ni (a + 1 + k) (Or.inr (by omega))]
    exact hB
  have hle := (Keeps_stepMachinesFrom_le ni ni (a + 1 + k) k (a + 1)
    (Or.inr (Or.inr (le_refl _)))).ok _ _ _ hmid
  obtain ⟨B1, hB1m, _, _, hcode, hip, hgm, _⟩ := slotFlagOnly_fields hle.1 hBA
  have hclampB : nB.clamp = net.clamp := (clamp_of_steady hle.2).trans hclampA
  have hchB : nB.channelVal ni B1.globalMode = some (some (net.clamp (.num v))) := by
    rw [hgm, hmode]
    exact channelVal_of_steady hle.2 ni _ _ hchA
  have hfB1 : B1.code[B1.instPtr]? = some instB := by rw [hcode, hip]; exact hfB
  obtain ⟨n2, hs2, hm2, hst2⟩ := stepMachine_receive hB1m hfB1 hB0 hB1 hB2 hchB
  rw [hclampB, clamp_idem net hr, clamp_idem net hr] at hm2
  refine ⟨n2, _, hs2, ?_, hm2, rfl, by simp only [hip], fun k1 n3 hrest => ?_⟩
  · have hsplit : stepMachinesFrom ni (a + 1) (k + 1)
        = (stepMachinesFrom ni (a + 1) k >>= fun _ =>
            stepMachine ni (a + 1 + k) >>= fun _ => stepMachinesFrom ni (a + 1 + k + 1) 0) :=
      stepMachinesFrom_split ni k (a + 1) 0
    have hfirst : stepMachinesFrom ni a (k + 2) net = stepMachinesFrom ni (a + 1) (k + 1) nA := by
      show (stepMachine ni a >>= fun _ => stepMachinesFrom ni (a + 1) (k + 1)) net = _
      simp only [bind_apply, hsA]
    rw [hfirst, hsplit]
    simp only [bind_apply, hmid, hs2]
    rfl
  · have hle2 := (Keeps_stepMachinesFrom_le ni ni (a + 1 + k) k1 (a + 1 + k + 1)
      (Or.inr (Or.inl (Nat.lt_succ_self _)))).ok _ _ _ hrest
    obtain ⟨B3, hB3, hx, _⟩ := slotFlagOnly_fields hle2.1 hm2
    exact ⟨B3, hB3, hx⟩

/-- C20 at a concrete input: the second cycle of scenario S2. -/
theorem same_cycle_rendezvous_witness :
    afterCycles 1 (S2.net zeroEngine) = some (S2.ready zeroEngine)
    ∧ (S2.ready zeroEngine).channelVal 0 S2.sender.globalMode = some none
    ∧ ∃ n2 B2, stepMachinesFrom 0 0 2 (S2.ready zeroEngine) = .ok () n2
        ∧ n2.machineAt 0 1 = some B2 ∧ B2.x = .num 42 := by
  obtain ⟨nA, _, _, _, h⟩ := (same_cycle_rendezvous zeroEngine (S2.ready zeroEngine) 0 0 0
    S2.sender S2.receiver { opcode := .Copy, op1 := .num 42, op2 := .reg .M }
    { opcode := .Copy, op1 := .reg .M, op2 := .reg .X } 42
    (by decide) rfl rfl rfl rfl rfl rfl rfl rfl rfl rfl rfl rfl).1
  obtain ⟨n2, B2, _, h2, h3, h4, _⟩ := h nA rfl
  exact ⟨rfl, rfl, n2, B2, h2, h3, h4⟩

set_option maxHeartbeats 4000000 in
/-- C21: scenario S5 assembles to `S5.net`: one exa with the three instructions `repl 2`,
`halt`, `halt` (the line `mark child` emits none) and size 3. The first cycle leaves the parent
before its `halt` and one fork `p:0` before the `halt` at address 2; in the second cycle both
are flagged terminated by `halt`, no exa is left, and `run` returns size 3, cycles 2,
activity 0. -/
theorem scenario_S5 (g : RandomEngine) :
    S5.assemble g = .ok (S5.net g)
      ∧ afterCycles 1 (S5.net g) = some (S5.forked g)
      ∧ (fetched (S5.forked g) 0).map (fun i => i.opcode) = some .Halt
      ∧ (fetched (S5.forked g) 1).map (fun i => i.opcode) = some .Halt
      ∧ (haltState 1 0 0 (S5.net g)).map (fun m => (m.name, m.terminated)) = some ("p", true)
      ∧ (haltState 1 0 1 (S5.net g)).map (fun m => (m.name, m.terminated)) = some ("p:0", true)
      ∧ haltState 1 0 2 (S5.net g) = none
      ∧ run 2 (S5.net g) = some (.ok { size := 3, cycles := 2, activity := 0 } (S5.final g)) :=
  ⟨rfl, rfl, rfl, rfl, rfl, rfl, rfl, rfl⟩

/-- C22: for the exa `m` in slot `mi` of node `ni` before a branch with the resolved address
`a`: the step of `JUMP` leaves the exa with instruction pointer `a`; the step of `TJMP` leaves
it with `a` when T is a String or a Number other than 0, and with the pointer raised by one
otherwise; the step of `FJMP` leaves it with `a` when T is the Number 0, and with the pointer
raised by one otherwise; nothing else of the exa changes. For every T exactly one of the two
conditions holds; a taken branch ends with the pointer at `a`, not at `a + 1`. -/
theorem branch_sets_ip (net : Network) (ni mi : Nat) (m : Machine) (inst : Instruction)
    (a : Nat) (hm : net.machineAt ni mi = some m) (hfetch : m.code[m.instPtr]? = some inst)
    (haddr : inst.op1 = .addr a) :
    (inst.opcode = .Jump →
      ∃ n1, stepMachine ni mi net = .ok () n1
        ∧ n1.machineAt ni mi = some { m with instPtr := a })
    ∧ (inst.opcode = .Tjmp →
      ∃ n1, stepMachine ni mi net = .ok () n1
        ∧ n1.machineAt ni mi
            = some { m with instPtr := if tjmpTaken m.t then a else m.instPtr + 1 })
    ∧ (inst.opcode = .Fjmp →
      ∃ n1, stepMachine ni mi net = .ok () n1
        ∧ n1.machineAt ni mi
            = some { m with instPtr := if fjmpTaken m.t then a else m.instPtr + 1 })
    ∧ (∀ s, tjmpTaken (.str s) = true ∧ fjmpTaken (.str s) = false)
    ∧ (∀ n : Number, (tjmpTaken (.num n) = true ↔ n ≠ 0) ∧ (fjmpTaken (.num n) = true ↔ n = 0))
    ∧ (∀ t, tjmpTaken t = !fjmpTaken t) := by
  obtain ⟨opcode, op1, op2, op3⟩ := inst
  simp only at haddr
  subst haddr
  refine ⟨fun hop => ?_, fun hop => ?_, fun hop => ?_, fun s => ⟨rfl, rfl⟩, fun n => ?_, fun t => ?_⟩
  · simp only at hop
    subst hop
    have hexec : execInstruction ni mi ⟨.Jump, .addr a, op2, op3⟩ net
        = .ok false (net.updMachine ni mi fun m1 => { m1 with instPtr := a }) := by
      simp only [execInstruction, bind_apply, getMachine_of hm, modifyMachine_apply, pure_apply]
    refine ⟨_, by rw [stepMachine_of_exec hm hfetch hexec]; rfl, ?_⟩
    rw [machineAt_updMachine, hm]; rfl
  · simp only at hop
    subst hop
    by_cases ht : tjmpTaken m.t = true
    · have hexec : execInstruction ni mi ⟨.Tjmp, .addr a, op2, op3⟩ net
          = .ok false (net.updMachine ni mi fun m1 => { m1 with instPtr := a }) := by
        simp only [execInstruction, bind_apply, getMachine_of hm, ht, if_true,
          modifyMachine_apply, pure_apply]
      refine ⟨_, by rw [stepMachine_of_exec hm hfetch hexec]; rfl, ?_⟩
      rw [machineAt_updMachine, hm, if_pos ht]; rfl
    · have hexec : execInstruction ni mi ⟨.Tjmp, .addr a, op2, op3⟩ net = .ok true net := by
        simp only [execInstruction, bind_apply, getMachine_of hm, ht, Bool.false_eq_true,
          if_false, pure_apply]
      refine ⟨_, by rw [stepMachine_of_exec hm hfetch hexec]; rfl, ?_⟩
      rw [machineAt_updMachine, hm, if_neg ht]; rfl
  · simp only at hop
    subst hop
    by_cases ht : fjmpTaken m.t = true
    · have hexec : execInstruction ni mi ⟨.Fjmp, .addr a, op2, op3⟩ net
          = .ok false (net.updMachine ni mi fun m1 => { m1 with instPtr := a }) := by
        simp only [execInstruction, bind_apply, getMachine_of hm, ht, if_true,
          modifyMachine_apply, pure_apply]
      refine ⟨_, by rw [stepMachine_of_exec hm hfetch hexec]; rfl, ?_⟩
      rw [machineAt_updMachine, hm, if_pos ht]; rfl
    · have hexec : execInstruction ni mi ⟨.Fjmp, .addr a, op2, op3⟩ net = .ok true net := by
        simp only [execInstruction, bind_apply, getMachine_of hm, ht, Bool.false_eq_true,
          if_false, pure_apply]
      refine ⟨_, by rw [stepMachine_of_exec hm hfetch hexec]; rfl, ?_⟩
      rw [machineAt_updMachine, hm, if_neg ht]; rfl
  · simp [tjmpTaken, fjmpTaken]
  · cases t with
    | str s => rfl
    | num n => simp [tjmpTaken, fjmpTaken]

/-- C22 at a concrete input: `tjmp 5` and `fjmp 5` with T = 0 and with T = 3. -/
theorem branch_sets_ip_witness :
    (jumpNet .Tjmp (.num 0)).machineAt 0 0
        = some { name := "j", t := .num 0, code := [{ opcode := .Tjmp, op1 := .addr 5 }] }
    ∧ (∃ n1, stepMachine 0 0 (jumpNet .Tjmp (.num 0)) = .ok () n1 ∧ n1.ipAt 0 0 = some 1)
    ∧ ipAfterStep (jumpNet .Fjmp (.num 0)) = some 5
    ∧ ipAfterStep (jumpNet .Tjmp (.num 3)) = some 5
    ∧ ipAfterStep (jumpNet .Fjmp (.num 3)) = some 1
    ∧ ipAfterStep (jumpNet .Jump (.num 3)) = some 5 := by
  obtain ⟨n1, h1, h2⟩ := (branch_sets_ip (jumpNet .Tjmp (.num 0)) 0 0
    { name := "j", t := .num 0, code := [{ opcode := .Tjmp, op1 := .addr 5 }] }
    { opcode := .Tjmp, op1 := .addr 5 } 5 rfl rfl rfl).2.1 rfl
  exact ⟨rfl, ⟨n1, h1, by unfold Network.ipAt; rw [h2]; rfl⟩, rfl, rfl, rfl, rfl⟩

/-- C23 (the code at the failing input): the second loop of the trimming starts from
`lastValid = 0` and keeps the character at that position, so a line of blanks is cut to one
blank, not to the empty line: the lines of two spaces and of a blank, a tab and a comment
leave one blank. Such a line is not skipped: with no exa started it raises the `Error` of an
instruction before `.start`, and inside an exa it is passed to `processInstruction`, which
rejects it. The empty line and a comment at the start of the line are skipped. -/
theorem blank_line_not_skipped (parse : String → Directive) :
    (∀ n, trimLine (removeComments (List.replicate (n + 1) ' ')) = [' '])
    ∧ trimLine (removeComments "  ".data) = " ".data
    ∧ trimLine (removeComments " \t; a comment".data) = " ".data
    ∧ processLine parse "  " (Network.initial zeroEngine)
        = .error (.error "Encountered instruction before .start command")
    ∧ processLine parse " \t; a comment" assembling
        = .error (.error "Unrecognized or invalid instruction:  ")
    ∧ processLine parse "" assembling = .ok assembling
    ∧ processLine parse "; a comment" assembling = .ok assembling
    ∧ processLine parse "note a comment" assembling = .ok assembling := by
  refine ⟨fun n => ?_, rfl, rfl, rfl, rfl, rfl, rfl, rfl⟩
  have hc : removeComments (List.replicate (n + 1) ' ') = List.replicate (n + 1) ' ' := by
    have h1 : ∀ (k i : Nat), findText [';'] (List.replicate k ' ') i = none := by
      intro k
      induction k with
      | zero => intro i; rfl
      | succ j ih => intro i; simp [List.replicate_succ, findText, beginsWith, ih]
    have h2 : ∀ (k i : Nat), findText "NOTE".data (List.replicate k ' ') i = none := by
      intro k
      induction k with
      | zero => intro i; rfl
      | succ j ih =>
        intro i
        simp only [List.replicate_succ, findText]
        have hb : beginsWith "NOTE".data (' ' :: List.replicate j ' ') = false := rfl
        rw [hb]
        exact ih (i + 1)
    have h3 : (List.replicate (n + 1) ' ').map Char.toUpper = List.replicate (n + 1) ' ' := by
      rw [List.map_replicate]; rfl
    simp only [removeComments, h1, h3, h2]
  rw [hc]
  simp only [trimLine, firstValid_blanks, lastValid_blanks, Nat.lt_irrefl, if_false,
    List.length_replicate, Nat.zero_lt_succ, if_true, Nat.zero_add]
  rfl

/-- C24: the exa `m` is being assembled and no `@rep` is open. `rep` is a line `@rep N` (after
comment removal, trimming and lower-casing it begins with `@rep` and `std::stoul` reads `N`
behind its fifth character), `lines` are instruction lines without a placeholder, and `fin`
is a line `@end`. If the lines alone assemble and emit `es`, then `rep`, the lines and `fin`
assemble and append exactly `N` consecutive copies of `es` to the code of the exa (nothing for
`N = 0`), the `@rep` is closed and its buffer is empty. The line `fin` alone, with no `@rep`
open, raises the Error `Found @end without corresponding @rep`. -/
theorem rep_block_copies (parse : String → Directive) (rep fin : String) (lines : List String)
    (N : Nat) (net net1 : Network) (m : Machine)
    (hm : net.pMachineBeingAssembled = some m)
    (hoff : net.addRepLines = false) (hbuf : net.repLines = [])
    (hrep : beginsWith "@rep".data (normalLine rep).data = true)
    (hcount : stoulText ((normalLine rep).data.drop 5) = .ok N)
    (hlines : ∀ l ∈ lines,
      isInstructionLine l = true ∧ incrementor (normalLine l).data = none)
    (hfin : beginsWith "@end".data (normalLine fin).data = true)
    (halone : processLines parse lines net = .ok net1) :
    ∃ es net2,
      codeAfter (.ok net1) = some (m.code ++ es)
      ∧ processLines parse (rep :: (lines ++ [fin])) net = .ok net2
      ∧ codeAfter (.ok net2) = some (m.code ++ (List.replicate N es).flatten)
      ∧ net2.addRepLines = false ∧ net2.repLines = []
      ∧ processLine parse fin net
          = .error (.error "Found @end without corresponding @rep") := by
  have hinst : ∀ l ∈ lines, isInstructionLine l = true := fun l hl => (hlines l hl).1
  have hplain : ∀ l ∈ lines.map normalLine, incrementor l.data = none := by
    intro l hl
    obtain ⟨raw, hraw, rfl⟩ := List.mem_map.1 hl
    exact (hlines raw hraw).2
  rw [processLines_alone parse lines hinst net m hm hoff] at halone
  obtain ⟨es, lk, e1, e2, e3⟩ :=
    EmitsSeq_processInstructions (lines.map normalLine) net net1 m halone hm
  -- the line `@rep N`
  have hlen : ¬ (normalLine rep).data.length < 5 := by
    intro hlt
    rw [List.drop_eq_nil_of_le (by omega)] at hcount
    cases hcount
  have hstepR : processLine parse rep net
      = .ok { net with repCount := N, addRepLines := true } := by
    rw [processLine_directive parse rep net m hm _ hrep]
    unfold processPreprocessorDirective
    rw [if_pos hrep, if_neg hlen, hcount]
    rfl
  -- the buffered lines
  have hstepB : processLines parse lines { net with repCount := N, addRepLines := true }
      = .ok { net with repCount := N, addRepLines := true
                       repLines := lines.map normalLine } := by
    rw [processLines_buffer parse lines hinst
      { net with repCount := N, addRepLines := true } m hm rfl]
    simp only [hbuf, List.nil_append]
  -- the line `@end`
  have hnr : ¬ beginsWith "@rep".data (normalLine fin).data = true := by
    rw [not_rep_of_end _ hfin]
    exact Bool.false_ne_true
  obtain ⟨lk2, hexp⟩ := expandFrom_copies (lines.map normalLine) hplain net m es e2 e3 N 0
    { net with repCount := N, addRepLines := false, repLines := lines.map normalLine } m
    hm rfl (LastAgrees.la_refl _)
  have hstepE : processLine parse fin
        { net with repCount := N, addRepLines := true, repLines := lines.map normalLine }
      = .ok { net with
          repCount := N, addRepLines := false, repLines := []
          pMachineBeingAssembled := some { m with code := m.code ++ (List.replicate N es).flatten }
          addressLookup := lk2 } := by
    rw [processLine_directive parse fin
      { net with repCount := N, addRepLines := true, repLines := lines.map normalLine }
      m hm _ hfin]
    unfold processPreprocessorDirective
    rw [if_neg hnr, if_pos hfin]
    simp only [Bool.not_true, Bool.false_eq_true, if_false]
    rw [hexp]
    rfl
  have hrun : processLines parse (rep :: (lines ++ [fin])) net
      = .ok { net with
          repCount := N, addRepLines := false, repLines := []
          pMachineBeingAssembled := some { m with code := m.code ++ (List.replicate N es).flatten }
          addressLookup := lk2 } := by
    show (processLine parse rep net >>= processLines parse (lines ++ [fin])) = _
    rw [hstepR]
    show processLines parse (lines ++ [fin]) _ = _
    rw [processLines_append, hstepB]
    show (processLine parse fin _ >>= processLines parse []) = _
    rw [hstepE]
    rfl
  refine ⟨es, _, ?_, hrun, rfl, rfl, rfl, ?_⟩
  · rw [e1]
    rfl
  · rw [processLine_directive parse fin net m hm _ hfin]
    unfold processPreprocessorDirective
    rw [if_neg hnr, if_pos hfin]
    simp only [hoff, Bool.not_false, if_true]
    rfl

/-- C24 at a concrete input: after `halt`, the lines `@rep 2`, `copy 1 x`, `addi x 1 x`,
`@end` append two copies of the two instructions. -/
theorem rep_block_copies_witness :
    codeAfter (processLines Directive.unmatched
        ["@rep 2", "copy 1 x", "addi x 1 x", "@end"] assemblingAfterHalt)
      = some [{ opcode := .Halt },
              { opcode := .Copy, op1 := .num 1, op2 := .reg .X },
              { opcode := .Addi, op1 := .reg .X, op2 := .num 1, op3 := .reg .X },
              { opcode := .Copy, op1 := .num 1, op2 := .reg .X },
              { opcode := .Addi, op1 := .reg .X, op2 := .num 1, op3 := .reg .X }]
    ∧ processLine Directive.unmatched "@end" assemblingAfterHalt
        = .error (.error "Found @end without corresponding @rep") := by
  obtain ⟨es, net2, h1, h2, h3, _, _, h6⟩ :=
    rep_block_copies Directive.unmatched "@rep 2" "@end" ["copy 1 x", "addi x 1 x"] 2
      assemblingAfterHalt
      { assemblingAfterHalt with
        pMachineBeingAssembled := some
          { name := "w"
            code := [{ opcode := .Halt },
                     { opcode := .Copy, op1 := .num 1, op2 := .reg .X },
                     { opcode := .Addi, op1 := .reg .X, op2 := .num 1, op3 := .reg .X }] } }
      { name := "w", code := [{ opcode := .Halt }] }
      rfl rfl rfl (by decide) (by rfl) (by decide) (by decide) (by rfl)
  have hes : es = [{ opcode := .Copy, op1 := .num 1, op2 := .reg .X },
                   { opcode := .Addi, op1 := .reg .X, op2 := .num 1, op3 := .reg .X }] := by
    have h := Option.some.inj h1
    exact (List.cons.inj h).2.symm
  subst hes
  have h2' : processLines Directive.unmatched
      ["@rep 2", "copy 1 x", "addi x 1 x", "@end"] assemblingAfterHalt = .ok net2 := h2
  rw [h2']
  exact ⟨h3, h6⟩

/-- C25 (the code at the failing input): the sum `start + inc * i` of the `@end` loop has a
`size_t` operand, so it is an unsigned 64-bit number and is printed as one. In repetition 1
the line `copy @{0,-1} x` becomes `copy 18446744073709551615 x` and not `copy -1 x`, and in
repetition 0 the line `copy @{-5,1} x` becomes `copy 18446744073709551611 x`; the operand is
then outside the range of `std::stol`. A sum that is not negative is printed as the claim
says. -/
theorem placeholder_printed_unsigned :
    expandLine 1 "copy @{0,-1} x" = .ok "copy 18446744073709551615 x"
    ∧ expandLine 0 "copy @{-5,1} x" = .ok "copy 18446744073709551611 x"
    ∧ expandLine 1 "copy @{0,-1} x" ≠ .ok "copy -1 x"
    ∧ expandLine 0 "copy @{-5,1} x" ≠ .ok "copy -5 x"
    ∧ regOrVal assembling "18446744073709551615" = .error (.stdExcept .outOfRange)
    ∧ expandLine 3 "copy @{2,5} x" = .ok "copy 17 x"
    ∧ expandLine 2 "copy @{-5,5} x" = .ok "copy 5 x" := by
  refine ⟨rfl, rfl, ?_, ?_, rfl, rfl, rfl⟩
  · have h : expandLine 1 "copy @{0,-1} x" = .ok "copy 18446744073709551615 x" := rfl
    rw [h]
    intro hc
    injection hc with hc
    exact absurd hc (by decide)
  · have h : expandLine 0 "copy @{-5,1} x" = .ok "copy 18446744073709551611 x" := rfl
    rw [h]
    intro hc
    injection hc with hc
    exact absurd hc (by decide)

/-- C26 (the code at the failing input): the first group `(.*)` of the pattern is greedy, so
the placeholder that is replaced is the last one of the line. In repetition 0 the line
`mark a@{1,1}b@{5,1}` becomes `mark a@{1,1}b5` and not `mark a1b@{5,1}`, and in repetition 2
the line `addi @{0,1} @{10,10} x` becomes `addi @{0,1} 30 x`. -/
theorem last_placeholder_replaced :
    expandLine 0 "mark a@{1,1}b@{5,1}" = .ok "mark a@{1,1}b5"
    ∧ expandLine 0 "mark a@{1,1}b@{5,1}" ≠ .ok "mark a1b@{5,1}"
    ∧ expandLine 2 "addi @{0,1} @{10,10} x" = .ok "addi @{0,1} 30 x"
    ∧ incrementor "a@{1,1}b@{5,1}c".data = some ("a@{1,1}b".data, "5".data, "1".data, "c".data) := by
  refine ⟨rfl, ?_, rfl, rfl⟩
  have h : expandLine 0 "mark a@{1,1}b@{5,1}" = .ok "mark a@{1,1}b5" := rfl
  rw [h]
  intro hc
  injection hc with hc
  exact absurd hc (by decide)

/-- C27: an exa is assembled from an empty code and an empty label table (the state in which
`.start` leaves the assembler, last conjunct) by the instruction lines `lines`. Then, for its
code `m1.code` before `finalizeActiveMachine`: (1) if finalize succeeds, the exa is appended
to its home node with a code of the same length, in which every instruction that is no branch
is unchanged and every `jump`, `tjmp`, `fjmp`, `repl` has its label replaced by an address
`a`, where `a` is the number of instructions emitted by the lines before a line `mark label`
of this exa, and `a` is at most the length of the code; (2) a line `mark label` emits nothing:
it only enters the label with the current length of the code; (3) if a branch of the code
names a label that no line `mark` of this exa marks, finalize does not succeed, and where it
reaches the label loop (no `@rep` open, the home pointer pointing to a node below its
capacity) it raises the Error `Tried to jump/repl to unrecognized label`;
(4) `.start` after an earlier exa leaves an empty code and an empty label table, so the labels
of the earlier exa are gone. -/
theorem labels_resolved (net0 net1 : Network) (m0 : Machine) (lines : List String)
    (hm : net0.pMachineBeingAssembled = some m0) (hcode : m0.code = [])
    (hlk : net0.addressLookup = [])
    (hasm : processInstructions lines net0 = .ok net1) :
    ∃ m1, net1.pMachineBeingAssembled = some m1
      ∧ (∀ net2, finalizeActiveMachine net1 = .ok net2 →
          ∃ hi home code, net1.pHomeNode = some hi ∧ net1.nodes[hi]? = some home
            ∧ (net2.nodes[hi]?).map (fun d => d.machines)
                = some (home.machines ++ [some { m1 with code := code }])
            ∧ code.length = m1.code.length
            ∧ ∀ (k : Nat) (inst : Instruction), m1.code[k]? = some inst →
                (inst.opcode.isBranch = false → code[k]? = some inst)
                ∧ (inst.opcode.isBranch = true →
                    ∃ label a pre mk post netp mp,
                      inst.op1 = .str label ∧ code[k]? = some { inst with op1 := .addr a }
                      ∧ lines = pre ++ mk :: post ∧ tokens mk = some ["mark", label]
                      ∧ processInstructions pre net0 = .ok netp
                      ∧ netp.pMachineBeingAssembled = some mp ∧ mp.code.length = a
                      ∧ a ≤ code.length))
      ∧ (∀ (net : Network) (m : Machine) (mk label : String),
          net.pMachineBeingAssembled = some m → tokens mk = some ["mark", label] →
            processInstruction mk net
              = .ok { net with
                  addressLookup := mapEmplace label m.code.length net.addressLookup })
      ∧ (∀ (inst : Instruction) (label : String), inst ∈ m1.code →
          inst.opcode.isBranch = true → inst.op1 = .str label →
          (∀ mk ∈ lines, tokens mk ≠ some ["mark", label]) →
            (∀ net2, finalizeActiveMachine net1 ≠ .ok net2)
            ∧ (net1.addRepLines = false → net1.homeDangling = false →
                ∀ hi home, net1.pHomeNode = some hi → net1.nodes[hi]? = some home →
                home.machines.length + home.files.length < home.capacity →
                ∃ l, finalizeActiveMachine net1
                  = .error (.error ("Tried to jump/repl to unrecognized label: " ++ l))))
      ∧ (∀ (prev next : Network) (mprev : Machine) (name : String),
          prev.pMachineBeingAssembled = some mprev →
          processConfigDirective (.start name) prev = .ok next →
            next.pMachineBeingAssembled = some { name := name } ∧ next.addressLookup = []) := by
  obtain ⟨es, lk, e1, e2, e3⟩ := EmitsSeq_processInstructions lines net0 net1 m0 hasm hm
  have hm1 : net1.pMachineBeingAssembled = some { m0 with code := m0.code ++ es } := by rw [e1]
  have hsound : ∀ e ∈ m0.code ++ es, e.opcode.isBranch = true → ∃ l, e.op1 = .str l := by
    intro e he
    rw [hcode, List.nil_append] at he
    exact (e2 e he).2
  have hmarked : ∀ (label : String) (a : Nat), mapFind label net1.addressLookup = some a →
      ∃ pre mk post netp mp, lines = pre ++ mk :: post ∧ tokens mk = some ["mark", label]
        ∧ processInstructions pre net0 = .ok netp
        ∧ netp.pMachineBeingAssembled = some mp ∧ mp.code.length = a := by
    intro label a hf
    rcases marks_found lines net0 net1 m0 hm hasm label a hf with hold | hnew
    · rw [hlk] at hold
      cases hold
    · exact hnew
  have hunknown : ∀ (label : String), (∀ mk ∈ lines, tokens mk ≠ some ["mark", label]) →
      mapFind label net1.addressLookup = none := by
    intro label hno
    cases hf : mapFind label net1.addressLookup with
    | none => rfl
    | some a =>
      obtain ⟨pre, mk, post, _, _, p1, p2, _⟩ := hmarked label a hf
      exact absurd p2 (hno mk (by rw [p1]; simp))
  refine ⟨_, hm1, ?_, ?_, ?_, ?_⟩
  · intro net2 hfin
    obtain ⟨_, hi, home, code, h1, h2, _, h4, h5⟩ := finalize_ok_inv net1 net2 _ hm1 hfin
    obtain ⟨r1, r2⟩ := resolveLabels_ok _ _ _ h4
    refine ⟨hi, home, code, h1, h2, ?_, r1, ?_⟩
    · rw [h5]
      simp only [List.getElem?_modify_eq, h2]
      rfl
    · intro k inst hk
      obtain ⟨q1, q2⟩ := r2 k inst hk
      refine ⟨q1, fun hb => ?_⟩
      obtain ⟨label, a, s1, s2, s3⟩ := q2 hb
      obtain ⟨pre, mk, post, netp, mp, p1, p2, p3, p4, p5⟩ := hmarked label a s2
      refine ⟨label, a, pre, mk, post, netp, mp, s1, s3, p1, p2, p3, p4, p5, ?_⟩
      -- the code only grows after the line `mark`
      have hsplit := processInstructions_append pre (mk :: post) net0
      rw [← p1, hasm, p3] at hsplit
      have hpost : processInstructions (mk :: post) netp = .ok net1 := hsplit.symm
      obtain ⟨es', lk', g1, _⟩ :=
        EmitsSeq_processInstructions (mk :: post) netp net1 mp hpost p4
      have hcodes : (m0.code ++ es) = mp.code ++ es' := by
        have h6 := hm1
        rw [g1] at h6
        have h7 := Option.some.inj h6
        exact (congrArg Machine.code h7).symm
      rw [r1]
      show a ≤ (m0.code ++ es).length
      rw [hcodes, List.length_append, p5]
      omega
  · intro net m mk label hmn htok
    unfold processInstruction
    rw [htok]
    simp only []
    have hin : "mark" ∈ singleArgMnemonics := by decide
    rw [if_pos hin]
    unfold processSingleArg
    simp only [if_true, hmn]
    rfl
  · intro inst label hin hb hop hno
    have hu : ∃ e ∈ m0.code ++ es, e.opcode.isBranch = true
        ∧ ∃ l, e.op1 = .str l ∧ mapFind l net1.addressLookup = none :=
      ⟨inst, hin, hb, label, hop, hunknown label hno⟩
    obtain ⟨l, _, hl⟩ := resolveLabels_unknown net1.addressLookup _ hsound hu
    constructor
    · intro net2 hfin
      obtain ⟨_, _, _, code, _, _, _, h4, _⟩ := finalize_ok_inv net1 net2 _ hm1 hfin
      rw [hl] at h4
      cases h4
    · intro hrep hlive hi home hhome hnd hcap
      refine ⟨l, ?_⟩
      rw [finalize_eq net1 _ hi home hm1 hrep hhome hlive hnd hcap, hl]
      rfl
  · intro prev next mprev name hp hstart
    have hs : (finalizeActiveMachine prev >>= fun n1 =>
        (pure { n1 with pMachineBeingAssembled := some { name := name } } : Asm Network))
          = .ok next := hstart
    cases hf : finalizeActiveMachine prev with
    | error e => rw [hf] at hs; cases hs
    | ok n1 =>
      rw [hf] at hs
      cases hs
      obtain ⟨_, _, _, _, _, _, _, _, h5⟩ := finalize_ok_inv prev n1 mprev hp hf
      rw [h5]
      exact ⟨rfl, rfl⟩

/-- C27 at a concrete input: the lines of scenario S5. The label `child` of the `repl` is
replaced by an address that is at most the length 3 of the code. -/
theorem labels_resolved_witness :
    processInstructions ["repl child", "halt", "mark child", "halt"] (S5.started zeroEngine)
      = .ok (S5.assembled zeroEngine)
    ∧ finalizeActiveMachine (S5.assembled zeroEngine) = .ok (S5.net zeroEngine)
    ∧ ∃ (code : List Instruction) (a : Nat), code.length = 3
        ∧ code[0]? = some { opcode := .Repl, op1 := .addr a } ∧ a ≤ 3 := by
  obtain ⟨m1, hm1, hsucc, _⟩ := labels_resolved (S5.started zeroEngine)
    (S5.assembled zeroEngine) { name := "p" }
    ["repl child", "halt", "mark child", "halt"] rfl rfl rfl rfl
  have hm1' : { name := "p"
                code := [{ opcode := .Repl, op1 := .str "child" }, { opcode := .Halt },
                         { opcode := .Halt }] } = m1 := Option.some.inj hm1
  subst hm1'
  obtain ⟨hi, home, code, _, _, _, hlen, hall⟩ := hsucc (S5.net zeroEngine) rfl
  obtain ⟨label, a, _, _, _, _, _, _, hc, _, _, _, _, _, hle⟩ :=
    (hall 0 { opcode := .Repl, op1 := .str "child" } rfl).2 rfl
  exact ⟨rfl, rfl, code, a, hlen, hc, by rw [hlen] at hle; exact hle⟩

/-- Finalizing with a home pointer that still points to a node: the exa `m` is finalized with
the home node `home` set, after the nodes were last moved, and no `@rep` open. If the
machines and files of the home node are fewer than its capacity and the labels resolve to
`code`, the exa is appended with that code as the last element of the machine list of the home
node, `stats.size` grows by the length of the code of the exa, the other nodes are unchanged
and no exa is being assembled any more (an unknown label raises its own error instead). If
the home node is not below its capacity, finalize raises the Error `Tried to add machine to
node, but node is already full`. Without a home node, finalize raises the Error `Tried to
finalize machine before home node was set`; with a `@rep` still open it raises `Missing
@end after @rep`. -/
theorem finalize_capacity (net : Network) (m : Machine) (hi : Nat) (home : Node)
    (hm : net.pMachineBeingAssembled = some m) (hrep : net.addRepLines = false)
    (hhome : net.pHomeNode = some hi) (hlive : net.homeDangling = false)
    (hnd : net.nodes[hi]? = some home) :
    (home.machines.length + home.files.length < home.capacity →
      (∀ code, resolveLabels net.addressLookup m.code = .ok code →
        code.length = m.code.length
        ∧ ∃ net1, finalizeActiveMachine net = .ok net1
            ∧ (net1.nodes[hi]?).map (fun d => d.machines)
                = some (home.machines ++ [some { m with code := code }])
            ∧ net1.stats.size = net.stats.size + m.code.length
            ∧ (∀ j, j ≠ hi → net1.nodes[j]? = net.nodes[j]?)
            ∧ net1.nodes.length = net.nodes.length
            ∧ net1.pMachineBeingAssembled = none)
      ∧ (∀ e, resolveLabels net.addressLookup m.code = .error e →
          finalizeActiveMachine net = .error e))
    ∧ (¬ home.machines.length + home.files.length < home.capacity →
        finalizeActiveMachine net
          = .error (.error "Tried to add machine to node, but node is already full"))
    ∧ finalizeActiveMachine { net with pHomeNode := none }
        = .error (.error "Tried to finalize machine before home node was set")
    ∧ finalizeActiveMachine { net with addRepLines := true }
        = .error (.error "Missing @end after @rep") := by
  refine ⟨fun hcap => ⟨?_, ?_⟩, ?_, ?_, ?_⟩
  · intro code hr
    have hlen := (resolveLabels_ok _ _ _ hr).1
    refine ⟨hlen,
      { net with
        stats := { net.stats with size := net.stats.size + code.length }
        nodes := net.nodes.modify
          (fun nd => { nd with machines := nd.machines ++ [some { m with code := code }] }) hi
        pMachineBeingAssembled := none
        addressLookup := [] }, ?_, ?_, ?_, ?_, ?_, rfl⟩
    · rw [finalize_eq net m hi home hm hrep hhome hlive hnd hcap, hr]
      rfl
    · simp only [List.getElem?_modify_eq, hnd]
      rfl
    · show net.stats.size + code.length = _
      rw [hlen]
    · intro j hj
      simp only [List.getElem?_modify, if_neg (Ne.symm hj)]
      cases net.nodes[j]? <;> rfl
    · simp only [List.length_modify]
  · intro e hr
    rw [finalize_eq net m hi home hm hrep hhome hlive hnd hcap, hr]
    rfl
  · intro hcap
    unfold finalizeActiveMachine
    simp only [hm, hrep, hhome, hlive, hnd, if_neg hcap, Bool.false_eq_true, if_false]
    rfl
  · unfold finalizeActiveMachine
    simp only [hm, hrep, Bool.false_eq_true, if_false]
    rfl
  · unfold finalizeActiveMachine
    simp only [hm, if_true]
    rfl

/-- The exa of scenario S5 is appended to its empty home node, and `stats.size` becomes 3. -/
theorem finalize_capacity_witness :
    (S5.assembled zeroEngine).nodes[0]? = some { name := "N" }
    ∧ ∃ net1, finalizeActiveMachine (S5.assembled zeroEngine) = .ok net1
        ∧ (net1.nodes[0]?).map (fun d => d.machines) = some [some { name := "p", code := S5.code }]
        ∧ net1.stats.size = 3 := by
  obtain ⟨_, net1, h1, h2, h3, _⟩ :=
    (finalize_capacity (S5.assembled zeroEngine)
      { name := "p"
        code := [{ opcode := .Repl, op1 := .str "child" }, { opcode := .Halt },
                 { opcode := .Halt }] }
      0 { name := "N" } rfl rfl rfl rfl rfl).1 (by decide) |>.1 S5.code rfl
  exact ⟨rfl, net1, h1, h2, h3⟩

set_option maxHeartbeats 4000000 in
/-- C28 (the code at the failing input): `.node A`, `.home A`, `.node B`, `.start x`, `noop`.
The home node is set and the node `A` holds nothing, so it is below its capacity. `pHomeNode`
is a `Node*` into the vector of nodes, and the `emplace_back` of `B` has moved `A`: the
capacity test and `machines.emplace_back` of finalize go through a pointer to the storage
that `A` has left. The assembly ends there without an `Error` of the assembler, and the
machine list of the node `A` does not receive the exa. -/
theorem home_pointer_dangles (g : RandomEngine) :
    staleHome.assembling g = .ok (staleHome.pending g)
    ∧ reallocates 1 = true
    ∧ (staleHome.pending g).pHomeNode = some 0
    ∧ ((staleHome.pending g).nodes[0]?).map
        (fun d => (d.name, decide (d.machines.length + d.files.length < d.capacity)))
        = some ("A", true)
    ∧ finalizeActiveMachine (staleHome.pending g) = .error .danglingReference
    ∧ (∀ (net : Network) (m : Machine) (hi : Nat), net.pMachineBeingAssembled = some m →
        net.addRepLines = false → net.pHomeNode = some hi → net.homeDangling = true →
          finalizeActiveMachine net = .error .danglingReference) := by
  refine ⟨rfl, rfl, rfl, rfl, rfl, ?_⟩
  intro net m hi hm hrep hhome hd
  unfold finalizeActiveMachine
  simp only [hm, hrep, hhome, hd, Bool.false_eq_true, if_false, if_true]
  rfl

/-- C29 (the code at the failing input): `registers.find` compares the names as they are
written. After `.reg stdout #OUT N`, the line `.reg stdout #out N` raises no `Error`: the
node stores a second register under `#out`, and `hwRegMap` keeps its one key `#out`, which
still leads to the first register. Only the name written the same way is refused. -/
theorem register_name_case_not_folded (g : RandomEngine) :
    processConfigDirective (.reg .stdout "#OUT" "N" none [] g) regNet = .ok regOne
    ∧ processConfigDirective (.reg .stdout "#out" "N" none [] g) regOne = .ok regTwo
    ∧ mapFind "#out" regTwo.hwRegMap = some { host := 0, name := "#OUT" }
    ∧ processConfigDirective (.reg .stdout "#OUT" "N" none [] g) regOne
        = .error (.error "Tried to add duplicate hardware register") := by
  refine ⟨rfl, ?_, rfl, rfl⟩
  have hlt : ¬ ("#out" < "#OUT") := by
    rw [String.lt_iff_toList_lt]
    decide
  have e := emplace_after "#out" "#OUT"
    ({ name := "#out", host := 0, kind := .stdout [] } : HwRegister)
    { name := "#OUT", host := 0, kind := .stdout [] } (by decide) hlt
  have h : processConfigDirective (.reg .stdout "#out" "N" none [] g) regOne = .ok
      { regOne with
        nodes := [{ name := "N"
                    registers := mapEmplace "#out" { name := "#out", host := 0, kind := .stdout [] }
                      [("#OUT", { name := "#OUT", host := 0, kind := .stdout [] })] }] } := rfl
  rw [h, e]
  rfl

/-- C30 (the code at the failing input): `processSingleArg` has no `else` after the tests for
`mrd` and `eof`, and `processTripleArg` none after the tests for `<`, `=`, `>`. The lines
`test foo` and `test x ! y` are accepted: they raise no `Error` and leave the code of the exa
as it was, with no instruction emitted. (On an exa with no instruction yet, the second line
reads `code.back()` of an empty vector.) -/
theorem malformed_test_accepted :
    processInstruction "test foo" assembling = .ok assembling
    ∧ processInstruction "test foo" assemblingAfterHalt = .ok assemblingAfterHalt
    ∧ processInstruction "test x ! y" assemblingAfterHalt = .ok assemblingAfterHalt
    ∧ processInstruction "test x ! y" assembling = .error .emptyBack
    ∧ codeAfter (processInstruction "test mrd" assembling)
        = some [{ opcode := .Test1, op1 := .reg .M }]
    ∧ codeAfter (processInstruction "test foo" assembling) = some [] :=
  ⟨rfl, rfl, rfl, rfl, rfl, rfl⟩

/-- The host test of `get` and `set` for a hardware register operand `h`: the register `r`
stored under `h.name` on the node `h.host`. The test reads the `pHost` stored in the register.
Where `pHost` still points to a node and that node is the node `ni` of the exa, `get` returns
the value of `read()` clamped and leaves the register as `read()` leaves it, and `set` stores
the register as `write` of the clamped value leaves it and returns true. In every other case,
on another node or with a `pHost` that points to storage the nodes have left, `get` and `set`
raise the `MachineFailure` in the state they started in: the register is neither read nor
written. -/
theorem hw_register_host_check (net : Network) (ni mi : Nat) (h : HwRef) (nd : Node)
    (r : HwRegister) (v : Value)
    (hnd : net.nodes[h.host]? = some nd) (hr : mapFind h.name nd.registers = some r) :
    (¬ (r.hostDangling = false ∧ r.host = ni) →
      get ni mi (.hw h) net = .failure "Tried to read inaccessible hardware register" net
      ∧ set ni mi (.hw h) v net
          = .failure "Tried to write to inaccessible hardware register" net)
    ∧ (r.hostDangling = false ∧ r.host = ni →
      get ni mi (.hw h) net
          = .ok (some (net.clamp r.read.1))
              (net.updNode h.host fun d =>
                { d with registers := mapReplace h.name r.read.2 d.registers })
      ∧ set ni mi (.hw h) v net
          = .ok true
              (net.updNode h.host fun d =>
                { d with registers := mapReplace h.name (r.write (net.clamp v)) d.registers })) := by
  constructor
  · intro hne
    constructor
    · simp only [get, getRaw, bind_apply, getNode_of hnd, hr, if_neg hne, raiseFailure]
    · simp only [set, bind_apply, getNet_apply, getNode_of hnd, hr, if_neg hne, raiseFailure]
  · intro heq
    constructor
    · simp only [get, getRaw, bind_apply, if_pos heq, getNode_of hnd, hr, modifyNode_apply,
        pure_apply, getNet_apply]
      rfl
    · simp only [set, bind_apply, getNet_apply, if_pos heq, getNode_of hnd, hr,
        modifyNode_apply, pure_apply]

/-- The register `#IN` of node 0 of `hwNet` delivers 20000, which the range clamps to 9999;
from node 1 it cannot be read, and its tokens stay as they are. -/
theorem hw_register_host_check_witness :
    get 1 0 (.hw { host := 0, name := "#IN" }) hwNet
      = .failure "Tried to read inaccessible hardware register" hwNet
    ∧ (Res.value? (get 0 0 (.hw { host := 0, name := "#IN" }) hwNet)) = some (some (.num 9999))
    ∧ ((Res.state? (get 0 0 (.hw { host := 0, name := "#IN" }) hwNet)).bind
        fun n => registerLog n 0 "#IN") = some ([], ["7"])
    ∧ ((Res.state? (set 0 0 (.hw { host := 0, name := "#OUT" }) (.num 20000) hwNet)).bind
        fun n => registerLog n 0 "#OUT") = some ([.num 9999], []) := by
  have h1 := hw_register_host_check hwNet 1 0 { host := 0, name := "#IN" }
    { name := "N"
      registers := [("#IN", { name := "#IN", host := 0, kind := .stdin ["20000", "7"] }),
                    ("#OUT", { name := "#OUT", host := 0, kind := .stdout [] })]
      machines := [some { name := "r" }] }
    { name := "#IN", host := 0, kind := .stdin ["20000", "7"] } (.num 1) rfl rfl
  exact ⟨(h1.1 (by decide)).1, rfl, rfl, rfl⟩

set_option maxHeartbeats 4000000 in
/-- C31 (the code at the failing input): `.node A`, `.reg stdout #OUT A`, `.node B`, `.home A`,
`.start x`, `copy 1 #out`. The register `#OUT` belongs to the node `A`, and the exa executes
on `A`. The register stores its host as a `Node*` into the vector of nodes, and the
`emplace_back` of `B` has moved `A`: `arg->pHost == &rNode` compares the address that `A` has
left with the address of `A`. On the host node, `set` raises the `MachineFailure` `Tried to
write to inaccessible hardware register` and `get` raises `Tried to read inaccessible hardware
register`; nothing is written, and the cycle flags the exa and removes it. -/
theorem register_host_dangles (g : RandomEngine) :
    staleHost.assemble g = .ok (staleHost.net g)
    ∧ reallocates 1 = true
    ∧ set 0 0 (.hw { host := 0, name := "#OUT" }) (.num 1) (staleHost.net g)
        = .failure "Tried to write to inaccessible hardware register" (staleHost.net g)
    ∧ get 0 0 (.hw { host := 0, name := "#OUT" }) (staleHost.net g)
        = .failure "Tried to read inaccessible hardware register" (staleHost.net g)
    ∧ (Res.state? (stepMachine 0 0 (staleHost.net g))).map
        (fun n => ((n.machineAt 0 0).map fun m => m.terminated, registerLog n 0 "#OUT"))
        = some (some true, some ([], []))
    ∧ (afterCycles 1 (staleHost.net g)).map
        (fun n => (n.nodes.map fun d => d.machines.length, registerLog n 0 "#OUT"))
        = some ([0, 0], some ([], [])) :=
  ⟨rfl, rfl, rfl, rfl, rfl, rfl⟩

/-- C32: the exa `m` stands before a `make`. If it holds no file, the step succeeds: the exa
holds the new file `madeFile id` (no values, cursor 0, the id `id` and the filename
`<id>.txt`) with `id` the `nextFileId` before the step, its instruction pointer is raised by
one, and `nextFileId` is incremented by 1 (a `uint16_t`: modulo 2^16). If it holds a file, the
instruction raises the `MachineFailure` in the state it started in, and the step leaves
`nextFileId` as it was. The constructor starts `nextFileId` at 400; in a machine loop over `k`
exas that each execute `make`, with `nextFileId + k` at most 65536, the exa in slot `j` gets
the id `nextFileId + j`. -/
theorem make_assigns_next_id (net : Network) (ni mi : Nat) (m : Machine) (inst : Instruction)
    (hm : net.machineAt ni mi = some m) (hfetch : m.code[m.instPtr]? = some inst)
    (hop : inst.opcode = .Make) :
    (m.file = none →
      ∃ n1, stepMachine ni mi net = .ok () n1
        ∧ n1.machineAt ni mi
            = some { m with
                file := some { id := net.nextFileId
                               filename := to_string net.nextFileId ++ ".txt"
                               values := [], offset := 0 }
                instPtr := m.instPtr + 1 }
        ∧ n1.nextFileId = (net.nextFileId + 1) % 65536
        ∧ (net.nextFileId < 65535 → n1.nextFileId = net.nextFileId + 1))
    ∧ (∀ f, m.file = some f →
        fetchExec ni mi net = .failure "Tried to make, but already holding file" net
        ∧ ∃ n1, stepMachine ni mi net = .ok () n1 ∧ n1.nextFileId = net.nextFileId
            ∧ n1.machineAt ni mi
                = some { m with terminated := true, instPtr := m.instPtr + 1 })
    ∧ (∀ g, (Network.initial g).nextFileId = 400)
    ∧ (∀ (net0 : Network) (k : Nat),
        (∀ j, j < k → ∃ mj inst, net0.machineAt ni j = some mj ∧ mj.file = none
          ∧ mj.code[mj.instPtr]? = some inst ∧ inst.opcode = .Make) →
        net0.nextFileId = 400 → k ≤ 65136 →
        ∃ n1, stepMachinesFrom ni 0 k net0 = .ok () n1
          ∧ ∀ j, j < k → (n1.machineAt ni j).map (fun mj => mj.file.map fun f => f.id)
              = some (some (400 + j))) := by
  have hpow : (2 : Nat) ^ 16 = 65536 := by norm_num
  refine ⟨fun hfile => ?_, fun f hfile => ?_, fun _ => rfl, ?_⟩
  · have hstep := stepMachine_make hm hfetch hop hfile
    rw [hpow] at hstep
    refine ⟨_, hstep, ?_, rfl, ?_⟩
    · rw [machineAt_after_make, if_pos ⟨rfl, rfl⟩, hm]
      rfl
    · intro hlt
      show (net.nextFileId + 1) % 65536 = net.nextFileId + 1
      omega
  · have hfe := fetchExec_make_held hm hfetch hop hfile
    have hst : stepMachine ni mi net = .ok ()
        ((net.updMachine ni mi fun m1 => { m1 with terminated := true }).updMachine ni mi
          fun m1 => { m1 with instPtr := m1.instPtr + 1 }) := by
      unfold stepMachine
      rw [hfe]
      rfl
    refine ⟨hfe, _, hst, rfl, ?_⟩
    rw [machineAt_updMachine, machineAt_updMachine, hm]
    rfl
  · intro net0 k hall h400 hk
    obtain ⟨n1, h1, _, h3, _⟩ := makes_in_a_row ni k 0 net0
      (fun j _ hj => hall j (by omega)) (by omega) (by omega)
    refine ⟨n1, h1, ?_⟩
    intro j hj
    obtain ⟨mj, _, e2⟩ := h3 j (Nat.zero_le _) (by omega)
    rw [e2, h400]
    rfl

/-- C32 at a concrete input: three exas of `makeNet` execute `make` in one machine loop and
get the ids 400, 401 and 402; `nextFileId` is then 403. -/
theorem make_assigns_next_id_witness :
    makeNet.machineAt 0 1 = some { name := "b", code := [{ opcode := .Make }] }
    ∧ (∃ n1, stepMachine 0 1 makeNet = .ok () n1
        ∧ n1.machineAt 0 1
            = some { name := "b", code := [{ opcode := .Make }], instPtr := 1
                     file := some { id := 400, filename := "400.txt" } }
        ∧ n1.nextFileId = 401)
    ∧ (Res.state? (stepMachinesFrom 0 0 3 makeNet)).map
        (fun n => (n.nextFileId,
          (List.range 3).map fun j => (n.machineAt 0 j).bind fun mj => mj.file.map fun f => f.id))
      = some (403, [some 400, some 401, some 402]) := by
  obtain ⟨n1, h1, h2, h3, _⟩ := (make_assigns_next_id makeNet 0 1
    { name := "b", code := [{ opcode := .Make }] } { opcode := .Make } rfl rfl rfl).1 rfl
  exact ⟨rfl, ⟨n1, h1, by rw [h2]; rfl, by rw [h3]; rfl⟩, rfl⟩

set_option maxRecDepth 100000 in
/-- C34 (counterexample): the input 9 and the mask 1100000000000000000 are Numbers, and the
sum of the claim is 9900000000000000000, which is no 64-bit Number: the loop overflows at its
last `output *= 10` and `swiz` returns another value. -/
theorem swiz_sum_overflows :
    swizFormula 9 1100000000000000000 = 9900000000000000000
    ∧ (9900000000000000000 : Int) ≥ 2 ^ 63
    ∧ swiz (.num 9) (.num 1100000000000000000) = .ok (.num (-8546744073709551616))
    ∧ swiz (.num 9) (.num 1100000000000000000)
        ≠ .ok (.num (swizFormula 9 1100000000000000000)) := by
  have h1 : swizFormula 9 1100000000000000000 = 9900000000000000000 := rfl
  have h2 : swiz (.num 9) (.num 1100000000000000000) = .ok (.num (-8546744073709551616)) := rfl
  refine ⟨h1, by decide, h2, ?_⟩
  rw [h1, h2]
  intro hc
  injection hc with hc
  exact absurd hc (by decide)

/-- C34 (amended): for a Number `input ≥ 0` and a Number `mask` such that the sum of
`10^k * pick(m_k)` over the decimal digits `m_k` of the mask is at most `2^63 - 1` (every
mask of at most 18 digits): `swiz(input, mask)` is that sum, negated when the mask is
negative; `pick(0) = 0`, and `pick(m)` is the `(m-1)`-th least significant digit of the
input if the input has at least `m` digits and 0 otherwise. `swiz` raises a `MachineFailure`
exactly when the input or the mask is a String. -/
theorem swiz_formula (input mask : Int) (hin : 0 ≤ input)
    (hfit : (swizSum input.natAbs mask.natAbs : Int) < 2 ^ 63) :
    swiz (.num input) (.num mask) = .ok (.num (swizFormula input mask))
    ∧ (∀ a b, (∃ msg, swiz a b = .error msg) ↔ (a.isNum = false ∨ b.isNum = false))
    ∧ (∀ i m : Nat, decimalLength m ≤ 18 → (swizSum i m : Int) < 2 ^ 63) := by
  refine ⟨?_, ?_, ?_⟩
  · obtain ⟨n, rfl⟩ := Int.eq_ofNat_of_zero_le hin
    simp only [Int.natAbs_ofNat] at hfit
    have hloop : ∀ neg, swizLoop (toChars (n : Int))
        ((digitsLE mask.natAbs (decimalLength mask.natAbs)).reverse.map digitChar) 0 neg
        = ((swizSum n mask.natAbs : Int), neg) := by
      intro neg
      rw [toChars_nat, swizLoop_digits n neg _ 0 (digitsLE_lt _ _) (le_refl _)
        (by rw [← swizSum_eq]; simpa using hfit), ← swizSum_eq]
      simp
    unfold swiz swizFormula
    simp only [Int.natAbs_ofNat]
    by_cases hm : mask < 0
    · rw [toChars_neg mask hm, if_pos hm]
      have hfirst : swizLoop (toChars (n : Int))
          ('-' :: (digitsLE mask.natAbs (decimalLength mask.natAbs)).reverse.map digitChar) 0 false
          = swizLoop (toChars (n : Int))
              ((digitsLE mask.natAbs (decimalLength mask.natAbs)).reverse.map digitChar) 0 true := by
        rw [swizLoop, if_pos rfl]
      rw [hfirst, hloop true]
      simp only [if_true]
      have h0 : (0 : Int) ≤ (swizSum n mask.natAbs : Int) := Int.ofNat_nonneg _
      rw [wrap64_id _ (by omega) (by omega)]
      congr 2
      show (_ : Int) = _
      omega
    · have hm0 : 0 ≤ mask := by omega
      obtain ⟨M, rfl⟩ := Int.eq_ofNat_of_zero_le hm0
      rw [if_neg hm]
      simp only [Int.natAbs_ofNat] at hloop ⊢
      rw [toChars_nat M, hloop false]
      simp
  · intro a b
    cases a <;> cases b <;> simp [swiz, Value.isNum]
  · intro i m hm
    have h1 := swizSum_lt i m
    have h2 : 10 ^ decimalLength m ≤ 10 ^ 18 := Nat.pow_le_pow_right (by norm_num) hm
    have h3 : swizSum i m < 10 ^ 18 := Nat.lt_of_lt_of_le h1 h2
    have h4 : ((swizSum i m : Nat) : Int) < ((10 ^ 18 : Nat) : Int) := by exact_mod_cast h3
    have h5 : ((10 ^ 18 : Nat) : Int) < 2 ^ 63 := by norm_num
    exact lt_trans h4 h5

/-- C34 (amended) at a concrete input: `swiz(905, -103) = -509`. -/
theorem swiz_formula_witness :
    swizFormula 905 (-103) = -509
    ∧ swiz (.num 905) (.num (-103)) = .ok (.num (-509)) := by
  have h := (swiz_formula 905 (-103) (by decide) (by decide)).1
  have hf : swizFormula 905 (-103) = -509 := rfl
  rw [hf] at h
  exact ⟨hf, h⟩

/-- C35 (the code at the failing input): for a negative input the text of the input begins
with the sign, and `swiz` picks it like a digit. With the input -12 the text is `-12`, so the
mask digit 3 selects the character `-` and contributes `'-' - '0' = -3`, not 0:
`swiz(-12, 3) = -3` and `swiz(-12, 33) = -33`. The mask 21 selects the two digits:
`swiz(-12, 21) = 12`. -/
theorem swiz_picks_sign :
    swiz (.num (-12)) (.num 3) = .ok (.num (-3))
    ∧ swiz (.num (-12)) (.num 3) ≠ .ok (.num 0)
    ∧ swiz (.num (-12)) (.num 33) = .ok (.num (-33))
    ∧ toChars (-12) = ['-', '1', '2']
    ∧ swiz (.num (-12)) (.num 21) = .ok (.num 12) := by
  refine ⟨rfl, ?_, rfl, rfl, rfl⟩
  have h : swiz (.num (-12)) (.num 3) = .ok (.num (-3)) := rfl
  rw [h]
  intro hc
  injection hc with hc
  exact absurd hc (by decide)

/-- C37 (the code at the failing input): the exa holds a file with the cursor at 0. `copy f m`
on an occupied channel reads F first, which advances the cursor, and then finds the channel
occupied: the step suspends (no failure, instruction pointer unchanged) with the cursor at 1.
`addi f m x` on an empty channel reads F and then finds no message: it suspends with the
cursor at 1 as well. The retry reads the next value of the file. An instruction that reads no
F, `copy x m`, suspends with the cursor where it was. -/
theorem suspended_step_moves_cursor :
    ((cursorNet { opcode := .Copy, op1 := .reg .F, op2 := .reg .M } (some (.num 9))).machineAt 0 0).map
        (fun m => (m.instPtr, m.terminated, m.x, m.file.map fun f => f.offset))
      = some (0, false, .num 7, some 0)
    ∧ viewAfterStep (cursorNet { opcode := .Copy, op1 := .reg .F, op2 := .reg .M } (some (.num 9)))
      = some (0, false, .num 7, some 1)
    ∧ (Res.state? (stepMachine 0 0
          (cursorNet { opcode := .Copy, op1 := .reg .F, op2 := .reg .M } (some (.num 9))))).map
        (fun n => n.globalChannel.val) = some (some (.num 9))
    ∧ viewAfterStep
        (cursorNet { opcode := .Addi, op1 := .reg .F, op2 := .reg .M, op3 := .reg .X } none)
      = some (0, false, .num 7, some 1)
    ∧ ((Res.state? (stepMachine 0 0
          (cursorNet { opcode := .Copy, op1 := .reg .F, op2 := .reg .M } (some (.num 9))))).bind
        viewAfterStep) = some (0, false, .num 7, some 2)
    ∧ viewAfterStep (cursorNet { opcode := .Copy, op1 := .reg .X, op2 := .reg .M } (some (.num 9)))
      = some (0, false, .num 7, some 0) :=
  ⟨rfl, rfl, rfl, rfl, rfl, rfl⟩

/-- C38: for Numbers `a` and `b` of the 64-bit range with `b ≠ 0`, other than `a = -2^63` with
`b = -1`: `operator/` returns the quotient `q` truncated toward zero (its absolute value is
the natural quotient of the absolute values, and it is not negative when `a` and `b` have the
same sign and not positive otherwise), `operator%` returns `r` with the sign of `a` or 0 and
`|r| < |b|`, and `q * b + r = a`. -/
theorem division_truncates (a b : Int) (ha1 : -(2 ^ 63) ≤ a) (ha2 : a < 2 ^ 63)
    (hb1 : -(2 ^ 63) ≤ b) (hb2 : b < 2 ^ 63) (hb0 : b ≠ 0)
    (hex : ¬ (a = -(2 ^ 63) ∧ b = -1)) :
    ∃ (q r : Int), Value.div (.num a) (.num b) = .ok (.num q)
      ∧ Value.mod (.num a) (.num b) = .ok (.num r)
      ∧ q.natAbs = a.natAbs / b.natAbs
      ∧ ((0 ≤ a ∧ 0 < b ∨ a ≤ 0 ∧ b < 0) → 0 ≤ q)
      ∧ ((0 ≤ a ∧ b < 0 ∨ a ≤ 0 ∧ 0 < b) → q ≤ 0)
      ∧ (0 ≤ a → 0 ≤ r) ∧ (a ≤ 0 → r ≤ 0)
      ∧ r.natAbs < b.natAbs
      ∧ q * b + r = a := by
  have hcore : ∀ (A B : Nat), 0 < B →
      Int.tdiv (A : Int) (B : Int) = ((A / B : Nat) : Int) := by
    intro A B _
    rw [Int.tdiv_eq_ediv (Int.ofNat_nonneg _) (Int.ofNat_nonneg _)]
    rfl
  have hmul : ∀ (A B : Nat), 0 < B → B * (A / B) ≤ A ∧ A < B * (A / B) + B := by
    intro A B hB
    exact ⟨Nat.mul_div_le A B, by have := Nat.lt_mul_div_succ A hB; rw [Nat.mul_succ] at this; exact this⟩
  have hdiv : Value.div (.num a) (.num b) = .ok (.num (wrap64 (Int.tdiv a b))) := by
    simp only [Value.div, if_neg hb0, if_neg hex]
  have hmod : Value.mod (.num a) (.num b) = .ok (.num (wrap64 (Int.tmod a b))) := by
    simp only [Value.mod, if_neg hb0, if_neg hex]
  rw [hdiv, hmod, Int.tmod_def]
  obtain ⟨A, rfl | rfl⟩ := Int.eq_nat_or_neg a <;> obtain ⟨B, rfl | rfl⟩ := Int.eq_nat_or_neg b
  all_goals
    have hB : 0 < B := by omega
    obtain ⟨m1, m2⟩ := hmul A B hB
    have hQ : A / B ≤ A := Nat.div_le_self _ _
    have hone : B = 1 → A / B = A := by
      intro h
      rw [h, Nat.div_one]
    simp only [Int.neg_tdiv, Int.tdiv_neg, neg_neg, hcore A B hB, Int.natAbs_neg,
      Int.natAbs_ofNat, Int.neg_mul, Int.mul_neg]
    generalize A / B = Q at *
  · refine ⟨(Q : Int), (A : Int) - (B : Int) * (Q : Int), ?_, ?_, ?_, ?_, ?_, ?_, ?_, ?_, ?_⟩
    · rw [wrap64_id _ (by omega) (by omega)]
    · rw [wrap64_id _ (by omega) (by omega)]
    · simp
    · rintro (⟨h1, h2⟩ | ⟨h1, h2⟩) <;> omega
    · rintro (⟨h1, h2⟩ | ⟨h1, h2⟩) <;> omega
    · intro _; omega
    · intro _; omega
    · omega
    · rw [Int.mul_comm]; omega
  · refine ⟨-(Q : Int), (A : Int) - (B : Int) * (Q : Int), ?_, ?_, ?_, ?_, ?_, ?_, ?_, ?_, ?_⟩
    · rw [wrap64_id _ (by omega) (by omega)]
    · rw [wrap64_id _ (by omega) (by omega)]
    · simp
    · rintro (⟨h1, h2⟩ | ⟨h1, h2⟩) <;> omega
    · rintro (⟨h1, h2⟩ | ⟨h1, h2⟩) <;> omega
    · intro _; omega
    · intro _; omega
    · omega
    · simp only [Int.neg_mul, Int.mul_neg, neg_neg]
      rw [Int.mul_comm]; omega
  · refine ⟨-(Q : Int), -(A : Int) + (B : Int) * (Q : Int), ?_, ?_, ?_, ?_, ?_, ?_, ?_, ?_, ?_⟩
    · rw [wrap64_id _ (by omega) (by omega)]
    · rw [wrap64_id _ (by omega) (by omega)]
      congr 2
      show (_ : Int) = _
      omega
    · simp
    · rintro (⟨h1, h2⟩ | ⟨h1, h2⟩) <;> omega
    · rintro (⟨h1, h2⟩ | ⟨h1, h2⟩) <;> omega
    · intro _; omega
    · intro _; omega
    · omega
    · simp only [Int.neg_mul, Int.mul_neg, neg_neg]
      rw [Int.mul_comm]; omega
  · have hne : ¬ ((A : Int) = 2 ^ 63 ∧ B = 1) := by omega
    have hQlt : (Q : Int) < 2 ^ 63 := by
      by_cases h1 : B = 1
      · have := hone h1
        have hA : (A : Int) ≠ 2 ^ 63 := fun h => hne ⟨h, h1⟩
        omega
      · have h2 : 2 ≤ B := by omega
        have : 2 * Q ≤ B * Q := Nat.mul_le_mul_right Q h2
        have h3 : ((2 * Q : Nat) : Int) ≤ ((B * Q : Nat) : Int) := by exact_mod_cast this
        push_cast at h3
        omega
    refine ⟨(Q : Int), -(A : Int) + (B : Int) * (Q : Int), ?_, ?_, ?_, ?_, ?_, ?_, ?_, ?_, ?_⟩
    · rw [wrap64_id _ (by omega) hQlt]
    · rw [wrap64_id _ (by omega) (by omega)]
      congr 2
      show (_ : Int) = _
      omega
    · simp
    · rintro (⟨h1, h2⟩ | ⟨h1, h2⟩) <;> omega
    · rintro (⟨h1, h2⟩ | ⟨h1, h2⟩) <;> omega
    · intro _; omega
    · intro _; omega
    · omega
    · rw [Int.mul_comm]; omega

/-- C38 at a concrete input: -7 / 2 = -3 and -7 mod 2 = -1. -/
theorem division_truncates_witness :
    Value.div (.num (-7)) (.num 2) = .ok (.num (-3))
    ∧ Value.mod (.num (-7)) (.num 2) = .ok (.num (-1))
    ∧ ∃ (q r : Int), Value.div (.num (-7)) (.num 2) = .ok (.num q)
        ∧ Value.mod (.num (-7)) (.num 2) = .ok (.num r) ∧ q * 2 + r = -7 := by
  obtain ⟨q, r, h1, h2, _, _, _, _, _, _, h9⟩ :=
    division_truncates (-7) 2 (by decide) (by decide) (by decide) (by decide) (by decide)
      (by decide)
  exact ⟨rfl, rfl, q, r, h1, h2, h9⟩

set_option maxHeartbeats 4000000 in
/-- C39 (the code at the failing input): the assembler accepts `link x`, and the case `Link`
takes the id with `std::get<Number>(inst.op1)` from the operand itself, which holds a
register. After `copy 800 x` the exa executes `link x` on a node with the link 800 to an empty
node: the step raises `std::bad_variant_access`, which is no `MachineFailure` and leaves
`run`; the exa does not migrate. -/
theorem link_register_aborts (g : RandomEngine) :
    linkReg.assemble g = .ok (linkReg.net g)
    ∧ (afterCycles 1 (linkReg.net g)).map
        (fun n => (n.machineAt 0 0).map fun m => (m.x, m.instPtr, m.code[m.instPtr]?))
      = some (some (.num 800, 1, some { opcode := .Link, op1 := .reg .X }))
    ∧ run 2 (linkReg.net g) = some (.abort (.stdExcept .badVariantAccess))
    ∧ (∀ r, execInstruction 0 0 { opcode := .Link, op1 := .reg r }
          { (linkReg.net g) with globalChannel := { val := some (.num 800) }
                                 nodes := [{ name := "A", links := [(800, 1)]
                                             machines := [some { name := "r", x := .num 800
                                                                 t := .num 800
                                                                 file := some { values := [.num 800] } }] },
                                           { name := "B" }] }
        = .abort (.stdExcept .badVariantAccess)) := by
  refine ⟨rfl, rfl, rfl, ?_⟩
  intro r
  cases r <;> rfl

set_option maxHeartbeats 4000000 in
/-- C40 (the code at the failing input): on node `A` the exa `a` executes `link 800` and
the exa `b` behind it executes `kill`. The step of `a` vacates slot 0. `b` then finds two
slots, draws from `[0, 0]` the target 0 (whatever the engine), and its search loop tests `curIdx == target` at slot 0
with `curIdx = 0`: it writes `terminated` through the vacated slot, a null `unique_ptr`. The
cycle ends there and `run` returns nothing. -/
theorem kill_selects_vacated_slot :
    killVacant.assemble zeroEngine = .ok (killVacant.net zeroEngine)
    ∧ stepMachine 0 0 { killVacant.net zeroEngine with stats := { size := 2, cycles := 1 } }
        = .ok () (killVacant.moved zeroEngine)
    ∧ (killVacant.moved zeroEngine).machineAt 0 0 = none
    ∧ killLoop 1 0 0 0 [none, some { name := "b", code := [{ opcode := .Kill }] }] = none
    ∧ stepMachine 0 1 (killVacant.moved zeroEngine) = .abort .nullDeref
    ∧ cycle (killVacant.net zeroEngine) = .abort .nullDeref
    ∧ run 1 (killVacant.net zeroEngine) = some (.abort .nullDeref)
    ∧ (∀ g : RandomEngine, (g.dist 0).1 = 0) :=
  ⟨rfl, rfl, rfl, rfl, rfl, rfl, rfl, fun _ => Nat.mod_one _⟩

/-- C36: `net` is the network that the constructor builds from the lines of a file (the line
loop from the initial state, then the final `finalizeActiveMachine`), whatever the lines and the
directives matched in them. Then every node of `net` satisfies
`len(machines) + len(files) + len(incomingMachines) ≤ capacity`; so does every state after `k`
complete cycles, and within the next cycle every state after the step and drain of the first
`ni` nodes and after the first `mi` steps of the machine loop of node `ni`. The bound is kept
by each part: by the step of an exa for every instruction (LINK, REPL, DROP, GRAB, MAKE and
all others), by the drain that returns the files of terminated exas, by the step of a node, by
the node loop, by the merge of the arrivals and by a cycle; and in the assembler by every line
(`.file`, `.start` and the others) and by `finalizeActiveMachine`. -/
theorem capacity_never_exceeded (parse : String → Directive) (lines : List String)
    (g : RandomEngine) (n0 net : Network)
    (hlines : processLines parse lines (Network.initial g) = .ok n0)
    (hfin : finalizeActiveMachine n0 = .ok net) :
    net.withinCapacity
    ∧ (∀ k n1, afterCycles k net = some n1 → n1.withinCapacity)
    ∧ (∀ k n1 ni mi n2 n3, afterCycles k net = some n1 →
        stepNodesFrom 0 ni { n1 with stats := { n1.stats with cycles := n1.stats.cycles + 1 } }
          = .ok () n2 →
        stepMachinesFrom ni 0 mi n2 = .ok () n3 → n2.withinCapacity ∧ n3.withinCapacity)
    ∧ (∀ n : Network, n.withinCapacity →
        (∀ ni mi n1, stepMachine ni mi n = .ok () n1 → n1.withinCapacity)
        ∧ (∀ ni, (n.updNode ni drainNode).withinCapacity)
        ∧ (∀ ni n1, stepNode ni n = .ok () n1 → n1.withinCapacity)
        ∧ (∀ a count n1, stepNodesFrom a count n = .ok () n1 → n1.withinCapacity)
        ∧ (mergeAll n).withinCapacity
        ∧ (∀ r n1, cycle n = .ok r n1 → n1.withinCapacity))
    ∧ (Network.initial g).wellAssembled
    ∧ (∀ (n n1 : Network) (raw : String), n.wellAssembled → processLine parse raw n = .ok n1 →
        n1.wellAssembled)
    ∧ (∀ n n1 : Network, n.wellAssembled → finalizeActiveMachine n = .ok n1 →
        n1.wellAssembled ∧ n1.withinCapacity) := by
  have hw0 : n0.wellAssembled := processLines_wa parse lines _ n0 hlines (initial_wa g)
  have hw : net.wellAssembled := (finalize_wa hfin hw0).1
  have hc : net.withinCapacity := withinCapacity_of_wa hw
  refine ⟨hc, ?_, ?_, ?_, initial_wa g, ?_, ?_⟩
  · intro k n1 h
    exact withinCapacity_of_within (afterCycles_within k net n1 h) hc
  · intro k n1 ni mi n2 n3 h h2 h3
    have c1 : n1.withinCapacity := withinCapacity_of_within (afterCycles_within k net n1 h) hc
    have c1' : ({ n1 with stats := { n1.stats with cycles := n1.stats.cycles + 1 } } :
        Network).withinCapacity := c1
    have c2 : n2.withinCapacity :=
      withinCapacity_of_within ((Keeps_stepNodesFrom_wi ni 0).ok _ _ _ h2) c1'
    exact ⟨c2, withinCapacity_of_within
      (Within.of_paced _ _ ((Keeps_stepMachinesFrom_pa ni mi 0).ok _ _ _ h3)) c2⟩
  · intro n hn
    refine ⟨?_, ?_, ?_, ?_, ?_, ?_⟩
    · intro ni mi n1 h
      exact withinCapacity_of_within (Within.of_paced _ _ ((Keeps_stepMachine_pa ni mi).ok _ _ _ h)) hn
    · intro ni
      exact withinCapacity_of_within (Within.wi_drain n ni) hn
    · intro ni n1 h
      exact withinCapacity_of_within ((Keeps_stepNode_wi ni).ok _ _ _ h) hn
    · intro a count n1 h
      exact withinCapacity_of_within ((Keeps_stepNodesFrom_wi count a).ok _ _ _ h) hn
    · exact withinCapacity_of_within (Within.wi_mergeAll n) hn
    · intro r n1 h
      exact withinCapacity_of_within (Keeps_cycle_wi.ok _ _ _ h) hn
  · intro n n1 raw hn h
    exact processLine_wa h hn
  · intro n n1 hn h
    exact ⟨(finalize_wa h hn).1, withinCapacity_of_wa (finalize_wa h hn).1⟩

/-- C36 at a concrete input: the file `.node N 2`, `.home N`, `.start a`, `make`, `drop`,
`halt` assembles to `capNet`, whose node holds one exa within the capacity 2; the bound holds
after every number of cycles. -/
theorem capacity_never_exceeded_witness :
    processLines capParse capLines (Network.initial zeroEngine) = .ok capAssembling
    ∧ finalizeActiveMachine capAssembling = .ok capNet
    ∧ capNet.withinCapacity
    ∧ (∀ k n1, afterCycles k capNet = some n1 → n1.withinCapacity) :=
  have h := capacity_never_exceeded capParse capLines zeroEngine capAssembling capNet rfl rfl
  ⟨rfl, rfl, h.1, h.2.1⟩

/-- No turn of a run finds a flagged exa. `net` is the network that the constructor builds
from the lines of a file (the line loop from the initial state, then the final
`finalizeActiveMachine`). In every cycle of its run, when the turn of slot `mi` of node `ni`
comes (after `k` complete cycles, the step and drain of the nodes before `ni` and the steps of
the slots before `mi` of node `ni`), the slot holds an exa and this exa is not flagged
terminated. The reason is not a test in the machine loop but the order of events: a state
between two cycles is `fresh` (every slot holds an exa that is not flagged), every cycle keeps
it so, and within a cycle a flag is only set on an exa whose turn is over, since the search
loop of KILL leaves every slot from the executor's on as it is. -/
theorem no_turn_finds_flagged_exa (parse : String → Directive) (lines : List String)
    (g : RandomEngine) (n0 net : Network)
    (hlines : processLines parse lines (Network.initial g) = .ok n0)
    (hfin : finalizeActiveMachine n0 = .ok net) :
    net.fresh
    ∧ (∀ k n1, afterCycles k net = some n1 → n1.fresh)
    ∧ (∀ k n1 ni mi n2 nd n3, afterCycles k net = some n1 →
        stepNodesFrom 0 ni { n1 with stats := { n1.stats with cycles := n1.stats.cycles + 1 } }
          = .ok () n2 →
        n2.nodes[ni]? = some nd → mi < nd.machines.length →
        stepMachinesFrom ni 0 mi n2 = .ok () n3 →
          ∃ m, n3.machineAt ni mi = some m ∧ m.terminated = false)
    ∧ (∀ n : Network, n.fresh → ∀ r n1, cycle n = .ok r n1 → n1.fresh)
    ∧ (∀ (self target : Nat) (l ms : List (Option Machine)), target < 2 ^ 64 - 1 →
        killLoop self target 0 0 l = some ms → ∀ i, self ≤ i → ms[i]? = l[i]?) := by
  have hw0 : n0.wellAssembled := processLines_wa parse lines _ n0 hlines (initial_wa g)
  have hf : net.fresh := fresh_of_wa (finalize_wa hfin hw0).1
  refine ⟨hf, fun k n1 h => afterCycles_fresh k net n1 hf h, ?_,
    fun n hn r n1 h => cycle_fresh hn h, ?_⟩
  · intro k n1 ni mi n2 nd n3 h h2 hnd hmi h3
    have hf1 : n1.fresh := afterCycles_fresh k net n1 hf h
    have hf1' : ({ n1 with stats := { n1.stats with cycles := n1.stats.cycles + 1 } } :
        Network).fresh := fresh_same_nodes rfl hf1
    exact turn_unflagged hf1' h2 hnd hmi h3
  · intro self target l ms ht h i hi
    exact killLoop_later self target ht l 0 0 ms h (Or.inl ⟨Nat.zero_le _, rfl⟩) i (by omega)

/-- The network `capNet` assembled from `capLines` is fresh, and so is every state that its
run reaches between two cycles. -/
theorem no_turn_finds_flagged_exa_witness :
    processLines capParse capLines (Network.initial zeroEngine) = .ok capAssembling
    ∧ finalizeActiveMachine capAssembling = .ok capNet
    ∧ capNet.fresh
    ∧ (∀ k n1, afterCycles k capNet = some n1 → n1.fresh) :=
  have h := no_turn_finds_flagged_exa capParse capLines zeroEngine capAssembling capNet rfl rfl
  ⟨rfl, rfl, h.1, h.2.1⟩

end epp
